import Mathlib

/-!
# kaiserqzyue::shared_ptr / weak_ptr  (src/shared_ptr.cpp)

A shallow embedding of the reference-counted handle pair of `src/shared_ptr.cpp`.

* `std::size_t` is a natural number reduced modulo `SIZE_RANGE = 2^64`.
* A `control_block*` is `Option Nat` (`none` is `nullptr`, `some b` is the address `b`);
  `new control_block()` returns the next unused address.
* A `T*` is a natural number, `0` being `nullptr`.
* `delete ptr` and `delete ctrl_blk` are recorded, in program order, in `Memory.trace`;
  the counters of a deleted block are left as they were, so a later access through a
  dangling pointer would still be visible in the model.
-/

namespace kaiserqzyue

/-- Number of values of `std::size_t` on a 64-bit target (`2^64`). -/
def SIZE_RANGE : Nat := 18446744073709551616

/-- Upper bound on the number of simultaneously live handle objects: every handle occupies
`sizeof(shared_ptr<T>) = 16` bytes of a 64-bit address space (`2^60`). -/
def MAX_LIVE : Nat := 1152921504606846976

/-- The `std::size_t` value of `x + 1`. -/
def size_t_inc (x : Nat) : Nat := (x + 1) % SIZE_RANGE

/-- The `std::size_t` value of `x - 1`: it wraps around to `SIZE_MAX` at zero. -/
def size_t_dec (x : Nat) : Nat := if x = 0 then SIZE_RANGE - 1 else x - 1

/-- The `struct control_block`: two atomic counters, value-initialised to zero. -/
structure control_block where
  ref_count_ : Nat := 0
  weak_count_ : Nat := 0
deriving DecidableEq, Repr

namespace control_block

/-- Models `ref_count_.fetch_add(1)`. -/
def increment (cb : control_block) : control_block :=
  { cb with ref_count_ := size_t_inc cb.ref_count_ }

/-- Models `ref_count_.fetch_sub(1)`, returning whether the old value was `1`. -/
def decrement (cb : control_block) : control_block × Bool :=
  let old := cb.ref_count_
  ({ cb with ref_count_ := size_t_dec old }, decide (old = 1))

/-- Models `weak_count_.fetch_add(1)`. -/
def weak_increment (cb : control_block) : control_block :=
  { cb with weak_count_ := size_t_inc cb.weak_count_ }

/-- Models `weak_count_.fetch_sub(1)`, returning whether the old value was `1`. -/
def weak_decrement (cb : control_block) : control_block × Bool :=
  let old := cb.weak_count_
  ({ cb with weak_count_ := size_t_dec old }, decide (old = 1))

/-- Models `ref_count_.load()`. -/
def count (cb : control_block) : Nat := cb.ref_count_

/-- Models `weak_count_.load()`. -/
def weak_count (cb : control_block) : Nat := cb.weak_count_

/-- Models `ref_count_.compare_exchange_strong(expected, desired)`: the new block, the success flag
and the value left in `expected`. -/
def compare_exchange_strong (cb : control_block) (expected desired : Nat) :
    control_block × Bool × Nat :=
  if cb.ref_count_ = expected then ({ cb with ref_count_ := desired }, true, expected)
  else (cb, false, cb.ref_count_)

end control_block

/-- The two kinds of `delete` expression of the file, tagged with the control block of the
handle that executes them. -/
inductive Event where
  | delete_ptr (ptr : Nat) (ctrl_blk : Nat)
  | delete_ctrl_blk (ctrl_blk : Nat)
deriving DecidableEq, Repr

/-- The heap of control blocks (address = position) and the `delete`s executed so far. -/
structure Memory where
  blocks : List control_block := []
  trace : List Event := []
deriving DecidableEq, Repr

namespace Memory

/-- Dereference a `control_block*`. -/
def read (m : Memory) (b : Nat) : control_block := m.blocks.getD b {}

/-- Store through a `control_block*`. -/
def write (m : Memory) (b : Nat) (cb : control_block) : Memory :=
  { m with blocks := m.blocks.set b cb }

/-- The expression `new control_block()`: both counters are zero. -/
def new_control_block (m : Memory) : Memory × Nat :=
  ({ m with blocks := m.blocks ++ [{}] }, m.blocks.length)

/-- Record a `delete`. -/
def emit (m : Memory) (e : Event) : Memory := { m with trace := m.trace ++ [e] }

/-- How many times `delete ptr` has run for the value managed by block `b`. -/
def destroyed (m : Memory) (b : Nat) : Nat :=
  m.trace.countP (fun e => match e with
    | .delete_ptr _ c => decide (c = b)
    | .delete_ctrl_blk _ => false)

/-- How many times `delete ctrl_blk` has run for block `b`. -/
def released (m : Memory) (b : Nat) : Nat :=
  m.trace.countP (fun e => match e with
    | .delete_ptr _ _ => false
    | .delete_ctrl_blk c => decide (c = b))

end Memory

/-- The class `shared_ptr<T>`: members `ctrl_blk` and `ptr`, both null by default. -/
structure shared_ptr where
  ctrl_blk : Option Nat := none
  ptr : Nat := 0
deriving DecidableEq, Repr

/-- The class `weak_ptr<T>`: members `ctrl_blk` and `ptr`, both null by default. -/
structure weak_ptr where
  ctrl_blk : Option Nat := none
  ptr : Nat := 0
deriving DecidableEq, Repr

namespace shared_ptr

/-- The constructor `explicit shared_ptr(T *p)`. -/
def mk_from (m : Memory) (p : Nat) : Memory × shared_ptr :=
  if p = 0 then (m, { ctrl_blk := none, ptr := p })
  else
    let (m1, b) := m.new_control_block
    let m2 := m1.write b (m1.read b).increment
    let m3 := m2.write b (m2.read b).weak_increment
    (m3, { ctrl_blk := some b, ptr := p })

/-- The private `check_and_delete()`. -/
def check_and_delete (m : Memory) (self : shared_ptr) : Memory :=
  match self.ctrl_blk with
  | none => m
  | some b =>
    let (cb1, last) := (m.read b).decrement
    let m1 := m.write b cb1
    if last then
      let m2 := m1.emit (.delete_ptr self.ptr b)
      let (cb2, wlast) := (m2.read b).weak_decrement
      let m3 := m2.write b cb2
      if wlast then m3.emit (.delete_ctrl_blk b) else m3
    else m1

/-- The copy constructor `shared_ptr(const shared_ptr &other)`. -/
def copy (m : Memory) (other : shared_ptr) : Memory × shared_ptr :=
  match other.ctrl_blk with
  | none => (m, { ctrl_blk := none, ptr := other.ptr })
  | some b => (m.write b (m.read b).increment, { ctrl_blk := some b, ptr := other.ptr })

/-- The move constructor `shared_ptr(shared_ptr &&other)`: the new handle and `other`. -/
def move (other : shared_ptr) : shared_ptr × shared_ptr :=
  ({ ctrl_blk := other.ctrl_blk, ptr := other.ptr }, { ctrl_blk := none, ptr := 0 })

/-- The copy assignment `operator=(const shared_ptr &other)` for `this != &other`. -/
def assign (m : Memory) (self other : shared_ptr) : Memory × shared_ptr :=
  let m1 := check_and_delete m self
  match other.ctrl_blk with
  | none => (m1, { ctrl_blk := none, ptr := other.ptr })
  | some b => (m1.write b (m1.read b).increment, { ctrl_blk := some b, ptr := other.ptr })

/-- The move assignment `operator=(shared_ptr &&other)` for `this != &other`:
the memory, `*this` and `other`. -/
def assign_move (m : Memory) (self other : shared_ptr) : Memory × shared_ptr × shared_ptr :=
  let m1 := check_and_delete m self
  (m1, { ctrl_blk := other.ctrl_blk, ptr := other.ptr }, { ctrl_blk := none, ptr := 0 })

/-- The member `get()`. -/
def get (self : shared_ptr) : Nat := self.ptr

/-- The member `reset(T *p = nullptr)`. -/
def reset (m : Memory) (self : shared_ptr) (p : Nat) : Memory × shared_ptr :=
  let m0 := check_and_delete m self
  if p = 0 then (m0, { ctrl_blk := none, ptr := 0 })
  else
    let (m1, b) := m0.new_control_block
    let m2 := m1.write b (m1.read b).increment
    let m3 := m2.write b (m2.read b).weak_increment
    (m3, { ctrl_blk := some b, ptr := p })

/-- The member `use_count()`. -/
def use_count (m : Memory) (self : shared_ptr) : Nat :=
  match self.ctrl_blk with
  | none => 0
  | some b => (m.read b).count

/-- The member `weak_count()`. -/
def weak_count (m : Memory) (self : shared_ptr) : Nat :=
  match self.ctrl_blk with
  | none => 0
  | some b => (m.read b).weak_count

/-- The conversion `explicit operator bool()`. -/
def to_bool (self : shared_ptr) : Bool := decide (self.ptr ≠ 0)

/-- The private constructor `shared_ptr(const weak_ptr<T> &wp)`: no counter is touched. -/
def from_weak (wp : weak_ptr) : shared_ptr := { ctrl_blk := wp.ctrl_blk, ptr := wp.ptr }

end shared_ptr

namespace weak_ptr

/-- The constructor `weak_ptr(const shared_ptr<T> &sp)`. -/
def from_shared (m : Memory) (sp : shared_ptr) : Memory × weak_ptr :=
  match sp.ctrl_blk with
  | none => (m, { ctrl_blk := none, ptr := sp.ptr })
  | some b => (m.write b (m.read b).weak_increment, { ctrl_blk := some b, ptr := sp.ptr })

/-- The copy constructor `weak_ptr(const weak_ptr &other)`. -/
def copy (m : Memory) (other : weak_ptr) : Memory × weak_ptr :=
  match other.ctrl_blk with
  | none => (m, { ctrl_blk := none, ptr := other.ptr })
  | some b => (m.write b (m.read b).weak_increment, { ctrl_blk := some b, ptr := other.ptr })

/-- The move constructor `weak_ptr(weak_ptr &&other)`: the new handle and `other`. -/
def move (other : weak_ptr) : weak_ptr × weak_ptr :=
  ({ ctrl_blk := other.ctrl_blk, ptr := other.ptr }, { ctrl_blk := none, ptr := 0 })

/-- The private `check_and_delete()` of `weak_ptr`. -/
def check_and_delete (m : Memory) (self : weak_ptr) : Memory :=
  match self.ctrl_blk with
  | none => m
  | some b =>
    if (m.read b).weak_count = 1 then m.emit (.delete_ctrl_blk b)
    else
      let (cb1, last) := (m.read b).weak_decrement
      let m1 := m.write b cb1
      if last then m1.emit (.delete_ctrl_blk b) else m1

/-- The copy assignment `operator=(const weak_ptr &other)` for `this != &other`. -/
def assign (m : Memory) (self other : weak_ptr) : Memory × weak_ptr :=
  let m1 := check_and_delete m self
  match other.ctrl_blk with
  | none => (m1, { ctrl_blk := none, ptr := other.ptr })
  | some b => (m1.write b (m1.read b).weak_increment, { ctrl_blk := some b, ptr := other.ptr })

/-- The move assignment `operator=(weak_ptr &&other)` for `this != &other`:
the memory, `*this` and `other`. -/
def assign_move (m : Memory) (self other : weak_ptr) : Memory × weak_ptr × weak_ptr :=
  let m1 := check_and_delete m self
  (m1, { ctrl_blk := other.ctrl_blk, ptr := other.ptr }, { ctrl_blk := none, ptr := 0 })

/-- The member `use_count()`. -/
def use_count (m : Memory) (self : weak_ptr) : Nat :=
  match self.ctrl_blk with
  | none => 0
  | some b => (m.read b).count

/-- The member `weak_count()`. -/
def weak_count (m : Memory) (self : weak_ptr) : Nat :=
  match self.ctrl_blk with
  | none => 0
  | some b => (m.read b).weak_count

/-- The member `expired()`. -/
def expired (m : Memory) (self : weak_ptr) : Bool := decide (use_count m self = 0)

/-- What a call of `lock()` did: the memory it leaves, the handle it returns, the successful
compare-exchange it performed if any (the value the strong counter held right before it,
the value the counter holds right after it), and the last value it held in `old`. -/
structure LockResult where
  mem : Memory
  ret : shared_ptr
  cas : Option (Nat × Nat)
  old : Nat
deriving DecidableEq, Repr

/-- Other threads store `v` into the strong counter of block `b`. -/
def interfere (m : Memory) (b : Nat) (v : Nat) : Memory :=
  m.write b { m.read b with ref_count_ := v }

/-- The memory the next compare-exchange of `lock()` runs against. The head of `env`, when
there is one, is the value other threads have given the strong counter of block `b` since
the previous access of `lock()`; an empty `env` means that the counter is not modified
concurrently any more. -/
def before_cas (m : Memory) (b : Nat) : List Nat → Memory
  | [] => m
  | v :: _ => interfere m b v

/-- The `do ... while` loop of `lock()`, run against the interference `env`; `fuel` bounds
the number of iterations. -/
def lock_loop (self : weak_ptr) : Nat → Nat → Memory → List Nat → Option LockResult
  | 0, _, _, _ => none
  | fuel + 1, old, m, env =>
    if old = 0 then some { mem := m, ret := {}, cas := none, old := old }
    else
      match self.ctrl_blk with
      | none => some { mem := m, ret := shared_ptr.from_weak self, cas := none, old := old }
      | some b =>
        let m1 := before_cas m b env
        let (cb, ok, old1) :=
          (m1.read b).compare_exchange_strong old (size_t_inc old)
        if ok then
          some { mem := m1.write b cb, ret := shared_ptr.from_weak self,
                 cas := some ((m1.read b).ref_count_, cb.ref_count_), old := old1 }
        else lock_loop self fuel old1 m1 env.tail

/-- The member `lock()`, run against the interference `env`. -/
def lock (m : Memory) (self : weak_ptr) (env : List Nat) : Option LockResult :=
  lock_loop self (env.length + 2) (use_count m self) m env

end weak_ptr

/-- A sequential program state: the memory, the strong handle variables and the weak handle
variables declared so far (`none` marks a variable whose lifetime has ended). -/
structure State where
  mem : Memory := {}
  shared : List (Option shared_ptr) := []
  weak : List (Option weak_ptr) := []
deriving DecidableEq, Repr

/-- Does the strong handle variable hold a non-empty handle on block `b`? -/
def sp_on (b : Nat) : Option shared_ptr → Bool
  | some h => decide (h.ctrl_blk = some b)
  | none => false

/-- Does the weak handle variable hold a non-empty handle on block `b`? -/
def wp_on (b : Nat) : Option weak_ptr → Bool
  | some h => decide (h.ctrl_blk = some b)
  | none => false

namespace State

/-- Number of live handle objects. -/
def live (s : State) : Nat := s.shared.countP Option.isSome + s.weak.countP Option.isSome

/-- Number of live non-empty strong handles that reference block `b`. -/
def strong_refs (s : State) (b : Nat) : Nat := s.shared.countP (sp_on b)

/-- Number of live non-empty weak handles that reference block `b`. -/
def weak_refs (s : State) (b : Nat) : Nat := s.weak.countP (wp_on b)

/-- The strong handle variable `i`, if it is live. -/
def sp (s : State) (i : Nat) : Option shared_ptr := s.shared.getD i none

/-- The weak handle variable `i`, if it is live. -/
def wp (s : State) (i : Nat) : Option weak_ptr := s.weak.getD i none

end State

/-- The statements of a sequential client program. Constructors declare a new variable (the
next index of its kind); the other statements name existing variables. -/
inductive Op where
  | sp_default
  | sp_new (p : Nat)
  | sp_copy (src : Nat)
  | sp_move (src : Nat)
  | sp_assign (dst src : Nat)
  | sp_assign_move (dst src : Nat)
  | sp_reset (dst : Nat) (p : Nat)
  | sp_drop (dst : Nat)
  | wp_default
  | wp_from_shared (src : Nat)
  | wp_copy (src : Nat)
  | wp_move (src : Nat)
  | wp_assign (dst src : Nat)
  | wp_assign_move (dst src : Nat)
  | wp_drop (dst : Nat)
  | wp_lock (src : Nat)
deriving DecidableEq, Repr

/-- Execute one statement. The result is `none` when the statement names a variable that is
not live, or declares a handle when `MAX_LIVE` handles are live already. -/
def step (s : State) : Op → Option State
  | .sp_default =>
    if s.live < MAX_LIVE then some { s with shared := s.shared ++ [some {}] } else none
  | .sp_new p =>
    if s.live < MAX_LIVE then
      let (m, h) := shared_ptr.mk_from s.mem p
      some { s with mem := m, shared := s.shared ++ [some h] }
    else none
  | .sp_copy src =>
    match s.sp src with
    | some o =>
      if s.live < MAX_LIVE then
        let (m, h) := shared_ptr.copy s.mem o
        some { s with mem := m, shared := s.shared ++ [some h] }
      else none
    | none => none
  | .sp_move src =>
    match s.sp src with
    | some o =>
      if s.live < MAX_LIVE then
        let (h, o1) := shared_ptr.move o
        some { s with shared := s.shared.set src (some o1) ++ [some h] }
      else none
    | none => none
  | .sp_assign dst src =>
    match s.sp dst, s.sp src with
    | some t, some o =>
      if dst = src then some s
      else
        let (m, t1) := shared_ptr.assign s.mem t o
        some { s with mem := m, shared := s.shared.set dst (some t1) }
    | _, _ => none
  | .sp_assign_move dst src =>
    match s.sp dst, s.sp src with
    | some t, some o =>
      if dst = src then some s
      else
        let (m, t1, o1) := shared_ptr.assign_move s.mem t o
        some { s with mem := m, shared := (s.shared.set dst (some t1)).set src (some o1) }
    | _, _ => none
  | .sp_reset dst p =>
    match s.sp dst with
    | some t =>
      let (m, t1) := shared_ptr.reset s.mem t p
      some { s with mem := m, shared := s.shared.set dst (some t1) }
    | none => none
  | .sp_drop dst =>
    match s.sp dst with
    | some t =>
      some { s with mem := shared_ptr.check_and_delete s.mem t, shared := s.shared.set dst none }
    | none => none
  | .wp_default =>
    if s.live < MAX_LIVE then some { s with weak := s.weak ++ [some {}] } else none
  | .wp_from_shared src =>
    match s.sp src with
    | some o =>
      if s.live < MAX_LIVE then
        let (m, w) := weak_ptr.from_shared s.mem o
        some { s with mem := m, weak := s.weak ++ [some w] }
      else none
    | none => none
  | .wp_copy src =>
    match s.wp src with
    | some o =>
      if s.live < MAX_LIVE then
        let (m, w) := weak_ptr.copy s.mem o
        some { s with mem := m, weak := s.weak ++ [some w] }
      else none
    | none => none
  | .wp_move src =>
    match s.wp src with
    | some o =>
      if s.live < MAX_LIVE then
        let (w, o1) := weak_ptr.move o
        some { s with weak := s.weak.set src (some o1) ++ [some w] }
      else none
    | none => none
  | .wp_assign dst src =>
    match s.wp dst, s.wp src with
    | some t, some o =>
      if dst = src then some s
      else
        let (m, t1) := weak_ptr.assign s.mem t o
        some { s with mem := m, weak := s.weak.set dst (some t1) }
    | _, _ => none
  | .wp_assign_move dst src =>
    match s.wp dst, s.wp src with
    | some t, some o =>
      if dst = src then some s
      else
        let (m, t1, o1) := weak_ptr.assign_move s.mem t o
        some { s with mem := m, weak := (s.weak.set dst (some t1)).set src (some o1) }
    | _, _ => none
  | .wp_drop dst =>
    match s.wp dst with
    | some t =>
      some { s with mem := weak_ptr.check_and_delete s.mem t, weak := s.weak.set dst none }
    | none => none
  | .wp_lock src =>
    match s.wp src with
    | some w =>
      if s.live < MAX_LIVE then
        match weak_ptr.lock s.mem w [] with
        | some r => some { s with mem := r.mem, shared := s.shared ++ [some r.ret] }
        | none => none
      else none
    | none => none

/-- Execute a list of statements in order. -/
def run : State → List Op → Option State
  | s, [] => some s
  | s, op :: ops => (step s op).bind (fun s1 => run s1 ops)

/-- The state before the first statement. -/
def State.start : State := {}

/-- The counter protocol of one control block, in terms of the number `S` of strong handles
and `W` of weak handles on it, the number `D` of `delete ptr` and `R` of `delete ctrl_blk`
executed for it. -/
def BlockInv (cb : control_block) (S W D R : Nat) : Prop :=
  (0 < S → cb.ref_count_ = S ∧ cb.weak_count_ = W + 1 ∧ D = 0 ∧ R = 0) ∧
  (S = 0 → D = 1 ∧ (0 < W → cb.ref_count_ = 0 ∧ cb.weak_count_ = W ∧ R = 0) ∧ (W = 0 → R = 1))

/-- Every `delete ctrl_blk` of the trace comes after a `delete ptr` for the same block. -/
def TraceOrdered (t : List Event) : Prop :=
  ∀ pre post b, t = pre ++ Event.delete_ctrl_blk b :: post → ∃ p, Event.delete_ptr p b ∈ pre

/-- The invariant of sequential runs. -/
structure Inv (s : State) : Prop where
  sp_wf : ∀ h, some h ∈ s.shared → ∀ b, h.ctrl_blk = some b →
    b < s.mem.blocks.length ∧ h.ptr ≠ 0
  wp_wf : ∀ w, some w ∈ s.weak → ∀ b, w.ctrl_blk = some b →
    b < s.mem.blocks.length ∧ w.ptr ≠ 0
  live_le : s.live ≤ MAX_LIVE
  blk : ∀ b, b < s.mem.blocks.length →
    BlockInv (s.mem.read b) (s.strong_refs b) (s.weak_refs b)
      (s.mem.destroyed b) (s.mem.released b)
  fresh : ∀ b, s.mem.blocks.length ≤ b → s.mem.destroyed b = 0 ∧ s.mem.released b = 0
  order : TraceOrdered s.mem.trace

/-- The statements that run `shared_ptr::check_and_delete` on an existing strong handle:
the destructor, `reset` and the two assignments. -/
def Op.releases_strong : Op → Bool
  | .sp_assign _ _ => true
  | .sp_assign_move _ _ => true
  | .sp_reset _ _ => true
  | .sp_drop _ => true
  | _ => false

/-- Scenario A: a strong handle over a value and a copy of it. -/
def scenario_A : List Op := [.sp_new 5, .sp_copy 0]

/-- The state Scenario A ends in. -/
def scenario_A_state : State :=
  { mem := { blocks := [{ ref_count_ := 2, weak_count_ := 1 }], trace := [] },
    shared := [some { ctrl_blk := some 0, ptr := 5 }, some { ctrl_blk := some 0, ptr := 5 }],
    weak := [] }

/-- Scenario B up to the drop of the strong handle: `s`, then `w` made from `s`, then `s` is
destroyed. -/
def scenario_B : List Op := [.sp_new 5, .wp_from_shared 0, .sp_drop 0]

/-- The state Scenario B is in after the strong handle is dropped. -/
def scenario_B_state : State :=
  { mem := { blocks := [{ ref_count_ := 0, weak_count_ := 1 }],
             trace := [.delete_ptr 5 0] },
    shared := [none],
    weak := [some { ctrl_blk := some 0, ptr := 5 }] }

/-- The state after Scenario B is completed by the drop of `w`. -/
def scenario_B_final : State :=
  { mem := { blocks := [{ ref_count_ := 0, weak_count_ := 1 }],
             trace := [.delete_ptr 5 0, .delete_ctrl_blk 0] },
    shared := [none],
    weak := [none] }

/-- Scenario D: after Scenario B, `lock()` is called on the expired weak handle. -/
def scenario_D : List Op := scenario_B ++ [.wp_lock 0]

/-- The state Scenario D ends in: the locked handle is empty. -/
def scenario_D_state : State :=
  { mem := { blocks := [{ ref_count_ := 0, weak_count_ := 1 }],
             trace := [.delete_ptr 5 0] },
    shared := [none, some {}],
    weak := [some { ctrl_blk := some 0, ptr := 5 }] }

/-- A strong handle and a weak handle made from it, both alive. -/
def scenario_live : List Op := [.sp_new 5, .wp_from_shared 0]

/-- The state `scenario_live` ends in. -/
def scenario_live_state : State :=
  { mem := { blocks := [{ ref_count_ := 1, weak_count_ := 2 }], trace := [] },
    shared := [some { ctrl_blk := some 0, ptr := 5 }],
    weak := [some { ctrl_blk := some 0, ptr := 5 }] }

/-- Whether the statement assigns to the weak variable `i` (`w = other` or
`w = std::move(other)`). -/
def Op.assigns_wp (i : Nat) : Op → Bool
  | .wp_assign dst _ => decide (dst = i)
  | .wp_assign_move dst _ => decide (dst = i)
  | _ => false

/-- The weak variable `i` is declared and holds `w`, or is empty after it was moved from,
or has been destroyed. -/
def KeptOrEmptied (i : Nat) (w : weak_ptr) (s : State) : Prop :=
  s.weak[i]? = some (some w) ∨ s.weak[i]? = some (some { ctrl_blk := none, ptr := 0 })
    ∨ s.weak[i]? = some none

/-- Scenario B, then a second group `s2`, `w2` and the assignment `w = w2`. -/
def scenario_reassign : List Op := [.sp_new 7, .wp_from_shared 1, .wp_assign 0 1]

/-- The state `scenario_reassign` ends in when it starts from `scenario_B_state`: the
variable `w` now holds a handle on block 1, whose strong handle is alive. -/
def scenario_reassign_state : State :=
  { mem := { blocks := [{ ref_count_ := 0, weak_count_ := 1 },
                        { ref_count_ := 1, weak_count_ := 3 }],
             trace := [.delete_ptr 5 0, .delete_ctrl_blk 0] },
    shared := [none, some { ctrl_blk := some 1, ptr := 7 }],
    weak := [some { ctrl_blk := some 1, ptr := 7 }, some { ctrl_blk := some 1, ptr := 7 }] }

/-! ## Interleaving model of `lock()` racing with the release of strong handles

One control block, one weak handle `wp` that stays alive, the thread that owns the last
strong handle and any number of threads that call `wp.lock()` and later destroy the handle
they obtained. A step is one atomic access of one thread (or one `delete`). -/

/-- Where a thread stands. -/
inductive Pc where
  /-- `lock()`: about to run `auto old = use_count()`. -/
  | start
  /-- `lock()`: inside the loop with the given `old`, about to test it and to run
  `compare_exchange_strong(old, old + 1)`. -/
  | loaded (old : Nat)
  /-- `lock()` has returned `shared_ptr<T>()`. -/
  | returned_empty
  /-- The thread owns a live non-empty strong handle: the original one, or the one `lock()`
  returned. Its next step is `decrement()` in `check_and_delete()`. -/
  | holding
  /-- `check_and_delete()`: `decrement()` returned true, about to run `delete ptr`. -/
  | deleting
  /-- `check_and_delete()`: the value is deleted, about to run `weak_decrement()`. -/
  | releasing
  /-- `check_and_delete()`: `weak_decrement()` returned true, about to run `delete ctrl_blk`. -/
  | freeing
  /-- The handle of the thread is gone. -/
  | done
deriving DecidableEq, Repr

/-- The thread owns a live strong handle. -/
def Pc.is_holding : Pc → Bool
  | .holding => true
  | _ => false

/-- The thread is about to run `delete ptr`. -/
def Pc.is_deleting : Pc → Bool
  | .deleting => true
  | _ => false

/-- The thread is about to run `weak_decrement()`. -/
def Pc.is_releasing : Pc → Bool
  | .releasing => true
  | _ => false

/-- The thread is about to run `delete ctrl_blk`. -/
def Pc.is_freeing : Pc → Bool
  | .freeing => true
  | _ => false

/-- The shared state of the race: the control block, how often `delete ptr` and
`delete ctrl_blk` have run, and the threads. -/
structure Race where
  blk : control_block
  destroyed : Nat
  freed : Nat
  threads : List Pc
deriving DecidableEq, Repr

/-- Thread 0 owns the only strong handle, `wp` was made from it (`weak_count_ == 2`), and
threads `1..n` are about to call `wp.lock()`. -/
def race_init (n : Nat) : Race :=
  { blk := { ref_count_ := 1, weak_count_ := 2 }, destroyed := 0, freed := 0,
    threads := Pc.holding :: List.replicate n Pc.start }

/-- Thread `t` performs its next atomic step; nothing happens when it has none. -/
def race_step (s : Race) (t : Nat) : Race :=
  match s.threads.getD t Pc.done with
  | .start =>
    { s with threads := s.threads.set t (.loaded s.blk.count) }
  | .loaded old =>
    if old = 0 then { s with threads := s.threads.set t .returned_empty }
    else
      let (cb, ok, old1) := s.blk.compare_exchange_strong old (size_t_inc old)
      if ok then { s with blk := cb, threads := s.threads.set t .holding }
      else { s with blk := cb, threads := s.threads.set t (.loaded old1) }
  | .holding =>
    let (cb, last) := s.blk.decrement
    { s with blk := cb, threads := s.threads.set t (if last then .deleting else .done) }
  | .deleting =>
    { s with destroyed := s.destroyed + 1, threads := s.threads.set t .releasing }
  | .releasing =>
    let (cb, last) := s.blk.weak_decrement
    { s with blk := cb, threads := s.threads.set t (if last then .freeing else .done) }
  | .freeing =>
    { s with freed := s.freed + 1, threads := s.threads.set t .done }
  | .returned_empty => s
  | .done => s

/-- Run the threads in the order given by the schedule. -/
def race_run (s : Race) (sched : List Nat) : Race := sched.foldl race_step s

/-- The invariant of the race. -/
structure RaceInv (s : Race) : Prop where
  strong_eq : s.blk.ref_count_ = s.threads.countP Pc.is_holding
  once : s.destroyed + s.threads.countP Pc.is_deleting ≤ 1
  dead : 0 < s.destroyed + s.threads.countP Pc.is_deleting → s.blk.ref_count_ = 0
  weak_eq : s.blk.weak_count_ + s.destroyed = 2 + s.threads.countP Pc.is_releasing
  rel_le : s.threads.countP Pc.is_releasing ≤ s.destroyed
  no_free : s.threads.countP Pc.is_freeing = 0
  not_freed : s.freed = 0
  bound : s.threads.length < MAX_LIVE

end kaiserqzyue

/-! ## lru.cpp: the least-recently-used cache

`std::list` nodes are modelled with an address `id`, so that the iterators kept in
`cache_map` stay meaningful across `splice`; an iterator that designates no node of the
list makes the operation undefined (`none`).  `put` evaluates `std::forward<T>(key)`
twice, first for the list node and then for `cache_map.emplace`: when the argument is an
rvalue of class type (a `std::string` temporary), the node's constructor moves from it and
the second use reads the moved-from object.  The model of `put` therefore takes the key
twice, as it is at each of the two uses. -/

namespace Lru

/-- A node of `std::list<std::pair<K, V>>`; `id` is its address, `first` the key and
`second` the value. -/
structure Node (K V : Type) where
  id : Nat
  first : K
  second : V
deriving DecidableEq, Repr

/-- The class `lru<K, V>`: `capacity`, the recency list `cache_list` (front first), the
lookup table `cache_map` from keys to list iterators, and the next fresh node address. -/
structure lru (K V : Type) where
  capacity : Nat
  cache_list : List (Node K V)
  cache_map : List (K × Nat)
  next_id : Nat
deriving DecidableEq, Repr

/-- Models `cache_map.find(key)`: the iterator stored for `key`, `none` for `end()`. -/
def find {K : Type} [DecidableEq K] (m : List (K × Nat)) (key : K) : Option Nat :=
  (m.find? (fun e => decide (e.1 = key))).map (fun e => e.2)

/-- Models `cache_map.erase(key)`. -/
def erase {K : Type} [DecidableEq K] (m : List (K × Nat)) (key : K) : List (K × Nat) :=
  m.filter (fun e => decide (e.1 ≠ key))

/-- Models `cache_map.emplace(key, it)`: inserts only when `key` is absent. -/
def emplace {K : Type} [DecidableEq K] (m : List (K × Nat)) (key : K) (it : Nat) :
    List (K × Nat) :=
  match find m key with
  | some _ => m
  | none => (key, it) :: m

/-- Dereference of a list iterator: the node at address `it`. -/
def deref {K V : Type} (l : List (Node K V)) (it : Nat) : Option (Node K V) :=
  l.find? (fun n => decide (n.id = it))

/-- Models `cache_list.splice(cache_list.begin(), cache_list, it)`: the node at `it` is unlinked
and relinked at the front; the other nodes keep their order. -/
def splice_front {K V : Type} (l : List (Node K V)) (it : Nat) : Option (List (Node K V)) :=
  match deref l it with
  | none => none
  | some n => some (n :: l.filter (fun x => decide (x.id ≠ it)))

/-- Models `it->second = value` on the node at address `it`. -/
def assign_second {K V : Type} (l : List (Node K V)) (it : Nat) (value : V) :
    List (Node K V) :=
  l.map (fun n => if n.id = it then { n with second := value } else n)

/-- Models `lru(size_t cap)`. -/
def lru.new {K V : Type} (cap : Nat) : lru K V := ⟨cap, [], [], 0⟩

/-- Models `lru::get(key, default_value)`. -/
def lru.get {K V : Type} [DecidableEq K] (s : lru K V) (key : K) (default_value : V) :
    Option (V × lru K V) :=
  match find s.cache_map key with
  | none => some (default_value, s)
  | some it =>
    match splice_front s.cache_list it with
    | none => none
    | some l =>
      match deref l it with
      | none => none
      | some n => some (n.second, { s with cache_list := l })

/-- The eviction block of `put`: when `cache_list.size() == capacity`, the key of
`cache_list.back()` is erased from the map and the back node is popped. -/
def lru.evict {K V : Type} [DecidableEq K] (s : lru K V) : Option (lru K V) :=
  if s.cache_list.length = s.capacity then
    match s.cache_list.getLast? with
    | none => none
    | some back =>
      some { s with cache_map := erase s.cache_map back.first,
                    cache_list := s.cache_list.dropLast }
  else some s

/-- Models `lru::put(key, value)`.  `key` is the argument as `put` receives it: it is
looked up through `key_ref` and it initialises the new list node.  `key2` is what the
argument holds afterwards, when `std::forward<T>(key)` is evaluated again for
`cache_map.emplace`: `key` itself for an lvalue, a string literal or a trivially copyable
key, the moved-from state for an rvalue of class type. -/
def lru.put {K V : Type} [DecidableEq K] (s : lru K V) (key key2 : K) (value : V) :
    Option (lru K V) :=
  if s.capacity = 0 then some s
  else
    match find s.cache_map key with
    | none =>
      match s.evict with
      | none => none
      | some s1 =>
        some { s1 with cache_list := ⟨s1.next_id, key, value⟩ :: s1.cache_list,
                       cache_map := emplace s1.cache_map key2 s1.next_id,
                       next_id := s1.next_id + 1 }
    | some it =>
      match splice_front s.cache_list it with
      | none => none
      | some l =>
        match deref l it with
        | none => none
        | some _ => some { s with cache_list := assign_second l it value }

/-- A call made by a client of the cache.  `put key value` passes a key that `put` does
not move from (an lvalue, a string literal, a trivially copyable key such as an `int`);
`put_rvalue key moved value` passes an rvalue of class type that holds `key` and that the
constructor of the list node leaves in the state `moved` (the empty string for the
`std::string` of the usual standard libraries). -/
inductive Op (K V : Type) where
  | get (key : K) (default_value : V)
  | put (key : K) (value : V)
  | put_rvalue (key moved : K) (value : V)
deriving DecidableEq, Repr

/-- The call leaves its key argument as it was. -/
def Op.keeps_key {K V : Type} [DecidableEq K] : Op K V → Bool
  | Op.get _ _ => true
  | Op.put _ _ => true
  | Op.put_rvalue key moved _ => decide (moved = key)

/-- What a call did, as the client sees it: a `put`, a `get` that found its key, or a
`get` that did not. -/
inductive Event (K V : Type) where
  | put (key : K) (value : V)
  | hit (key : K)
  | miss (key : K)
deriving DecidableEq, Repr

/-- An execution: the cache, the values returned by the `get` calls and the events, both
most recent first. -/
structure Run (K V : Type) where
  cache : lru K V
  outputs : List V
  events : List (Event K V)
deriving DecidableEq, Repr

/-- The execution of a fresh cache. -/
def Run.start {K V : Type} (cap : Nat) : Run K V := ⟨lru.new cap, [], []⟩

/-- One call. -/
def Run.call {K V : Type} [DecidableEq K] (r : Run K V) : Op K V → Option (Run K V)
  | Op.get key default_value =>
    match r.cache.get key default_value with
    | none => none
    | some (v, s) =>
      some ⟨s, v :: r.outputs,
        (if (find r.cache.cache_map key).isSome then Event.hit key else Event.miss key)
          :: r.events⟩
  | Op.put key value =>
    match r.cache.put key key value with
    | none => none
    | some s => some ⟨s, r.outputs, Event.put key value :: r.events⟩
  | Op.put_rvalue key moved value =>
    match r.cache.put key moved value with
    | none => none
    | some s => some ⟨s, r.outputs, Event.put key value :: r.events⟩

/-- A sequence of calls. -/
def Run.calls {K V : Type} [DecidableEq K] (r : Run K V) : List (Op K V) → Option (Run K V)
  | [] => some r
  | op :: ops =>
    match r.call op with
    | none => none
    | some r1 => r1.calls ops

/-- The keys held by the recency list, most recently used first. -/
def lru.keys {K V : Type} (s : lru K V) : List K := s.cache_list.map (fun n => n.first)

/-- The value cached for `key`. -/
def lru.value {K V : Type} [DecidableEq K] (s : lru K V) (key : K) : Option V :=
  (s.cache_list.find? (fun n => decide (n.first = key))).map (fun n => n.second)

/-- The time of the most recent access to `key` (a put of it, or a get that found it) in
a history of events, counted from 1; `0` when there is none. -/
def last_access {K V : Type} [DecidableEq K] : List (Event K V) → K → Nat
  | [], _ => 0
  | Event.put k _ :: es, key => if k = key then es.length + 1 else last_access es key
  | Event.hit k :: es, key => if k = key then es.length + 1 else last_access es key
  | Event.miss _ :: es, key => last_access es key

/-- The value given by the most recent put of `key` in a history of events. -/
def last_put {K V : Type} [DecidableEq K] : List (Event K V) → K → Option V
  | [], _ => none
  | Event.put k v :: es, key => if k = key then some v else last_put es key
  | Event.hit _ :: es, key => last_put es key
  | Event.miss _ :: es, key => last_put es key

/-- The invariant of the cache along an execution whose events are `es`: the map holds
exactly the (key, iterator) pairs of the nodes, keys and addresses are distinct, the size
is bounded, the list is ordered by last access and holds the last value put. -/
structure Inv {K V : Type} [DecidableEq K] (s : lru K V) (es : List (Event K V)) : Prop where
  map_iff : ∀ k it, (k, it) ∈ s.cache_map ↔ ∃ n ∈ s.cache_list, n.id = it ∧ n.first = k
  keys_nodup : (s.cache_list.map (fun n => n.first)).Nodup
  ids_nodup : (s.cache_list.map (fun n => n.id)).Nodup
  ids_lt : ∀ n ∈ s.cache_list, n.id < s.next_id
  size_le : s.cache_list.length ≤ s.capacity
  recency : s.cache_list.Pairwise
    (fun a b => last_access es b.first < last_access es a.first)
  accessed : ∀ n ∈ s.cache_list, 0 < last_access es n.first
  value_eq : ∀ n ∈ s.cache_list, last_put es n.first = some n.second

/-- The values that the `get` calls of `ops` return when none finds its key, most recent
first. -/
def defaults {K V : Type} : List (Op K V) → List V
  | [] => []
  | Op.get _ default_value :: ops => defaults ops ++ [default_value]
  | Op.put _ _ :: ops => defaults ops
  | Op.put_rvalue _ _ _ :: ops => defaults ops

/-- The block of `main` on a cache of capacity 3. -/
def main_ops_3 : List (Op Nat String) :=
  [Op.put 1 "A", Op.put 2 "B", Op.put 3 "C", Op.get 1 "", Op.get 3 "", Op.put 4 "D",
   Op.get 2 "", Op.get 1 "", Op.get 3 "", Op.get 4 ""]

/-- The calls of that block up to the moment the cache is full and `put(4, "D")` comes. -/
def main_ops_3_full : List (Op Nat String) :=
  [Op.put 1 "A", Op.put 2 "B", Op.put 3 "C", Op.get 1 "", Op.get 3 ""]

end Lru

/-! ## quick_sort.cpp: three-way partition and randomized quick sort

The vector is a list, an iterator is an index into it.  A read or write through an
iterator outside the vector, `std::prev` of index 0, the failing `assert` of `partition`
and a loop that runs out of fuel make the call undefined (`none`). -/

namespace QuickSort

/-- Models `std::swap(*i, *j)` on the vector `a`. -/
def swap {α : Type} (a : List α) (i j : Nat) : Option (List α) :=
  match a[i]?, a[j]? with
  | some x, some y => some ((a.set i y).set j x)
  | _, _ => none

/-- The `while (iter != right)` loop of `partition`, at most `fuel` tests of its
condition.  The last component is a record kept beside the program: the values of
`*std::prev(iter)` that the iterations compared with, most recent first. -/
def partition_loop {α : Type} (comp : α → α → Bool) :
    Nat → List α → Nat → Nat → Nat → List α → Option (List α × Nat × Nat × List α)
  | 0, _, _, _, _, _ => none
  | fuel + 1, a, left, iter, right, prevs =>
    if iter = right then some (a, left, right, prevs)
    else if iter = 0 then none
    else
      match a[iter]?, a[iter - 1]? with
      | some x, some y =>
        let res : Int := if comp x y then -1 else (if comp y x then 1 else 0)
        if res > 0 then
          if right = 0 then none
          else
            match swap a (right - 1) iter with
            | none => none
            | some a1 => partition_loop comp fuel a1 left iter (right - 1) (y :: prevs)
        else if res = 0 then partition_loop comp fuel a left (iter + 1) right (y :: prevs)
        else
          match swap a left iter with
          | none => none
          | some a1 => partition_loop comp fuel a1 (left + 1) (iter + 1) right (y :: prevs)
      | _, _ => none

/-- Models `partition(begin, end, pivot, comp)`: returns the vector, the pair `(left, right)`
and the record of the loop. -/
def partition {α : Type} (comp : α → α → Bool) (fuel : Nat) (a : List α)
    (begin_ end_ pivot : Nat) : Option (List α × Nat × Nat × List α) :=
  if begin_ = end_ then none
  else
    match swap a begin_ pivot with
    | none => none
    | some a1 => partition_loop comp fuel a1 begin_ (begin_ + 1) end_ []

/-- Models `quick_sort(begin, end, comp)`.  `gen k` is the `k`-th draw of the generator and
`dis(gen)` maps it into `[0, distance - 1]`; the result is the vector and the number of
draws made so far.  `fuel` bounds the depth of the recursion and the loop of `partition`. -/
def quick_sort {α : Type} (comp : α → α → Bool) (gen : Nat → Nat) :
    Nat → List α → Nat → Nat → Nat → Option (List α × Nat)
  | 0, _, _, _, _ => none
  | fuel + 1, a, k, begin_, end_ =>
    if begin_ = end_ ∨ begin_ + 1 = end_ then some (a, k)
    else if end_ < begin_ then none
    else
      match partition comp fuel a begin_ end_ (begin_ + gen k % (end_ - begin_)) with
      | none => none
      | some (a1, left, right, _) =>
        match quick_sort comp gen fuel a1 (k + 1) begin_ left with
        | none => none
        | some (a2, k2) => quick_sort comp gen fuel a2 k2 right end_

/-- Models `std::is_sorted(first, last, comp)`: no element is less than its predecessor. -/
def is_sorted {α : Type} (comp : α → α → Bool) : List α → Bool
  | [] => true
  | [_] => true
  | x :: y :: l => !comp y x && is_sorted comp (y :: l)

/-- Strict weak ordering, the requirement of the standard library on `comp`:
irreflexive, transitive, and incomparability is transitive. -/
structure StrictWeakOrder {α : Type} (comp : α → α → Bool) : Prop where
  irrefl : ∀ x, comp x x = false
  trans : ∀ x y z, comp x y = true → comp y z = true → comp x z = true
  incomp_trans : ∀ x y z, comp x y = false → comp y x = false → comp y z = false →
    comp z y = false → comp x z = false ∧ comp z x = false

/-- Equivalence of two elements under `comp`: neither is less than the other. -/
def equiv {α : Type} (comp : α → α → Bool) (x y : α) : Prop :=
  comp x y = false ∧ comp y x = false

/-- Models `std::less<int>`. -/
def less (x y : Int) : Bool := decide (x < y)

/-- A generator whose draws are 5, 3, 0, 7, 1, 2, ... -/
def gen_example (k : Nat) : Nat := [5, 3, 0, 7, 1, 2, 4, 6, 9, 8].getD (k % 10) 0

end QuickSort

/-! ## single_source_shortest_path.cpp: Dijkstra and Bellman-Ford

A `std::unordered_map<Node, Weight>` is an association list with one entry per key; its
iteration order is not observed.  In `bellman_ford` the weights are `int`: a sum
`dist[u] + w` is stored reduced to 32 bits (two's complement), and the run records whether
a sum did not fit, which the C++ standard leaves undefined.  The functions `ideal_…` are
the same loops on unbounded integers, the reference the run on `int` is compared with.
In `dijkstra` the weights are exact integers (no overflow). -/

namespace ShortestPath

/-- Models `Dist<Node, Weight>`, a `std::unordered_map<Node, Weight>`. -/
abbrev Dist (Node : Type) := List (Node × Int)

/-- Models `dist.find(k)`: the value stored for `k`, `none` when `dist.count(k) == 0`. -/
def Dist.find {Node : Type} [DecidableEq Node] (d : Dist Node) (k : Node) : Option Int :=
  (List.find? (fun e => decide (e.1 = k)) d).map (fun e => e.2)

/-- Models `dist[k] = x`. -/
def Dist.assign {Node : Type} [DecidableEq Node] (d : Dist Node) (k : Node) (x : Int) :
    Dist Node :=
  (k, x) :: d.filter (fun e => decide (e.1 ≠ k))

/-- The read `dist[k]`: the value of `k`; a missing key is first inserted with value 0. -/
def Dist.index {Node : Type} [DecidableEq Node] (d : Dist Node) (k : Node) :
    Int × Dist Node :=
  match d.find k with
  | some x => (x, d)
  | none => (0, d.assign k 0)

/-- Models `edge<Node, Weight>`, a `std::tuple<Node, Node, Weight>`. -/
abbrev edge (Node : Type) := Node × Node × Int

/-- The least `int`. -/
def INT_MIN : Int := -2147483648

/-- The largest `int`. -/
def INT_MAX : Int := 2147483647

/-- The exact sum `x` fits an `int`. -/
def fits_int (x : Int) : Bool := decide (INT_MIN ≤ x ∧ x ≤ INT_MAX)

/-- The `int` that holds the exact sum `x` after a 32-bit addition: `x` itself when it
fits, else `x` reduced modulo `2^32` into the range of `int`. -/
def int_wrap (x : Int) : Int := (x + 2147483648) % 4294967296 - 2147483648

/-- The body of the inner loop of `bellman_ford` for the edge `(u, v, w)`: the state is
`dist`, `updated` and `overflow`, the record that some sum `dist[u] + w` computed so far
did not fit an `int`. -/
def relax {Node : Type} [DecidableEq Node] (dist : Dist Node) (updated overflow : Bool)
    (e : edge Node) : Dist Node × Bool × Bool :=
  match dist.find e.1 with
  | none => (dist, updated, overflow)
  | some du =>
    let new_dist := int_wrap (du + e.2.2)
    let overflow1 := overflow || !fits_int (du + e.2.2)
    match dist.find e.2.1 with
    | none => (dist.assign e.2.1 new_dist, true, overflow1)
    | some dv =>
      if new_dist < dv then (dist.assign e.2.1 new_dist, true, overflow1)
      else (dist, updated, overflow1)

/-- The inner loop `for (const auto &[u, v, w] : edges)` from a given state. -/
def relax_list {Node : Type} [DecidableEq Node] :
    List (edge Node) → Dist Node → Bool → Bool → Dist Node × Bool × Bool
  | [], dist, updated, overflow => (dist, updated, overflow)
  | e :: es, dist, updated, overflow =>
    relax_list es (relax dist updated overflow e).1 (relax dist updated overflow e).2.1
      (relax dist updated overflow e).2.2

/-- One round of `bellman_ford`: `updated = false`, then the inner loop. -/
def relax_all {Node : Type} [DecidableEq Node] (edges : List (edge Node))
    (dist : Dist Node) (overflow : Bool) : Dist Node × Bool × Bool :=
  relax_list edges dist false overflow

/-- The largest `size_t`. -/
def SIZE_MAX : Nat := 18446744073709551615

/-- Models `++i` on a `size_t`. -/
def size_t_succ (i : Nat) : Nat := if i = SIZE_MAX then 0 else i + 1

/-- The loop `for (size_t i = 1; i <= node_num; ++i)` of `bellman_ford` from the state
`i`, `dist`, `has_neg_cycle`, `overflow`; at most `fuel` tests of its condition. -/
def bellman_ford_loop {Node : Type} [DecidableEq Node] (edges : List (edge Node))
    (node_num : Nat) :
    Nat → Nat → Dist Node → Bool → Bool → Option (Dist Node × Bool × Bool)
  | 0, _, _, _, _ => none
  | fuel + 1, i, dist, has_neg_cycle, overflow =>
    if i ≤ node_num then
      match relax_all edges dist overflow with
      | (dist1, updated, overflow1) =>
        if !updated then some (dist1, has_neg_cycle, overflow1)
        else
          bellman_ford_loop edges node_num fuel (size_t_succ i) dist1
            (if i = node_num && updated then true else has_neg_cycle) overflow1
    else some (dist, has_neg_cycle, overflow)

/-- Models `bellman_ford(start, edges, node_num)`: the pair `(dist, has_neg_cycle)`, and
whether a sum overflowed on the way. -/
def bellman_ford {Node : Type} [DecidableEq Node] (fuel : Nat) (start : Node)
    (edges : List (edge Node)) (node_num : Nat) : Option (Dist Node × Bool × Bool) :=
  bellman_ford_loop edges node_num fuel 1 (Dist.assign [] start 0) false false

/-- The body of the inner loop of `bellman_ford` on unbounded integers. -/
def ideal_relax {Node : Type} [DecidableEq Node] (dist : Dist Node) (updated : Bool)
    (e : edge Node) : Dist Node × Bool :=
  match dist.find e.1 with
  | none => (dist, updated)
  | some du =>
    let new_dist := du + e.2.2
    match dist.find e.2.1 with
    | none => (dist.assign e.2.1 new_dist, true)
    | some dv =>
      if new_dist < dv then (dist.assign e.2.1 new_dist, true) else (dist, updated)

/-- The inner loop of `bellman_ford` on unbounded integers. -/
def ideal_relax_list {Node : Type} [DecidableEq Node] :
    List (edge Node) → Dist Node → Bool → Dist Node × Bool
  | [], dist, updated => (dist, updated)
  | e :: es, dist, updated =>
    ideal_relax_list es (ideal_relax dist updated e).1 (ideal_relax dist updated e).2

/-- One round of `bellman_ford` on unbounded integers. -/
def ideal_relax_all {Node : Type} [DecidableEq Node] (edges : List (edge Node))
    (dist : Dist Node) : Dist Node × Bool :=
  ideal_relax_list edges dist false

/-- The loop `for (size_t i = 1; i <= node_num; ++i)` of `bellman_ford` on unbounded
integers, from the state `i`, `dist`, `has_neg_cycle`; at most `fuel` tests of its
condition. -/
def ideal_loop {Node : Type} [DecidableEq Node] (edges : List (edge Node))
    (node_num : Nat) : Nat → Nat → Dist Node → Bool → Option (Dist Node × Bool)
  | 0, _, _, _ => none
  | fuel + 1, i, dist, has_neg_cycle =>
    if i ≤ node_num then
      match ideal_relax_all edges dist with
      | (dist1, updated) =>
        if !updated then some (dist1, has_neg_cycle)
        else
          ideal_loop edges node_num fuel (size_t_succ i) dist1
            (if i = node_num && updated then true else has_neg_cycle)
    else some (dist, has_neg_cycle)

/-- The function `bellman_ford(start, edges, node_num)` on unbounded integers: the pair
`(dist, has_neg_cycle)`. -/
def ideal_bellman_ford {Node : Type} [DecidableEq Node] (fuel : Nat) (start : Node)
    (edges : List (edge Node)) (node_num : Nat) : Option (Dist Node × Bool) :=
  ideal_loop edges node_num fuel 1 (Dist.assign [] start 0) false

/-- A walk from `u` to `v`: consecutive edges of the edge list. -/
def IsWalk {Node : Type} (edges : List (edge Node)) : Node → List (edge Node) → Node → Prop
  | u, [], v => u = v
  | u, e :: p, v => e ∈ edges ∧ e.1 = u ∧ IsWalk edges e.2.1 p v

/-- The total weight of a walk. -/
def weight {Node : Type} (p : List (edge Node)) : Int := (p.map (fun e => e.2.2)).sum

/-- The nodes a walk from `u` visits, in order. -/
def walk_nodes {Node : Type} (u : Node) (p : List (edge Node)) : List Node :=
  u :: p.map (fun e => e.2.1)

/-- Node `v` is reachable from `s`. -/
def Reachable {Node : Type} (edges : List (edge Node)) (s v : Node) : Prop :=
  ∃ p, IsWalk edges s p v

/-- Some cycle of negative total weight is reachable from `s`: a closed walk with at
least one edge, through a node reachable from `s`. -/
def NegCycle {Node : Type} (edges : List (edge Node)) (s : Node) : Prop :=
  ∃ x c, Reachable edges s x ∧ c ≠ [] ∧ IsWalk edges x c x ∧ weight c < 0

/-- Some simple cycle (no node visited twice) of negative total weight is reachable
from `s`. -/
def NegSimpleCycle {Node : Type} (edges : List (edge Node)) (s : Node) : Prop :=
  ∃ x c, Reachable edges s x ∧ c ≠ [] ∧ IsWalk edges x c x ∧ weight c < 0
    ∧ (c.map (fun e => e.1)).Nodup

/-- The distinct nodes: `start` and all edge endpoints. -/
def nodes {Node : Type} [DecidableEq Node] (start : Node) (edges : List (edge Node)) :
    List Node :=
  (start :: edges.flatMap (fun e => [e.1, e.2.1])).dedup

/-- A number of tests of the loop condition that `bellman_ford` cannot exceed: `node_num`
when the counter `i` can pass it; when `node_num` is the largest `size_t` the loop ends
only by a round without update, and every updating round lowers one of the `int` values
or adds a key. -/
def rounds_bound {Node : Type} [DecidableEq Node] (start : Node) (edges : List (edge Node))
    (node_num : Nat) : Nat :=
  if node_num < SIZE_MAX then node_num else (nodes start edges).length * 4294967296

/-- Every value of `d` is an `int`. -/
def InRange {Node : Type} [DecidableEq Node] (d : Dist Node) : Prop :=
  ∀ v x, d.find v = some x → INT_MIN ≤ x ∧ x ≤ INT_MAX

/-- The room left below the entry of one node: `2^32` for a missing key, the distance of
the value from `INT_MIN` otherwise. -/
def potential_term (o : Option Int) : Nat :=
  match o with
  | none => 4294967296
  | some x => (x + 2147483648).toNat

/-- The sum of the room left over the nodes `ns`: every update of `dist` lowers it. -/
def potential {Node : Type} [DecidableEq Node] (ns : List Node) (d : Dist Node) : Nat :=
  (ns.map (fun v => potential_term (d.find v))).sum

/-- Models `x` is the minimum total weight over all walks from `s` to `v`, attained by a path
that visits no node twice. -/
def IsShortest {Node : Type} (edges : List (edge Node)) (s v : Node) (x : Int) : Prop :=
  (∃ p, IsWalk edges s p v ∧ weight p = x ∧ (walk_nodes s p).Nodup)
    ∧ ∀ p, IsWalk edges s p v → x ≤ weight p

/-- Every edge out of a node of `d` is relaxed: its target is in `d` with a value not
above the source value plus the weight. -/
def Relaxed {Node : Type} [DecidableEq Node] (edges : List (edge Node)) (d : Dist Node) :
    Prop :=
  ∀ e ∈ edges, ∀ du, d.find e.1 = some du → ∃ dv, d.find e.2.1 = some dv ∧ dv ≤ du + e.2.2

/-- Every value of `d` is the total weight of a walk from `s`. -/
def WalkValued {Node : Type} [DecidableEq Node] (edges : List (edge Node)) (s : Node)
    (d : Dist Node) : Prop :=
  ∀ v x, d.find v = some x → ∃ p, IsWalk edges s p v ∧ weight p = x

/-- Map `d1` is below `d`: it has the keys of `d`, with values not above. -/
def Below {Node : Type} [DecidableEq Node] (d1 d : Dist Node) : Prop :=
  ∀ v x, d.find v = some x → ∃ y, d1.find v = some y ∧ y ≤ x

/-- The map after `k` rounds of `bellman_ford` on unbounded integers. -/
def rounds {Node : Type} [DecidableEq Node] (edges : List (edge Node)) :
    Nat → Dist Node → Dist Node
  | 0, d => d
  | k + 1, d => rounds edges k (ideal_relax_all edges d).1

/-- The edge list of the first `bellman_ford` test of `main`. -/
def main_edges_1 : List (edge Char) := [('A', 'B', 2), ('B', 'C', 3), ('A', 'C', 6)]

/-- The edge list of the negative-cycle test of `main`. -/
def main_edges_2 : List (edge Int) := [(0, 1, 1), (1, 2, -2), (2, 0, -1)]

/-- The edge list of the negative-edge test of `main`. -/
def main_edges_3 : List (edge Int) := [(0, 1, 3), (1, 2, -1), (0, 2, 5)]

/-- One edge 0 → 0 of weight `INT_MIN`. -/
def overflow_edges_1 : List (edge Int) := [(0, 0, -2147483648)]

/-- The edges 0 → 1 of weight `INT_MAX` and 1 → 2 of weight 1. -/
def overflow_edges_2 : List (edge Int) := [(0, 1, 2147483647), (1, 2, 1)]

/-- The class `adjacency_list<Node, Weight>`: `adj` maps a node to the vector of its
`(neighbor, weight)` pairs. -/
structure adjacency_list (Node : Type) where
  adj : List (Node × List (Node × Int))

/-- The default constructor: no edge. -/
def adjacency_list.empty {Node : Type} : adjacency_list Node := ⟨[]⟩

/-- Models `get_neighbors(u)`: the vector of `u`, the empty vector when `u` has none. -/
def adjacency_list.get_neighbors {Node : Type} [DecidableEq Node] (g : adjacency_list Node)
    (u : Node) : List (Node × Int) :=
  match g.adj.find? (fun e => decide (e.1 = u)) with
  | some e => e.2
  | none => []

/-- Models `add_edge(u, v, weight)`: `adj[u].emplace_back(v, weight)`. -/
def adjacency_list.add_edge {Node : Type} [DecidableEq Node] (g : adjacency_list Node)
    (u v : Node) (weight : Int) : adjacency_list Node :=
  ⟨(u, g.get_neighbors u ++ [(v, weight)]) :: g.adj.filter (fun e => decide (e.1 ≠ u))⟩

/-- The graph built by calling `add_edge` for each edge of `es` in order. -/
def adjacency_list.build {Node : Type} [DecidableEq Node] (es : List (edge Node)) :
    adjacency_list Node :=
  es.foldl (fun g e => g.add_edge e.1 e.2.1 e.2.2) adjacency_list.empty

/-- Models `std::greater<pq_element>` on pairs `(Weight, Node)`: `a > b` lexicographically. -/
def pq_greater {Node : Type} [DecidableEq Node] [LT Node]
    [DecidableRel (fun a b : Node => a < b)] (a b : Int × Node) : Bool :=
  decide (b.1 < a.1) || (decide (a.1 = b.1) && decide (b.2 < a.2))

/-- Models `pq.top()`: a least element of the queue, `none` when `pq.empty()`. -/
def pq_top {Node : Type} [DecidableEq Node] [LT Node]
    [DecidableRel (fun a b : Node => a < b)] : List (Int × Node) → Option (Int × Node)
  | [] => none
  | a :: l => some (l.foldl (fun m x => if pq_greater m x then x else m) a)

/-- The loop `for (const auto &[v, weight] : graph.get_neighbors(u))` of `dijkstra`; the
state is `dist` and `pq`. -/
def scan {Node : Type} [DecidableEq Node] (current_dist : Int) :
    List (Node × Int) → Dist Node → List (Int × Node) → Dist Node × List (Int × Node)
  | [], dist, pq => (dist, pq)
  | (v, weight) :: rest, dist, pq =>
    let new_dist := current_dist + weight
    match dist.find v with
    | none => scan current_dist rest (dist.assign v new_dist) ((new_dist, v) :: pq)
    | some dv =>
      if new_dist < dv then
        scan current_dist rest (dist.assign v new_dist) ((new_dist, v) :: pq)
      else scan current_dist rest dist pq

/-- The loop `while (!pq.empty())` of `dijkstra`, at most `fuel` tests of its condition. -/
def dijkstra_loop {Node : Type} [DecidableEq Node] [LT Node]
    [DecidableRel (fun a b : Node => a < b)] (graph : adjacency_list Node) :
    Nat → Dist Node → List (Int × Node) → Option (Dist Node)
  | 0, _, _ => none
  | fuel + 1, dist, pq =>
    match pq_top pq with
    | none => some dist
    | some (current_dist, u) =>
      let pq1 := pq.erase (current_dist, u)
      let r := dist.index u
      if current_dist > r.1 then dijkstra_loop graph fuel r.2 pq1
      else
        let r2 := scan current_dist (graph.get_neighbors u) r.2 pq1
        dijkstra_loop graph fuel r2.1 r2.2

/-- Models `dijkstra(start, graph)`. -/
def dijkstra {Node : Type} [DecidableEq Node] [LT Node]
    [DecidableRel (fun a b : Node => a < b)] (fuel : Nat) (start : Node)
    (graph : adjacency_list Node) : Option (Dist Node) :=
  dijkstra_loop graph fuel (Dist.assign [] start 0) [(0, start)]

/-- The invariant of the loop of `dijkstra` on the graph with edges `es`: values are
walk weights, every queue entry is an upper bound of the value of its node, and every
node of `dist` either has a queue entry with its value or has all its edges relaxed. -/
structure DijkstraInv {Node : Type} [DecidableEq Node] (es : List (edge Node))
    (start : Node) (dist : Dist Node) (pq : List (Int × Node)) : Prop where
  walk_valued : WalkValued es start dist
  start_mem : ∃ x0, dist.find start = some x0 ∧ x0 ≤ 0
  queue_bound : ∀ d u, (d, u) ∈ pq → ∃ du, dist.find u = some du ∧ du ≤ d
  open_or_closed : ∀ u du, dist.find u = some du →
    (du, u) ∈ pq ∨ ∀ e ∈ es, e.1 = u → ∃ dv, dist.find e.2.1 = some dv ∧ dv ≤ du + e.2.2

/-- The number of nodes that are not yet keys of `dist`. -/
def missing {Node : Type} [DecidableEq Node] (ns : List Node) (dist : Dist Node) : Nat :=
  (ns.filter (fun v => (dist.find v).isNone)).length

/-- The sum of the values of `dist`. -/
def total {Node : Type} (dist : Dist Node) : Nat := (dist.map (fun e => e.2.toNat)).sum

/-- The edges of the first `dijkstra` test of `main`. -/
def main_graph_1 : List (edge Int) := [(1, 2, 1), (1, 3, 4), (2, 3, 2)]

/-- The edges of the second `dijkstra` test of `main`. -/
def main_graph_2 : List (edge Int) := [(1, 2, 1), (3, 4, 2)]

/-- The invariant of the loop over the neighbors of `u` in `dijkstra`, where
`current_dist = d`: as `DijkstraInv`, but `u` itself may be neither open nor closed,
and its value is `d`. -/
structure ScanInv {Node : Type} [DecidableEq Node] (es : List (edge Node))
    (start u : Node) (d : Int) (dist : Dist Node) (pq : List (Int × Node)) : Prop where
  walk_valued : WalkValued es start dist
  start_mem : ∃ x0, dist.find start = some x0 ∧ x0 ≤ 0
  queue_bound : ∀ c x, (c, x) ∈ pq → ∃ dx, dist.find x = some dx ∧ dx ≤ c
  open_or_closed : ∀ x dx, dist.find x = some dx →
    x = u ∨ (dx, x) ∈ pq
      ∨ ∀ e ∈ es, e.1 = x → ∃ dv, dist.find e.2.1 = some dv ∧ dv ≤ dx + e.2.2
  source : dist.find u = some d

/-- Map `d1` is a step forward from `d0`: fewer nodes are missing, or no more are
missing and the sum of the values is smaller. -/
def Progress {Node : Type} [DecidableEq Node] (ns : List Node) (d1 d0 : Dist Node) : Prop :=
  missing ns d1 < missing ns d0 ∨ (missing ns d1 ≤ missing ns d0 ∧ total d1 < total d0)

end ShortestPath

/-! ## algorithm/manachar.cpp: longest palindromic substring

A `std::string` is a list of characters and `int` values are exact integers.  A read
`t[j]` with `j == t.size()` yields the null character, as `std::string::operator[]`
does; any other read or write outside a string or vector is a fault, and so is running
out of fuel. -/

namespace Manachar

/-- Why a call did not return. -/
inductive Fault where
  | out_of_bounds
  | out_of_fuel
deriving DecidableEq, Repr

/-- The read `t[j]` of a `std::string`. -/
def string_at (t : List Char) (j : Int) : Option Char :=
  if j < 0 then none
  else if j.toNat < t.length then t[j.toNat]?
  else if j.toNat = t.length then some (Char.ofNat 0)
  else none

/-- The read `p[j]` of a `std::vector<int>`. -/
def vector_at (p : List Int) (j : Int) : Option Int :=
  if j < 0 then none else p[j.toNat]?

/-- The write `p[j] = x` of a `std::vector<int>`. -/
def vector_set (p : List Int) (j : Int) (x : Int) : Option (List Int) :=
  if j < 0 then none
  else if j.toNat < p.length then some (p.set j.toNat x)
  else none

/-- The transformed string: `t = "^"`, then `t += "#" + c` for each `c` of `s`, then
`t += "#$"`. -/
def transform (s : List Char) : List Char :=
  (s.foldl (fun t c => t ++ ['#', c]) ['^']) ++ ['#', '$']

/-- The statement `if (i < right) { p[i] = std::min(right - i, p[mirror]); }`. -/
def init_radius (p : List Int) (i center right : Int) : Option (List Int) :=
  if i < right then
    match vector_at p (2 * center - i) with
    | none => none
    | some pm => vector_set p i (min (right - i) pm)
  else some p

/-- An index that `manachar` uses: `str j` is the read `t[j]` of the transformed string,
`vec j` is an access `p[j]` of the vector. -/
inductive Access where
  | str (j : Int)
  | vec (j : Int)
deriving DecidableEq, Repr

/-- The indices of one test of `t[i + (1 + p[i])] == t[i - (1 + p[i])]`, where `p[i]`
holds `pi`: each side of the comparison reads `p[i]` and then `t`. -/
def test_accesses (i pi : Int) : List Access :=
  [Access.vec i, Access.str (i + (1 + pi)), Access.vec i, Access.str (i - (1 + pi))]

/-- The loop `while (t[i + (1 + p[i])] == t[i - (1 + p[i])]) { ++p[i]; }` as in `expand`,
together with the record of the indices it uses, in order; a fault ends the record at the
test or statement that caused it. -/
def expand_log (t : List Char) (i : Int) :
    Nat → List Int → List Access × Except Fault (List Int)
  | 0, _ => ([], Except.error Fault.out_of_fuel)
  | fuel + 1, p =>
    match vector_at p i with
    | none => ([Access.vec i], Except.error Fault.out_of_bounds)
    | some pi =>
      match string_at t (i + (1 + pi)), string_at t (i - (1 + pi)) with
      | some a, some b =>
        if a = b then
          match vector_set p i (pi + 1) with
          | none => (test_accesses i pi ++ [Access.vec i], Except.error Fault.out_of_bounds)
          | some p1 =>
            (test_accesses i pi ++ Access.vec i :: (expand_log t i fuel p1).1,
              (expand_log t i fuel p1).2)
        else (test_accesses i pi, Except.ok p)
      | _, _ => (test_accesses i pi, Except.error Fault.out_of_bounds)

/-- The indices of `if (i < right) { p[i] = std::min(right - i, p[mirror]); }` with
`mirror = 2 * center - i`: the read `p[mirror]`, then the write `p[i]`, which is not
reached when the read faults. -/
def init_radius_accesses (p : List Int) (i center right : Int) : List Access :=
  if i < right then
    match vector_at p (2 * center - i) with
    | none => [Access.vec (2 * center - i)]
    | some _ => [Access.vec (2 * center - i), Access.vec i]
  else []

/-- The loop `for (int i = 1; i < n - 1; ++i)` as in `manachar_loop`, together with the
record of the indices it uses on `t` and `p`, in order: those of the `if (i < right)`
statement, those of the expansion loop, `p[i]` for the test `i + p[i] > right` and once
more for `right = i + p[i]`. A fault ends the record. -/
def manachar_loop_log (t : List Char) (n : Int) :
    Nat → Int → List Int → Int → Int → List Access × Except Fault (List Int)
  | 0, _, _, _, _ => ([], Except.error Fault.out_of_fuel)
  | fuel + 1, i, p, center, right =>
    if i < n - 1 then
      match init_radius p i center right with
      | none => (init_radius_accesses p i center right, Except.error Fault.out_of_bounds)
      | some p1 =>
        match (expand_log t i fuel p1).2 with
        | Except.error e =>
          (init_radius_accesses p i center right ++ (expand_log t i fuel p1).1, Except.error e)
        | Except.ok p2 =>
          match vector_at p2 i with
          | none =>
            (init_radius_accesses p i center right ++ (expand_log t i fuel p1).1
              ++ [Access.vec i], Except.error Fault.out_of_bounds)
          | some pi =>
            if i + pi > right then
              (init_radius_accesses p i center right ++ (expand_log t i fuel p1).1
                ++ Access.vec i :: Access.vec i
                  :: (manachar_loop_log t n fuel (i + 1) p2 i (i + pi)).1,
                (manachar_loop_log t n fuel (i + 1) p2 i (i + pi)).2)
            else
              (init_radius_accesses p i center right ++ (expand_log t i fuel p1).1
                ++ Access.vec i :: (manachar_loop_log t n fuel (i + 1) p2 center right).1,
                (manachar_loop_log t n fuel (i + 1) p2 center right).2)
    else ([], Except.ok p)

/-- Models `manachar(s, p)` with the record of the indices used on `t` and `p`. -/
def manachar_log (fuel : Nat) (s : List Char) : List Access × Except Fault (List Int) :=
  manachar_loop_log (transform s) (transform s).length fuel 1
    (List.replicate (transform s).length 0) 0 0

end Manachar

namespace kaiserqzyue

/-! ## Memory lemmas -/

namespace Memory

@[simp] theorem read_write (m : Memory) (b b1 : Nat) (cb : control_block) :
    (m.write b cb).read b1 = if b1 = b ∧ b < m.blocks.length then cb else m.read b1 := by
  unfold write read
  simp only [List.getD_eq_getElem?_getD, List.getElem?_set]
  by_cases h : b = b1
  · subst h
    by_cases h2 : b < m.blocks.length
    · simp [h2]
    · simp [h2, List.getElem?_eq_none (Nat.le_of_not_lt h2)]
  · have h3 : ¬ b1 = b := fun e => h e.symm
    simp [h, h3]

@[simp] theorem length_write (m : Memory) (b : Nat) (cb : control_block) :
    (m.write b cb).blocks.length = m.blocks.length := by
  simp [write]

@[simp] theorem trace_write (m : Memory) (b : Nat) (cb : control_block) :
    (m.write b cb).trace = m.trace := rfl

@[simp] theorem destroyed_write (m : Memory) (b b1 : Nat) (cb : control_block) :
    (m.write b cb).destroyed b1 = m.destroyed b1 := rfl

@[simp] theorem released_write (m : Memory) (b b1 : Nat) (cb : control_block) :
    (m.write b cb).released b1 = m.released b1 := rfl

@[simp] theorem read_emit (m : Memory) (e : Event) (b : Nat) : (m.emit e).read b = m.read b := rfl

@[simp] theorem length_emit (m : Memory) (e : Event) :
    (m.emit e).blocks.length = m.blocks.length := rfl

@[simp] theorem trace_emit (m : Memory) (e : Event) : (m.emit e).trace = m.trace ++ [e] := rfl

@[simp] theorem destroyed_emit_ptr (m : Memory) (p b b1 : Nat) :
    (m.emit (.delete_ptr p b)).destroyed b1 = m.destroyed b1 + if b = b1 then 1 else 0 := by
  simp [destroyed, emit, List.countP_append, List.countP_cons]

@[simp] theorem destroyed_emit_blk (m : Memory) (b b1 : Nat) :
    (m.emit (.delete_ctrl_blk b)).destroyed b1 = m.destroyed b1 := by
  simp [destroyed, emit, List.countP_append, List.countP_cons]

@[simp] theorem released_emit_ptr (m : Memory) (p b b1 : Nat) :
    (m.emit (.delete_ptr p b)).released b1 = m.released b1 := by
  simp [released, emit, List.countP_append, List.countP_cons]

@[simp] theorem released_emit_blk (m : Memory) (b b1 : Nat) :
    (m.emit (.delete_ctrl_blk b)).released b1 = m.released b1 + if b = b1 then 1 else 0 := by
  simp [released, emit, List.countP_append, List.countP_cons]

@[simp] theorem new_control_block_snd (m : Memory) :
    m.new_control_block.2 = m.blocks.length := rfl

@[simp] theorem read_new (m : Memory) (b : Nat) :
    m.new_control_block.1.read b = if b = m.blocks.length then {} else m.read b := by
  unfold new_control_block read
  simp only [List.getD_eq_getElem?_getD, List.getElem?_append]
  by_cases h : b < m.blocks.length
  · have : b ≠ m.blocks.length := by omega
    simp [h, this]
  · by_cases h2 : b = m.blocks.length
    · simp [h2]
    · have h3 : m.blocks.length ≤ b := by omega
      simp [h, h2, List.getElem?_eq_none h3]

@[simp] theorem length_new (m : Memory) :
    m.new_control_block.1.blocks.length = m.blocks.length + 1 := by
  simp [new_control_block]

@[simp] theorem trace_new (m : Memory) : m.new_control_block.1.trace = m.trace := rfl

@[simp] theorem destroyed_new (m : Memory) (b : Nat) :
    m.new_control_block.1.destroyed b = m.destroyed b := rfl

@[simp] theorem released_new (m : Memory) (b : Nat) :
    m.new_control_block.1.released b = m.released b := rfl

theorem destroyed_pos (m : Memory) (b : Nat) (h : 0 < m.destroyed b) :
    ∃ p, Event.delete_ptr p b ∈ m.trace := by
  unfold destroyed at h
  rw [List.countP_pos_iff] at h
  obtain ⟨e, he, hp⟩ := h
  cases e with
  | delete_ptr p c =>
    simp at hp
    subst hp
    exact ⟨p, he⟩
  | delete_ctrl_blk c => simp at hp

end Memory

theorem TraceOrdered.append_ptr {t : List Event} (h : TraceOrdered t) (p b : Nat) :
    TraceOrdered (t ++ [Event.delete_ptr p b]) := by
  intro pre post c hc
  rcases List.eq_nil_or_concat post with hp | ⟨post1, e, hp⟩
  · subst hp
    have := congrArg List.getLast? hc
    simp at this
  · subst hp
    rw [List.concat_eq_append, ← List.cons_append, ← List.append_assoc] at hc
    have h1 := List.append_inj_left' hc (by simp)
    exact h pre post1 c h1

theorem TraceOrdered.append_blk {t : List Event} (h : TraceOrdered t) (b : Nat)
    (hb : ∃ p, Event.delete_ptr p b ∈ t) : TraceOrdered (t ++ [Event.delete_ctrl_blk b]) := by
  intro pre post c hc
  rcases List.eq_nil_or_concat post with hp | ⟨post1, e, hp⟩
  · subst hp
    have h1 := List.append_inj_left' hc (by simp)
    have h2 := List.append_inj_right' hc (by simp)
    simp at h2
    subst h1 h2
    exact hb
  · subst hp
    rw [List.concat_eq_append, ← List.cons_append, ← List.append_assoc] at hc
    have h1 := List.append_inj_left' hc (by simp)
    exact h pre post1 c h1

/-! ## Effect of the release paths on one control block -/

theorem size_t_inc_of_lt {x : Nat} (h : x + 1 < SIZE_RANGE) : size_t_inc x = x + 1 := by
  unfold size_t_inc
  exact Nat.mod_eq_of_lt h

theorem size_t_dec_of_pos {x : Nat} (h0 : 0 < x) : size_t_dec x = x - 1 := by
  unfold size_t_dec
  rw [if_neg (by omega)]

@[simp] theorem control_block.increment_ref (cb : control_block) :
    cb.increment.ref_count_ = size_t_inc cb.ref_count_ := rfl

@[simp] theorem control_block.increment_weak (cb : control_block) :
    cb.increment.weak_count_ = cb.weak_count_ := rfl

@[simp] theorem control_block.weak_increment_ref (cb : control_block) :
    cb.weak_increment.ref_count_ = cb.ref_count_ := rfl

@[simp] theorem control_block.weak_increment_weak (cb : control_block) :
    cb.weak_increment.weak_count_ = size_t_inc cb.weak_count_ := rfl

theorem shared_ptr.sp_release_none (m : Memory) (t : shared_ptr)
    (h : t.ctrl_blk = none) : shared_ptr.check_and_delete m t = m := by
  simp [shared_ptr.check_and_delete, h]

theorem shared_ptr.sp_release_spec (m : Memory) (t : shared_ptr) (b0 : Nat)
    (h : t.ctrl_blk = some b0) (hb : b0 < m.blocks.length) :
    (shared_ptr.check_and_delete m t).blocks.length = m.blocks.length ∧
    (∀ b, b ≠ b0 → (shared_ptr.check_and_delete m t).read b = m.read b ∧
      (shared_ptr.check_and_delete m t).destroyed b = m.destroyed b ∧
      (shared_ptr.check_and_delete m t).released b = m.released b) ∧
    ((shared_ptr.check_and_delete m t).read b0).ref_count_ =
      size_t_dec (m.read b0).ref_count_ ∧
    ((shared_ptr.check_and_delete m t).read b0).weak_count_ =
      (if (m.read b0).ref_count_ = 1 then size_t_dec (m.read b0).weak_count_
       else (m.read b0).weak_count_) ∧
    (shared_ptr.check_and_delete m t).destroyed b0 =
      m.destroyed b0 + (if (m.read b0).ref_count_ = 1 then 1 else 0) ∧
    (shared_ptr.check_and_delete m t).released b0 =
      m.released b0 +
        (if (m.read b0).ref_count_ = 1 ∧ (m.read b0).weak_count_ = 1 then 1 else 0) := by
  simp only [shared_ptr.check_and_delete, h, control_block.decrement,
    control_block.weak_decrement]
  by_cases h1 : (m.read b0).ref_count_ = 1
  · by_cases h2 : (m.read b0).weak_count_ = 1
    · simp [h1, h2, hb]
      intro b hne
      simp [hne, Ne.symm hne]
    · simp [h1, h2, hb]
      intro b hne
      simp [hne, Ne.symm hne]
  · simp [h1, hb]
    intro b hne
    simp [hne]

theorem shared_ptr.sp_release_ordered (m : Memory) (t : shared_ptr)
    (h : TraceOrdered m.trace) : TraceOrdered (shared_ptr.check_and_delete m t).trace := by
  unfold shared_ptr.check_and_delete
  cases hc : t.ctrl_blk with
  | none => simpa using h
  | some b0 =>
    simp only [control_block.decrement, control_block.weak_decrement]
    split_ifs
    · simp only [Memory.trace_emit, Memory.trace_write]
      exact (h.append_ptr _ _).append_blk _ ⟨t.ptr, by simp⟩
    · simp only [Memory.trace_emit, Memory.trace_write]
      exact h.append_ptr _ _
    · simpa using h

theorem weak_ptr.wp_release_none (m : Memory) (t : weak_ptr)
    (h : t.ctrl_blk = none) : weak_ptr.check_and_delete m t = m := by
  simp [weak_ptr.check_and_delete, h]

theorem weak_ptr.wp_release_spec (m : Memory) (t : weak_ptr) (b0 : Nat)
    (h : t.ctrl_blk = some b0) (hb : b0 < m.blocks.length) :
    (weak_ptr.check_and_delete m t).blocks.length = m.blocks.length ∧
    (∀ b, b ≠ b0 → (weak_ptr.check_and_delete m t).read b = m.read b ∧
      (weak_ptr.check_and_delete m t).released b = m.released b) ∧
    (∀ b, (weak_ptr.check_and_delete m t).destroyed b = m.destroyed b) ∧
    ((weak_ptr.check_and_delete m t).read b0).ref_count_ = (m.read b0).ref_count_ ∧
    ((weak_ptr.check_and_delete m t).read b0).weak_count_ =
      (if (m.read b0).weak_count_ = 1 then 1
       else size_t_dec (m.read b0).weak_count_) ∧
    (weak_ptr.check_and_delete m t).released b0 =
      m.released b0 + (if (m.read b0).weak_count_ = 1 then 1 else 0) := by
  simp only [weak_ptr.check_and_delete, h, control_block.weak_decrement,
    control_block.weak_count]
  by_cases h2 : (m.read b0).weak_count_ = 1
  · simp [h2]
    intro b hne
    simp [Ne.symm hne]
  · simp [h2, hb]
    intro b hne
    simp [hne]

theorem weak_ptr.wp_release_ordered (m : Memory) (t : weak_ptr)
    (h : TraceOrdered m.trace)
    (hd : ∀ b, t.ctrl_blk = some b → (m.read b).weak_count_ = 1 → 0 < m.destroyed b) :
    TraceOrdered (weak_ptr.check_and_delete m t).trace := by
  unfold weak_ptr.check_and_delete
  cases hc : t.ctrl_blk with
  | none => simpa using h
  | some b0 =>
    simp only [control_block.weak_decrement, control_block.weak_count]
    split_ifs with h1 h2
    · simp only [Memory.trace_emit]
      exact h.append_blk _ (Memory.destroyed_pos m b0 (hd b0 hc h1))
    · exact absurd (of_decide_eq_true h2) h1
    · simpa using h

/-! ## Counting handles -/

theorem countP_set_of_getElem? {α : Type} (p : α → Bool) (l : List α) (i : Nat) (x a : α)
    (h : l[i]? = some x) :
    (l.set i a).countP p + (if p x then 1 else 0) = l.countP p + (if p a then 1 else 0) := by
  obtain ⟨hi, hx⟩ := List.getElem?_eq_some_iff.mp h
  rw [List.countP_set p l i a hi, hx]
  have hle : (if p x = true then 1 else 0) ≤ l.countP p := by
    by_cases hp : p x = true
    · simp only [hp, if_true]
      exact List.countP_pos_iff.mpr ⟨x, hx ▸ List.getElem_mem hi, hp⟩
    · simp [hp]
  omega

theorem countP_le_countP {α : Type} (p q : α → Bool) (l : List α)
    (h : ∀ x, p x = true → q x = true) : l.countP p ≤ l.countP q := by
  induction l with
  | nil => simp
  | cons x l ih =>
    simp only [List.countP_cons]
    by_cases hp : p x = true
    · rw [if_pos hp, if_pos (h x hp)]
      omega
    · rw [if_neg hp]
      by_cases hq : q x = true
      · rw [if_pos hq]
        omega
      · rw [if_neg hq]
        omega

theorem sp_on_isSome (b : Nat) (x : Option shared_ptr) (h : sp_on b x = true) :
    x.isSome = true := by
  cases x with
  | none => simp [sp_on] at h
  | some v => rfl

theorem wp_on_isSome (b : Nat) (x : Option weak_ptr) (h : wp_on b x = true) :
    x.isSome = true := by
  cases x with
  | none => simp [wp_on] at h
  | some v => rfl

theorem State.strong_refs_le_live (s : State) (b : Nat) : s.strong_refs b ≤ s.live := by
  unfold State.strong_refs State.live
  have := countP_le_countP (sp_on b) Option.isSome s.shared (sp_on_isSome b)
  omega

theorem State.refs_le_live (s : State) (b : Nat) :
    s.strong_refs b + s.weak_refs b ≤ s.live := by
  unfold State.strong_refs State.weak_refs State.live
  have h1 := countP_le_countP (sp_on b) Option.isSome s.shared (sp_on_isSome b)
  have h2 := countP_le_countP (wp_on b) Option.isSome s.weak (wp_on_isSome b)
  omega

theorem strong_refs_pos_iff (l : List (Option shared_ptr)) (b : Nat) :
    0 < l.countP (sp_on b) ↔ ∃ h, some h ∈ l ∧ h.ctrl_blk = some b := by
  rw [List.countP_pos_iff]
  constructor
  · rintro ⟨x, hx, hp⟩
    cases x with
    | none => simp [sp_on] at hp
    | some v => exact ⟨v, hx, by simpa [sp_on] using hp⟩
  · rintro ⟨v, hv, hb⟩
    exact ⟨some v, hv, by simp [sp_on, hb]⟩

theorem weak_refs_pos_iff (l : List (Option weak_ptr)) (b : Nat) :
    0 < l.countP (wp_on b) ↔ ∃ h, some h ∈ l ∧ h.ctrl_blk = some b := by
  rw [List.countP_pos_iff]
  constructor
  · rintro ⟨x, hx, hp⟩
    cases x with
    | none => simp [wp_on] at hp
    | some v => exact ⟨v, hx, by simpa [wp_on] using hp⟩
  · rintro ⟨v, hv, hb⟩
    exact ⟨some v, hv, by simp [wp_on, hb]⟩

theorem Inv.strong_refs_fresh {s : State} (hs : Inv s) (b : Nat)
    (hb : s.mem.blocks.length ≤ b) : s.strong_refs b = 0 := by
  by_contra hne
  have hpos : 0 < s.shared.countP (sp_on b) := Nat.pos_of_ne_zero hne
  obtain ⟨h, hm, hc⟩ := (strong_refs_pos_iff _ _).mp hpos
  have := (hs.sp_wf h hm b hc).1
  omega

theorem Inv.weak_refs_fresh {s : State} (hs : Inv s) (b : Nat)
    (hb : s.mem.blocks.length ≤ b) : s.weak_refs b = 0 := by
  by_contra hne
  have hpos : 0 < s.weak.countP (wp_on b) := Nat.pos_of_ne_zero hne
  obtain ⟨h, hm, hc⟩ := (weak_refs_pos_iff _ _).mp hpos
  have := (hs.wp_wf h hm b hc).1
  omega

theorem mem_of_mem_set {α : Type} {l : List α} {i : Nat} {a x : α} (h : x ∈ l.set i a) :
    x = a ∨ x ∈ l := by
  rcases List.mem_or_eq_of_mem_set h with h1 | h1
  · exact Or.inr h1
  · exact Or.inl h1

/-! ## Preservation of the invariant -/

/-- A step that leaves the memory and the number of handles on every block unchanged. -/
theorem Inv.same_counts {s s1 : State} (hs : Inv s) (hmem : s1.mem = s.mem)
    (hS : ∀ b, s1.strong_refs b = s.strong_refs b)
    (hW : ∀ b, s1.weak_refs b = s.weak_refs b)
    (hsp : ∀ h, some h ∈ s1.shared → some h ∈ s.shared ∨ h.ctrl_blk = none)
    (hwp : ∀ w, some w ∈ s1.weak → some w ∈ s.weak ∨ w.ctrl_blk = none)
    (hlive : s1.live ≤ MAX_LIVE) : Inv s1 := by
  refine ⟨?_, ?_, hlive, ?_, ?_, ?_⟩
  · intro h hm b hb
    rw [hmem]
    rcases hsp h hm with h1 | h1
    · exact hs.sp_wf h h1 b hb
    · rw [h1] at hb
      cases hb
  · intro w hm b hb
    rw [hmem]
    rcases hwp w hm with h1 | h1
    · exact hs.wp_wf w h1 b hb
    · rw [h1] at hb
      cases hb
  · intro b hb
    rw [hmem] at hb ⊢
    rw [hS, hW]
    exact hs.blk b hb
  · intro b hb
    rw [hmem] at hb ⊢
    exact hs.fresh b hb
  · rw [hmem]
    exact hs.order

/-- A step that only touches block `b0` (an existing block, or the block it allocates). -/
theorem Inv.update_block {s s1 : State} (hs : Inv s) (b0 : Nat)
    (hlen1 : s.mem.blocks.length ≤ s1.mem.blocks.length)
    (hlen2 : ∀ b, b < s1.mem.blocks.length → b < s.mem.blocks.length ∨ b = b0)
    (hb0 : b0 < s1.mem.blocks.length)
    (hother : ∀ b, b ≠ b0 → s1.mem.read b = s.mem.read b ∧
      s1.mem.destroyed b = s.mem.destroyed b ∧ s1.mem.released b = s.mem.released b ∧
      s1.strong_refs b = s.strong_refs b ∧ s1.weak_refs b = s.weak_refs b)
    (hsp : ∀ h, some h ∈ s1.shared →
      some h ∈ s.shared ∨ (h.ctrl_blk = some b0 ∧ h.ptr ≠ 0) ∨ h.ctrl_blk = none)
    (hwp : ∀ w, some w ∈ s1.weak →
      some w ∈ s.weak ∨ (w.ctrl_blk = some b0 ∧ w.ptr ≠ 0) ∨ w.ctrl_blk = none)
    (hlive : s1.live ≤ MAX_LIVE)
    (hblk : BlockInv (s1.mem.read b0) (s1.strong_refs b0) (s1.weak_refs b0)
      (s1.mem.destroyed b0) (s1.mem.released b0))
    (hord : TraceOrdered s1.mem.trace) : Inv s1 := by
  refine ⟨?_, ?_, hlive, ?_, ?_, hord⟩
  · intro h hm b hb
    rcases hsp h hm with h1 | ⟨h1, h2⟩ | h1
    · have := hs.sp_wf h h1 b hb
      exact ⟨by omega, this.2⟩
    · rw [h1] at hb
      cases hb
      exact ⟨hb0, h2⟩
    · rw [h1] at hb
      cases hb
  · intro w hm b hb
    rcases hwp w hm with h1 | ⟨h1, h2⟩ | h1
    · have := hs.wp_wf w h1 b hb
      exact ⟨by omega, this.2⟩
    · rw [h1] at hb
      cases hb
      exact ⟨hb0, h2⟩
    · rw [h1] at hb
      cases hb
  · intro b hb
    by_cases hbb : b = b0
    · subst hbb
      exact hblk
    · obtain ⟨e1, e2, e3, e4, e5⟩ := hother b hbb
      rw [e1, e2, e3, e4, e5]
      rcases hlen2 b hb with h1 | h1
      · exact hs.blk b h1
      · exact absurd h1 hbb
  · intro b hb
    have hbb : b ≠ b0 := by omega
    obtain ⟨_, e2, e3, _, _⟩ := hother b hbb
    rw [e2, e3]
    exact hs.fresh b (by omega)

theorem sp_on_ne {b b0 : Nat} {h : shared_ptr} (hc : h.ctrl_blk = some b0) (hb : b ≠ b0) :
    sp_on b (some h) = false := by
  simp [sp_on, hc, Ne.symm hb]

theorem wp_on_ne {b b0 : Nat} {h : weak_ptr} (hc : h.ctrl_blk = some b0) (hb : b ≠ b0) :
    wp_on b (some h) = false := by
  simp [wp_on, hc, Ne.symm hb]

theorem sp_on_self {b0 : Nat} {h : shared_ptr} (hc : h.ctrl_blk = some b0) :
    sp_on b0 (some h) = true := by
  simp [sp_on, hc]

theorem wp_on_self {b0 : Nat} {h : weak_ptr} (hc : h.ctrl_blk = some b0) :
    wp_on b0 (some h) = true := by
  simp [wp_on, hc]

theorem sp_on_empty {b : Nat} {h : shared_ptr} (hc : h.ctrl_blk = none) :
    sp_on b (some h) = false := by
  simp [sp_on, hc]

theorem wp_on_empty {b : Nat} {h : weak_ptr} (hc : h.ctrl_blk = none) :
    wp_on b (some h) = false := by
  simp [wp_on, hc]

theorem sp_on_none (b : Nat) : sp_on b none = false := rfl

theorem wp_on_none (b : Nat) : wp_on b none = false := rfl

theorem live_shared_set (s : State) (i : Nat) (x a : Option shared_ptr) (m : Memory)
    (h : s.shared[i]? = some x) :
    State.live { mem := m, shared := s.shared.set i a, weak := s.weak } +
      (if x.isSome then 1 else 0) = s.live + (if a.isSome then 1 else 0) := by
  have := countP_set_of_getElem? Option.isSome s.shared i x a h
  unfold State.live
  simp only
  omega

theorem live_weak_set (s : State) (i : Nat) (x a : Option weak_ptr) (m : Memory)
    (h : s.weak[i]? = some x) :
    State.live { mem := m, shared := s.shared, weak := s.weak.set i a } +
      (if x.isSome then 1 else 0) = s.live + (if a.isSome then 1 else 0) := by
  have := countP_set_of_getElem? Option.isSome s.weak i x a h
  unfold State.live
  simp only
  omega

theorem mem_of_getElem?_eq {α : Type} {l : List α} {i : Nat} {x : α} (h : l[i]? = some x) :
    x ∈ l := by
  obtain ⟨hi, hx⟩ := List.getElem?_eq_some_iff.mp h
  exact hx ▸ List.getElem_mem hi

/-- The destructor `~shared_ptr()` of the live variable `i`. -/
theorem Inv.sp_destroy {s : State} (hs : Inv s) {i : Nat} {t : shared_ptr}
    (hi : s.shared[i]? = some (some t)) :
    Inv { mem := shared_ptr.check_and_delete s.mem t, shared := s.shared.set i none,
          weak := s.weak } := by
  have hmem := mem_of_getElem?_eq hi
  have hcnt : ∀ b, (s.shared.set i none).countP (sp_on b) +
      (if sp_on b (some t) then 1 else 0) = s.shared.countP (sp_on b) +
      (if sp_on b none then 1 else 0) :=
    fun b => countP_set_of_getElem? (sp_on b) s.shared i (some t) none hi
  have hlive := live_shared_set s i (some t) none (shared_ptr.check_and_delete s.mem t) hi
  have hlive0 := hs.live_le
  simp only [Option.isSome_some, Option.isSome_none, if_true] at hlive
  have hspm : ∀ h, some h ∈ s.shared.set i none → some h ∈ s.shared := by
    intro h hm
    rcases mem_of_mem_set hm with h1 | h1
    · cases h1
    · exact h1
  cases hc : t.ctrl_blk with
  | none =>
    apply hs.same_counts
    · simp [shared_ptr.sp_release_none _ _ hc]
    · intro b
      have := hcnt b
      rw [sp_on_empty hc, sp_on_none] at this
      simpa [State.strong_refs] using this
    · intro b
      rfl
    · intro h hm
      exact Or.inl (hspm h hm)
    · intro w hm
      exact Or.inl hm
    · simp at hlive
      omega
  | some b0 =>
    obtain ⟨hb0, hp⟩ := hs.sp_wf t hmem b0 hc
    obtain ⟨e1, e2, e3, e4, e5, e6⟩ := shared_ptr.sp_release_spec s.mem t b0 hc hb0
    apply hs.update_block b0
    · simp only [e1]
      omega
    · intro b hb
      simp only [e1] at hb
      exact Or.inl hb
    · simp only [e1]
      exact hb0
    · intro b hne
      obtain ⟨f1, f2, f3⟩ := e2 b hne
      refine ⟨f1, f2, f3, ?_, rfl⟩
      have := hcnt b
      rw [sp_on_ne hc hne, sp_on_none] at this
      simpa [State.strong_refs] using this
    · intro h hm
      exact Or.inl (hspm h hm)
    · intro w hm
      exact Or.inl hm
    · simp at hlive
      omega
    · have hS := hcnt b0
      rw [sp_on_self hc, sp_on_none] at hS
      simp only [if_true, Bool.false_eq_true, if_false, add_zero] at hS
      have hbi := hs.blk b0 hb0
      have hle := s.refs_le_live b0
      unfold BlockInv at hbi ⊢
      simp only [State.strong_refs, State.weak_refs] at hbi hle ⊢
      rw [e3, e4, e5, e6]
      obtain ⟨hA, -⟩ := hbi
      obtain ⟨r1, r2, r3, r4⟩ := hA (by omega)
      rw [r1, r2, size_t_dec_of_pos (by omega : 0 < s.shared.countP (sp_on b0))]
      have hw : size_t_dec (s.weak.countP (wp_on b0) + 1) = s.weak.countP (wp_on b0) := by
        rw [size_t_dec_of_pos (by omega)]
        omega
      rw [hw, r3, r4]
      have hlive1 : s.live ≤ MAX_LIVE := hlive0
      clear hlive hlive0 e1 e2 e3 e4 e5 e6
      refine ⟨fun h0 => ?_, fun h0 => ⟨?_, fun hW => ?_, fun hW => ?_⟩⟩ <;>
        (try refine ⟨?_, ?_, ?_, ?_⟩) <;> (try refine ⟨?_, ?_, ?_⟩) <;> (try split_ifs) <;> omega
    · exact shared_ptr.sp_release_ordered s.mem t hs.order

/-- The destructor `~weak_ptr()` of the live variable `i`. -/
theorem Inv.wp_destroy {s : State} (hs : Inv s) {i : Nat} {t : weak_ptr}
    (hi : s.weak[i]? = some (some t)) :
    Inv { mem := weak_ptr.check_and_delete s.mem t, shared := s.shared,
          weak := s.weak.set i none } := by
  have hmem := mem_of_getElem?_eq hi
  have hcnt : ∀ b, (s.weak.set i none).countP (wp_on b) +
      (if wp_on b (some t) then 1 else 0) = s.weak.countP (wp_on b) +
      (if wp_on b none then 1 else 0) :=
    fun b => countP_set_of_getElem? (wp_on b) s.weak i (some t) none hi
  have hlive := live_weak_set s i (some t) none (weak_ptr.check_and_delete s.mem t) hi
  have hlive0 := hs.live_le
  simp only [Option.isSome_some, Option.isSome_none, if_true] at hlive
  have hwpm : ∀ h, some h ∈ s.weak.set i none → some h ∈ s.weak := by
    intro h hm
    rcases mem_of_mem_set hm with h1 | h1
    · cases h1
    · exact h1
  cases hc : t.ctrl_blk with
  | none =>
    apply hs.same_counts
    · simp [weak_ptr.wp_release_none _ _ hc]
    · intro b
      rfl
    · intro b
      have := hcnt b
      rw [wp_on_empty hc, wp_on_none] at this
      simpa [State.weak_refs] using this
    · intro h hm
      exact Or.inl hm
    · intro w hm
      exact Or.inl (hwpm w hm)
    · simp at hlive
      omega
  | some b0 =>
    obtain ⟨hb0, hp⟩ := hs.wp_wf t hmem b0 hc
    obtain ⟨e1, e2, e3, e4, e5, e6⟩ := weak_ptr.wp_release_spec s.mem t b0 hc hb0
    have hW := hcnt b0
    rw [wp_on_self hc, wp_on_none] at hW
    simp only [if_true, Bool.false_eq_true, if_false, add_zero] at hW
    have hbi := hs.blk b0 hb0
    have hle := s.refs_le_live b0
    unfold BlockInv at hbi
    simp only [State.strong_refs, State.weak_refs] at hbi hle
    obtain ⟨hA, hB⟩ := hbi
    apply hs.update_block b0
    · simp only [e1]
      omega
    · intro b hb
      simp only [e1] at hb
      exact Or.inl hb
    · simp only [e1]
      exact hb0
    · intro b hne
      obtain ⟨f1, f3⟩ := e2 b hne
      refine ⟨f1, e3 b, f3, rfl, ?_⟩
      have := hcnt b
      rw [wp_on_ne hc hne, wp_on_none] at this
      simpa [State.weak_refs] using this
    · intro h hm
      exact Or.inl hm
    · intro w hm
      exact Or.inl (hwpm w hm)
    · simp at hlive
      omega
    · unfold BlockInv
      simp only [State.strong_refs, State.weak_refs]
      rw [e4, e5, e6, e3 b0]
      have hlive1 : s.live ≤ MAX_LIVE := hlive0
      clear hlive hlive0 e1 e2 e3 e4 e5 e6
      by_cases hS : 0 < s.shared.countP (sp_on b0)
      · obtain ⟨r1, r2, r3, r4⟩ := hA hS
        rw [r1, r2, r3, r4]
        have hw : size_t_dec (s.weak.countP (wp_on b0) + 1) = s.weak.countP (wp_on b0) := by
          rw [size_t_dec_of_pos (by omega)]
          omega
        rw [hw]
        refine ⟨fun h0 => ?_, fun h0 => ⟨?_, fun hW => ?_, fun hW => ?_⟩⟩ <;>
          (try refine ⟨?_, ?_, ?_, ?_⟩) <;> (try refine ⟨?_, ?_, ?_⟩) <;>
          (try split_ifs) <;> omega
      · obtain ⟨r3, hB1, -⟩ := hB (by omega)
        obtain ⟨r1, r2, r4⟩ := hB1 (by omega)
        rw [r1, r2, r3, r4]
        rw [size_t_dec_of_pos (by omega : 0 < s.weak.countP (wp_on b0))]
        refine ⟨fun h0 => ?_, fun h0 => ⟨?_, fun hW => ?_, fun hW => ?_⟩⟩ <;>
          (try refine ⟨?_, ?_, ?_, ?_⟩) <;> (try refine ⟨?_, ?_, ?_⟩) <;>
          (try split_ifs) <;> omega
    · apply weak_ptr.wp_release_ordered s.mem t hs.order
      intro b hb hw1
      rw [hc] at hb
      have hbb : b0 = b := Option.some.inj hb
      subst hbb
      by_cases hS : 0 < s.shared.countP (sp_on b0)
      · obtain ⟨r1, r2, r3, r4⟩ := hA hS
        omega
      · obtain ⟨r3, -, -⟩ := hB (by omega)
        omega

/-- A copy of a live non-empty strong handle is constructed in the dead variable `i`
(copy constructor, or a successful `lock()`). -/
theorem Inv.sp_put_share {s : State} (hs : Inv s) {i : Nat} {h : shared_ptr} {b0 : Nat}
    (hi : s.shared[i]? = some none) (hc : h.ctrl_blk = some b0) (hp : h.ptr ≠ 0)
    (hS : 0 < s.strong_refs b0) (hlt : s.live < MAX_LIVE) :
    Inv { mem := s.mem.write b0 (s.mem.read b0).increment,
          shared := s.shared.set i (some h), weak := s.weak } := by
  have hcnt : ∀ b, (s.shared.set i (some h)).countP (sp_on b) +
      (if sp_on b none then 1 else 0) = s.shared.countP (sp_on b) +
      (if sp_on b (some h) then 1 else 0) :=
    fun b => countP_set_of_getElem? (sp_on b) s.shared i none (some h) hi
  have hlive := live_shared_set s i none (some h)
    (s.mem.write b0 (s.mem.read b0).increment) hi
  simp only [Option.isSome_some, Option.isSome_none, if_true] at hlive
  obtain ⟨h1, hm1, hc1⟩ := (strong_refs_pos_iff _ _).mp hS
  have hb0 := (hs.sp_wf h1 hm1 b0 hc1).1
  have hS1 := hcnt b0
  rw [sp_on_self hc, sp_on_none] at hS1
  simp only [if_true, Bool.false_eq_true, if_false, add_zero] at hS1
  have hbi := hs.blk b0 hb0
  have hle := s.refs_le_live b0
  unfold BlockInv at hbi
  simp only [State.strong_refs, State.weak_refs] at hbi hle hS
  obtain ⟨hA, -⟩ := hbi
  obtain ⟨r1, r2, r3, r4⟩ := hA hS
  apply hs.update_block b0
  · simp
  · intro b hb
    simp only [Memory.length_write] at hb
    exact Or.inl hb
  · simpa using hb0
  · intro b hne
    refine ⟨by simp [hne], rfl, rfl, ?_, rfl⟩
    have := hcnt b
    rw [sp_on_ne hc hne, sp_on_none] at this
    simpa [State.strong_refs] using this
  · intro x hm
    rcases mem_of_mem_set hm with e | e
    · cases e
      exact Or.inr (Or.inl ⟨hc, hp⟩)
    · exact Or.inl e
  · intro w hm
    exact Or.inl hm
  · simp at hlive
    omega
  · unfold BlockInv
    simp only [State.strong_refs, State.weak_refs, Memory.read_write, hb0, and_self, if_true,
      Memory.destroyed_write, Memory.released_write, control_block.increment_ref,
      control_block.increment_weak]
    rw [r1, r2, r3, r4]
    have hinc : size_t_inc (s.shared.countP (sp_on b0)) = s.shared.countP (sp_on b0) + 1 := by
      apply size_t_inc_of_lt
      unfold SIZE_RANGE
      unfold MAX_LIVE at hlt
      omega
    rw [hinc]
    refine ⟨fun h0 => ?_, fun h0 => ?_⟩
    · refine ⟨?_, ?_, ?_, ?_⟩ <;> omega
    · omega
  · exact hs.order

/-- A copy of a weak handle, or a weak handle made from a strong one, is constructed in the
dead variable `i`. -/
theorem Inv.wp_put_share {s : State} (hs : Inv s) {i : Nat} {h : weak_ptr} {b0 : Nat}
    (hi : s.weak[i]? = some none) (hc : h.ctrl_blk = some b0) (hp : h.ptr ≠ 0)
    (hSW : 0 < s.strong_refs b0 ∨ 0 < s.weak_refs b0) (hlt : s.live < MAX_LIVE) :
    Inv { mem := s.mem.write b0 (s.mem.read b0).weak_increment,
          shared := s.shared, weak := s.weak.set i (some h) } := by
  have hcnt : ∀ b, (s.weak.set i (some h)).countP (wp_on b) +
      (if wp_on b none then 1 else 0) = s.weak.countP (wp_on b) +
      (if wp_on b (some h) then 1 else 0) :=
    fun b => countP_set_of_getElem? (wp_on b) s.weak i none (some h) hi
  have hlive := live_weak_set s i none (some h)
    (s.mem.write b0 (s.mem.read b0).weak_increment) hi
  simp only [Option.isSome_some, Option.isSome_none, if_true] at hlive
  have hb0 : b0 < s.mem.blocks.length := by
    rcases hSW with hS | hW
    · obtain ⟨h1, hm1, hc1⟩ := (strong_refs_pos_iff _ _).mp hS
      exact (hs.sp_wf h1 hm1 b0 hc1).1
    · obtain ⟨h1, hm1, hc1⟩ := (weak_refs_pos_iff _ _).mp hW
      exact (hs.wp_wf h1 hm1 b0 hc1).1
  have hW1 := hcnt b0
  rw [wp_on_self hc, wp_on_none] at hW1
  simp only [if_true, Bool.false_eq_true, if_false, add_zero] at hW1
  have hbi := hs.blk b0 hb0
  have hle := s.refs_le_live b0
  unfold BlockInv at hbi
  simp only [State.strong_refs, State.weak_refs] at hbi hle hSW
  obtain ⟨hA, hB⟩ := hbi
  apply hs.update_block b0
  · simp
  · intro b hb
    simp only [Memory.length_write] at hb
    exact Or.inl hb
  · simpa using hb0
  · intro b hne
    refine ⟨by simp [hne], rfl, rfl, rfl, ?_⟩
    have := hcnt b
    rw [wp_on_ne hc hne, wp_on_none] at this
    simpa [State.weak_refs] using this
  · intro x hm
    exact Or.inl hm
  · intro w hm
    rcases mem_of_mem_set hm with e | e
    · cases e
      exact Or.inr (Or.inl ⟨hc, hp⟩)
    · exact Or.inl e
  · simp at hlive
    omega
  · unfold BlockInv
    simp only [State.strong_refs, State.weak_refs, Memory.read_write, hb0, and_self, if_true,
      Memory.destroyed_write, Memory.released_write, control_block.weak_increment_ref,
      control_block.weak_increment_weak]
    have hbound : s.weak.countP (wp_on b0) + 2 < SIZE_RANGE := by
      unfold SIZE_RANGE
      unfold MAX_LIVE at hlt
      omega
    by_cases hS : 0 < s.shared.countP (sp_on b0)
    · obtain ⟨r1, r2, r3, r4⟩ := hA hS
      rw [r1, r2, r3, r4, size_t_inc_of_lt (by omega)]
      refine ⟨fun h0 => ?_, fun h0 => ?_⟩
      · refine ⟨?_, ?_, ?_, ?_⟩ <;> omega
      · omega
    · have hWp : 0 < s.weak.countP (wp_on b0) := by
        rcases hSW with h1 | h1
        · exact absurd h1 hS
        · exact h1
      obtain ⟨r3, hB1, -⟩ := hB (by omega)
      obtain ⟨r1, r2, r4⟩ := hB1 hWp
      rw [r1, r2, r3, r4, size_t_inc_of_lt (by omega)]
      refine ⟨fun h0 => ?_, fun h0 => ⟨?_, fun hW => ?_, fun hW => ?_⟩⟩ <;>
        (try refine ⟨?_, ?_, ?_⟩) <;> omega
  · exact hs.order

theorem size_t_inc_zero : size_t_inc 0 = 1 := by
  apply size_t_inc_of_lt
  unfold SIZE_RANGE
  omega

theorem shared_ptr.mk_from_null (m : Memory) : shared_ptr.mk_from m 0 = (m, {}) := by
  simp [shared_ptr.mk_from]

theorem shared_ptr.mk_from_spec (m : Memory) (p : Nat) (hp : p ≠ 0) :
    (shared_ptr.mk_from m p).2 = { ctrl_blk := some m.blocks.length, ptr := p } ∧
    (shared_ptr.mk_from m p).1.blocks.length = m.blocks.length + 1 ∧
    (shared_ptr.mk_from m p).1.read m.blocks.length = { ref_count_ := 1, weak_count_ := 1 } ∧
    (∀ b, b ≠ m.blocks.length → (shared_ptr.mk_from m p).1.read b = m.read b) ∧
    (shared_ptr.mk_from m p).1.trace = m.trace := by
  simp only [shared_ptr.mk_from, hp, if_false]
  refine ⟨rfl, by simp, ?_, ?_, rfl⟩
  · simp [control_block.increment, control_block.weak_increment, size_t_inc_zero]
  · intro b hb
    simp [hb]

/-- A fresh value is adopted by a strong handle constructed in the dead variable `i`. -/
theorem Inv.sp_put_new {s : State} (hs : Inv s) {i : Nat} (p : Nat)
    (hi : s.shared[i]? = some none) (hlt : s.live < MAX_LIVE) :
    Inv { mem := (shared_ptr.mk_from s.mem p).1,
          shared := s.shared.set i (some (shared_ptr.mk_from s.mem p).2), weak := s.weak } := by
  have hcnt : ∀ b h, (s.shared.set i (some h)).countP (sp_on b) +
      (if sp_on b none then 1 else 0) = s.shared.countP (sp_on b) +
      (if sp_on b (some h) then 1 else 0) :=
    fun b h => countP_set_of_getElem? (sp_on b) s.shared i none (some h) hi
  have hlive : ∀ (m : Memory) (h : shared_ptr),
      State.live ⟨m, s.shared.set i (some h), s.weak⟩ = s.live + 1 := by
    intro m h
    have := live_shared_set s i none (some h) m hi
    simpa using this
  by_cases hp : p = 0
  · subst hp
    rw [shared_ptr.mk_from_null]
    apply hs.same_counts
    · rfl
    · intro b
      have := hcnt b {}
      rw [sp_on_empty rfl, sp_on_none] at this
      simpa [State.strong_refs] using this
    · intro b
      rfl
    · intro x hm
      rcases mem_of_mem_set hm with e | e
      · cases e
        exact Or.inr rfl
      · exact Or.inl e
    · intro w hm
      exact Or.inl hm
    · rw [hlive]
      omega
  · obtain ⟨e1, e2, e3, e4, e5⟩ := shared_ptr.mk_from_spec s.mem p hp
    have hc : (shared_ptr.mk_from s.mem p).2.ctrl_blk = some s.mem.blocks.length := by
      rw [e1]
    have hptr : (shared_ptr.mk_from s.mem p).2.ptr ≠ 0 := by
      rw [e1]
      exact hp
    have hD : ∀ b, (shared_ptr.mk_from s.mem p).1.destroyed b = s.mem.destroyed b := by
      intro b
      unfold Memory.destroyed
      rw [e5]
    have hR : ∀ b, (shared_ptr.mk_from s.mem p).1.released b = s.mem.released b := by
      intro b
      unfold Memory.released
      rw [e5]
    apply hs.update_block s.mem.blocks.length
    · simp only [e2]
      omega
    · intro b hb
      simp only [e2] at hb
      omega
    · simp only [e2]
      omega
    · intro b hne
      refine ⟨e4 b hne, hD b, hR b, ?_, rfl⟩
      have := hcnt b (shared_ptr.mk_from s.mem p).2
      rw [sp_on_ne hc hne, sp_on_none] at this
      simpa [State.strong_refs] using this
    · intro x hm
      rcases mem_of_mem_set hm with e | e
      · cases e
        exact Or.inr (Or.inl ⟨hc, hptr⟩)
      · exact Or.inl e
    · intro w hm
      exact Or.inl hm
    · rw [hlive]
      omega
    · have hS := hcnt s.mem.blocks.length (shared_ptr.mk_from s.mem p).2
      rw [sp_on_self hc, sp_on_none] at hS
      simp only [if_true, Bool.false_eq_true, if_false, add_zero] at hS
      have hS0 := hs.strong_refs_fresh s.mem.blocks.length (Nat.le_refl _)
      have hW0 := hs.weak_refs_fresh s.mem.blocks.length (Nat.le_refl _)
      obtain ⟨hD0, hR0⟩ := hs.fresh s.mem.blocks.length (Nat.le_refl _)
      unfold BlockInv
      simp only [State.strong_refs, State.weak_refs] at hS0 hW0 ⊢
      rw [e3, hD, hR, hD0, hR0, hW0, hS, hS0]
      refine ⟨fun _ => ⟨rfl, rfl, rfl, rfl⟩, fun h0 => ?_⟩
      omega
    · rw [e5]
      exact hs.order

/-- An empty strong handle is constructed in the dead variable `i`. -/
theorem Inv.sp_put_empty {s : State} (hs : Inv s) {i : Nat} {h : shared_ptr}
    (hi : s.shared[i]? = some none) (hc : h.ctrl_blk = none) (hlt : s.live < MAX_LIVE) :
    Inv { mem := s.mem, shared := s.shared.set i (some h), weak := s.weak } := by
  apply hs.same_counts
  · rfl
  · intro b
    have := countP_set_of_getElem? (sp_on b) s.shared i none (some h) hi
    rw [sp_on_empty hc, sp_on_none] at this
    simpa [State.strong_refs] using this
  · intro b
    rfl
  · intro x hm
    rcases mem_of_mem_set hm with e | e
    · cases e
      exact Or.inr hc
    · exact Or.inl e
  · intro w hm
    exact Or.inl hm
  · have := live_shared_set s i none (some h) s.mem hi
    simp at this
    omega

/-- An empty weak handle is constructed in the dead variable `i`. -/
theorem Inv.wp_put_empty {s : State} (hs : Inv s) {i : Nat} {h : weak_ptr}
    (hi : s.weak[i]? = some none) (hc : h.ctrl_blk = none) (hlt : s.live < MAX_LIVE) :
    Inv { mem := s.mem, shared := s.shared, weak := s.weak.set i (some h) } := by
  apply hs.same_counts
  · rfl
  · intro b
    rfl
  · intro b
    have := countP_set_of_getElem? (wp_on b) s.weak i none (some h) hi
    rw [wp_on_empty hc, wp_on_none] at this
    simpa [State.weak_refs] using this
  · intro x hm
    exact Or.inl hm
  · intro w hm
    rcases mem_of_mem_set hm with e | e
    · cases e
      exact Or.inr hc
    · exact Or.inl e
  · have := live_weak_set s i none (some h) s.mem hi
    simp at this
    omega

/-- The move constructor: the dead variable `i` takes over the handle of the live `j`. -/
theorem Inv.sp_move {s : State} (hs : Inv s) {i j : Nat} {o : shared_ptr}
    (hi : s.shared[i]? = some none) (hj : s.shared[j]? = some (some o))
    (hlt : s.live < MAX_LIVE) :
    Inv { mem := s.mem,
          shared := (s.shared.set i (some (shared_ptr.move o).1)).set j
            (some (shared_ptr.move o).2),
          weak := s.weak } := by
  have hij : i ≠ j := by
    intro e
    subst e
    rw [hi] at hj
    cases hj
  have hj1 : (s.shared.set i (some (shared_ptr.move o).1))[j]? = some (some o) := by
    rw [List.getElem?_set_ne hij]
    exact hj
  have hom := mem_of_getElem?_eq hj
  apply hs.same_counts
  · rfl
  · intro b
    have c1 := countP_set_of_getElem? (sp_on b) s.shared i none
      (some (shared_ptr.move o).1) hi
    have c2 := countP_set_of_getElem? (sp_on b) _ j (some o) (some (shared_ptr.move o).2) hj1
    have e1 : sp_on b (some (shared_ptr.move o).1) = sp_on b (some o) := rfl
    have e2 : sp_on b (some (shared_ptr.move o).2) = false := rfl
    rw [e1, sp_on_none] at c1
    rw [e2] at c2
    simp only [State.strong_refs]
    simp only [Bool.false_eq_true, if_false, add_zero] at c1 c2
    omega
  · intro b
    rfl
  · intro x hm
    rcases mem_of_mem_set hm with e | e
    · cases e
      exact Or.inr rfl
    · rcases mem_of_mem_set e with e1 | e1
      · cases e1
        exact Or.inl hom
      · exact Or.inl e1
  · intro w hm
    exact Or.inl hm
  · have l1 := countP_set_of_getElem? Option.isSome s.shared i none
      (some (shared_ptr.move o).1) hi
    have l2 := countP_set_of_getElem? Option.isSome _ j (some o)
      (some (shared_ptr.move o).2) hj1
    simp only [Option.isSome_some, Option.isSome_none, if_true, Bool.false_eq_true, if_false,
      add_zero] at l1 l2
    unfold State.live at hlt ⊢
    simp only
    omega

/-- The move constructor of `weak_ptr`. -/
theorem Inv.wp_move {s : State} (hs : Inv s) {i j : Nat} {o : weak_ptr}
    (hi : s.weak[i]? = some none) (hj : s.weak[j]? = some (some o))
    (hlt : s.live < MAX_LIVE) :
    Inv { mem := s.mem, shared := s.shared,
          weak := (s.weak.set i (some (weak_ptr.move o).1)).set j
            (some (weak_ptr.move o).2) } := by
  have hij : i ≠ j := by
    intro e
    subst e
    rw [hi] at hj
    cases hj
  have hj1 : (s.weak.set i (some (weak_ptr.move o).1))[j]? = some (some o) := by
    rw [List.getElem?_set_ne hij]
    exact hj
  have hom := mem_of_getElem?_eq hj
  apply hs.same_counts
  · rfl
  · intro b
    rfl
  · intro b
    have c1 := countP_set_of_getElem? (wp_on b) s.weak i none
      (some (weak_ptr.move o).1) hi
    have c2 := countP_set_of_getElem? (wp_on b) _ j (some o) (some (weak_ptr.move o).2) hj1
    have e1 : wp_on b (some (weak_ptr.move o).1) = wp_on b (some o) := rfl
    have e2 : wp_on b (some (weak_ptr.move o).2) = false := rfl
    rw [e1, wp_on_none] at c1
    rw [e2] at c2
    simp only [State.weak_refs]
    simp only [Bool.false_eq_true, if_false, add_zero] at c1 c2
    omega
  · intro x hm
    exact Or.inl hm
  · intro w hm
    rcases mem_of_mem_set hm with e | e
    · cases e
      exact Or.inr rfl
    · rcases mem_of_mem_set e with e1 | e1
      · cases e1
        exact Or.inl hom
      · exact Or.inl e1
  · have l1 := countP_set_of_getElem? Option.isSome s.weak i none
      (some (weak_ptr.move o).1) hi
    have l2 := countP_set_of_getElem? Option.isSome _ j (some o)
      (some (weak_ptr.move o).2) hj1
    simp only [Option.isSome_some, Option.isSome_none, if_true, Bool.false_eq_true, if_false,
      add_zero] at l1 l2
    unfold State.live at hlt ⊢
    simp only
    omega

/-- A new strong handle variable is declared, not yet constructed. -/
theorem Inv.declare_sp {s : State} (hs : Inv s) :
    Inv { mem := s.mem, shared := s.shared ++ [none], weak := s.weak } := by
  apply hs.same_counts
  · rfl
  · intro b
    simp [State.strong_refs, List.countP_append, sp_on_none]
  · intro b
    rfl
  · intro x hm
    simp at hm
    exact Or.inl hm
  · intro w hm
    exact Or.inl hm
  · have := hs.live_le
    simpa [State.live, List.countP_append] using this

/-- A new weak handle variable is declared, not yet constructed. -/
theorem Inv.declare_wp {s : State} (hs : Inv s) :
    Inv { mem := s.mem, shared := s.shared, weak := s.weak ++ [none] } := by
  apply hs.same_counts
  · rfl
  · intro b
    rfl
  · intro b
    simp [State.weak_refs, List.countP_append, wp_on_none]
  · intro x hm
    exact Or.inl hm
  · intro w hm
    simp at hm
    exact Or.inl hm
  · have := hs.live_le
    simpa [State.live, List.countP_append] using this

/-! ## Declaring a variable and constructing it in one statement -/

theorem append_singleton_eq_set {α : Type} (l : List α) (z x : α) :
    l ++ [x] = (l ++ [z]).set l.length x := by
  induction l with
  | nil => rfl
  | cons a l ih => simp [← ih]

theorem getElem?_append_singleton {α : Type} (l : List α) (z : α) :
    (l ++ [z])[l.length]? = some z := by
  simp

theorem set_append_singleton {α : Type} (l : List α) (j : Nat) (x y z : α)
    (hj : j < l.length) : l.set j x ++ [y] = ((l ++ [z]).set l.length y).set j x := by
  induction l generalizing j with
  | nil => simp at hj
  | cons a l ih =>
    cases j with
    | zero => simp [← append_singleton_eq_set]
    | succ j =>
      have hj1 : j < l.length := by simpa using hj
      simp [ih j hj1]

theorem live_declare_sp (s : State) :
    State.live ⟨s.mem, s.shared ++ [none], s.weak⟩ = s.live := by
  simp [State.live, List.countP_append]

theorem live_declare_wp (s : State) :
    State.live ⟨s.mem, s.shared, s.weak ++ [none]⟩ = s.live := by
  simp [State.live, List.countP_append]

theorem strong_refs_declare_sp (s : State) (b : Nat) :
    State.strong_refs ⟨s.mem, s.shared ++ [none], s.weak⟩ b = s.strong_refs b := by
  simp [State.strong_refs, List.countP_append, sp_on_none]

theorem weak_refs_declare_wp (s : State) (b : Nat) :
    State.weak_refs ⟨s.mem, s.shared, s.weak ++ [none]⟩ b = s.weak_refs b := by
  simp [State.weak_refs, List.countP_append, wp_on_none]

theorem Inv.push_sp_empty {s : State} (hs : Inv s) {h : shared_ptr}
    (hc : h.ctrl_blk = none) (hlt : s.live < MAX_LIVE) :
    Inv { mem := s.mem, shared := s.shared ++ [some h], weak := s.weak } := by
  have := hs.declare_sp.sp_put_empty (getElem?_append_singleton s.shared none) hc
    (by rw [live_declare_sp]; exact hlt)
  rw [append_singleton_eq_set s.shared none]
  exact this

theorem Inv.push_sp_share {s : State} (hs : Inv s) {h : shared_ptr} {b0 : Nat}
    (hc : h.ctrl_blk = some b0) (hp : h.ptr ≠ 0) (hS : 0 < s.strong_refs b0)
    (hlt : s.live < MAX_LIVE) :
    Inv { mem := s.mem.write b0 (s.mem.read b0).increment, shared := s.shared ++ [some h],
          weak := s.weak } := by
  have := hs.declare_sp.sp_put_share (getElem?_append_singleton s.shared none) hc hp
    (by rw [strong_refs_declare_sp]; exact hS) (by rw [live_declare_sp]; exact hlt)
  rw [append_singleton_eq_set s.shared none]
  exact this

theorem Inv.push_sp_new {s : State} (hs : Inv s) (p : Nat) (hlt : s.live < MAX_LIVE) :
    Inv { mem := (shared_ptr.mk_from s.mem p).1,
          shared := s.shared ++ [some (shared_ptr.mk_from s.mem p).2], weak := s.weak } := by
  have := hs.declare_sp.sp_put_new p (getElem?_append_singleton s.shared none)
    (by rw [live_declare_sp]; exact hlt)
  rw [append_singleton_eq_set s.shared none]
  exact this

theorem Inv.push_sp_move {s : State} (hs : Inv s) {j : Nat} {o : shared_ptr}
    (hj : s.shared[j]? = some (some o)) (hlt : s.live < MAX_LIVE) :
    Inv { mem := s.mem,
          shared := s.shared.set j (some (shared_ptr.move o).2) ++ [some (shared_ptr.move o).1],
          weak := s.weak } := by
  have hjl : j < s.shared.length := (List.getElem?_eq_some_iff.mp hj).1
  have hj1 : (s.shared ++ [none])[j]? = some (some o) := by
    rw [List.getElem?_append_left hjl]
    exact hj
  have := hs.declare_sp.sp_move (getElem?_append_singleton s.shared none) hj1
    (by rw [live_declare_sp]; exact hlt)
  rw [set_append_singleton s.shared j _ _ none hjl]
  exact this

theorem Inv.push_wp_empty {s : State} (hs : Inv s) {h : weak_ptr}
    (hc : h.ctrl_blk = none) (hlt : s.live < MAX_LIVE) :
    Inv { mem := s.mem, shared := s.shared, weak := s.weak ++ [some h] } := by
  have := hs.declare_wp.wp_put_empty (getElem?_append_singleton s.weak none) hc
    (by rw [live_declare_wp]; exact hlt)
  rw [append_singleton_eq_set s.weak none]
  exact this

theorem Inv.push_wp_share {s : State} (hs : Inv s) {h : weak_ptr} {b0 : Nat}
    (hc : h.ctrl_blk = some b0) (hp : h.ptr ≠ 0)
    (hSW : 0 < s.strong_refs b0 ∨ 0 < s.weak_refs b0) (hlt : s.live < MAX_LIVE) :
    Inv { mem := s.mem.write b0 (s.mem.read b0).weak_increment, shared := s.shared,
          weak := s.weak ++ [some h] } := by
  have := hs.declare_wp.wp_put_share (getElem?_append_singleton s.weak none) hc hp
    (by rw [weak_refs_declare_wp]; exact hSW) (by rw [live_declare_wp]; exact hlt)
  rw [append_singleton_eq_set s.weak none]
  exact this

theorem Inv.push_wp_move {s : State} (hs : Inv s) {j : Nat} {o : weak_ptr}
    (hj : s.weak[j]? = some (some o)) (hlt : s.live < MAX_LIVE) :
    Inv { mem := s.mem, shared := s.shared,
          weak := s.weak.set j (some (weak_ptr.move o).2) ++ [some (weak_ptr.move o).1] } := by
  have hjl : j < s.weak.length := (List.getElem?_eq_some_iff.mp hj).1
  have hj1 : (s.weak ++ [none])[j]? = some (some o) := by
    rw [List.getElem?_append_left hjl]
    exact hj
  have := hs.declare_wp.wp_move (getElem?_append_singleton s.weak none) hj1
    (by rw [live_declare_wp]; exact hlt)
  rw [set_append_singleton s.weak j _ _ none hjl]
  exact this

/-! ## `lock()` without concurrent modification -/

theorem weak_ptr.lock_nil_zero (m : Memory) (w : weak_ptr)
    (h : weak_ptr.use_count m w = 0) :
    weak_ptr.lock m w [] = some { mem := m, ret := {}, cas := none, old := 0 } := by
  simp [weak_ptr.lock, weak_ptr.lock_loop, h]

theorem weak_ptr.lock_nil_pos (m : Memory) (w : weak_ptr) (b : Nat)
    (hc : w.ctrl_blk = some b) (hn : (m.read b).ref_count_ ≠ 0) :
    weak_ptr.lock m w [] =
      some { mem := m.write b (m.read b).increment,
             ret := { ctrl_blk := some b, ptr := w.ptr },
             cas := some ((m.read b).ref_count_, size_t_inc (m.read b).ref_count_),
             old := (m.read b).ref_count_ } := by
  simp [weak_ptr.lock, weak_ptr.lock_loop, weak_ptr.use_count, hc, control_block.count, hn,
    control_block.compare_exchange_strong, shared_ptr.from_weak, control_block.increment,
    weak_ptr.before_cas]

theorem State.sp_eq_some {s : State} {i : Nat} {o : shared_ptr} (h : s.sp i = some o) :
    s.shared[i]? = some (some o) := by
  unfold State.sp at h
  rw [List.getD_eq_getElem?_getD] at h
  cases hx : s.shared[i]? with
  | none => simp [hx] at h
  | some x =>
    rw [hx] at h
    simp only [Option.getD_some] at h
    rw [h]

theorem State.wp_eq_some {s : State} {i : Nat} {o : weak_ptr} (h : s.wp i = some o) :
    s.weak[i]? = some (some o) := by
  unfold State.wp at h
  rw [List.getD_eq_getElem?_getD] at h
  cases hx : s.weak[i]? with
  | none => simp [hx] at h
  | some x =>
    rw [hx] at h
    simp only [Option.getD_some] at h
    rw [h]

theorem shared_ptr.reset_eq (m : Memory) (t : shared_ptr) (p : Nat) :
    shared_ptr.reset m t p = shared_ptr.mk_from (shared_ptr.check_and_delete m t) p := by
  unfold shared_ptr.reset shared_ptr.mk_from
  by_cases hp : p = 0
  · simp [hp]
  · simp [hp]

/-! ## Every statement preserves the invariant -/

theorem Inv.strong_pos_of_mem {s : State} {o : shared_ptr} {b : Nat} (hm : some o ∈ s.shared)
    (hc : o.ctrl_blk = some b) : 0 < s.strong_refs b :=
  (strong_refs_pos_iff _ _).mpr ⟨o, hm, hc⟩

theorem Inv.weak_pos_of_mem {s : State} {o : weak_ptr} {b : Nat} (hm : some o ∈ s.weak)
    (hc : o.ctrl_blk = some b) : 0 < s.weak_refs b :=
  (weak_refs_pos_iff _ _).mpr ⟨o, hm, hc⟩

theorem Inv.step_sp_copy {s : State} (hs : Inv s) {src : Nat} {o : shared_ptr}
    (ho : s.sp src = some o) (hlt : s.live < MAX_LIVE) :
    Inv { mem := (shared_ptr.copy s.mem o).1,
          shared := s.shared ++ [some (shared_ptr.copy s.mem o).2], weak := s.weak } := by
  have hm := mem_of_getElem?_eq (State.sp_eq_some ho)
  cases hc : o.ctrl_blk with
  | none =>
    simp only [shared_ptr.copy, hc]
    exact hs.push_sp_empty rfl hlt
  | some b =>
    simp only [shared_ptr.copy, hc]
    exact hs.push_sp_share rfl (hs.sp_wf o hm b hc).2 (Inv.strong_pos_of_mem hm hc) hlt

theorem Inv.step_wp_from_shared {s : State} (hs : Inv s) {src : Nat} {o : shared_ptr}
    (ho : s.sp src = some o) (hlt : s.live < MAX_LIVE) :
    Inv { mem := (weak_ptr.from_shared s.mem o).1, shared := s.shared,
          weak := s.weak ++ [some (weak_ptr.from_shared s.mem o).2] } := by
  have hm := mem_of_getElem?_eq (State.sp_eq_some ho)
  cases hc : o.ctrl_blk with
  | none =>
    simp only [weak_ptr.from_shared, hc]
    exact hs.push_wp_empty rfl hlt
  | some b =>
    simp only [weak_ptr.from_shared, hc]
    exact hs.push_wp_share rfl (hs.sp_wf o hm b hc).2
      (Or.inl (Inv.strong_pos_of_mem hm hc)) hlt

theorem Inv.step_wp_copy {s : State} (hs : Inv s) {src : Nat} {o : weak_ptr}
    (ho : s.wp src = some o) (hlt : s.live < MAX_LIVE) :
    Inv { mem := (weak_ptr.copy s.mem o).1, shared := s.shared,
          weak := s.weak ++ [some (weak_ptr.copy s.mem o).2] } := by
  have hm := mem_of_getElem?_eq (State.wp_eq_some ho)
  cases hc : o.ctrl_blk with
  | none =>
    simp only [weak_ptr.copy, hc]
    exact hs.push_wp_empty rfl hlt
  | some b =>
    simp only [weak_ptr.copy, hc]
    exact hs.push_wp_share rfl (hs.wp_wf o hm b hc).2
      (Or.inr (Inv.weak_pos_of_mem hm hc)) hlt

theorem getElem?_set_none_self {α : Type} {l : List (Option α)} {i : Nat} {x : Option α}
    (h : l[i]? = some x) : (l.set i none)[i]? = some none := by
  have hi := (List.getElem?_eq_some_iff.mp h).1
  rw [List.getElem?_set]
  simp [hi]

theorem Inv.step_sp_assign {s : State} (hs : Inv s) {dst src : Nat} {t o : shared_ptr}
    (ht : s.sp dst = some t) (ho : s.sp src = some o) (hne : dst ≠ src) :
    Inv { mem := (shared_ptr.assign s.mem t o).1,
          shared := s.shared.set dst (some (shared_ptr.assign s.mem t o).2),
          weak := s.weak } := by
  have ht1 := State.sp_eq_some ht
  have ho1 := State.sp_eq_some ho
  have h1 := hs.sp_destroy ht1
  have hd : (s.shared.set dst none)[dst]? = some none := getElem?_set_none_self ht1
  have hsrc : (s.shared.set dst none)[src]? = some (some o) := by
    rw [List.getElem?_set_ne hne]
    exact ho1
  have hm := mem_of_getElem?_eq hsrc
  have hlive := live_shared_set s dst (some t) none (shared_ptr.check_and_delete s.mem t) ht1
  have hl0 := hs.live_le
  simp only [Option.isSome_some, Option.isSome_none, if_true, Bool.false_eq_true, if_false,
    add_zero] at hlive
  have hlt : State.live ⟨shared_ptr.check_and_delete s.mem t, s.shared.set dst none, s.weak⟩
      < MAX_LIVE := by omega
  cases hc : o.ctrl_blk with
  | none =>
    have := h1.sp_put_empty (h := { ctrl_blk := none, ptr := o.ptr }) hd rfl hlt
    simp only [List.set_set] at this
    simpa only [shared_ptr.assign, hc] using this
  | some b =>
    have := h1.sp_put_share (h := { ctrl_blk := some b, ptr := o.ptr }) hd rfl
      (h1.sp_wf o hm b hc).2 (Inv.strong_pos_of_mem hm hc) hlt
    simp only [List.set_set] at this
    simpa only [shared_ptr.assign, hc] using this

theorem Inv.step_sp_assign_move {s : State} (hs : Inv s) {dst src : Nat} {t o : shared_ptr}
    (ht : s.sp dst = some t) (ho : s.sp src = some o) (hne : dst ≠ src) :
    Inv { mem := (shared_ptr.assign_move s.mem t o).1,
          shared := (s.shared.set dst (some (shared_ptr.assign_move s.mem t o).2.1)).set src
            (some (shared_ptr.assign_move s.mem t o).2.2),
          weak := s.weak } := by
  have ht1 := State.sp_eq_some ht
  have ho1 := State.sp_eq_some ho
  have h1 := hs.sp_destroy ht1
  have hd : (s.shared.set dst none)[dst]? = some none := getElem?_set_none_self ht1
  have hsrc : (s.shared.set dst none)[src]? = some (some o) := by
    rw [List.getElem?_set_ne hne]
    exact ho1
  have hlive := live_shared_set s dst (some t) none (shared_ptr.check_and_delete s.mem t) ht1
  have hl0 := hs.live_le
  simp only [Option.isSome_some, Option.isSome_none, if_true, Bool.false_eq_true, if_false,
    add_zero] at hlive
  have hlt : State.live ⟨shared_ptr.check_and_delete s.mem t, s.shared.set dst none, s.weak⟩
      < MAX_LIVE := by omega
  have := h1.sp_move hd hsrc hlt
  simp only [List.set_set] at this
  exact this

theorem Inv.step_sp_reset {s : State} (hs : Inv s) {dst : Nat} {t : shared_ptr} (p : Nat)
    (ht : s.sp dst = some t) :
    Inv { mem := (shared_ptr.reset s.mem t p).1,
          shared := s.shared.set dst (some (shared_ptr.reset s.mem t p).2),
          weak := s.weak } := by
  have ht1 := State.sp_eq_some ht
  have h1 := hs.sp_destroy ht1
  have hd : (s.shared.set dst none)[dst]? = some none := getElem?_set_none_self ht1
  have hlive := live_shared_set s dst (some t) none (shared_ptr.check_and_delete s.mem t) ht1
  have hl0 := hs.live_le
  simp only [Option.isSome_some, Option.isSome_none, if_true, Bool.false_eq_true, if_false,
    add_zero] at hlive
  have hlt : State.live ⟨shared_ptr.check_and_delete s.mem t, s.shared.set dst none, s.weak⟩
      < MAX_LIVE := by omega
  have := h1.sp_put_new p hd hlt
  simp only [List.set_set] at this
  rw [shared_ptr.reset_eq]
  exact this

theorem Inv.step_wp_assign {s : State} (hs : Inv s) {dst src : Nat} {t o : weak_ptr}
    (ht : s.wp dst = some t) (ho : s.wp src = some o) (hne : dst ≠ src) :
    Inv { mem := (weak_ptr.assign s.mem t o).1, shared := s.shared,
          weak := s.weak.set dst (some (weak_ptr.assign s.mem t o).2) } := by
  have ht1 := State.wp_eq_some ht
  have ho1 := State.wp_eq_some ho
  have h1 := hs.wp_destroy ht1
  have hd : (s.weak.set dst none)[dst]? = some none := getElem?_set_none_self ht1
  have hsrc : (s.weak.set dst none)[src]? = some (some o) := by
    rw [List.getElem?_set_ne hne]
    exact ho1
  have hm := mem_of_getElem?_eq hsrc
  have hlive := live_weak_set s dst (some t) none (weak_ptr.check_and_delete s.mem t) ht1
  have hl0 := hs.live_le
  simp only [Option.isSome_some, Option.isSome_none, if_true, Bool.false_eq_true, if_false,
    add_zero] at hlive
  have hlt : State.live ⟨weak_ptr.check_and_delete s.mem t, s.shared, s.weak.set dst none⟩
      < MAX_LIVE := by omega
  cases hc : o.ctrl_blk with
  | none =>
    have := h1.wp_put_empty (h := { ctrl_blk := none, ptr := o.ptr }) hd rfl hlt
    simp only [List.set_set] at this
    simpa only [weak_ptr.assign, hc] using this
  | some b =>
    have := h1.wp_put_share (h := { ctrl_blk := some b, ptr := o.ptr }) hd rfl
      (h1.wp_wf o hm b hc).2 (Or.inr (Inv.weak_pos_of_mem hm hc)) hlt
    simp only [List.set_set] at this
    simpa only [weak_ptr.assign, hc] using this

theorem Inv.step_wp_assign_move {s : State} (hs : Inv s) {dst src : Nat} {t o : weak_ptr}
    (ht : s.wp dst = some t) (ho : s.wp src = some o) (hne : dst ≠ src) :
    Inv { mem := (weak_ptr.assign_move s.mem t o).1, shared := s.shared,
          weak := (s.weak.set dst (some (weak_ptr.assign_move s.mem t o).2.1)).set src
            (some (weak_ptr.assign_move s.mem t o).2.2) } := by
  have ht1 := State.wp_eq_some ht
  have ho1 := State.wp_eq_some ho
  have h1 := hs.wp_destroy ht1
  have hd : (s.weak.set dst none)[dst]? = some none := getElem?_set_none_self ht1
  have hsrc : (s.weak.set dst none)[src]? = some (some o) := by
    rw [List.getElem?_set_ne hne]
    exact ho1
  have hlive := live_weak_set s dst (some t) none (weak_ptr.check_and_delete s.mem t) ht1
  have hl0 := hs.live_le
  simp only [Option.isSome_some, Option.isSome_none, if_true, Bool.false_eq_true, if_false,
    add_zero] at hlive
  have hlt : State.live ⟨weak_ptr.check_and_delete s.mem t, s.shared, s.weak.set dst none⟩
      < MAX_LIVE := by omega
  have := h1.wp_move hd hsrc hlt
  simp only [List.set_set] at this
  exact this

theorem Inv.step_wp_lock {s : State} (hs : Inv s) {src : Nat} {w : weak_ptr}
    {r : weak_ptr.LockResult} (hw : s.wp src = some w) (hlt : s.live < MAX_LIVE)
    (hr : weak_ptr.lock s.mem w [] = some r) :
    Inv { mem := r.mem, shared := s.shared ++ [some r.ret], weak := s.weak } := by
  have hm := mem_of_getElem?_eq (State.wp_eq_some hw)
  by_cases h0 : weak_ptr.use_count s.mem w = 0
  · rw [weak_ptr.lock_nil_zero _ _ h0] at hr
    cases hr
    exact hs.push_sp_empty rfl hlt
  · cases hc : w.ctrl_blk with
    | none => simp [weak_ptr.use_count, hc] at h0
    | some b =>
      have hn : (s.mem.read b).ref_count_ ≠ 0 := by
        simpa [weak_ptr.use_count, hc, control_block.count] using h0
      rw [weak_ptr.lock_nil_pos _ _ b hc hn] at hr
      cases hr
      obtain ⟨hb, hp⟩ := hs.wp_wf w hm b hc
      have hW := Inv.weak_pos_of_mem hm hc
      have hS : 0 < s.strong_refs b := by
        by_contra hS0
        have hbi := hs.blk b hb
        unfold BlockInv at hbi
        obtain ⟨-, hB⟩ := hbi
        obtain ⟨-, hB1, -⟩ := hB (by omega)
        exact hn (hB1 hW).1
      exact hs.push_sp_share rfl hp hS hlt

theorem Inv.start : Inv State.start := by
  refine ⟨?_, ?_, ?_, ?_, ?_, ?_⟩
  · intro h hm
    simp [State.start] at hm
  · intro w hm
    simp [State.start] at hm
  · simp [State.start, State.live]
  · intro b hb
    simp [State.start] at hb
  · intro b _
    exact ⟨rfl, rfl⟩
  · intro pre post b hb
    simp [State.start] at hb

theorem Inv.step {s s1 : State} (hs : Inv s) (op : Op) (h : step s op = some s1) : Inv s1 := by
  cases op with
  | sp_default =>
    simp only [kaiserqzyue.step] at h
    split at h
    · rename_i hlt
      cases h
      exact hs.push_sp_empty rfl hlt
    · cases h
  | sp_new p =>
    simp only [kaiserqzyue.step] at h
    split at h
    · rename_i hlt
      cases h
      exact hs.push_sp_new p hlt
    · cases h
  | sp_copy src =>
    simp only [kaiserqzyue.step] at h
    split at h
    · rename_i o ho
      split at h
      · rename_i hlt
        cases h
        exact hs.step_sp_copy ho hlt
      · cases h
    · cases h
  | sp_move src =>
    simp only [kaiserqzyue.step] at h
    split at h
    · rename_i o ho
      split at h
      · rename_i hlt
        cases h
        exact hs.push_sp_move (State.sp_eq_some ho) hlt
      · cases h
    · cases h
  | sp_assign dst src =>
    simp only [kaiserqzyue.step] at h
    split at h
    · rename_i t o ht ho
      split at h
      · cases h
        exact hs
      · rename_i hne
        cases h
        exact hs.step_sp_assign ht ho hne
    · cases h
  | sp_assign_move dst src =>
    simp only [kaiserqzyue.step] at h
    split at h
    · rename_i t o ht ho
      split at h
      · cases h
        exact hs
      · rename_i hne
        cases h
        exact hs.step_sp_assign_move ht ho hne
    · cases h
  | sp_reset dst p =>
    simp only [kaiserqzyue.step] at h
    split at h
    · rename_i t ht
      cases h
      exact hs.step_sp_reset p ht
    · cases h
  | sp_drop dst =>
    simp only [kaiserqzyue.step] at h
    split at h
    · rename_i t ht
      cases h
      exact hs.sp_destroy (State.sp_eq_some ht)
    · cases h
  | wp_default =>
    simp only [kaiserqzyue.step] at h
    split at h
    · rename_i hlt
      cases h
      exact hs.push_wp_empty rfl hlt
    · cases h
  | wp_from_shared src =>
    simp only [kaiserqzyue.step] at h
    split at h
    · rename_i o ho
      split at h
      · rename_i hlt
        cases h
        exact hs.step_wp_from_shared ho hlt
      · cases h
    · cases h
  | wp_copy src =>
    simp only [kaiserqzyue.step] at h
    split at h
    · rename_i o ho
      split at h
      · rename_i hlt
        cases h
        exact hs.step_wp_copy ho hlt
      · cases h
    · cases h
  | wp_move src =>
    simp only [kaiserqzyue.step] at h
    split at h
    · rename_i o ho
      split at h
      · rename_i hlt
        cases h
        exact hs.push_wp_move (State.wp_eq_some ho) hlt
      · cases h
    · cases h
  | wp_assign dst src =>
    simp only [kaiserqzyue.step] at h
    split at h
    · rename_i t o ht ho
      split at h
      · cases h
        exact hs
      · rename_i hne
        cases h
        exact hs.step_wp_assign ht ho hne
    · cases h
  | wp_assign_move dst src =>
    simp only [kaiserqzyue.step] at h
    split at h
    · rename_i t o ht ho
      split at h
      · cases h
        exact hs
      · rename_i hne
        cases h
        exact hs.step_wp_assign_move ht ho hne
    · cases h
  | wp_drop dst =>
    simp only [kaiserqzyue.step] at h
    split at h
    · rename_i t ht
      cases h
      exact hs.wp_destroy (State.wp_eq_some ht)
    · cases h
  | wp_lock src =>
    simp only [kaiserqzyue.step] at h
    split at h
    · rename_i w hw
      split at h
      · rename_i hlt
        split at h
        · rename_i r hr
          cases h
          exact hs.step_wp_lock hw hlt hr
        · cases h
      · cases h
    · cases h

theorem Inv.run {s s1 : State} (hs : Inv s) (ops : List Op) (h : run s ops = some s1) :
    Inv s1 := by
  induction ops generalizing s with
  | nil =>
    simp only [kaiserqzyue.run] at h
    cases h
    exact hs
  | cons op ops ih =>
    simp only [kaiserqzyue.run] at h
    cases hst : kaiserqzyue.step s op with
    | none => simp [hst] at h
    | some s2 =>
      rw [hst] at h
      exact ih (hs.step op hst) h

theorem Inv.reachable {s : State} (ops : List Op)
    (h : kaiserqzyue.run State.start ops = some s) : Inv s :=
  Inv.start.run ops h

/-! ## The memory only grows -/

theorem shared_ptr.sp_release_mono (m : Memory) (t : shared_ptr) :
    (shared_ptr.check_and_delete m t).blocks.length = m.blocks.length ∧
    ∃ suf, (shared_ptr.check_and_delete m t).trace = m.trace ++ suf := by
  unfold shared_ptr.check_and_delete
  cases t.ctrl_blk with
  | none => exact ⟨rfl, [], by simp⟩
  | some b =>
    simp only [control_block.decrement, control_block.weak_decrement]
    split_ifs
    · exact ⟨by simp, [Event.delete_ptr t.ptr b, Event.delete_ctrl_blk b], by simp⟩
    · exact ⟨by simp, [Event.delete_ptr t.ptr b], by simp⟩
    · exact ⟨by simp, [], by simp⟩

theorem weak_ptr.wp_release_mono (m : Memory) (t : weak_ptr) :
    (weak_ptr.check_and_delete m t).blocks.length = m.blocks.length ∧
    ∃ suf, (weak_ptr.check_and_delete m t).trace = m.trace ++ suf := by
  unfold weak_ptr.check_and_delete
  cases t.ctrl_blk with
  | none => exact ⟨rfl, [], by simp⟩
  | some b =>
    simp only [control_block.weak_decrement, control_block.weak_count]
    split_ifs
    · exact ⟨by simp, [Event.delete_ctrl_blk b], by simp⟩
    · exact ⟨by simp, [Event.delete_ctrl_blk b], by simp⟩
    · exact ⟨by simp, [], by simp⟩

theorem shared_ptr.mk_from_mono (m : Memory) (p : Nat) :
    m.blocks.length ≤ (shared_ptr.mk_from m p).1.blocks.length ∧
    (shared_ptr.mk_from m p).1.trace = m.trace := by
  unfold shared_ptr.mk_from
  split_ifs
  · exact ⟨Nat.le_refl _, rfl⟩
  · exact ⟨by simp, rfl⟩

theorem shared_ptr.sp_copy_mono (m : Memory) (o : shared_ptr) :
    (shared_ptr.copy m o).1.blocks.length = m.blocks.length ∧
    (shared_ptr.copy m o).1.trace = m.trace := by
  unfold shared_ptr.copy
  cases o.ctrl_blk with
  | none => exact ⟨rfl, rfl⟩
  | some b => exact ⟨by simp, rfl⟩

theorem weak_ptr.from_shared_mono (m : Memory) (o : shared_ptr) :
    (weak_ptr.from_shared m o).1.blocks.length = m.blocks.length ∧
    (weak_ptr.from_shared m o).1.trace = m.trace := by
  unfold weak_ptr.from_shared
  cases o.ctrl_blk with
  | none => exact ⟨rfl, rfl⟩
  | some b => exact ⟨by simp, rfl⟩

theorem weak_ptr.wp_copy_mono (m : Memory) (o : weak_ptr) :
    (weak_ptr.copy m o).1.blocks.length = m.blocks.length ∧
    (weak_ptr.copy m o).1.trace = m.trace := by
  unfold weak_ptr.copy
  cases o.ctrl_blk with
  | none => exact ⟨rfl, rfl⟩
  | some b => exact ⟨by simp, rfl⟩

theorem weak_ptr.interfere_mono (m : Memory) (b v : Nat) :
    (weak_ptr.interfere m b v).blocks.length = m.blocks.length ∧
    (weak_ptr.interfere m b v).trace = m.trace :=
  ⟨by simp [weak_ptr.interfere], rfl⟩

theorem weak_ptr.before_cas_mono (m : Memory) (b : Nat) (env : List Nat) :
    (weak_ptr.before_cas m b env).blocks.length = m.blocks.length ∧
    (weak_ptr.before_cas m b env).trace = m.trace := by
  cases env with
  | nil => exact ⟨rfl, rfl⟩
  | cons v env => exact weak_ptr.interfere_mono m b v

theorem weak_ptr.lock_loop_zero (self : weak_ptr) (fuel : Nat) (m : Memory) (env : List Nat) :
    weak_ptr.lock_loop self (fuel + 1) 0 m env =
      some { mem := m, ret := {}, cas := none, old := 0 } := by
  simp [weak_ptr.lock_loop]

theorem weak_ptr.lock_loop_some (self : weak_ptr) (b fuel old : Nat) (m : Memory)
    (env : List Nat) (hc : self.ctrl_blk = some b) (h0 : old ≠ 0) :
    weak_ptr.lock_loop self (fuel + 1) old m env =
      if ((weak_ptr.before_cas m b env).read b).ref_count_ = old then
        some { mem := (weak_ptr.before_cas m b env).write b
                 { ref_count_ := size_t_inc old,
                   weak_count_ := ((weak_ptr.before_cas m b env).read b).weak_count_ },
               ret := { ctrl_blk := some b, ptr := self.ptr },
               cas := some (old, size_t_inc old), old := old }
      else
        weak_ptr.lock_loop self fuel ((weak_ptr.before_cas m b env).read b).ref_count_
          (weak_ptr.before_cas m b env) env.tail := by
  rw [weak_ptr.lock_loop]
  simp only [h0, if_false, hc, control_block.compare_exchange_strong]
  by_cases h1 : ((weak_ptr.before_cas m b env).read b).ref_count_ = old
  · simp only [h1, if_true, shared_ptr.from_weak, hc]
  · simp only [h1, if_false, Bool.false_eq_true]

theorem weak_ptr.lock_loop_mono (self : weak_ptr) (fuel : Nat) :
    ∀ (old : Nat) (m : Memory) (env : List Nat) (r : weak_ptr.LockResult),
      weak_ptr.lock_loop self fuel old m env = some r →
      r.mem.blocks.length = m.blocks.length ∧ r.mem.trace = m.trace := by
  induction fuel with
  | zero =>
    intro old m env r h
    simp [weak_ptr.lock_loop] at h
  | succ fuel ih =>
    intro old m env r h
    by_cases h0 : old = 0
    · subst h0
      rw [weak_ptr.lock_loop_zero] at h
      cases h
      exact ⟨rfl, rfl⟩
    · cases hc : self.ctrl_blk with
      | none =>
        rw [weak_ptr.lock_loop] at h
        simp only [h0, if_false, hc] at h
        cases h
        exact ⟨rfl, rfl⟩
      | some b =>
        rw [weak_ptr.lock_loop_some self b fuel old m env hc h0] at h
        obtain ⟨l1, t1⟩ := weak_ptr.before_cas_mono m b env
        split_ifs at h with hcas
        · cases h
          exact ⟨by simp [l1], by simp [t1]⟩
        · obtain ⟨l2, t2⟩ := ih _ _ _ _ h
          exact ⟨l2.trans l1, t2.trans t1⟩

theorem step_mono {s s1 : State} (op : Op) (h : step s op = some s1) :
    s.mem.blocks.length ≤ s1.mem.blocks.length ∧ ∃ suf, s1.mem.trace = s.mem.trace ++ suf := by
  have hrefl : s.mem.blocks.length ≤ s.mem.blocks.length ∧
      ∃ suf, s.mem.trace = s.mem.trace ++ suf := ⟨Nat.le_refl _, [], by simp⟩
  have hsd : ∀ t : shared_ptr, s.mem.blocks.length ≤
      (shared_ptr.check_and_delete s.mem t).blocks.length ∧
      ∃ suf, (shared_ptr.check_and_delete s.mem t).trace = s.mem.trace ++ suf := fun t =>
    ⟨Nat.le_of_eq (shared_ptr.sp_release_mono s.mem t).1.symm,
      (shared_ptr.sp_release_mono s.mem t).2⟩
  have hwd : ∀ t : weak_ptr, s.mem.blocks.length ≤
      (weak_ptr.check_and_delete s.mem t).blocks.length ∧
      ∃ suf, (weak_ptr.check_and_delete s.mem t).trace = s.mem.trace ++ suf := fun t =>
    ⟨Nat.le_of_eq (weak_ptr.wp_release_mono s.mem t).1.symm,
      (weak_ptr.wp_release_mono s.mem t).2⟩
  cases op with
  | sp_default =>
    simp only [step] at h
    split at h
    · cases h; exact hrefl
    · cases h
  | sp_new p =>
    simp only [step] at h
    split at h
    · cases h
      exact ⟨(shared_ptr.mk_from_mono s.mem p).1, [], by
        simp [(shared_ptr.mk_from_mono s.mem p).2]⟩
    · cases h
  | sp_copy src =>
    simp only [step] at h
    split at h
    · rename_i o ho
      split at h
      · cases h
        exact ⟨Nat.le_of_eq (shared_ptr.sp_copy_mono s.mem o).1.symm, [], by
          simp [(shared_ptr.sp_copy_mono s.mem o).2]⟩
      · cases h
    · cases h
  | sp_move src =>
    simp only [step] at h
    split at h
    · split at h
      · cases h; exact hrefl
      · cases h
    · cases h
  | sp_assign dst src =>
    simp only [step] at h
    split at h
    · rename_i t o ht ho
      split at h
      · cases h; exact hrefl
      · cases h
        obtain ⟨l1, suf, t1⟩ := hsd t
        have hc := shared_ptr.sp_copy_mono (shared_ptr.check_and_delete s.mem t) o
        exact ⟨by
          show s.mem.blocks.length ≤ (shared_ptr.copy _ o).1.blocks.length
          rw [hc.1]; exact l1, suf, by
          show (shared_ptr.copy _ o).1.trace = _
          rw [hc.2]; exact t1⟩
    · cases h
  | sp_assign_move dst src =>
    simp only [step] at h
    split at h
    · rename_i t o ht ho
      split at h
      · cases h; exact hrefl
      · cases h
        exact hsd t
    · cases h
  | sp_reset dst p =>
    simp only [step] at h
    split at h
    · rename_i t ht
      cases h
      obtain ⟨l1, suf, t1⟩ := hsd t
      have hc := shared_ptr.mk_from_mono (shared_ptr.check_and_delete s.mem t) p
      simp only [shared_ptr.reset_eq]
      exact ⟨l1.trans hc.1, suf, by rw [hc.2]; exact t1⟩
    · cases h
  | sp_drop dst =>
    simp only [step] at h
    split at h
    · rename_i t ht
      cases h
      exact hsd t
    · cases h
  | wp_default =>
    simp only [step] at h
    split at h
    · cases h; exact hrefl
    · cases h
  | wp_from_shared src =>
    simp only [step] at h
    split at h
    · rename_i o ho
      split at h
      · cases h
        exact ⟨Nat.le_of_eq (weak_ptr.from_shared_mono s.mem o).1.symm, [], by
          simp [(weak_ptr.from_shared_mono s.mem o).2]⟩
      · cases h
    · cases h
  | wp_copy src =>
    simp only [step] at h
    split at h
    · rename_i o ho
      split at h
      · cases h
        exact ⟨Nat.le_of_eq (weak_ptr.wp_copy_mono s.mem o).1.symm, [], by
          simp [(weak_ptr.wp_copy_mono s.mem o).2]⟩
      · cases h
    · cases h
  | wp_move src =>
    simp only [step] at h
    split at h
    · split at h
      · cases h; exact hrefl
      · cases h
    · cases h
  | wp_assign dst src =>
    simp only [step] at h
    split at h
    · rename_i t o ht ho
      split at h
      · cases h; exact hrefl
      · cases h
        obtain ⟨l1, suf, t1⟩ := hwd t
        have hc := weak_ptr.wp_copy_mono (weak_ptr.check_and_delete s.mem t) o
        exact ⟨by
          show s.mem.blocks.length ≤ (weak_ptr.copy _ o).1.blocks.length
          rw [hc.1]; exact l1, suf, by
          show (weak_ptr.copy _ o).1.trace = _
          rw [hc.2]; exact t1⟩
    · cases h
  | wp_assign_move dst src =>
    simp only [step] at h
    split at h
    · rename_i t o ht ho
      split at h
      · cases h; exact hrefl
      · cases h
        exact hwd t
    · cases h
  | wp_drop dst =>
    simp only [step] at h
    split at h
    · rename_i t ht
      cases h
      exact hwd t
    · cases h
  | wp_lock src =>
    simp only [step] at h
    split at h
    · rename_i w hw
      split at h
      · split at h
        · rename_i r hr
          cases h
          obtain ⟨l1, t1⟩ := weak_ptr.lock_loop_mono w _ _ _ _ r hr
          exact ⟨Nat.le_of_eq l1.symm, [], by simp [t1]⟩
        · cases h
      · cases h
    · cases h

theorem run_mono {s s1 : State} (ops : List Op) (h : run s ops = some s1) :
    s.mem.blocks.length ≤ s1.mem.blocks.length ∧ ∃ suf, s1.mem.trace = s.mem.trace ++ suf := by
  induction ops generalizing s with
  | nil =>
    simp only [run] at h
    cases h
    exact ⟨Nat.le_refl _, [], by simp⟩
  | cons op ops ih =>
    simp only [run] at h
    cases hst : step s op with
    | none => simp [hst] at h
    | some s2 =>
      rw [hst] at h
      obtain ⟨l1, suf1, t1⟩ := step_mono op hst
      obtain ⟨l2, suf2, t2⟩ := ih h
      exact ⟨l1.trans l2, suf1 ++ suf2, by rw [t2, t1, List.append_assoc]⟩

theorem destroyed_mono {m m1 : Memory} (h : ∃ suf, m1.trace = m.trace ++ suf) (b : Nat) :
    m.destroyed b ≤ m1.destroyed b := by
  obtain ⟨suf, e⟩ := h
  unfold Memory.destroyed
  rw [e, List.countP_append]
  omega

/-! ## The scenarios of the specification, evaluated -/

theorem scenario_A_run : run State.start scenario_A = some scenario_A_state := by
  decide

theorem scenario_B_run : run State.start scenario_B = some scenario_B_state := by
  decide

/-! ## Statements that do not release a handle leave the `delete` counts alone -/

theorem weak_ptr.wp_release_destroyed (m : Memory) (t : weak_ptr) (b : Nat) :
    (weak_ptr.check_and_delete m t).destroyed b = m.destroyed b := by
  unfold weak_ptr.check_and_delete
  cases t.ctrl_blk with
  | none => rfl
  | some b0 =>
    simp only [control_block.weak_decrement, control_block.weak_count]
    split_ifs <;> simp

theorem destroyed_eq_of_trace {m m1 : Memory} (h : m1.trace = m.trace) (b : Nat) :
    m1.destroyed b = m.destroyed b := by
  unfold Memory.destroyed
  rw [h]

theorem step_destroyed_eq {s s1 : State} (op : Op) (h : step s op = some s1)
    (hop : op.releases_strong = false) (b : Nat) : s1.mem.destroyed b = s.mem.destroyed b := by
  cases op with
  | sp_default =>
    simp only [step] at h
    split at h
    · cases h; rfl
    · cases h
  | sp_new p =>
    simp only [step] at h
    split at h
    · cases h
      exact destroyed_eq_of_trace (shared_ptr.mk_from_mono s.mem p).2 b
    · cases h
  | sp_copy src =>
    simp only [step] at h
    split at h
    · rename_i o ho
      split at h
      · cases h
        exact destroyed_eq_of_trace (shared_ptr.sp_copy_mono s.mem o).2 b
      · cases h
    · cases h
  | sp_move src =>
    simp only [step] at h
    split at h
    · split at h
      · cases h; rfl
      · cases h
    · cases h
  | sp_assign dst src => simp [Op.releases_strong] at hop
  | sp_assign_move dst src => simp [Op.releases_strong] at hop
  | sp_reset dst p => simp [Op.releases_strong] at hop
  | sp_drop dst => simp [Op.releases_strong] at hop
  | wp_default =>
    simp only [step] at h
    split at h
    · cases h; rfl
    · cases h
  | wp_from_shared src =>
    simp only [step] at h
    split at h
    · rename_i o ho
      split at h
      · cases h
        exact destroyed_eq_of_trace (weak_ptr.from_shared_mono s.mem o).2 b
      · cases h
    · cases h
  | wp_copy src =>
    simp only [step] at h
    split at h
    · rename_i o ho
      split at h
      · cases h
        exact destroyed_eq_of_trace (weak_ptr.wp_copy_mono s.mem o).2 b
      · cases h
    · cases h
  | wp_move src =>
    simp only [step] at h
    split at h
    · split at h
      · cases h; rfl
      · cases h
    · cases h
  | wp_assign dst src =>
    simp only [step] at h
    split at h
    · rename_i t o ht ho
      split at h
      · cases h; rfl
      · cases h
        have hc := weak_ptr.wp_copy_mono (weak_ptr.check_and_delete s.mem t) o
        have e1 : (weak_ptr.assign s.mem t o).1.destroyed b =
            (weak_ptr.check_and_delete s.mem t).destroyed b :=
          destroyed_eq_of_trace hc.2 b
        exact e1.trans (weak_ptr.wp_release_destroyed s.mem t b)
    · cases h
  | wp_assign_move dst src =>
    simp only [step] at h
    split at h
    · rename_i t o ht ho
      split at h
      · cases h; rfl
      · cases h
        exact weak_ptr.wp_release_destroyed s.mem t b
    · cases h
  | wp_drop dst =>
    simp only [step] at h
    split at h
    · rename_i t ht
      cases h
      exact weak_ptr.wp_release_destroyed s.mem t b
    · cases h
  | wp_lock src =>
    simp only [step] at h
    split at h
    · rename_i w hw
      split at h
      · split at h
        · rename_i r hr
          cases h
          exact destroyed_eq_of_trace (weak_ptr.lock_loop_mono w _ _ _ _ r hr).2 b
        · cases h
      · cases h
    · cases h

/-! ## The claims on sequential runs -/

/-- C1: in every state reachable by a sequential run of handle operations, `use_count()` of
every non-empty `shared_ptr` equals the number of live non-empty `shared_ptr` handles that
reference the same control block. -/
theorem C1_use_count_counts_live_strong_handles (ops : List Op) (s : State)
    (h : run State.start ops = some s) (i : Nat) (x : shared_ptr) (b : Nat)
    (hx : s.sp i = some x) (hb : x.ctrl_blk = some b) :
    shared_ptr.use_count s.mem x = s.strong_refs b := by
  have hs := Inv.reachable ops h
  have hm := mem_of_getElem?_eq (State.sp_eq_some hx)
  have hlen := (hs.sp_wf x hm b hb).1
  have hS := Inv.strong_pos_of_mem hm hb
  have hbi := hs.blk b hlen
  unfold BlockInv at hbi
  simp only [shared_ptr.use_count, hb, control_block.count]
  exact (hbi.1 hS).1

/-- Witness of C1 on Scenario A: after a copy both handles report `use_count() == 2`. -/
theorem C1_witness :
    shared_ptr.use_count scenario_A_state.mem { ctrl_blk := some 0, ptr := 5 } =
      scenario_A_state.strong_refs 0 ∧ scenario_A_state.strong_refs 0 = 2 :=
  ⟨C1_use_count_counts_live_strong_handles scenario_A scenario_A_state scenario_A_run 1
    { ctrl_blk := some 0, ptr := 5 } 0 (by decide) (by decide), by decide⟩

/-- C2: in every sequential run the managed value of a control block is destroyed at most
once, it has been destroyed exactly when no live strong handle references the block any
more, and the `delete ptr` runs in exactly the step that takes the number of strong handles
on the block from positive to zero, which is a drop, a reset or an assignment over a strong
handle. -/
theorem C2_value_destroyed_exactly_once (ops : List Op) (s : State)
    (h : run State.start ops = some s) (b : Nat) (hb : b < s.mem.blocks.length) :
    s.mem.destroyed b ≤ 1 ∧
    (s.mem.destroyed b = 1 ↔ s.strong_refs b = 0) ∧
    (∀ op s1, step s op = some s1 →
      (s1.mem.destroyed b = s.mem.destroyed b + 1 ↔
        (0 < s.strong_refs b ∧ s1.strong_refs b = 0)) ∧
      (s1.mem.destroyed b = s.mem.destroyed b + 1 → op.releases_strong = true) ∧
      s.mem.destroyed b ≤ s1.mem.destroyed b) := by
  have hs := Inv.reachable ops h
  have hbi := hs.blk b hb
  unfold BlockInv at hbi
  obtain ⟨hA, hB⟩ := hbi
  have hD : s.mem.destroyed b = if s.strong_refs b = 0 then 1 else 0 := by
    by_cases h0 : s.strong_refs b = 0
    · rw [if_pos h0]
      exact (hB h0).1
    · rw [if_neg h0]
      exact (hA (Nat.pos_of_ne_zero h0)).2.2.1
  refine ⟨?_, ?_, ?_⟩
  · rw [hD]
    split_ifs <;> omega
  · by_cases h0 : s.strong_refs b = 0
    · simp [hD, h0]
    · simp [hD, h0]
  · intro op s1 hst
    have hs1 := hs.step op hst
    obtain ⟨hlen, hsuf⟩ := step_mono op hst
    have hbi1 := hs1.blk b (by omega)
    unfold BlockInv at hbi1
    obtain ⟨hA1, hB1⟩ := hbi1
    have hD1 : s1.mem.destroyed b = if s1.strong_refs b = 0 then 1 else 0 := by
      by_cases h0 : s1.strong_refs b = 0
      · rw [if_pos h0]
        exact (hB1 h0).1
      · rw [if_neg h0]
        exact (hA1 (Nat.pos_of_ne_zero h0)).2.2.1
    have hmono := destroyed_mono hsuf b
    refine ⟨?_, ?_, hmono⟩
    · by_cases h0 : s.strong_refs b = 0 <;> by_cases h1 : s1.strong_refs b = 0
      · simp [hD, hD1, h0, h1]
      · simp [hD, hD1, h0, h1]
      · simp [hD, hD1, h0, h1]
        omega
      · simp [hD, hD1, h0, h1]
    · intro hinc
      by_contra hop
      have hop1 : op.releases_strong = false := by simpa using hop
      have := step_destroyed_eq op hst hop1 b
      omega

/-- Witness of C2 on Scenario B: the value of block 0 has been destroyed once. -/
theorem C2_witness :
    scenario_B_state.mem.destroyed 0 ≤ 1 ∧
    (scenario_B_state.mem.destroyed 0 = 1 ↔ scenario_B_state.strong_refs 0 = 0) :=
  ⟨(C2_value_destroyed_exactly_once scenario_B scenario_B_state scenario_B_run 0
      (by decide)).1,
    (C2_value_destroyed_exactly_once scenario_B scenario_B_state scenario_B_run 0
      (by decide)).2.1⟩

/-- C5: in every sequential run the storage of a control block is released at most once, it
has been released exactly when no live strong or weak handle references the block, every
`delete ctrl_blk` comes after the `delete ptr` of the same block, and a step that releases
the block leaves no handle on it. -/
theorem C5_control_block_released_once_after_value (ops : List Op) (s : State)
    (h : run State.start ops = some s) (b : Nat) (hb : b < s.mem.blocks.length) :
    s.mem.released b ≤ 1 ∧
    (s.mem.released b = 1 ↔ (s.strong_refs b = 0 ∧ s.weak_refs b = 0)) ∧
    (s.mem.released b = 1 → s.mem.destroyed b = 1) ∧
    (∀ pre post, s.mem.trace = pre ++ Event.delete_ctrl_blk b :: post →
      ∃ p, Event.delete_ptr p b ∈ pre) ∧
    (∀ op s1, step s op = some s1 → s1.mem.released b = s.mem.released b + 1 →
      s1.strong_refs b = 0 ∧ s1.weak_refs b = 0) := by
  have hs := Inv.reachable ops h
  have key : ∀ s2 : State, Inv s2 → b < s2.mem.blocks.length →
      s2.mem.released b ≤ 1 ∧
      (s2.mem.released b = 1 ↔ (s2.strong_refs b = 0 ∧ s2.weak_refs b = 0)) ∧
      (s2.mem.released b = 1 → s2.mem.destroyed b = 1) := by
    intro s2 hs2 hb2
    have hbi := hs2.blk b hb2
    unfold BlockInv at hbi
    obtain ⟨hA, hB⟩ := hbi
    by_cases hS : 0 < s2.strong_refs b
    · obtain ⟨-, -, -, r4⟩ := hA hS
      refine ⟨by omega, ⟨fun e => by omega, fun e => by omega⟩, fun e => by omega⟩
    · obtain ⟨r3, hB1, hB2⟩ := hB (by omega)
      by_cases hW : 0 < s2.weak_refs b
      · obtain ⟨-, -, r4⟩ := hB1 hW
        refine ⟨by omega, ⟨fun e => by omega, fun e => by omega⟩, fun e => by omega⟩
      · have r4 := hB2 (by omega)
        refine ⟨by omega, ⟨fun e => by omega, fun e => by omega⟩, fun e => by omega⟩
  obtain ⟨k1, k2, k3⟩ := key s hs hb
  refine ⟨k1, k2, k3, fun pre post e => hs.order pre post b e, ?_⟩
  intro op s1 hst hinc
  have hs1 := hs.step op hst
  obtain ⟨hlen, -⟩ := step_mono op hst
  obtain ⟨j1, j2, -⟩ := key s1 hs1 (by omega)
  exact j2.mp (by omega)

/-- Witness of C5 on Scenario B: while `w` is alive the block of the destroyed value is not
released. -/
theorem C5_witness :
    scenario_B_state.mem.released 0 ≤ 1 ∧
    (scenario_B_state.mem.released 0 = 1 ↔
      (scenario_B_state.strong_refs 0 = 0 ∧ scenario_B_state.weak_refs 0 = 0)) ∧
    scenario_B_state.weak_refs 0 = 1 :=
  ⟨(C5_control_block_released_once_after_value scenario_B scenario_B_state scenario_B_run 0
      (by decide)).1,
    (C5_control_block_released_once_after_value scenario_B scenario_B_state scenario_B_run 0
      (by decide)).2.1, by decide⟩

theorem kept_append (i : Nat) (w : weak_ptr) (s : State) (x : Option weak_ptr)
    (m : Memory) (sh : List (Option shared_ptr)) (h : KeptOrEmptied i w s) :
    KeptOrEmptied i w { mem := m, shared := sh, weak := s.weak ++ [x] } := by
  have hlt : i < s.weak.length := by
    by_contra hge
    unfold KeptOrEmptied at h
    rw [List.getElem?_eq_none (by omega)] at h
    rcases h with h | h | h <;> cases h
  unfold KeptOrEmptied at h ⊢
  simp only
  rw [List.getElem?_append_left hlt]
  exact h

theorem kept_same (i : Nat) (w : weak_ptr) (s : State) (m : Memory)
    (sh : List (Option shared_ptr)) (h : KeptOrEmptied i w s) :
    KeptOrEmptied i w { mem := m, shared := sh, weak := s.weak } := h

theorem kept_set_ne (i j : Nat) (w : weak_ptr) (s : State) (x : Option weak_ptr)
    (m : Memory) (sh : List (Option shared_ptr)) (hne : j ≠ i) (h : KeptOrEmptied i w s) :
    KeptOrEmptied i w { mem := m, shared := sh, weak := s.weak.set j x } := by
  unfold KeptOrEmptied at h ⊢
  simp only
  rw [List.getElem?_set_ne hne]
  exact h

theorem kept_set_self (i : Nat) (w : weak_ptr) (l : List (Option weak_ptr))
    (x : Option weak_ptr) (m : Memory) (sh : List (Option shared_ptr)) (hi : i < l.length)
    (hx : x = some { ctrl_blk := none, ptr := 0 } ∨ x = none) :
    KeptOrEmptied i w { mem := m, shared := sh, weak := l.set i x } := by
  unfold KeptOrEmptied
  simp only
  rw [List.getElem?_set_self hi]
  rcases hx with rfl | rfl
  · exact Or.inr (Or.inl rfl)
  · exact Or.inr (Or.inr rfl)

theorem kept_lt (i : Nat) (w : weak_ptr) (s : State) (h : KeptOrEmptied i w s) :
    i < s.weak.length := by
  by_contra hge
  unfold KeptOrEmptied at h
  rw [List.getElem?_eq_none (by omega)] at h
  rcases h with h | h | h <;> cases h

theorem step_wp_kept (s s1 : State) (op : Op) (i : Nat) (w : weak_ptr)
    (h : step s op = some s1) (hop : op.assigns_wp i = false) (hw : KeptOrEmptied i w s) :
    KeptOrEmptied i w s1 := by
  have hlt := kept_lt i w s hw
  cases op with
  | sp_default =>
    simp only [step] at h
    split at h
    · cases h; exact hw
    · cases h
  | sp_new p =>
    simp only [step] at h
    split at h
    · cases h; exact hw
    · cases h
  | sp_copy src =>
    simp only [step] at h
    split at h
    · split at h
      · cases h; exact hw
      · cases h
    · cases h
  | sp_move src =>
    simp only [step] at h
    split at h
    · split at h
      · cases h; exact hw
      · cases h
    · cases h
  | sp_assign dst src =>
    simp only [step] at h
    split at h
    · split at h
      · cases h; exact hw
      · cases h; exact hw
    · cases h
  | sp_assign_move dst src =>
    simp only [step] at h
    split at h
    · split at h
      · cases h; exact hw
      · cases h; exact hw
    · cases h
  | sp_reset dst p =>
    simp only [step] at h
    split at h
    · cases h; exact hw
    · cases h
  | sp_drop dst =>
    simp only [step] at h
    split at h
    · cases h; exact hw
    · cases h
  | wp_default =>
    simp only [step] at h
    split at h
    · cases h; exact kept_append i w s _ _ _ hw
    · cases h
  | wp_from_shared src =>
    simp only [step] at h
    split at h
    · split at h
      · cases h; exact kept_append i w s _ _ _ hw
      · cases h
    · cases h
  | wp_copy src =>
    simp only [step] at h
    split at h
    · split at h
      · cases h; exact kept_append i w s _ _ _ hw
      · cases h
    · cases h
  | wp_move src =>
    simp only [step] at h
    split at h
    · split at h
      · cases h
        by_cases hsi : src = i
        · subst hsi
          exact kept_append src w { s with weak := s.weak.set src _ } _ _ _
            (kept_set_self src w s.weak _ s.mem s.shared hlt (Or.inl rfl))
        · exact kept_append i w { s with weak := s.weak.set src _ } _ _ _
            (kept_set_ne i src w s _ s.mem s.shared hsi hw)
      · cases h
    · cases h
  | wp_assign dst src =>
    simp only [Op.assigns_wp, decide_eq_false_iff_not] at hop
    simp only [step] at h
    split at h
    · split at h
      · cases h; exact hw
      · cases h
        exact kept_set_ne i dst w s _ _ _ hop hw
    · cases h
  | wp_assign_move dst src =>
    simp only [Op.assigns_wp, decide_eq_false_iff_not] at hop
    simp only [step] at h
    split at h
    · split at h
      · cases h; exact hw
      · cases h
        by_cases hsi : src = i
        · subst hsi
          exact kept_set_self src w _ _ _ _ (by simpa using hlt) (Or.inl rfl)
        · exact kept_set_ne i src w { s with weak := s.weak.set dst _ } _ _ _ hsi
            (kept_set_ne i dst w s _ s.mem s.shared hop hw)
    · cases h
  | wp_drop dst =>
    simp only [step] at h
    split at h
    · cases h
      by_cases hsi : dst = i
      · subst hsi
        exact kept_set_self dst w _ _ _ _ hlt (Or.inr rfl)
      · exact kept_set_ne i dst w s _ _ _ hsi hw
    · cases h
  | wp_lock src =>
    simp only [step] at h
    split at h
    · split at h
      · split at h
        · cases h; exact hw
        · cases h
      · cases h
    · cases h

theorem run_wp_kept (i : Nat) (w : weak_ptr) :
    ∀ (ops : List Op) (s s1 : State), run s ops = some s1 →
      (∀ op ∈ ops, op.assigns_wp i = false) → KeptOrEmptied i w s →
      KeptOrEmptied i w s1 := by
  intro ops
  induction ops with
  | nil =>
    intro s s1 h _ hw
    simp only [run] at h
    cases h
    exact hw
  | cons op ops ih =>
    intro s s1 h hops hw
    simp only [run] at h
    cases hs : step s op with
    | none => rw [hs] at h; cases h
    | some s2 =>
      rw [hs] at h
      exact ih s2 s1 h (fun o ho => hops o (List.mem_cons_of_mem _ ho))
        (step_wp_kept s s2 op i w hs (hops op (List.mem_cons_self _ _)) hw)

theorem wp_of_kept (i : Nat) (w w1 : weak_ptr) (s : State) (h : KeptOrEmptied i w s)
    (h1 : s.wp i = some w1) : w1 = w ∨ w1 = { ctrl_blk := none, ptr := 0 } := by
  have h2 := State.wp_eq_some h1
  unfold KeptOrEmptied at h
  rw [h2] at h
  rcases h with h | h | h
  · exact Or.inl (Option.some.inj (Option.some.inj h))
  · exact Or.inr (Option.some.inj (Option.some.inj h))
  · cases h

/-- C6 (as stated, refuted): after Scenario B the weak handle `w` is expired; the run goes
on with a second strong handle `s2`, a weak handle `w2` made from it and the assignment
`w = w2`, after which `w.expired()` is false again. -/
theorem C6_assignment_makes_expired_false_again :
    run State.start scenario_B = some scenario_B_state
      ∧ scenario_B_state.wp 0 = some { ctrl_blk := some 0, ptr := 5 }
      ∧ weak_ptr.expired scenario_B_state.mem { ctrl_blk := some 0, ptr := 5 } = true
      ∧ run scenario_B_state scenario_reassign = some scenario_reassign_state
      ∧ scenario_reassign_state.wp 0 = some { ctrl_blk := some 1, ptr := 7 }
      ∧ weak_ptr.expired scenario_reassign_state.mem { ctrl_blk := some 1, ptr := 7 }
          = false := by
  decide

/-- C6 (amended): for a non-empty weak handle `w`, held by the variable `i` of a reachable
state, `w.expired()` is false exactly when a live strong handle references the control
block `b` of `w`.  Once it is true, in every later state no strong handle references `b`
and `expired()` is true of every weak handle that references `b`; and when no statement of
the continuation assigns to the variable `i`, the handle the variable holds in a later
state, if it still exists, is `w` or the empty handle left by a move from it, and its
`expired()` is true. -/
theorem C6_expired_iff_no_strong_handle_and_permanent_until_reassigned (ops : List Op)
    (s : State) (h : run State.start ops = some s) (i : Nat) (w : weak_ptr) (b : Nat)
    (hw : s.wp i = some w) (hb : w.ctrl_blk = some b) :
    (weak_ptr.expired s.mem w = false ↔ 0 < s.strong_refs b) ∧
    (weak_ptr.expired s.mem w = true →
      ∀ ops1 s1, run s ops1 = some s1 →
        s1.strong_refs b = 0 ∧
        (∀ j w1, s1.wp j = some w1 → w1.ctrl_blk = some b →
          weak_ptr.expired s1.mem w1 = true) ∧
        ((∀ op ∈ ops1, op.assigns_wp i = false) →
          ∀ w1, s1.wp i = some w1 →
            (w1 = w ∨ w1 = { ctrl_blk := none, ptr := 0 })
              ∧ weak_ptr.expired s1.mem w1 = true)) := by
  have hs := Inv.reachable ops h
  have hm := mem_of_getElem?_eq (State.wp_eq_some hw)
  have hlen := (hs.wp_wf w hm b hb).1
  have hW := Inv.weak_pos_of_mem hm hb
  have hbi := hs.blk b hlen
  unfold BlockInv at hbi
  obtain ⟨hA, hB⟩ := hbi
  have hexp : ∀ (m : Memory) (v : weak_ptr), v.ctrl_blk = some b →
      (weak_ptr.expired m v = true ↔ (m.read b).ref_count_ = 0) := by
    intro m v hv
    simp [weak_ptr.expired, weak_ptr.use_count, hv, control_block.count]
  have hiff : weak_ptr.expired s.mem w = true ↔ s.strong_refs b = 0 := by
    rw [hexp s.mem w hb]
    by_cases hS : 0 < s.strong_refs b
    · have := (hA hS).1
      omega
    · have := ((hB (by omega)).2.1 hW).1
      omega
  refine ⟨?_, ?_⟩
  · cases he : weak_ptr.expired s.mem w with
    | true =>
      have := hiff.mp he
      simp
      omega
    | false =>
      have : ¬ s.strong_refs b = 0 := fun e => by
        have := hiff.mpr e
        rw [he] at this
        cases this
      simp
      omega
  · intro he ops1 s1 hrun
    have hS0 := hiff.mp he
    have hD := (hB hS0).1
    have hs1 := hs.run ops1 hrun
    obtain ⟨hlen1, hsuf⟩ := run_mono ops1 hrun
    have hmono := destroyed_mono hsuf b
    have hbi1 := hs1.blk b (by omega)
    unfold BlockInv at hbi1
    obtain ⟨hA1, hB1⟩ := hbi1
    have hS1 : s1.strong_refs b = 0 := by
      by_contra hne
      have := (hA1 (Nat.pos_of_ne_zero hne)).2.2.1
      omega
    have hall : ∀ j w1, s1.wp j = some w1 → w1.ctrl_blk = some b →
        weak_ptr.expired s1.mem w1 = true := by
      intro j w1 hw1 hb1
      have hm1 := mem_of_getElem?_eq (State.wp_eq_some hw1)
      have hW1 := Inv.weak_pos_of_mem hm1 hb1
      rw [hexp s1.mem w1 hb1]
      exact ((hB1 hS1).2.1 hW1).1
    refine ⟨hS1, hall, ?_⟩
    intro hops w1 hw1
    have hk := run_wp_kept i w ops1 s s1 hrun hops (Or.inl (State.wp_eq_some hw))
    have hor := wp_of_kept i w w1 s1 hk hw1
    refine ⟨hor, ?_⟩
    rcases hor with e | e
    · subst e
      exact hall i w1 hw1 hb
    · subst e
      simp [weak_ptr.expired, weak_ptr.use_count]

/-- Witness of C6 on Scenarios B and D: after the strong handle is dropped `w` is expired,
and after a `lock()`, which does not assign to the variable of `w`, no strong handle is on
the block, the variable still holds `w` and `w` is still expired. -/
theorem C6_witness :
    (weak_ptr.expired scenario_B_state.mem { ctrl_blk := some 0, ptr := 5 } = false ↔
      0 < scenario_B_state.strong_refs 0) ∧
    weak_ptr.expired scenario_B_state.mem { ctrl_blk := some 0, ptr := 5 } = true ∧
    scenario_D_state.strong_refs 0 = 0 ∧
    scenario_D_state.wp 0 = some { ctrl_blk := some 0, ptr := 5 } ∧
    weak_ptr.expired scenario_D_state.mem { ctrl_blk := some 0, ptr := 5 } = true :=
  ⟨(C6_expired_iff_no_strong_handle_and_permanent_until_reassigned scenario_B scenario_B_state
      scenario_B_run 0 { ctrl_blk := some 0, ptr := 5 } 0 (by decide) (by decide)).1,
    by decide,
    ((C6_expired_iff_no_strong_handle_and_permanent_until_reassigned scenario_B scenario_B_state
      scenario_B_run 0 { ctrl_blk := some 0, ptr := 5 } 0 (by decide) (by decide)).2 (by decide)
      [.wp_lock 0] scenario_D_state (by decide)).1,
    by decide,
    (((C6_expired_iff_no_strong_handle_and_permanent_until_reassigned scenario_B
      scenario_B_state scenario_B_run 0 { ctrl_blk := some 0, ptr := 5 } 0 (by decide)
      (by decide)).2 (by decide) [.wp_lock 0] scenario_D_state (by decide)).2.2
      (by decide) { ctrl_blk := some 0, ptr := 5 } (by decide)).2⟩

/-- C7: in every reachable state, for every control block whose storage has not been
released, `weak_count_` is the number of live non-empty weak handles on the block, plus one
when its strong count is positive (the implicit weak token). -/
theorem C7_weak_count_is_weak_handles_plus_token (ops : List Op) (s : State)
    (h : run State.start ops = some s) (b : Nat) (hb : b < s.mem.blocks.length)
    (hr : s.mem.released b = 0) :
    (s.mem.read b).weak_count_ =
      s.weak_refs b + (if 0 < (s.mem.read b).ref_count_ then 1 else 0) := by
  have hs := Inv.reachable ops h
  have hbi := hs.blk b hb
  unfold BlockInv at hbi
  obtain ⟨hA, hB⟩ := hbi
  by_cases hS : 0 < s.strong_refs b
  · obtain ⟨r1, r2, -, -⟩ := hA hS
    rw [r1, r2, if_pos hS]
  · obtain ⟨-, hB1, hB2⟩ := hB (by omega)
    by_cases hW : 0 < s.weak_refs b
    · obtain ⟨r1, r2, -⟩ := hB1 hW
      rw [r1, r2]
      simp
    · have := hB2 (by omega)
      omega

/-- Witness of C7 on Scenario A: one strong group and no weak handle give `weak_count_ = 1`. -/
theorem C7_witness :
    (scenario_A_state.mem.read 0).weak_count_ =
      scenario_A_state.weak_refs 0 +
        (if 0 < (scenario_A_state.mem.read 0).ref_count_ then 1 else 0) :=
  C7_weak_count_is_weak_handles_plus_token scenario_A scenario_A_state scenario_A_run 0
    (by decide) (by decide)

/-! ## `lock()` under arbitrary interference -/

theorem weak_ptr.lock_loop_spec (self : weak_ptr) :
    ∀ (env : List Nat) (fuel old : Nat) (m : Memory), env.length + 2 ≤ fuel →
      (self.ctrl_blk = none → old = 0) →
      ∃ r, weak_ptr.lock_loop self fuel old m env = some r ∧
        ((r.ret = {} ∧ r.cas = none ∧ r.old = 0 ∧
            ∃ j, ∀ b, self.ctrl_blk = some b →
              r.mem = (env.take j).foldl (fun acc v => weak_ptr.interfere acc b v) m) ∨
          (∃ (b n j : Nat), self.ctrl_blk = some b ∧ n ≠ 0 ∧ j ≤ env.length ∧
            r.ret = { ctrl_blk := some b, ptr := self.ptr } ∧
            r.cas = some (n, size_t_inc n) ∧ r.old = n ∧
            (((env.take j).foldl (fun acc v => weak_ptr.interfere acc b v) m).read b).ref_count_
              = n ∧
            r.mem = ((env.take j).foldl (fun acc v => weak_ptr.interfere acc b v) m).write b
              { ref_count_ := size_t_inc n,
                weak_count_ :=
                  (((env.take j).foldl (fun acc v => weak_ptr.interfere acc b v) m).read
                    b).weak_count_ })) := by
  intro env
  induction env with
  | nil =>
    intro fuel old m hf hnone
    obtain ⟨f, rfl⟩ : ∃ f, fuel = f + 2 := ⟨fuel - 2, by simp at hf; omega⟩
    by_cases h0 : old = 0
    · subst h0
      rw [weak_ptr.lock_loop_zero]
      exact ⟨_, rfl, Or.inl ⟨rfl, rfl, rfl, 0, fun b _ => rfl⟩⟩
    · cases hc : self.ctrl_blk with
      | none => exact absurd (hnone hc) h0
      | some b =>
        rw [weak_ptr.lock_loop_some self b (f + 1) old m [] hc h0]
        by_cases h1 : ((weak_ptr.before_cas m b []).read b).ref_count_ = old
        · rw [if_pos h1]
          exact ⟨_, rfl, Or.inr ⟨b, old, 0, rfl, h0, Nat.le_refl _, rfl, rfl, rfl, h1, rfl⟩⟩
        · rw [if_neg h1]
          have hb : weak_ptr.before_cas m b [] = m := rfl
          simp only [hb, List.tail_nil]
          by_cases h2 : (m.read b).ref_count_ = 0
          · rw [h2, weak_ptr.lock_loop_zero]
            exact ⟨_, rfl, Or.inl ⟨rfl, rfl, rfl, 0, fun b _ => rfl⟩⟩
          · rw [weak_ptr.lock_loop_some self b f _ m [] hc h2]
            simp only [hb, if_true]
            exact ⟨_, rfl, Or.inr ⟨b, (m.read b).ref_count_, 0, rfl, h2, Nat.le_refl _, rfl,
              rfl, rfl, rfl, rfl⟩⟩
  | cons v env ih =>
    intro fuel old m hf hnone
    obtain ⟨f, rfl⟩ : ∃ f, fuel = f + 1 := ⟨fuel - 1, by simp at hf; omega⟩
    have hf1 : env.length + 2 ≤ f := by
      simp only [List.length_cons] at hf
      omega
    by_cases h0 : old = 0
    · subst h0
      rw [weak_ptr.lock_loop_zero]
      exact ⟨_, rfl, Or.inl ⟨rfl, rfl, rfl, 0, fun b _ => rfl⟩⟩
    · cases hc : self.ctrl_blk with
      | none => exact absurd (hnone hc) h0
      | some b =>
        rw [weak_ptr.lock_loop_some self b f old m (v :: env) hc h0]
        by_cases h1 : ((weak_ptr.before_cas m b (v :: env)).read b).ref_count_ = old
        · rw [if_pos h1]
          exact ⟨_, rfl, Or.inr ⟨b, old, 1, rfl, h0, by simp, rfl, rfl, rfl, h1, rfl⟩⟩
        · rw [if_neg h1]
          have hb : weak_ptr.before_cas m b (v :: env) = weak_ptr.interfere m b v := rfl
          simp only [hb, List.tail_cons]
          obtain ⟨r, hr, hres⟩ := ih f ((weak_ptr.interfere m b v).read b).ref_count_
            (weak_ptr.interfere m b v) hf1 (fun e => by rw [hc] at e; cases e)
          refine ⟨r, hr, ?_⟩
          rcases hres with ⟨e1, e2, e3, j, hj⟩ | hres
          · refine Or.inl ⟨e1, e2, e3, j + 1, ?_⟩
            intro b1 hb1
            have hbb : b = b1 := Option.some.inj hb1
            subst hbb
            rw [hj b hc]
            simp
          · rw [hc] at hres
            obtain ⟨b1, n, j, hb1, hn, hj, e1, e2, e3, e4, e5⟩ := hres
            cases hb1
            exact Or.inr ⟨b, n, j + 1, rfl, hn, by simpa using hj, e1, e2, e3, e4, e5⟩

/-- C4: whatever values other threads give the strong counter between the accesses of
`lock()`, the call returns.  When it performed a successful compare-exchange, the strong
counter held a nonzero value `n` right before it and holds the `std::size_t` value of
`n + 1` right after it (never 0 before and 1 after): the memory `lock()` leaves is the
memory produced by the first `j` values of the interference alone, in which the counter
is `n`, with that one counter replaced.  When the last value `lock()` observed is 0, or
when it performed no successful compare-exchange, it returns an empty handle and has
performed no write: the memory it leaves is the one produced by the interference alone. -/
theorem C4_lock_never_claims_from_zero (m : Memory) (self : weak_ptr) (env : List Nat) :
    ∃ r, weak_ptr.lock m self env = some r ∧
      (∀ n k, r.cas = some (n, k) →
        n ≠ 0 ∧ k = size_t_inc n ∧ (n + 1 < SIZE_RANGE → k = n + 1) ∧ ¬ (n = 0 ∧ k = 1) ∧
        ∃ (b j : Nat), self.ctrl_blk = some b ∧ j ≤ env.length ∧
          (((env.take j).foldl (fun acc v => weak_ptr.interfere acc b v) m).read b).ref_count_
            = n ∧
          r.mem = ((env.take j).foldl (fun acc v => weak_ptr.interfere acc b v) m).write b
            { ref_count_ := k,
              weak_count_ :=
                (((env.take j).foldl (fun acc v => weak_ptr.interfere acc b v) m).read
                  b).weak_count_ }) ∧
      (r.old = 0 → r.ret = {} ∧ r.cas = none ∧
        ∃ j, ∀ b, self.ctrl_blk = some b →
          r.mem = (env.take j).foldl (fun acc v => weak_ptr.interfere acc b v) m) ∧
      (r.cas = none → r.ret = {} ∧ r.old = 0 ∧
        ∃ j, ∀ b, self.ctrl_blk = some b →
          r.mem = (env.take j).foldl (fun acc v => weak_ptr.interfere acc b v) m) := by
  have hnone : self.ctrl_blk = none → weak_ptr.use_count m self = 0 := by
    intro e
    simp [weak_ptr.use_count, e]
  obtain ⟨r, hr, hres⟩ := weak_ptr.lock_loop_spec self env (env.length + 2)
    (weak_ptr.use_count m self) m (Nat.le_refl _) hnone
  refine ⟨r, hr, ?_, ?_, ?_⟩
  · intro n k hcas
    rcases hres with ⟨-, e2, -, -⟩ | ⟨b, n1, j, hc, hn, hj, -, e2, -, e4, e5⟩
    · rw [e2] at hcas
      cases hcas
    · rw [e2] at hcas
      cases hcas
      exact ⟨hn, rfl, fun hlt => size_t_inc_of_lt hlt, fun e => hn e.1, b, j, hc, hj, e4, e5⟩
  · intro hold
    rcases hres with ⟨e1, e2, -, hj⟩ | ⟨b, n1, j, hc, hn, -, -, -, e3, -, -⟩
    · exact ⟨e1, e2, hj⟩
    · rw [e3] at hold
      exact absurd hold hn
  · intro hcas
    rcases hres with ⟨e1, -, e3, hj⟩ | ⟨b, n1, j, hc, hn, -, -, e2, -, -, -⟩
    · exact ⟨e1, e3, hj⟩
    · rw [e2] at hcas
      cases hcas

/-- Witness of C4.  First call: the counter is 3 when `lock()` loads it, other threads make
it 4 and 4; the first compare-exchange fails, the second finds 4 and stores 5, which is
what the record and the memory show.  Second call: other threads make the counter 4 and
then 0; both compare-exchanges fail, `lock()` observes 0, returns the empty handle and
leaves the counter at 0. -/
theorem C4_witness :
    (∃ r, weak_ptr.lock { blocks := [{ ref_count_ := 3, weak_count_ := 2 }] }
        { ctrl_blk := some 0, ptr := 7 } [4, 4, 0] = some r ∧
      r.cas = some (4, 5) ∧ r.ret = { ctrl_blk := some 0, ptr := 7 } ∧
      r.mem = { blocks := [{ ref_count_ := 5, weak_count_ := 2 }] } ∧
      (4 ≠ 0 ∧ 5 = size_t_inc 4)) ∧
    (∃ r, weak_ptr.lock { blocks := [{ ref_count_ := 3, weak_count_ := 2 }] }
        { ctrl_blk := some 0, ptr := 7 } [4, 0] = some r ∧
      r.old = 0 ∧ r.ret = {} ∧ r.cas = none ∧
      r.mem = { blocks := [{ ref_count_ := 0, weak_count_ := 2 }] }) := by
  refine ⟨?_, ?_⟩
  · obtain ⟨r, hr, h1, -, -⟩ := C4_lock_never_claims_from_zero
      { blocks := [{ ref_count_ := 3, weak_count_ := 2 }] } { ctrl_blk := some 0, ptr := 7 }
      [4, 4, 0]
    have hv : weak_ptr.lock { blocks := [{ ref_count_ := 3, weak_count_ := 2 }] }
        { ctrl_blk := some 0, ptr := 7 } [4, 4, 0]
        = some { mem := { blocks := [{ ref_count_ := 5, weak_count_ := 2 }] },
                 ret := { ctrl_blk := some 0, ptr := 7 }, cas := some (4, 5), old := 4 } := by
      decide
    rw [hv] at hr
    cases hr
    obtain ⟨g1, g2, -⟩ := h1 4 5 rfl
    exact ⟨_, hv, rfl, rfl, rfl, g1, g2⟩
  · obtain ⟨r, hr, -, h2, -⟩ := C4_lock_never_claims_from_zero
      { blocks := [{ ref_count_ := 3, weak_count_ := 2 }] } { ctrl_blk := some 0, ptr := 7 }
      [4, 0]
    have hv : weak_ptr.lock { blocks := [{ ref_count_ := 3, weak_count_ := 2 }] }
        { ctrl_blk := some 0, ptr := 7 } [4, 0]
        = some { mem := { blocks := [{ ref_count_ := 0, weak_count_ := 2 }] },
                 ret := {}, cas := none, old := 0 } := by
      decide
    rw [hv] at hr
    cases hr
    obtain ⟨g1, g2, -⟩ := h2 rfl
    exact ⟨_, hv, rfl, g1, g2, rfl⟩

theorem scenario_D_run : run State.start scenario_D = some scenario_D_state := by
  decide

theorem scenario_live_run : run State.start scenario_live = some scenario_live_state := by
  decide

/-- C3: with no concurrent modification, `lock()` on a weak handle that is empty or whose
control block has strong count 0 returns an empty `shared_ptr` and leaves the memory as it
is; on a weak handle of a sequential run whose control block has strong count `n > 0` it
returns a non-empty `shared_ptr` with the same value pointer and control block, leaves the
strong count at `n + 1` and changes nothing else. -/
theorem C3_lock_without_interference (ops : List Op) (s : State)
    (h : run State.start ops = some s) (i : Nat) (w : weak_ptr) (hw : s.wp i = some w) :
    ((w.ctrl_blk = none ∨ ∃ b, w.ctrl_blk = some b ∧ (s.mem.read b).ref_count_ = 0) →
      ∃ r, weak_ptr.lock s.mem w [] = some r ∧ r.ret = {} ∧ r.ret.to_bool = false ∧
        r.mem = s.mem) ∧
    (∀ b n, w.ctrl_blk = some b → (s.mem.read b).ref_count_ = n → 0 < n →
      ∃ r, weak_ptr.lock s.mem w [] = some r ∧
        r.ret.ctrl_blk = some b ∧ r.ret.ptr = w.ptr ∧ r.ret.to_bool = true ∧
        (r.mem.read b).ref_count_ = n + 1 ∧
        (r.mem.read b).weak_count_ = (s.mem.read b).weak_count_ ∧
        (∀ b1, b1 ≠ b → r.mem.read b1 = s.mem.read b1) ∧
        r.mem.trace = s.mem.trace) := by
  have hs := Inv.reachable ops h
  have hm := mem_of_getElem?_eq (State.wp_eq_some hw)
  refine ⟨?_, ?_⟩
  · intro hz
    have h0 : weak_ptr.use_count s.mem w = 0 := by
      rcases hz with e | ⟨b, e, e0⟩
      · simp [weak_ptr.use_count, e]
      · simp [weak_ptr.use_count, e, control_block.count, e0]
    exact ⟨_, weak_ptr.lock_nil_zero s.mem w h0, rfl, rfl, rfl⟩
  · intro b n hc hn hpos
    obtain ⟨hb, hp⟩ := hs.wp_wf w hm b hc
    have hn0 : (s.mem.read b).ref_count_ ≠ 0 := by omega
    have hW := Inv.weak_pos_of_mem hm hc
    have hbi := hs.blk b hb
    unfold BlockInv at hbi
    obtain ⟨hA, hB⟩ := hbi
    have hS : 0 < s.strong_refs b := by
      by_contra hS0
      exact hn0 ((hB (by omega)).2.1 hW).1
    have hle := s.strong_refs_le_live b
    have hlive := hs.live_le
    have hinc : size_t_inc (s.mem.read b).ref_count_ = n + 1 := by
      rw [hn]
      apply size_t_inc_of_lt
      have := (hA hS).1
      unfold SIZE_RANGE
      unfold MAX_LIVE at hlive
      omega
    refine ⟨_, weak_ptr.lock_nil_pos s.mem w b hc hn0, rfl, rfl, ?_, ?_, ?_, ?_, rfl⟩
    · simp [shared_ptr.to_bool, hp]
    · simp only [Memory.read_write, hb, and_self, if_true, control_block.increment_ref]
      exact hinc
    · simp only [Memory.read_write, hb, and_self, if_true, control_block.increment_weak]
    · intro b1 hne
      simp [hne]

/-- Witness of C3: `lock()` on the live pair of `scenario_live` takes the strong count from
1 to 2, and in Scenario D the hypothesis of the empty case holds. -/
theorem C3_witness :
    (∃ r, weak_ptr.lock scenario_live_state.mem { ctrl_blk := some 0, ptr := 5 } [] = some r ∧
      r.ret.ctrl_blk = some 0 ∧ r.ret.ptr = 5 ∧ r.ret.to_bool = true ∧
      (r.mem.read 0).ref_count_ = 1 + 1 ∧
      (r.mem.read 0).weak_count_ = (scenario_live_state.mem.read 0).weak_count_ ∧
      (∀ b1, b1 ≠ 0 → r.mem.read b1 = scenario_live_state.mem.read b1) ∧
      r.mem.trace = scenario_live_state.mem.trace) ∧
    (∃ r, weak_ptr.lock scenario_B_state.mem { ctrl_blk := some 0, ptr := 5 } [] = some r ∧
      r.ret = {} ∧ r.ret.to_bool = false ∧ r.mem = scenario_B_state.mem) :=
  ⟨(C3_lock_without_interference scenario_live scenario_live_state scenario_live_run 0
      { ctrl_blk := some 0, ptr := 5 } (by decide)).2 0 1 (by decide) (by decide) (by decide),
    (C3_lock_without_interference scenario_B scenario_B_state scenario_B_run 0
      { ctrl_blk := some 0, ptr := 5 } (by decide)).1 (Or.inr ⟨0, by decide, by decide⟩)⟩

/-- C8: `shared_ptr(nullptr)` is an empty handle without control block, with
`use_count() == 0`, `weak_count() == 0` and false boolean conversion, and it leaves the
memory alone; `shared_ptr(p)` for a non-null `p` allocates a control block at an address
that was not in use, leaves the existing blocks alone and yields `get() == p`,
`use_count() == 1`, `weak_count() == 1` and true boolean conversion. -/
theorem C8_construct_from_pointer (m : Memory) (p : Nat) :
    (p = 0 →
      (shared_ptr.mk_from m p).1 = m ∧ (shared_ptr.mk_from m p).2.ctrl_blk = none ∧
      shared_ptr.use_count (shared_ptr.mk_from m p).1 (shared_ptr.mk_from m p).2 = 0 ∧
      shared_ptr.weak_count (shared_ptr.mk_from m p).1 (shared_ptr.mk_from m p).2 = 0 ∧
      (shared_ptr.mk_from m p).2.to_bool = false) ∧
    (p ≠ 0 →
      (shared_ptr.mk_from m p).2.ctrl_blk = some m.blocks.length ∧
      (shared_ptr.mk_from m p).1.blocks.length = m.blocks.length + 1 ∧
      (∀ b, b < m.blocks.length → (shared_ptr.mk_from m p).1.read b = m.read b) ∧
      (shared_ptr.mk_from m p).1.trace = m.trace ∧
      (shared_ptr.mk_from m p).2.get = p ∧
      shared_ptr.use_count (shared_ptr.mk_from m p).1 (shared_ptr.mk_from m p).2 = 1 ∧
      shared_ptr.weak_count (shared_ptr.mk_from m p).1 (shared_ptr.mk_from m p).2 = 1 ∧
      (shared_ptr.mk_from m p).2.to_bool = true) := by
  refine ⟨?_, ?_⟩
  · intro hp
    subst hp
    rw [shared_ptr.mk_from_null]
    exact ⟨rfl, rfl, rfl, rfl, rfl⟩
  · intro hp
    obtain ⟨e1, e2, e3, e4, e5⟩ := shared_ptr.mk_from_spec m p hp
    refine ⟨by rw [e1], e2, fun b hb => e4 b (by omega), e5, by rw [e1]; rfl, ?_, ?_, ?_⟩
    · simp only [shared_ptr.use_count, e1, e3, control_block.count]
    · simp only [shared_ptr.weak_count, e1, e3, control_block.weak_count]
    · simp [shared_ptr.to_bool, e1, hp]

/-- Witness of C8: the null pointer and the pointer 5 on the empty memory. -/
theorem C8_witness :
    ((shared_ptr.mk_from {} 0).1 = {} ∧ (shared_ptr.mk_from {} 0).2.ctrl_blk = none ∧
      shared_ptr.use_count (shared_ptr.mk_from {} 0).1 (shared_ptr.mk_from {} 0).2 = 0 ∧
      shared_ptr.weak_count (shared_ptr.mk_from {} 0).1 (shared_ptr.mk_from {} 0).2 = 0 ∧
      (shared_ptr.mk_from {} 0).2.to_bool = false) ∧
    shared_ptr.use_count (shared_ptr.mk_from {} 5).1 (shared_ptr.mk_from {} 5).2 = 1 :=
  ⟨(C8_construct_from_pointer {} 0).1 rfl,
    ((C8_construct_from_pointer {} 5).2 (by decide)).2.2.2.2.2.1⟩

/-- C9 (evaluation of the code): when the last weak handle of Scenario B is destroyed,
`weak_ptr::check_and_delete` finds `weak_count_ == 1` and deletes the control block without
decrementing the counter, which is still 1 afterwards; with `weak_count_ >= 2` it does
decrement by one. -/
theorem C9_weak_release_at_one_skips_decrement :
    run State.start (scenario_B ++ [.wp_drop 0]) = some scenario_B_final ∧
    (scenario_B_state.mem.read 0).weak_count_ = 1 ∧
    (scenario_B_final.mem.read 0).weak_count_ = 1 ∧
    scenario_B_final.mem.released 0 = 1 ∧
    weak_ptr.check_and_delete scenario_B_state.mem { ctrl_blk := some 0, ptr := 5 } =
      scenario_B_state.mem.emit (.delete_ctrl_blk 0) ∧
    ((weak_ptr.check_and_delete scenario_live_state.mem
        { ctrl_blk := some 0, ptr := 5 }).read 0).weak_count_ = 1 ∧
    (scenario_live_state.mem.read 0).weak_count_ = 2 := by
  decide

/-! ## The race between `lock()` and the release of strong handles -/

theorem race_getD_eq {s : Race} {t : Nat} {pc : Pc} (h : s.threads.getD t Pc.done = pc)
    (hne : pc ≠ Pc.done) : s.threads[t]? = some pc := by
  rw [List.getD_eq_getElem?_getD] at h
  cases hx : s.threads[t]? with
  | none =>
    rw [hx] at h
    exact absurd h.symm hne
  | some x =>
    rw [hx] at h
    simp only [Option.getD_some] at h
    rw [h]

theorem RaceInv.init (n : Nat) (hn : n + 1 < MAX_LIVE) : RaceInv (race_init n) := by
  have h1 : ∀ p : Pc → Bool, p Pc.start = false →
      (List.replicate n Pc.start).countP p = 0 := by
    intro p hp
    rw [List.countP_eq_zero]
    intro x hx
    rw [List.eq_of_mem_replicate hx, hp]
    simp
  refine ⟨?_, ?_, ?_, ?_, ?_, ?_, rfl, ?_⟩
  · simp [race_init, List.countP_cons, h1 Pc.is_holding rfl, Pc.is_holding]
  · simp [race_init, List.countP_cons, h1 Pc.is_deleting rfl, Pc.is_deleting]
  · simp [race_init, List.countP_cons, h1 Pc.is_deleting rfl, Pc.is_deleting]
  · simp [race_init, List.countP_cons, h1 Pc.is_releasing rfl, Pc.is_releasing]
  · simp [race_init, List.countP_cons, h1 Pc.is_releasing rfl, Pc.is_releasing]
  · simp [race_init, List.countP_cons, h1 Pc.is_freeing rfl, Pc.is_freeing]
  · simp only [race_init, List.length_cons, List.length_replicate]
    exact hn

theorem RaceInv.after_step {s : Race} (hs : RaceInv s) (t : Nat) : RaceInv (race_step s t) := by
  obtain ⟨i1, i2, i3, i4, i5, i6, i7, i8⟩ := hs
  have hH : s.threads.countP Pc.is_holding ≤ s.threads.length := List.countP_le_length _
  unfold race_step
  cases hpc : s.threads.getD t Pc.done with
  | start =>
    have hg := race_getD_eq hpc (by simp)
    have c := fun p => countP_set_of_getElem? p s.threads t Pc.start
      (Pc.loaded s.blk.count) hg
    have c1 := c Pc.is_holding
    have c2 := c Pc.is_deleting
    have c3 := c Pc.is_releasing
    have c4 := c Pc.is_freeing
    simp only [Pc.is_holding, Pc.is_deleting, Pc.is_releasing, Pc.is_freeing,
      Bool.false_eq_true, if_false, add_zero] at c1 c2 c3 c4
    refine ⟨?_, ?_, ?_, ?_, ?_, ?_, i7, ?_⟩ <;> simp only [List.length_set] <;> omega
  | loaded old =>
    have hg := race_getD_eq hpc (by simp)
    by_cases h0 : old = 0
    · have c := fun p => countP_set_of_getElem? p s.threads t (Pc.loaded old)
        Pc.returned_empty hg
      have c1 := c Pc.is_holding
      have c2 := c Pc.is_deleting
      have c3 := c Pc.is_releasing
      have c4 := c Pc.is_freeing
      simp only [Pc.is_holding, Pc.is_deleting, Pc.is_releasing, Pc.is_freeing,
        Bool.false_eq_true, if_false, add_zero] at c1 c2 c3 c4
      simp only [h0, if_true]
      refine ⟨?_, ?_, ?_, ?_, ?_, ?_, i7, ?_⟩ <;> simp only [List.length_set] <;> omega
    · simp only [h0, if_false, control_block.compare_exchange_strong]
      by_cases hcas : s.blk.ref_count_ = old
      · have c := fun p => countP_set_of_getElem? p s.threads t (Pc.loaded old)
          Pc.holding hg
        have c1 := c Pc.is_holding
        have c2 := c Pc.is_deleting
        have c3 := c Pc.is_releasing
        have c4 := c Pc.is_freeing
        simp only [Pc.is_holding, Pc.is_deleting, Pc.is_releasing, Pc.is_freeing,
          Bool.false_eq_true, if_false, if_true, add_zero] at c1 c2 c3 c4
        have hinc : size_t_inc old = old + 1 := by
          apply size_t_inc_of_lt
          unfold SIZE_RANGE
          unfold MAX_LIVE at i8
          omega
        simp only [hcas, if_true, hinc]
        refine ⟨?_, ?_, ?_, ?_, ?_, ?_, i7, ?_⟩ <;> simp only [List.length_set] <;> omega
      · have c := fun p => countP_set_of_getElem? p s.threads t (Pc.loaded old)
          (Pc.loaded s.blk.ref_count_) hg
        have c1 := c Pc.is_holding
        have c2 := c Pc.is_deleting
        have c3 := c Pc.is_releasing
        have c4 := c Pc.is_freeing
        simp only [Pc.is_holding, Pc.is_deleting, Pc.is_releasing, Pc.is_freeing,
          Bool.false_eq_true, if_false, add_zero] at c1 c2 c3 c4
        simp only [hcas, if_false, Bool.false_eq_true]
        refine ⟨?_, ?_, ?_, ?_, ?_, ?_, i7, ?_⟩ <;> simp only [List.length_set] <;> omega
  | holding =>
    have hg := race_getD_eq hpc (by simp)
    have hpos : 0 < s.threads.countP Pc.is_holding :=
      List.countP_pos_iff.mpr ⟨Pc.holding, mem_of_getElem?_eq hg, rfl⟩
    have hdec : size_t_dec s.blk.ref_count_ = s.blk.ref_count_ - 1 :=
      size_t_dec_of_pos (by omega)
    simp only [control_block.decrement, hdec]
    by_cases h1 : s.blk.ref_count_ = 1
    · have c := fun p => countP_set_of_getElem? p s.threads t Pc.holding Pc.deleting hg
      have c1 := c Pc.is_holding
      have c2 := c Pc.is_deleting
      have c3 := c Pc.is_releasing
      have c4 := c Pc.is_freeing
      simp only [Pc.is_holding, Pc.is_deleting, Pc.is_releasing, Pc.is_freeing,
        Bool.false_eq_true, if_false, if_true, add_zero] at c1 c2 c3 c4
      simp only [h1, decide_True, if_true]
      refine ⟨?_, ?_, ?_, ?_, ?_, ?_, i7, ?_⟩ <;> simp only [List.length_set] <;>
        first | omega | (intros; trivial)
    · have c := fun p => countP_set_of_getElem? p s.threads t Pc.holding Pc.done hg
      have c1 := c Pc.is_holding
      have c2 := c Pc.is_deleting
      have c3 := c Pc.is_releasing
      have c4 := c Pc.is_freeing
      simp only [Pc.is_holding, Pc.is_deleting, Pc.is_releasing, Pc.is_freeing,
        Bool.false_eq_true, if_false, if_true, add_zero] at c1 c2 c3 c4
      simp only [h1, decide_False, Bool.false_eq_true, if_false]
      refine ⟨?_, ?_, ?_, ?_, ?_, ?_, i7, ?_⟩ <;> simp only [List.length_set] <;> omega
  | deleting =>
    have hg := race_getD_eq hpc (by simp)
    have c := fun p => countP_set_of_getElem? p s.threads t Pc.deleting Pc.releasing hg
    have c1 := c Pc.is_holding
    have c2 := c Pc.is_deleting
    have c3 := c Pc.is_releasing
    have c4 := c Pc.is_freeing
    simp only [Pc.is_holding, Pc.is_deleting, Pc.is_releasing, Pc.is_freeing,
      Bool.false_eq_true, if_false, if_true, add_zero] at c1 c2 c3 c4
    refine ⟨?_, ?_, ?_, ?_, ?_, ?_, i7, ?_⟩ <;> simp only [List.length_set] <;> omega
  | releasing =>
    have hg := race_getD_eq hpc (by simp)
    have hpos : 0 < s.threads.countP Pc.is_releasing :=
      List.countP_pos_iff.mpr ⟨Pc.releasing, mem_of_getElem?_eq hg, rfl⟩
    have hw : s.blk.weak_count_ = 2 := by omega
    have hdec : size_t_dec s.blk.weak_count_ = 1 := by
      rw [size_t_dec_of_pos (by omega), hw]
    have c := fun p => countP_set_of_getElem? p s.threads t Pc.releasing Pc.done hg
    have c1 := c Pc.is_holding
    have c2 := c Pc.is_deleting
    have c3 := c Pc.is_releasing
    have c4 := c Pc.is_freeing
    simp only [Pc.is_holding, Pc.is_deleting, Pc.is_releasing, Pc.is_freeing,
      Bool.false_eq_true, if_false, if_true, add_zero] at c1 c2 c3 c4
    have h1 : ¬ s.blk.weak_count_ = 1 := by omega
    simp only [control_block.weak_decrement, hdec, h1, decide_False, Bool.false_eq_true,
      if_false]
    refine ⟨?_, ?_, ?_, ?_, ?_, ?_, i7, ?_⟩ <;> simp only [List.length_set] <;> omega
  | freeing =>
    have hg := race_getD_eq hpc (by simp)
    have hpos : 0 < s.threads.countP Pc.is_freeing :=
      List.countP_pos_iff.mpr ⟨Pc.freeing, mem_of_getElem?_eq hg, rfl⟩
    omega
  | returned_empty => exact ⟨i1, i2, i3, i4, i5, i6, i7, i8⟩
  | done => exact ⟨i1, i2, i3, i4, i5, i6, i7, i8⟩

theorem RaceInv.after_run {s : Race} (hs : RaceInv s) (sched : List Nat) :
    RaceInv (race_run s sched) := by
  induction sched generalizing s with
  | nil => exact hs
  | cons t sched ih => exact ih (hs.after_step t)

theorem race_getD_of_getElem? {s : Race} {t : Nat} {pc : Pc} (h : s.threads[t]? = some pc) :
    s.threads.getD t Pc.done = pc := by
  rw [List.getD_eq_getElem?_getD, h]
  rfl

theorem race_thread_set {l : List Pc} {t : Nat} {pc : Pc} (pc1 : Pc)
    (h : l[t]? = some pc) : (l.set t pc1)[t]? = some pc1 := by
  have ht := (List.getElem?_eq_some_iff.mp h).1
  rw [List.getElem?_set]
  simp [ht]

theorem race_step_start {s : Race} {t : Nat} (h : s.threads[t]? = some Pc.start) :
    race_step s t = { s with threads := s.threads.set t (Pc.loaded s.blk.ref_count_) } := by
  unfold race_step
  rw [race_getD_of_getElem? h]
  rfl

theorem race_step_loaded_zero {s : Race} {t : Nat} (h : s.threads[t]? = some (Pc.loaded 0)) :
    race_step s t = { s with threads := s.threads.set t Pc.returned_empty } := by
  unfold race_step
  rw [race_getD_of_getElem? h]
  rfl

theorem race_step_loaded_hit {s : Race} {t old : Nat}
    (h : s.threads[t]? = some (Pc.loaded old)) (h0 : old ≠ 0)
    (hc : s.blk.ref_count_ = old) :
    race_step s t =
      { s with blk := { s.blk with ref_count_ := size_t_inc old },
               threads := s.threads.set t Pc.holding } := by
  unfold race_step
  rw [race_getD_of_getElem? h]
  simp only [h0, if_false, control_block.compare_exchange_strong, hc, if_true]

theorem race_step_loaded_miss {s : Race} {t old : Nat}
    (h : s.threads[t]? = some (Pc.loaded old)) (h0 : old ≠ 0)
    (hc : s.blk.ref_count_ ≠ old) :
    race_step s t = { s with threads := s.threads.set t (Pc.loaded s.blk.ref_count_) } := by
  unfold race_step
  rw [race_getD_of_getElem? h]
  simp only [h0, if_false, control_block.compare_exchange_strong, hc, Bool.false_eq_true]

/-- A `lock()` call that runs without being interrupted for two steps returns. -/
theorem race_lock_returns_solo (s : Race) (t : Nat)
    (hpc : s.threads[t]? = some Pc.start ∨ ∃ old, s.threads[t]? = some (Pc.loaded old)) :
    ∃ j, j ≤ 2 ∧
      ((race_run s (List.replicate j t)).threads[t]? = some Pc.returned_empty ∨
       (race_run s (List.replicate j t)).threads[t]? = some Pc.holding) := by
  have from_loaded : ∀ (s1 : Race) (old : Nat), s1.threads[t]? = some (Pc.loaded old) →
      s1.blk.ref_count_ = old →
      (race_step s1 t).threads[t]? = some Pc.returned_empty ∨
      (race_step s1 t).threads[t]? = some Pc.holding := by
    intro s1 old h1 hc
    by_cases h0 : old = 0
    · subst h0
      rw [race_step_loaded_zero h1]
      exact Or.inl (race_thread_set _ h1)
    · rw [race_step_loaded_hit h1 h0 hc]
      exact Or.inr (race_thread_set _ h1)
  rcases hpc with h | ⟨old, h⟩
  · refine ⟨2, Nat.le_refl _, ?_⟩
    have e1 := race_step_start h
    have h1 : (race_step s t).threads[t]? = some (Pc.loaded s.blk.ref_count_) := by
      rw [e1]
      exact race_thread_set _ h
    have hb : (race_step s t).blk.ref_count_ = s.blk.ref_count_ := by
      rw [e1]
    exact from_loaded (race_step s t) _ h1 hb
  · by_cases h0 : old = 0
    · subst h0
      refine ⟨1, by omega, Or.inl ?_⟩
      show (race_step s t).threads[t]? = _
      rw [race_step_loaded_zero h]
      exact race_thread_set _ h
    · by_cases hc : s.blk.ref_count_ = old
      · refine ⟨1, by omega, Or.inr ?_⟩
        show (race_step s t).threads[t]? = _
        rw [race_step_loaded_hit h h0 hc]
        exact race_thread_set _ h
      · refine ⟨2, Nat.le_refl _, ?_⟩
        have e1 := race_step_loaded_miss h h0 hc
        have h1 : (race_step s t).threads[t]? = some (Pc.loaded s.blk.ref_count_) := by
          rw [e1]
          exact race_thread_set _ h
        have hb : (race_step s t).blk.ref_count_ = s.blk.ref_count_ := by
          rw [e1]
        exact from_loaded (race_step s t) _ h1 hb

theorem RaceInv.holding_intact {s : Race} (hs : RaceInv s) (t : Nat)
    (h : s.threads[t]? = some Pc.holding) : s.destroyed = 0 ∧ 0 < s.blk.ref_count_ := by
  have hpos : 0 < s.threads.countP Pc.is_holding :=
    List.countP_pos_iff.mpr ⟨Pc.holding, mem_of_getElem?_eq h, rfl⟩
  have h1 := hs.strong_eq
  have h3 := hs.dead
  refine ⟨?_, by omega⟩
  by_contra hne
  have := h3 (by omega)
  omega

/-- C10: in every interleaving of the atomic steps of `n` calls of `lock()` with the release
of the last strong handle (and with the release of the handles `lock()` returned), the value
is destroyed at most once, the control block is not freed, a thread that owns a handle
returned by `lock()` finds the value not destroyed for as long as it owns it, and a call of
`lock()` that is left to run returns within two steps, an empty handle or a handle on the
intact value. -/
theorem C10_lock_race_returns_empty_or_intact (n : Nat) (hn : n + 1 < MAX_LIVE)
    (sched : List Nat) :
    (race_run (race_init n) sched).destroyed ≤ 1 ∧
    (race_run (race_init n) sched).freed = 0 ∧
    (∀ t : Nat, (race_run (race_init n) sched).threads[t]? = some Pc.holding →
      (race_run (race_init n) sched).destroyed = 0 ∧
      0 < (race_run (race_init n) sched).blk.ref_count_) ∧
    (∀ t : Nat, ((race_run (race_init n) sched).threads[t]? = some Pc.start ∨
        ∃ old, (race_run (race_init n) sched).threads[t]? = some (Pc.loaded old)) →
      ∃ j, j ≤ 2 ∧
        ((race_run (race_init n) (sched ++ List.replicate j t)).threads[t]? =
            some Pc.returned_empty ∨
         ((race_run (race_init n) (sched ++ List.replicate j t)).threads[t]? =
            some Pc.holding ∧
          (race_run (race_init n) (sched ++ List.replicate j t)).destroyed = 0))) := by
  have hs := (RaceInv.init n hn).after_run sched
  refine ⟨?_, hs.not_freed, fun t ht => hs.holding_intact t ht, ?_⟩
  · have := hs.once
    omega
  · intro t ht
    obtain ⟨j, hj, hres⟩ := race_lock_returns_solo _ t ht
    refine ⟨j, hj, ?_⟩
    have happ : race_run (race_init n) (sched ++ List.replicate j t) =
        race_run (race_run (race_init n) sched) (List.replicate j t) := by
      simp [race_run, List.foldl_append]
    rw [happ]
    rcases hres with h1 | h1
    · exact Or.inl h1
    · exact Or.inr ⟨h1, ((hs.after_run (List.replicate j t)).holding_intact t h1).1⟩

/-- Witness of C10: five `lock()` calls as in `test_weak_ptr_lock_multithread`; thread 1
claims the value before thread 0 resets, the others come too late. -/
theorem C10_witness :
    (race_run (race_init 5) [1, 2, 1, 0, 2, 3, 3, 4, 5, 2, 4, 5, 1, 1]).destroyed ≤ 1 ∧
    (race_run (race_init 5) [1, 2, 1, 0, 2, 3, 3, 4, 5, 2, 4, 5, 1, 1]).freed = 0 ∧
    (race_run (race_init 5) [1, 2, 1, 0]).threads[1]? = some Pc.holding ∧
    (race_run (race_init 5) [1, 2, 1, 0]).destroyed = 0 :=
  ⟨(C10_lock_race_returns_empty_or_intact 5 (by decide)
      [1, 2, 1, 0, 2, 3, 3, 4, 5, 2, 4, 5, 1, 1]).1,
    (C10_lock_race_returns_empty_or_intact 5 (by decide)
      [1, 2, 1, 0, 2, 3, 3, 4, 5, 2, 4, 5, 1, 1]).2.1,
    by decide,
    ((C10_lock_race_returns_empty_or_intact 5 (by decide) [1, 2, 1, 0]).2.2.1 1
      (by decide)).1⟩

end kaiserqzyue

namespace Lru

variable {K V : Type} [DecidableEq K]

theorem lru_find_none {m : List (K × Nat)} {key : K} (h : find m key = none) (it : Nat) :
    (key, it) ∉ m := by
  intro hm
  simp only [find, Option.map_eq_none', List.find?_eq_none] at h
  have := h _ hm
  simp at this

theorem lru_find_some {m : List (K × Nat)} {key : K} {it : Nat} (h : find m key = some it) :
    (key, it) ∈ m := by
  simp only [find, Option.map_eq_some'] at h
  obtain ⟨e, he, rfl⟩ := h
  have h1 := List.mem_of_find?_eq_some he
  have h2 := List.find?_some he
  simp only [decide_eq_true_eq] at h2
  subst h2
  exact h1

theorem lru_find_isSome {m : List (K × Nat)} {key : K} :
    (find m key).isSome ↔ ∃ it, (key, it) ∈ m := by
  constructor
  · intro h
    obtain ⟨it, hit⟩ := Option.isSome_iff_exists.1 h
    exact ⟨it, lru_find_some hit⟩
  · rintro ⟨it, hit⟩
    cases hf : find m key with
    | none => exact absurd hit (lru_find_none hf it)
    | some _ => rfl

theorem lru_deref_some {l : List (Node K V)} {it : Nat} {n : Node K V}
    (h : deref l it = some n) : n ∈ l ∧ n.id = it := by
  refine ⟨List.mem_of_find?_eq_some h, ?_⟩
  have := List.find?_some h
  simpa using this

theorem lru_id_inj {l : List (Node K V)} (hn : (l.map (fun n => n.id)).Nodup)
    {a b : Node K V} (ha : a ∈ l) (hb : b ∈ l) (h : a.id = b.id) : a = b :=
  List.inj_on_of_nodup_map hn ha hb h

theorem lru_first_inj {l : List (Node K V)} (hn : (l.map (fun n => n.first)).Nodup)
    {a b : Node K V} (ha : a ∈ l) (hb : b ∈ l) (h : a.first = b.first) : a = b :=
  List.inj_on_of_nodup_map hn ha hb h

theorem lru_deref_of_mem {l : List (Node K V)} (hn : (l.map (fun n => n.id)).Nodup)
    {n : Node K V} (h : n ∈ l) : deref l n.id = some n := by
  cases hd : deref l n.id with
  | none =>
    simp only [deref, List.find?_eq_none] at hd
    have := hd n h
    simp at this
  | some a =>
    obtain ⟨ha, hid⟩ := lru_deref_some hd
    rw [lru_id_inj hn ha h hid]

theorem lru_splice_perm {l : List (Node K V)} (hn : (l.map (fun n => n.id)).Nodup)
    {n : Node K V} (h : n ∈ l) :
    List.Perm (n :: l.filter (fun x => decide (x.id ≠ n.id))) l := by
  induction l with
  | nil => cases h
  | cons a t ih =>
    simp only [List.map_cons, List.nodup_cons] at hn
    rcases List.mem_cons.1 h with rfl | h1
    · have : t.filter (fun x => decide (x.id ≠ n.id)) = t := by
        rw [List.filter_eq_self]
        intro x hx
        simp only [ne_eq, decide_eq_true_eq]
        intro e
        exact hn.1 (e ▸ List.mem_map_of_mem (fun n => n.id) hx)
      rw [List.filter_cons_of_neg (by simp), this]
    · have hne : a.id ≠ n.id := fun e =>
        hn.1 (e ▸ List.mem_map_of_mem (fun n => n.id) h1)
      rw [List.filter_cons_of_pos (by simpa using hne)]
      exact (List.Perm.swap a n _).trans ((ih hn.2 h1).cons a)

theorem lru_last_access_le (es : List (Event K V)) (k : K) :
    last_access es k ≤ es.length := by
  induction es with
  | nil => simp [last_access]
  | cons e es ih =>
    cases e <;> simp only [last_access, List.length_cons] <;> try split
    all_goals omega

theorem lru_inv_touch {s : lru K V} {es : List (Event K V)} (h : Inv s es)
    {n : Node K V} (hn : n ∈ s.cache_list) (e : Event K V) (n1 : Node K V)
    (hid : n1.id = n.id) (hfirst : n1.first = n.first)
    (hacc : ∀ k, last_access (e :: es) k
      = if n.first = k then es.length + 1 else last_access es k)
    (hput : last_put (e :: es) n.first = some n1.second)
    (hput1 : ∀ k, k ≠ n.first → last_put (e :: es) k = last_put es k) :
    Inv { s with cache_list := n1 :: s.cache_list.filter (fun x => decide (x.id ≠ n.id)) }
      (e :: es) := by
  have hperm := lru_splice_perm h.ids_nodup hn
  have hmemf : ∀ m, m ∈ s.cache_list.filter (fun x => decide (x.id ≠ n.id))
      ↔ m ∈ s.cache_list ∧ m ≠ n := by
    intro m
    simp only [List.mem_filter, ne_eq, decide_eq_true_eq, decide_not, Bool.not_eq_eq_eq_not,
      Bool.not_true, decide_eq_false_iff_not]
    constructor
    · rintro ⟨hm, hne⟩
      exact ⟨hm, fun e => hne (e ▸ rfl)⟩
    · rintro ⟨hm, hne⟩
      exact ⟨hm, fun e => hne (lru_id_inj h.ids_nodup hm hn e)⟩
  have hkey : ∀ m, m ∈ s.cache_list → m ≠ n → m.first ≠ n.first := fun m hm hne e =>
    hne (lru_first_inj h.keys_nodup hm hn e)
  constructor
  · intro k it
    rw [h.map_iff]
    constructor
    · rintro ⟨m, hm, hmi, hmk⟩
      by_cases hmn : m = n
      · subst hmn
        exact ⟨n1, List.mem_cons_self _ _, hid.trans hmi, hfirst.trans hmk⟩
      · exact ⟨m, List.mem_cons_of_mem _ ((hmemf m).2 ⟨hm, hmn⟩), hmi, hmk⟩
    · rintro ⟨m, hm, hmi, hmk⟩
      rcases List.mem_cons.1 hm with rfl | hm1
      · exact ⟨n, hn, hid.symm.trans hmi, hfirst.symm.trans hmk⟩
      · exact ⟨m, ((hmemf m).1 hm1).1, hmi, hmk⟩
  · have := (hperm.map (fun n => n.first)).nodup_iff.2 h.keys_nodup
    simpa [hfirst] using this
  · have := (hperm.map (fun n => n.id)).nodup_iff.2 h.ids_nodup
    simpa [hid] using this
  · intro m hm
    rcases List.mem_cons.1 hm with rfl | hm1
    · simpa [hid] using h.ids_lt n hn
    · exact h.ids_lt m ((hmemf m).1 hm1).1
  · have := hperm.length_eq
    simp only [List.length_cons] at this ⊢
    rw [this]
    exact h.size_le
  · refine List.Pairwise.cons ?_ ?_
    · intro b hb
      obtain ⟨hb1, hb2⟩ := (hmemf b).1 hb
      have hk := hkey b hb1 hb2
      rw [hacc, hacc, hfirst, if_neg (fun e => hk e.symm), if_pos rfl]
      have := lru_last_access_le es b.first
      omega
    · refine List.Pairwise.imp_of_mem ?_ (h.recency.sublist (List.filter_sublist _))
      intro a b ha hb hab
      have hka := hkey a ((hmemf a).1 ha).1 ((hmemf a).1 ha).2
      have hkb := hkey b ((hmemf b).1 hb).1 ((hmemf b).1 hb).2
      rw [hacc, hacc, if_neg (fun e => hkb e.symm), if_neg (fun e => hka e.symm)]
      exact hab
  · intro m hm
    rw [hacc]
    split
    · omega
    · rcases List.mem_cons.1 hm with rfl | hm1
      · rename_i hne
        exact absurd hfirst.symm hne
      · exact h.accessed m ((hmemf m).1 hm1).1
  · intro m hm
    rcases List.mem_cons.1 hm with rfl | hm1
    · rw [hfirst, hput]
    · obtain ⟨hm2, hm3⟩ := (hmemf m).1 hm1
      rw [hput1 _ (hkey m hm2 hm3)]
      exact h.value_eq m hm2

theorem lru_find_of_mem {s : lru K V} {es : List (Event K V)} (h : Inv s es)
    {n : Node K V} (hn : n ∈ s.cache_list) : find s.cache_map n.first = some n.id := by
  cases hf : find s.cache_map n.first with
  | none => exact absurd ((h.map_iff _ _).2 ⟨n, hn, rfl, rfl⟩) (lru_find_none hf n.id)
  | some it =>
    obtain ⟨m, hm, hmi, hmk⟩ := (h.map_iff _ _).1 (lru_find_some hf)
    rw [← hmi, lru_first_inj h.keys_nodup hm hn hmk]

theorem lru_find_none_iff {s : lru K V} {es : List (Event K V)} (h : Inv s es) (key : K) :
    find s.cache_map key = none ↔ key ∉ s.keys := by
  constructor
  · intro hf hk
    obtain ⟨n, hn, rfl⟩ := List.mem_map.1 hk
    rw [lru_find_of_mem h hn] at hf
    cases hf
  · intro hk
    cases hf : find s.cache_map key with
    | none => rfl
    | some it =>
      obtain ⟨m, hm, _, hmk⟩ := (h.map_iff _ _).1 (lru_find_some hf)
      exact absurd (List.mem_map.2 ⟨m, hm, hmk⟩) hk

theorem lru_splice_of_mem {l : List (Node K V)} (hl : (l.map (fun n => n.id)).Nodup)
    {n : Node K V} (hn : n ∈ l) :
    splice_front l n.id = some (n :: l.filter (fun x => decide (x.id ≠ n.id))) := by
  simp only [splice_front, lru_deref_of_mem hl hn]

theorem lru_deref_head (n : Node K V) (l : List (Node K V)) :
    deref (n :: l) n.id = some n := by
  simp [deref]

theorem lru_get_hit {s : lru K V} {es : List (Event K V)} (h : Inv s es)
    {n : Node K V} (hn : n ∈ s.cache_list) (d : V) :
    s.get n.first d = some (n.second,
      { s with cache_list := n :: s.cache_list.filter (fun x => decide (x.id ≠ n.id)) }) := by
  simp only [lru.get, lru_find_of_mem h hn, lru_splice_of_mem h.ids_nodup hn, lru_deref_head]

theorem lru_get_miss {s : lru K V} {key : K} (hf : find s.cache_map key = none) (d : V) :
    s.get key d = some (d, s) := by
  simp only [lru.get, hf]

theorem lru_assign_head (n : Node K V) (l : List (Node K V)) (value : V) :
    assign_second (n :: l.filter (fun x => decide (x.id ≠ n.id))) n.id value
      = { n with second := value } :: l.filter (fun x => decide (x.id ≠ n.id)) := by
  simp only [assign_second, List.map_cons, if_pos]
  congr 1
  conv_rhs => rw [← List.map_id (l.filter (fun x => decide (x.id ≠ n.id)))]
  apply List.map_congr_left
  intro a ha
  have := (List.mem_filter.1 ha).2
  simp only [ne_eq, decide_not, Bool.not_eq_eq_eq_not, Bool.not_true,
    decide_eq_false_iff_not] at this
  simp [this]

theorem lru_put_hit {s : lru K V} {es : List (Event K V)} (h : Inv s es)
    (hc : s.capacity ≠ 0) {n : Node K V} (hn : n ∈ s.cache_list) (key2 : K) (value : V) :
    s.put n.first key2 value = some
      { s with cache_list := { n with second := value }
          :: s.cache_list.filter (fun x => decide (x.id ≠ n.id)) } := by
  simp only [lru.put, if_neg hc, lru_find_of_mem h hn, lru_splice_of_mem h.ids_nodup hn,
    lru_deref_head, lru_assign_head]

theorem lru_inv_miss {s : lru K V} {es : List (Event K V)} (h : Inv s es) (key : K) :
    Inv s (Event.miss key :: es) := by
  refine ⟨h.map_iff, h.keys_nodup, h.ids_nodup, h.ids_lt, h.size_le, ?_, ?_, ?_⟩
  · simpa only [last_access] using h.recency
  · simpa only [last_access] using h.accessed
  · simpa only [last_put] using h.value_eq

theorem lru_inv_pop_back {s : lru K V} {es : List (Event K V)} (h : Inv s es)
    {l0 : List (Node K V)} {back : Node K V} (hl : s.cache_list = l0 ++ [back]) :
    Inv { s with cache_map := erase s.cache_map back.first, cache_list := l0 } es := by
  have hsub : List.Sublist l0 s.cache_list := by
    rw [hl]; exact List.sublist_append_left _ _
  have hmem : ∀ n, n ∈ l0 → n ∈ s.cache_list := fun n hn => hsub.subset hn
  have hkeys := h.keys_nodup
  rw [hl, List.map_append, List.nodup_append] at hkeys
  have hback : ∀ n, n ∈ l0 → n.first ≠ back.first := by
    intro n hn e
    exact hkeys.2.2 (List.mem_map_of_mem (fun n => n.first) hn) (by simp [e])
  constructor
  · intro k it
    have hm : (k, it) ∈ erase s.cache_map back.first
        ↔ (k, it) ∈ s.cache_map ∧ k ≠ back.first := by
      simp [erase, List.mem_filter]
    rw [hm, h.map_iff]
    constructor
    · rintro ⟨⟨n, hn, hni, hnk⟩, hne⟩
      rw [hl, List.mem_append, List.mem_singleton] at hn
      rcases hn with hn | rfl
      · exact ⟨n, hn, hni, hnk⟩
      · exact absurd hnk.symm hne
    · rintro ⟨n, hn, hni, hnk⟩
      exact ⟨⟨n, hmem n hn, hni, hnk⟩, fun e => hback n hn (hnk.trans e)⟩
  · exact h.keys_nodup.sublist (hsub.map _)
  · exact h.ids_nodup.sublist (hsub.map _)
  · exact fun n hn => h.ids_lt n (hmem n hn)
  · exact le_trans hsub.length_le h.size_le
  · exact h.recency.sublist hsub
  · exact fun n hn => h.accessed n (hmem n hn)
  · exact fun n hn => h.value_eq n (hmem n hn)

theorem lru_evict_full {s : lru K V} (hc : s.capacity ≠ 0)
    (hfull : s.cache_list.length = s.capacity) :
    ∃ l0 back, s.cache_list = l0 ++ [back] ∧ s.cache_list.getLast? = some back
      ∧ s.cache_list.dropLast = l0
      ∧ s.evict = some { s with cache_map := erase s.cache_map back.first,
                                cache_list := l0 } := by
  have hne : s.cache_list ≠ [] := by
    intro e
    rw [e] at hfull
    exact hc hfull.symm
  obtain ⟨l0, back, hl⟩ : ∃ l0 back, s.cache_list = l0 ++ [back] :=
    ⟨s.cache_list.dropLast, s.cache_list.getLast hne,
      (List.dropLast_append_getLast hne).symm⟩
  refine ⟨l0, back, hl, ?_, ?_, ?_⟩
  · rw [hl]; simp
  · rw [hl]; simp
  · have h1 : s.cache_list.getLast? = some back := by rw [hl]; simp
    have h2 : s.cache_list.dropLast = l0 := by rw [hl]; simp
    simp only [lru.evict, if_pos hfull, h1, h2]

theorem lru_evict_spec {s : lru K V} {es : List (Event K V)} (h : Inv s es)
    (hc : s.capacity ≠ 0) {key : K} (hf : find s.cache_map key = none) :
    ∃ s1, s.evict = some s1 ∧ Inv s1 es ∧ s1.cache_list.length < s.capacity
      ∧ s1.capacity = s.capacity ∧ find s1.cache_map key = none := by
  by_cases hfull : s.cache_list.length = s.capacity
  · obtain ⟨l0, back, hl, _, _, hev⟩ := lru_evict_full hc hfull
    refine ⟨_, hev, lru_inv_pop_back h hl, ?_, rfl, ?_⟩
    · have := congrArg List.length hl
      simp only [List.length_append, List.length_singleton] at this
      show l0.length < s.capacity
      omega
    · cases hf1 : find (erase s.cache_map back.first) key with
      | none => rfl
      | some it =>
        have := lru_find_some hf1
        simp only [erase, List.mem_filter] at this
        exact absurd this.1 (lru_find_none hf it)
  · refine ⟨s, ?_, h, ?_, rfl, hf⟩
    · simp only [lru.evict, if_neg hfull]
    · have := h.size_le
      omega

theorem lru_inv_insert {s : lru K V} {es : List (Event K V)} (h : Inv s es)
    {key : K} (hf : find s.cache_map key = none)
    (hlen : s.cache_list.length < s.capacity) (value : V) :
    Inv { s with cache_list := ⟨s.next_id, key, value⟩ :: s.cache_list,
                 cache_map := emplace s.cache_map key s.next_id,
                 next_id := s.next_id + 1 } (Event.put key value :: es) := by
  have hk : ∀ n, n ∈ s.cache_list → key ≠ n.first := by
    intro n hn e
    exact (lru_find_none_iff h key).1 hf (e ▸ List.mem_map_of_mem (fun n => n.first) hn)
  have hem : emplace s.cache_map key s.next_id = (key, s.next_id) :: s.cache_map := by
    simp only [emplace, hf]
  constructor
  · intro k it
    show (k, it) ∈ emplace s.cache_map key s.next_id ↔ _
    rw [hem, List.mem_cons, h.map_iff]
    constructor
    · rintro (e | ⟨n, hn, hni, hnk⟩)
      · cases e
        exact ⟨_, List.mem_cons_self _ _, rfl, rfl⟩
      · exact ⟨n, List.mem_cons_of_mem _ hn, hni, hnk⟩
    · rintro ⟨n, hn, hni, hnk⟩
      rcases List.mem_cons.1 hn with rfl | hn1
      · left; rw [← hni, ← hnk]
      · exact Or.inr ⟨n, hn1, hni, hnk⟩
  · show (List.map (fun n => n.first) (_ :: s.cache_list)).Nodup
    rw [List.map_cons, List.nodup_cons]
    exact ⟨(lru_find_none_iff h key).1 hf, h.keys_nodup⟩
  · show (List.map (fun n => n.id) (_ :: s.cache_list)).Nodup
    rw [List.map_cons, List.nodup_cons]
    refine ⟨?_, h.ids_nodup⟩
    intro hmem
    obtain ⟨n, hn, hni⟩ := List.mem_map.1 hmem
    have := h.ids_lt n hn
    simp only at hni
    omega
  · intro n hn
    show n.id < s.next_id + 1
    rcases List.mem_cons.1 hn with rfl | hn1
    · exact Nat.lt_succ_self _
    · exact Nat.lt_succ_of_lt (h.ids_lt n hn1)
  · show (_ :: s.cache_list).length ≤ s.capacity
    simp only [List.length_cons]
    omega
  · show List.Pairwise _ (_ :: s.cache_list)
    refine List.Pairwise.cons ?_ ?_
    · intro b hb
      have := lru_last_access_le es b.first
      simp only [last_access, if_neg (hk b hb), if_pos]
      omega
    · refine List.Pairwise.imp_of_mem ?_ h.recency
      intro a b ha hb hab
      simp only [last_access, if_neg (hk a ha), if_neg (hk b hb)]
      exact hab
  · intro n hn
    rcases List.mem_cons.1 hn with rfl | hn1
    · simp [last_access]
    · simp only [last_access, if_neg (hk n hn1)]
      exact h.accessed n hn1
  · intro n hn
    rcases List.mem_cons.1 hn with rfl | hn1
    · simp [last_put]
    · simp only [last_put, if_neg (hk n hn1)]
      exact h.value_eq n hn1

theorem lru_inv_start (c : Nat) :
    Inv (Run.start c : Run K V).cache (Run.start c : Run K V).events := by
  constructor <;> simp [Run.start, lru.new]

theorem lru_inv_empty {s : lru K V} {es : List (Event K V)} (h : Inv s es)
    (hl : s.cache_list = []) (es1 : List (Event K V)) : Inv s es1 := by
  refine ⟨h.map_iff, h.keys_nodup, h.ids_nodup, h.ids_lt, h.size_le, ?_, ?_, ?_⟩
  · rw [hl]; exact List.Pairwise.nil
  · rw [hl]; intro n hn; cases hn
  · rw [hl]; intro n hn; cases hn

theorem lru_inv_call {r : Run K V} (h : Inv r.cache r.events) (op : Op K V)
    (hk : op.keeps_key = true) :
    ∃ r1, r.call op = some r1 ∧ Inv r1.cache r1.events
      ∧ r1.cache.capacity = r.cache.capacity := by
  have hput : ∀ key value, ∃ r1, r.call (Op.put key value) = some r1
      ∧ Inv r1.cache r1.events ∧ r1.cache.capacity = r.cache.capacity := by
    intro key value
    by_cases hc : r.cache.capacity = 0
    · refine ⟨⟨r.cache, r.outputs, Event.put key value :: r.events⟩, ?_, ?_, rfl⟩
      · simp only [Run.call, lru.put, if_pos hc]
      · have := h.size_le
        rw [hc] at this
        exact lru_inv_empty h (List.length_eq_zero.1 (Nat.le_zero.1 this)) _
    · cases hf : find r.cache.cache_map key with
      | none =>
        obtain ⟨s1, hev, hi, hlen, hcap, hf1⟩ := lru_evict_spec h hc hf
        refine ⟨⟨_, r.outputs, Event.put key value :: r.events⟩, ?_,
          lru_inv_insert hi hf1 (hcap ▸ hlen) value, hcap⟩
        simp only [Run.call, lru.put, if_neg hc, hf, hev]
      | some it =>
        obtain ⟨n, hn, _, rfl⟩ := (h.map_iff _ _).1 (lru_find_some hf)
        refine ⟨⟨{ r.cache with cache_list := { n with second := value }
            :: r.cache.cache_list.filter (fun x => decide (x.id ≠ n.id)) },
          r.outputs, Event.put n.first value :: r.events⟩, ?_, ?_, rfl⟩
        · simp only [Run.call, lru_put_hit h hc hn]
        · refine lru_inv_touch h hn _ { n with second := value } rfl rfl ?_ ?_ ?_
          · intro k; simp only [last_access]
          · simp only [last_put, if_pos]
          · intro k hk; simp only [last_put, if_neg (Ne.symm hk)]
  cases op with
  | get key d =>
    cases hf : find r.cache.cache_map key with
    | none =>
      refine ⟨⟨r.cache, d :: r.outputs, Event.miss key :: r.events⟩, ?_, ?_, rfl⟩
      · simp [Run.call, lru_get_miss hf, hf]
      · exact lru_inv_miss h key
    | some it =>
      obtain ⟨n, hn, _, rfl⟩ := (h.map_iff _ _).1 (lru_find_some hf)
      refine ⟨⟨{ r.cache with cache_list :=
          n :: r.cache.cache_list.filter (fun x => decide (x.id ≠ n.id)) },
        n.second :: r.outputs, Event.hit n.first :: r.events⟩, ?_, ?_, rfl⟩
      · simp only [Run.call, lru_get_hit h hn, hf, Option.isSome_some, if_true]
      · refine lru_inv_touch h hn _ n rfl rfl ?_ ?_ ?_
        · intro k; simp only [last_access]
        · simpa only [last_put] using h.value_eq n hn
        · intro k _; simp only [last_put]
  | put key value => exact hput key value
  | put_rvalue key moved value =>
    have hm : moved = key := by
      simpa only [Op.keeps_key, decide_eq_true_eq] using hk
    subst hm
    exact hput moved value

theorem lru_inv_calls (ops : List (Op K V)) (hk : ∀ op ∈ ops, op.keeps_key = true)
    {r : Run K V} (h : Inv r.cache r.events) :
    ∃ r1, r.calls ops = some r1 ∧ Inv r1.cache r1.events
      ∧ r1.cache.capacity = r.cache.capacity := by
  induction ops generalizing r with
  | nil => exact ⟨r, rfl, h, rfl⟩
  | cons op ops ih =>
    obtain ⟨r1, h1, hi1, hc1⟩ := lru_inv_call h op (hk op (List.mem_cons_self _ _))
    obtain ⟨r2, h2, hi2, hc2⟩ := ih (fun o ho => hk o (List.mem_cons_of_mem _ ho)) hi1
    exact ⟨r2, by simp only [Run.calls, h1, h2], hi2, hc2.trans hc1⟩

theorem lru_calls_append (r : Run K V) (a b : List (Op K V)) :
    r.calls (a ++ b) = (r.calls a).bind (fun r1 => r1.calls b) := by
  induction a generalizing r with
  | nil => rfl
  | cons op a ih =>
    simp only [List.cons_append, Run.calls]
    cases r.call op with
    | none => rfl
    | some r1 => exact ih r1

theorem lru_calls_zero (ops : List (Op K V)) (r : Run K V) (hc : r.cache.capacity = 0)
    (hm : r.cache.cache_map = []) :
    ∃ es, r.calls ops = some ⟨r.cache, defaults ops ++ r.outputs, es⟩ := by
  induction ops generalizing r with
  | nil => exact ⟨r.events, rfl⟩
  | cons op ops ih =>
    have hf : ∀ key, find r.cache.cache_map key = none := by
      intro key; rw [hm]; rfl
    cases op with
    | get key d =>
      obtain ⟨es, h⟩ := ih ⟨r.cache, d :: r.outputs, Event.miss key :: r.events⟩ hc hm
      refine ⟨es, ?_⟩
      simp only [Run.calls, Run.call, lru_get_miss (hf key), hf key, defaults,
        List.append_assoc, List.singleton_append, Option.isSome_none, Bool.false_eq_true,
        if_false]
      exact h
    | put key value =>
      obtain ⟨es, h⟩ := ih ⟨r.cache, r.outputs, Event.put key value :: r.events⟩ hc hm
      refine ⟨es, ?_⟩
      simp only [Run.calls, Run.call, lru.put, if_pos hc, h, defaults]
    | put_rvalue key moved value =>
      obtain ⟨es, h⟩ := ih ⟨r.cache, r.outputs, Event.put key value :: r.events⟩ hc hm
      refine ⟨es, ?_⟩
      simp only [Run.calls, Run.call, lru.put, if_pos hc, h, defaults]

theorem lru_value_of_mem {s : lru K V} {es : List (Event K V)} (h : Inv s es)
    {n : Node K V} (hn : n ∈ s.cache_list) : s.value n.first = some n.second := by
  cases hf : s.cache_list.find? (fun m => decide (m.first = n.first)) with
  | none =>
    have := List.find?_eq_none.1 hf n hn
    simp at this
  | some m =>
    have h1 := List.mem_of_find?_eq_some hf
    have h2 := List.find?_some hf
    simp only [decide_eq_true_eq] at h2
    simp only [lru.value, hf, Option.map_some', lru_first_inj h.keys_nodup h1 hn h2]

theorem lru_put_full {s : lru K V} {es : List (Event K V)} (h : Inv s es)
    (hc : s.capacity ≠ 0) (hfull : s.cache_list.length = s.capacity) {key : K}
    (hk : key ∉ s.keys) (value : V) :
    ∃ l0 back s1, s.cache_list = l0 ++ [back] ∧ s.put key key value = some s1
      ∧ s1.cache_list = ⟨s.next_id, key, value⟩ :: l0
      ∧ Inv s1 (Event.put key value :: es) := by
  have hf := (lru_find_none_iff h key).2 hk
  obtain ⟨l0, back, hl, _, _, hev⟩ := lru_evict_full hc hfull
  have hi := lru_inv_pop_back h hl
  have hf1 : find (erase s.cache_map back.first) key = none := by
    cases hf1 : find (erase s.cache_map back.first) key with
    | none => rfl
    | some it =>
      have := lru_find_some hf1
      simp only [erase, List.mem_filter] at this
      exact absurd this.1 (lru_find_none hf it)
  have hlen : l0.length < s.capacity := by
    have := congrArg List.length hl
    simp only [List.length_append, List.length_singleton] at this
    omega
  refine ⟨l0, back, _, hl, ?_, ?_, lru_inv_insert hi hf1 hlen value⟩
  · simp only [lru.put, if_neg hc, hf, hev]
  · rfl

/-- The invariants of the cache when no call moves from its key: for every capacity `c`
and every such sequence of calls on a fresh cache, the calls are all defined and
afterwards the number of entries is at most `c`, the keys of the recency list are pairwise
distinct, and a key is in the lookup map exactly when it is in the recency list; with
`c = 0` the list and the map are empty and the `get` calls returned their defaults. -/
theorem lru_size_bounded_keys_distinct_map_matches_list (c : Nat) (ops : List (Op K V))
    (hops : ∀ op ∈ ops, op.keeps_key = true) :
    ∃ r, (Run.start c).calls ops = some r
      ∧ r.cache.cache_list.length ≤ c
      ∧ r.cache.keys.Nodup
      ∧ (∀ k, k ∈ r.cache.cache_map.map Prod.fst ↔ k ∈ r.cache.keys)
      ∧ (c = 0 → r.cache.cache_list = [] ∧ r.cache.cache_map = []
          ∧ r.outputs = defaults ops) := by
  obtain ⟨r, hr, hi, hcap⟩ := lru_inv_calls ops hops (lru_inv_start (K := K) (V := V) c)
  have hcap1 : r.cache.capacity = c := hcap
  refine ⟨r, hr, hcap1 ▸ hi.size_le, hi.keys_nodup, ?_, ?_⟩
  · intro k
    simp only [List.mem_map, Prod.exists, exists_and_right, exists_eq_right, lru.keys]
    constructor
    · rintro ⟨it, hit⟩
      obtain ⟨n, hn, _, hnk⟩ := (hi.map_iff _ _).1 hit
      exact ⟨n, hn, hnk⟩
    · rintro ⟨n, hn, hnk⟩
      exact ⟨n.id, (hi.map_iff _ _).2 ⟨n, hn, rfl, hnk⟩⟩
  · intro h0
    obtain ⟨es, hz⟩ := lru_calls_zero ops (Run.start c : Run K V) h0 rfl
    rw [hz] at hr
    cases hr
    exact ⟨rfl, rfl, by simp [Run.start]⟩

/-- On the block of `main` with capacity 3 the invariants hold: three entries, keys
4, 3, 1 in the list and in the map. -/
theorem lru_main_3_invariants :
    ((Run.start 3).calls main_ops_3).map
        (fun r => (r.cache.keys, r.cache.cache_map.map Prod.fst, r.outputs))
      = some ([4, 3, 1], [4, 3, 1], ["D", "C", "A", "", "C", "A"]) := by
  decide

/-- C19 (the code breaks it): with `std::string` keys passed as rvalues, which the node
constructor leaves empty.  After `put(std::string("apple"), 10)` and
`put(std::string("banana"), 20)` on a cache of capacity 2 the recency list holds the keys
`"banana"`, `"apple"` and the lookup map the single key `""`.  After
`put(std::string("apple"), 10)` twice the recency list holds the key `"apple"` twice. -/
theorem C19_rvalue_keys_break_map_and_distinct_keys :
    ((Run.start 2).calls [Op.put_rvalue "apple" "" 10, Op.put_rvalue "banana" "" 20]).map
        (fun r => (r.cache.keys, r.cache.cache_map.map Prod.fst))
      = some (["banana", "apple"], [""])
    ∧ ((Run.start 2).calls [Op.put_rvalue "apple" "" 10, Op.put_rvalue "apple" "" 10]).map
        (fun r => (r.cache.keys, r.cache.cache_map.map Prod.fst))
      = some (["apple", "apple"], [""])
    ∧ ¬ (∀ k, k ∈ [""] ↔ k ∈ ["banana", "apple"])
    ∧ ¬ ["apple", "apple"].Nodup := by
  refine ⟨by decide, by decide, ?_, by decide⟩
  intro h
  have := (h "apple").2 (by decide)
  revert this
  decide

/-- Eviction when no call moves from its key: on a fresh cache of capacity at least 1,
after any such sequence of calls, a `put` of a key that is not cached while the cache
holds `capacity` entries removes exactly the entry at the back of the recency list; its
key `e` was accessed (by a put, or by a get that found it) and every other cached key has
a more recent last access; every other cached key stays cached with its value. -/
theorem lru_put_on_full_cache_evicts_least_recently_used (c : Nat) (hc : 1 ≤ c)
    (ops : List (Op K V)) (hops : ∀ op ∈ ops, op.keeps_key = true) (key : K) (value : V) :
    ∃ r, (Run.start c).calls ops = some r
      ∧ (r.cache.cache_list.length = c → key ∉ r.cache.keys →
        ∃ e s1, r.cache.put key key value = some s1
          ∧ r.cache.keys = r.cache.keys.dropLast ++ [e]
          ∧ s1.keys = key :: r.cache.keys.dropLast
          ∧ e ∉ s1.keys
          ∧ 0 < last_access r.events e
          ∧ (∀ k ∈ r.cache.keys, k ≠ e → last_access r.events e < last_access r.events k)
          ∧ (∀ k ∈ r.cache.keys, k ≠ e → k ∈ s1.keys ∧ s1.value k = r.cache.value k)) := by
  obtain ⟨r, hr, hi, hcap⟩ := lru_inv_calls ops hops (lru_inv_start (K := K) (V := V) c)
  have hcap1 : r.cache.capacity = c := hcap
  refine ⟨r, hr, ?_⟩
  intro hfull hk
  obtain ⟨l0, back, s1, hl, hput, hl1, hi1⟩ :=
    lru_put_full hi (by omega) (hfull.trans hcap1.symm) hk value
  have hkeys : r.cache.keys = l0.map (fun n => n.first) ++ [back.first] := by
    simp [lru.keys, hl]
  have hdrop : r.cache.keys.dropLast = l0.map (fun n => n.first) := by
    rw [hkeys]; simp
  have hnd := hi.keys_nodup
  rw [hl, List.map_append, List.nodup_append] at hnd
  have hback : back.first ∉ l0.map (fun n => n.first) := fun hm =>
    hnd.2.2 hm (by simp)
  have hkb : key ≠ back.first := by
    intro e
    apply hk
    rw [hkeys, e]
    simp
  have hother : ∀ k ∈ r.cache.keys, k ≠ back.first → ∃ n ∈ l0, n.first = k := by
    intro k hk1 hne
    rw [hkeys, List.mem_append, List.mem_singleton] at hk1
    rcases hk1 with hk1 | hk1
    · exact List.mem_map.1 hk1
    · exact absurd hk1 hne
  have hrec := hi.recency
  rw [hl, List.pairwise_append] at hrec
  refine ⟨back.first, s1, hput, ?_, ?_, ?_, ?_, ?_, ?_⟩
  · rw [hdrop, hkeys]
  · rw [hdrop]; simp [lru.keys, hl1]
  · simp only [lru.keys, hl1, List.map_cons, List.mem_cons, not_or]
    exact ⟨fun e => hkb e.symm, hback⟩
  · exact hi.accessed back (by rw [hl]; simp)
  · intro k hk1 hne
    obtain ⟨n, hn, rfl⟩ := hother k hk1 hne
    exact hrec.2.2 n hn back (by simp)
  · intro k hk1 hne
    obtain ⟨n, hn, rfl⟩ := hother k hk1 hne
    have hn1 : n ∈ s1.cache_list := by rw [hl1]; exact List.mem_cons_of_mem _ hn
    have hn0 : n ∈ r.cache.cache_list := by rw [hl]; simp [hn]
    refine ⟨List.mem_map_of_mem (fun n => n.first) hn1, ?_⟩
    rw [lru_value_of_mem hi1 hn1, lru_value_of_mem hi hn0]

/-- C15 (the code breaks it): with `std::string` keys passed as rvalues, which the node
constructor leaves empty, on a cache of capacity 2.  After `put(std::string("a"), 1)`,
`put(std::string("b"), 2)` and `get("")` (which finds the key `""` that the map holds for
the node of `"a"`), the cache is full with the keys `"a"`, `"b"`, of which `"a"` has the
older last access; `put(std::string("c"), 3)` then removes `"b"` and keeps `"a"`. -/
theorem C15_rvalue_keys_evict_a_newer_entry :
    ((Run.start 2).calls [Op.put_rvalue "a" "" 1, Op.put_rvalue "b" "" 2, Op.get "" 0]).map
        (fun r => (r.cache.cache_list.length, r.cache.keys, last_access r.events "a",
          last_access r.events "b", (r.cache.put "c" "" 3).map (fun s1 => s1.keys)))
      = some (2, ["a", "b"], 1, 2, some ["c", "a"]) := by
  decide

/-- What `get` returns when no call moves from its key: on a fresh cache of any capacity,
after any such sequence of calls, `get(key, default_value)` is defined; when `key` is
cached it returns the value of the most recent put of `key`, which is the cached value;
when `key` is not cached it returns `default_value` and leaves the cache (entries and
recency order) as it was; and with capacity at least 1, a `get(key)` right after
`put(key, value)` returns `value`. -/
theorem lru_get_returns_last_put_or_default (c : Nat) (ops : List (Op K V))
    (hops : ∀ op ∈ ops, op.keeps_key = true) (key : K) (default_value : V) :
    ∃ r v s1, (Run.start c).calls ops = some r
      ∧ r.cache.get key default_value = some (v, s1)
      ∧ (key ∈ r.cache.keys → last_put r.events key = some v ∧ r.cache.value key = some v)
      ∧ (key ∉ r.cache.keys → v = default_value ∧ s1 = r.cache)
      ∧ (1 ≤ c → ∀ value, ∃ r2,
          (Run.start c).calls (ops ++ [Op.put key value, Op.get key default_value]) = some r2
            ∧ r2.outputs.head? = some value) := by
  obtain ⟨r, hr, hi, hcap⟩ := lru_inv_calls ops hops (lru_inv_start (K := K) (V := V) c)
  have hcap1 : r.cache.capacity = c := hcap
  have hlast : 1 ≤ c → ∀ value, ∃ r2,
      (Run.start c).calls (ops ++ [Op.put key value, Op.get key default_value]) = some r2
        ∧ r2.outputs.head? = some value := by
    intro hc value
    obtain ⟨r1, hr1, hi1, hcap2⟩ := lru_inv_call hi (Op.put key value) rfl
    have hev : r1.events = Event.put key value :: r.events := by
      simp only [Run.call] at hr1
      split at hr1
      · cases hr1
      · cases hr1; rfl
    have hmem : key ∈ r1.cache.keys := by
      by_contra hk
      have hf := (lru_find_none_iff hi1 key).2 hk
      by_cases hkr : key ∈ r.cache.keys
      · obtain ⟨n, hn, rfl⟩ := List.mem_map.1 hkr
        have hp := lru_put_hit hi (by omega) hn n.first value
        simp only [Run.call, hp] at hr1
        cases hr1
        exact hk (by simp [lru.keys])
      · have hf0 := (lru_find_none_iff hi key).2 hkr
        obtain ⟨s1, hev1, _, _, _, _⟩ := lru_evict_spec hi (by omega) hf0
        simp only [Run.call, lru.put, if_neg (show r.cache.capacity ≠ 0 by omega), hf0,
          hev1] at hr1
        cases hr1
        exact hk (by simp [lru.keys])
    obtain ⟨n, hn, hnk⟩ := List.mem_map.1 hmem
    have hv : n.second = value := by
      have := hi1.value_eq n hn
      rw [hnk, hev] at this
      simp only [last_put, if_pos] at this
      exact (Option.some.inj this).symm
    have hg := lru_get_hit hi1 hn default_value
    rw [hnk, hv] at hg
    obtain ⟨r2, hr2, _, _⟩ := lru_inv_call hi1 (Op.get key default_value) rfl
    refine ⟨r2, ?_, ?_⟩
    · rw [lru_calls_append, hr]
      simp only [Option.bind, Run.calls, hr1, hr2]
    · simp only [Run.call, hg] at hr2
      cases hr2
      rfl
  by_cases hk : key ∈ r.cache.keys
  · obtain ⟨n, hn, rfl⟩ := List.mem_map.1 hk
    refine ⟨r, n.second, _, hr, lru_get_hit hi hn default_value, ?_, ?_, hlast⟩
    · intro _
      exact ⟨hi.value_eq n hn, lru_value_of_mem hi hn⟩
    · intro h; exact absurd hk h
  · refine ⟨r, default_value, r.cache, hr,
      lru_get_miss ((lru_find_none_iff hi key).2 hk) default_value, ?_, ?_, hlast⟩
    · intro h; exact absurd h hk
    · intro _; exact ⟨rfl, rfl⟩

/-- The block of `main` on a cache of capacity 2 with string-literal keys: the three
`get` calls return 10, then the default 0 for the evicted `"banana"`, then 100 and 30. -/
theorem lru_main_2_outputs :
    ((Run.start 2).calls
        [Op.put "apple" 10, Op.put "banana" 20, Op.get "apple" 0, Op.put "apple" 100,
         Op.put "orange" 30, Op.get "banana" 0, Op.get "apple" 0, Op.get "orange" 0]).map
        (fun r => r.outputs)
      = some [30, 100, 0, 10] := by
  decide

/-- C16 (the code breaks it): with a `std::string` key passed as an rvalue, which the node
constructor leaves empty, on a cache of capacity 2: after `put(std::move(k), 10)` with
`k == "apple"`, the list holds the key `"apple"` with the value 10, the most recent put of
`"apple"` gave 10, and `get("apple", 0)` returns the default 0. -/
theorem C16_get_after_rvalue_put_returns_default :
    ((Run.start 2).calls [Op.put_rvalue "apple" "" 10]).map
        (fun r => (r.cache.keys, r.cache.value "apple", last_put r.events "apple",
          (r.cache.get "apple" 0).map (fun x => x.1)))
      = some (["apple"], some 10, some 10, some 0) := by
  decide

/-- C17, refuted as stated: in the block of `main` with capacity 3, when `put(4, "D")`
comes the cache is full, 4 is not cached and the most recently used key is 3; after the
put, 3 is still cached and the key that is gone is 2. -/
theorem C17_most_recently_used_is_kept :
    ∃ r s1, (Run.start 3).calls main_ops_3_full = some r
      ∧ r.cache.cache_list.length = 3 ∧ 4 ∉ r.cache.keys
      ∧ r.cache.put 4 4 "D" = some s1
      ∧ (∀ k ∈ r.cache.keys, last_access r.events k ≤ last_access r.events 3)
      ∧ 3 ∈ s1.keys ∧ 2 ∈ r.cache.keys ∧ 2 ∉ s1.keys := by
  refine ⟨⟨⟨3, [⟨2, 3, "C"⟩, ⟨0, 1, "A"⟩, ⟨1, 2, "B"⟩], [(3, 2), (2, 1), (1, 0)], 3⟩,
        ["C", "A"],
        [Event.hit 3, Event.hit 1, Event.put 3 "C", Event.put 2 "B", Event.put 1 "A"]⟩,
    ⟨3, [⟨3, 4, "D"⟩, ⟨2, 3, "C"⟩, ⟨0, 1, "A"⟩], [(4, 3), (3, 2), (1, 0)], 4⟩,
    by decide, by decide, by decide, by decide, by decide, by decide, by decide, by decide⟩

/-- C17, amended: on a fresh cache of capacity at least 1, after any sequence of calls
none of which moves from its key (no `put` was passed an rvalue of class type), a `put`
that does not move from its key either, of a key that is not cached, on a full cache, is
defined, and every key `e` that was cached before and is not cached after is the least
recently used one: no cached key has an older last access; `e` is also the most recently
used one only when the capacity is 1. -/
theorem C17_evicted_entry_is_least_recently_used (c : Nat) (hc : 1 ≤ c)
    (ops : List (Op K V)) (hops : ∀ op ∈ ops, op.keeps_key = true) (key : K) (value : V) :
    ∃ r, (Run.start c).calls ops = some r
      ∧ (r.cache.cache_list.length = c → key ∉ r.cache.keys →
        ∃ s1, r.cache.put key key value = some s1
          ∧ (∃ e, e ∈ r.cache.keys ∧ e ∉ s1.keys)
          ∧ ∀ e, e ∈ r.cache.keys → e ∉ s1.keys →
            (∀ k ∈ r.cache.keys, last_access r.events e ≤ last_access r.events k)
            ∧ ((∀ k ∈ r.cache.keys, last_access r.events k ≤ last_access r.events e)
                → c = 1)) := by
  obtain ⟨r, hr, hi, hcap⟩ := lru_inv_calls ops hops (lru_inv_start (K := K) (V := V) c)
  have hcap1 : r.cache.capacity = c := hcap
  refine ⟨r, hr, ?_⟩
  intro hfull hk
  obtain ⟨l0, back, s1, hl, hput, hl1, hi1⟩ :=
    lru_put_full hi (by omega) (hfull.trans hcap1.symm) hk value
  have hnd := hi.keys_nodup
  rw [hl, List.map_append, List.nodup_append] at hnd
  have hrec := hi.recency
  rw [hl, List.pairwise_append] at hrec
  have hgone : back.first ∉ s1.keys := by
    simp only [lru.keys, hl1, List.map_cons, List.mem_cons, not_or]
    refine ⟨fun e => hk ?_, fun hm => hnd.2.2 hm (by simp)⟩
    rw [← e]
    simp [lru.keys, hl]
  have hev : ∀ e, e ∈ r.cache.keys → e ∉ s1.keys → e = back.first := by
    intro e he hne
    simp only [lru.keys, hl, List.map_append, List.mem_append, List.map_cons, List.map_nil,
      List.mem_singleton] at he
    rcases he with he | he
    · exact absurd (by simp only [lru.keys, hl1, List.map_cons]
                       exact List.mem_cons_of_mem _ he) hne
    · exact he
  refine ⟨s1, hput, ⟨back.first, by simp [lru.keys, hl], hgone⟩, ?_⟩
  intro e he hne
  have heq := hev e he hne
  subst heq
  constructor
  · intro k hk1
    simp only [lru.keys, hl, List.map_append, List.mem_append, List.map_cons, List.map_nil,
      List.mem_singleton] at hk1
    rcases hk1 with hk1 | hk1
    · obtain ⟨n, hn, rfl⟩ := List.mem_map.1 hk1
      exact Nat.le_of_lt (hrec.2.2 n hn back (by simp))
    · rw [hk1]
  · intro hmost
    have hl0 : l0 = [] := by
      cases l0 with
      | nil => rfl
      | cons n t =>
        have h1 := hrec.2.2 n (List.mem_cons_self _ _) back (by simp)
        have h2 := hmost n.first (by simp [lru.keys, hl])
        omega
    rw [hl, hl0] at hfull
    simpa using hfull.symm

/-- C17 amended, on the block of `main` with capacity 3: key 2, which `put(4, "D")`
evicts, has the oldest last access. -/
theorem C17_witness :
    1 ≤ 3 ∧ (∀ op ∈ main_ops_3_full, op.keeps_key = true)
      ∧ ∃ r, (Run.start 3).calls main_ops_3_full = some r
        ∧ ∀ k ∈ r.cache.keys, last_access r.events 2 ≤ last_access r.events k := by
  refine ⟨by decide, by decide, ?_⟩
  obtain ⟨r, hr, h⟩ :=
    C17_evicted_entry_is_least_recently_used 3 (by decide) main_ops_3_full (by decide) 4 "D"
  have hr0 : (Run.start 3).calls main_ops_3_full = some
      ⟨⟨3, [⟨2, 3, "C"⟩, ⟨0, 1, "A"⟩, ⟨1, 2, "B"⟩], [(3, 2), (2, 1), (1, 0)], 3⟩,
        ["C", "A"],
        [Event.hit 3, Event.hit 1, Event.put 3 "C", Event.put 2 "B", Event.put 1 "A"]⟩ := by
    decide
  rw [hr0] at hr
  cases hr
  obtain ⟨s1, h1, _, h3⟩ := h (by decide) (by decide)
  have h4 : s1 = ⟨3, [⟨3, 4, "D"⟩, ⟨2, 3, "C"⟩, ⟨0, 1, "A"⟩], [(4, 3), (3, 2), (1, 0)], 4⟩ := by
    have : lru.put (⟨3, [⟨2, 3, "C"⟩, ⟨0, 1, "A"⟩, ⟨1, 2, "B"⟩], [(3, 2), (2, 1), (1, 0)], 3⟩ :
        lru Nat String) 4 4 "D" = some
        ⟨3, [⟨3, 4, "D"⟩, ⟨2, 3, "C"⟩, ⟨0, 1, "A"⟩], [(4, 3), (3, 2), (1, 0)], 4⟩ := by decide
    rw [this] at h1
    exact (Option.some.inj h1).symm
  subst h4
  exact ⟨_, rfl, (h3 2 (by decide) (by decide)).1⟩

end Lru

namespace QuickSort

theorem qs_get_mid {α : Type} (P : List α) (x : α) (R : List α) (i : Nat)
    (hi : i = P.length) : (P ++ x :: R)[i]? = some x := by
  subst hi
  induction P with
  | nil => simp
  | cons a P ih => simpa using ih

theorem qs_set_mid {α : Type} (P : List α) (x y : α) (R : List α) (i : Nat)
    (hi : i = P.length) : (P ++ x :: R).set i y = P ++ y :: R := by
  subst hi
  simp

theorem qs_swap_self {α : Type} (P : List α) (x : α) (R : List α) (i : Nat)
    (hi : i = P.length) : swap (P ++ x :: R) i i = some (P ++ x :: R) := by
  simp only [swap, qs_get_mid P x R i hi, qs_set_mid P x x R i hi]

theorem qs_swap_far {α : Type} (P : List α) (x : α) (Q : List α) (y : α) (R : List α)
    (i j : Nat) (hi : i = P.length) (hj : j = P.length + 1 + Q.length) :
    swap (P ++ x :: (Q ++ y :: R)) i j = some (P ++ y :: (Q ++ x :: R)) := by
  have e1 : ∀ u v, P ++ u :: (Q ++ v :: R) = (P ++ u :: Q) ++ v :: R := by
    intro u v; simp
  have hj1 : ∀ u, j = (P ++ u :: Q).length := by
    intro u; simp; omega
  have h1 : (P ++ x :: (Q ++ y :: R))[i]? = some x := qs_get_mid P x _ i hi
  have h2 : (P ++ x :: (Q ++ y :: R))[j]? = some y := by
    rw [e1]; exact qs_get_mid _ y R j (hj1 x)
  have h3 : (P ++ y :: (Q ++ y :: R)).set j x = P ++ y :: (Q ++ x :: R) := by
    rw [e1, e1]; exact qs_set_mid _ y x R j (hj1 y)
  simp only [swap, h1, h2, qs_set_mid P x y _ i hi, h3]

theorem qs_swap_far_symm {α : Type} (P : List α) (x : α) (Q : List α) (y : α)
    (R : List α) (i j : Nat) (hi : i = P.length) (hj : j = P.length + 1 + Q.length) :
    swap (P ++ x :: (Q ++ y :: R)) j i = some (P ++ y :: (Q ++ x :: R)) := by
  have e1 : ∀ u v, P ++ u :: (Q ++ v :: R) = (P ++ u :: Q) ++ v :: R := by
    intro u v; simp
  have hj1 : ∀ u, j = (P ++ u :: Q).length := by
    intro u; simp; omega
  have h1 : (P ++ x :: (Q ++ y :: R))[i]? = some x := qs_get_mid P x _ i hi
  have h2 : (P ++ x :: (Q ++ y :: R))[j]? = some y := by
    rw [e1]; exact qs_get_mid _ y R j (hj1 x)
  have h3 : (P ++ x :: (Q ++ y :: R)).set j x = P ++ x :: (Q ++ x :: R) := by
    rw [e1, e1]; exact qs_set_mid _ y x R j (hj1 x)
  simp only [swap, h1, h2, h3, qs_set_mid P x y _ i hi]

theorem qs_equiv_trans {α : Type} {comp : α → α → Bool} (hc : StrictWeakOrder comp)
    {x y p : α} (h1 : equiv comp x y) (h2 : equiv comp y p) : equiv comp x p :=
  hc.incomp_trans x y p h1.1 h1.2 h2.1 h2.2

theorem qs_lt_of_lt_equiv {α : Type} {comp : α → α → Bool} (hc : StrictWeakOrder comp)
    {x y p : α} (h : comp x y = true) (hy : equiv comp y p) : comp x p = true := by
  cases hxp : comp x p with
  | true => rfl
  | false =>
    cases hpx : comp p x with
    | false =>
      have := (hc.incomp_trans x p y hxp hpx hy.2 hy.1).1
      rw [h] at this
      cases this
    | true =>
      have := hc.trans p x y hpx h
      rw [hy.2] at this
      cases this

theorem qs_gt_of_gt_equiv {α : Type} {comp : α → α → Bool} (hc : StrictWeakOrder comp)
    {x y p : α} (h : comp y x = true) (hy : equiv comp y p) : comp p x = true := by
  cases hpx : comp p x with
  | true => rfl
  | false =>
    cases hxp : comp x p with
    | false =>
      have := (hc.incomp_trans x p y hxp hpx hy.2 hy.1).2
      rw [h] at this
      cases this
    | true =>
      have := hc.trans y x p h hxp
      rw [hy.1] at this
      cases this

theorem qs_loop_done {α : Type} (comp : α → α → Bool) (f : Nat) (a : List α)
    (left right : Nat) (prevs : List α) :
    partition_loop comp (f + 1) a left right right prevs = some (a, left, right, prevs) := by
  simp [partition_loop]

theorem qs_loop_less {α : Type} (comp : α → α → Bool) (f : Nat) (a a1 : List α)
    (left iter right : Nat) (x y : α) (h1 : iter ≠ right) (h2 : iter ≠ 0)
    (hx : a[iter]? = some x) (hy : a[iter - 1]? = some y) (hxy : comp x y = true)
    (hs : swap a left iter = some a1) (prevs : List α) :
    partition_loop comp (f + 1) a left iter right prevs
      = partition_loop comp f a1 (left + 1) (iter + 1) right (y :: prevs) := by
  simp [partition_loop, h1, h2, hx, hy, hxy, hs]

theorem qs_loop_greater {α : Type} (comp : α → α → Bool) (f : Nat) (a a1 : List α)
    (left iter right : Nat) (x y : α) (h1 : iter ≠ right) (h2 : iter ≠ 0)
    (hx : a[iter]? = some x) (hy : a[iter - 1]? = some y) (hxy : comp x y = false)
    (hyx : comp y x = true) (h3 : right ≠ 0) (hs : swap a (right - 1) iter = some a1)
    (prevs : List α) :
    partition_loop comp (f + 1) a left iter right prevs
      = partition_loop comp f a1 left iter (right - 1) (y :: prevs) := by
  simp [partition_loop, h1, h2, hx, hy, hxy, hyx, h3, hs]

theorem qs_loop_equal {α : Type} (comp : α → α → Bool) (f : Nat) (a : List α)
    (left iter right : Nat) (x y : α) (h1 : iter ≠ right) (h2 : iter ≠ 0)
    (hx : a[iter]? = some x) (hy : a[iter - 1]? = some y) (hxy : comp x y = false)
    (hyx : comp y x = false) (prevs : List α) :
    partition_loop comp (f + 1) a left iter right prevs
      = partition_loop comp f a left (iter + 1) right (y :: prevs) := by
  simp [partition_loop, h1, h2, hx, hy, hxy, hyx]

theorem qs_partition_loop_spec {α : Type} {comp : α → α → Bool}
    (hc : StrictWeakOrder comp) (p : α) (A B : List α) :
    ∀ (n : Nat) (U L E G : List α) (fuel left iter right : Nat) (a prevs : List α),
      U.length = n → n < fuel → E ≠ [] →
      a = A ++ (L ++ (E ++ (U ++ (G ++ B)))) →
      left = A.length + L.length → iter = left + E.length → right = iter + U.length →
      (∀ x ∈ L, comp x p = true) → (∀ x ∈ E, equiv comp x p) →
      (∀ x ∈ G, comp p x = true) →
      ∃ L1 E1 G1 prevs1, partition_loop comp fuel a left iter right prevs
          = some (A ++ (L1 ++ (E1 ++ (G1 ++ B))), A.length + L1.length,
              A.length + L1.length + E1.length, prevs1)
        ∧ E1 ≠ [] ∧ (L1 ++ (E1 ++ G1)).Perm (L ++ (E ++ (U ++ G)))
        ∧ (∀ x ∈ L1, comp x p = true) ∧ (∀ x ∈ E1, equiv comp x p)
        ∧ (∀ x ∈ G1, comp p x = true)
        ∧ (∀ z ∈ prevs1, z ∈ prevs ∨ equiv comp z p) := by
  intro n
  induction n with
  | zero =>
    intro U L E G fuel left iter right a prevs hU hf hE ha hl hi hr hL hEq hG
    have hU0 : U = [] := List.length_eq_zero.1 hU
    subst hU0
    obtain ⟨f, rfl⟩ : ∃ f, fuel = f + 1 := ⟨fuel - 1, by omega⟩
    refine ⟨L, E, G, prevs, ?_, hE, by simp, hL, hEq, hG, fun z hz => Or.inl hz⟩
    have hri : iter = right := by simp at hr; omega
    subst hri
    rw [qs_loop_done, ha, hi, hl]
    simp
  | succ n ih =>
    intro U L E G fuel left iter right a prevs hU hf hE ha hl hi hr hL hEq hG
    obtain ⟨f, rfl⟩ : ∃ f, fuel = f + 1 := ⟨fuel - 1, by omega⟩
    obtain ⟨x, U1, rfl⟩ : ∃ x U1, U = x :: U1 := by
      cases U with
      | nil => simp at hU
      | cons x U1 => exact ⟨x, U1, rfl⟩
    obtain ⟨E0, y, rfl⟩ : ∃ E0 y, E = E0 ++ [y] :=
      ⟨E.dropLast, E.getLast hE, (List.dropLast_append_getLast hE).symm⟩
    simp only [List.length_cons, List.length_append, List.length_singleton, List.length_nil] at hU hi hr
    have hyp : equiv comp y p := hEq y (by simp)
    have hprev : ∀ prevs1 : List α, (∀ z ∈ prevs1, z ∈ y :: prevs ∨ equiv comp z p) →
        ∀ z ∈ prevs1, z ∈ prevs ∨ equiv comp z p := by
      intro prevs1 h z hz
      rcases h z hz with h | h
      · rcases List.mem_cons.1 h with h | h
        · rw [h]; exact Or.inr hyp
        · exact Or.inl h
      · exact Or.inr h
    have h1 : iter ≠ right := by omega
    have h2 : iter ≠ 0 := by omega
    have hx : a[iter]? = some x := by
      have e : a = (A ++ (L ++ (E0 ++ [y]))) ++ x :: (U1 ++ (G ++ B)) := by
        rw [ha]; simp
      rw [e]
      exact qs_get_mid _ _ _ _ (by simp; omega)
    have hy : a[iter - 1]? = some y := by
      have e : a = (A ++ (L ++ E0)) ++ y :: (x :: U1 ++ (G ++ B)) := by
        rw [ha]; simp
      rw [e]
      exact qs_get_mid _ _ _ _ (by simp; omega)
    cases hxy : comp x y with
    | true =>
      -- the element at iter is less than the pivot
      obtain ⟨e0, E1, hE1⟩ : ∃ e0 E1, E0 ++ [y] = e0 :: E1 := by
        cases E0 with
        | nil => exact ⟨y, [], rfl⟩
        | cons e0 E1 => exact ⟨e0, E1 ++ [y], rfl⟩
      have hlen : (E0 ++ [y]).length = (e0 :: E1).length := by rw [hE1]
      simp only [List.length_cons, List.length_append, List.length_singleton, List.length_nil] at hlen
      have hs : swap a left iter
          = some (A ++ ((L ++ [x]) ++ ((E1 ++ [e0]) ++ (U1 ++ (G ++ B))))) := by
        have e : a = (A ++ L) ++ e0 :: (E1 ++ x :: (U1 ++ (G ++ B))) := by
          rw [ha, hE1]; simp
        have e2 : A ++ ((L ++ [x]) ++ ((E1 ++ [e0]) ++ (U1 ++ (G ++ B))))
            = (A ++ L) ++ x :: (E1 ++ e0 :: (U1 ++ (G ++ B))) := by simp
        rw [e, e2]
        exact qs_swap_far _ _ _ _ _ _ _ (by simp; omega) (by simp; omega)
      rw [qs_loop_less comp f a _ left iter right x y h1 h2 hx hy hxy hs prevs]
      obtain ⟨L1, E2, G1, prevs1, hres, hne, hperm, hL1, hE2, hG1, hp1⟩ :=
        ih U1 (L ++ [x]) (E1 ++ [e0]) G f (left + 1) (iter + 1) right _ (y :: prevs)
          (by omega) (by omega) (by simp) rfl (by simp; omega) (by simp; omega) (by omega)
          (by
            intro z hz
            rcases List.mem_append.1 hz with hz | hz
            · exact hL z hz
            · rw [List.mem_singleton.1 hz]
              exact qs_lt_of_lt_equiv hc hxy hyp)
          (by
            intro z hz
            apply hEq
            rw [hE1]
            rcases List.mem_append.1 hz with hz | hz
            · exact List.mem_cons_of_mem _ hz
            · rw [List.mem_singleton.1 hz]; exact List.mem_cons_self _ _)
          hG
      refine ⟨L1, E2, G1, prevs1, hres, hne, ?_, hL1, hE2, hG1, hprev prevs1 hp1⟩
      rw [hE1]
      rw [← Multiset.coe_eq_coe] at hperm ⊢
      simp only [← Multiset.coe_add, ← Multiset.cons_coe, ← Multiset.singleton_add,
        Multiset.coe_nil] at hperm ⊢
      rw [hperm]
      abel
    | false =>
      cases hyx : comp y x with
      | true =>
        -- the element at iter is greater than the pivot
        have h3 : right ≠ 0 := by omega
        have hgx : comp p x = true := qs_gt_of_gt_equiv hc hyx hyp
        have hG2 : ∀ z ∈ x :: G, comp p z = true := by
          intro z hz
          rcases List.mem_cons.1 hz with hz | hz
          · rw [hz]; exact hgx
          · exact hG z hz
        have hcases : U1 = [] ∨ ∃ U2 u, U1 = U2 ++ [u] := by
          by_cases h0 : U1 = []
          · exact Or.inl h0
          · exact Or.inr ⟨U1.dropLast, U1.getLast h0,
              (List.dropLast_append_getLast h0).symm⟩
        rcases hcases with hU1 | ⟨U2, u, hU1⟩
        · subst hU1
          simp only [List.length_nil] at hU hr
          have hs : swap a (right - 1) iter
              = some (A ++ (L ++ ((E0 ++ [y]) ++ ([] ++ ((x :: G) ++ B))))) := by
            have e : a = (A ++ (L ++ (E0 ++ [y]))) ++ x :: (G ++ B) := by
              rw [ha]; simp
            have e2 : A ++ (L ++ ((E0 ++ [y]) ++ ([] ++ ((x :: G) ++ B))))
                = (A ++ (L ++ (E0 ++ [y]))) ++ x :: (G ++ B) := by simp
            have hri : right - 1 = iter := by omega
            rw [e2, e, hri]
            exact qs_swap_self _ _ _ _ (by simp; omega)
          rw [qs_loop_greater comp f a _ left iter right x y h1 h2 hx hy hxy hyx h3 hs prevs]
          obtain ⟨L1, E2, G1, prevs1, hres, hne, hperm, hL1, hE2, hG1, hp1⟩ :=
            ih [] L (E0 ++ [y]) (x :: G) f left iter (right - 1) _ (y :: prevs)
              (by simp only [List.length_nil]; omega) (by omega) (by simp) rfl hl
              (by simp; omega) (by simp only [List.length_nil]; omega) hL hEq hG2
          refine ⟨L1, E2, G1, prevs1, hres, hne, ?_, hL1, hE2, hG1, hprev prevs1 hp1⟩
          rw [← Multiset.coe_eq_coe] at hperm ⊢
          simp only [← Multiset.coe_add, ← Multiset.cons_coe, ← Multiset.singleton_add,
            Multiset.coe_nil] at hperm ⊢
          rw [hperm]
          abel
        · subst hU1
          simp only [List.length_append, List.length_singleton, List.length_cons,
            List.length_nil] at hU hr
          have hs : swap a (right - 1) iter
              = some (A ++ (L ++ ((E0 ++ [y]) ++ ((u :: U2) ++ ((x :: G) ++ B))))) := by
            have e : a = (A ++ (L ++ (E0 ++ [y]))) ++ x :: (U2 ++ u :: (G ++ B)) := by
              rw [ha]; simp
            have e2 : A ++ (L ++ ((E0 ++ [y]) ++ ((u :: U2) ++ ((x :: G) ++ B))))
                = (A ++ (L ++ (E0 ++ [y]))) ++ u :: (U2 ++ x :: (G ++ B)) := by simp
            rw [e2, e]
            exact qs_swap_far_symm _ _ _ _ _ _ _ (by simp; omega) (by simp; omega)
          rw [qs_loop_greater comp f a _ left iter right x y h1 h2 hx hy hxy hyx h3 hs prevs]
          obtain ⟨L1, E2, G1, prevs1, hres, hne, hperm, hL1, hE2, hG1, hp1⟩ :=
            ih (u :: U2) L (E0 ++ [y]) (x :: G) f left iter (right - 1) _ (y :: prevs)
              (by simp; omega) (by omega) (by simp) rfl hl (by simp; omega)
              (by simp; omega) hL hEq hG2
          refine ⟨L1, E2, G1, prevs1, hres, hne, ?_, hL1, hE2, hG1, hprev prevs1 hp1⟩
          rw [← Multiset.coe_eq_coe] at hperm ⊢
          simp only [← Multiset.coe_add, ← Multiset.cons_coe, ← Multiset.singleton_add,
            Multiset.coe_nil] at hperm ⊢
          rw [hperm]
          abel
      | false =>
        -- the element at iter is equivalent to the pivot
        rw [qs_loop_equal comp f a left iter right x y h1 h2 hx hy hxy hyx prevs]
        obtain ⟨L1, E2, G1, prevs1, hres, hne, hperm, hL1, hE2, hG1, hp1⟩ :=
          ih U1 L ((E0 ++ [y]) ++ [x]) G f left (iter + 1) right a (y :: prevs)
            (by omega) (by omega) (by simp) (by rw [ha]; simp) hl (by simp; omega)
            (by omega)
            hL
            (by
              intro z hz
              rcases List.mem_append.1 hz with hz | hz
              · exact hEq z hz
              · rw [List.mem_singleton.1 hz]
                exact qs_equiv_trans hc ⟨hxy, hyx⟩ hyp)
            hG
        refine ⟨L1, E2, G1, prevs1, hres, hne, ?_, hL1, hE2, hG1, hprev prevs1 hp1⟩
        rw [← Multiset.coe_eq_coe] at hperm ⊢
        simp only [← Multiset.coe_add, ← Multiset.cons_coe, ← Multiset.singleton_add,
          Multiset.coe_nil] at hperm ⊢
        rw [hperm]
        abel

theorem qs_split_at {α : Type} (M : List α) (j : Nat) (hj : j < M.length) :
    ∃ P p R, M = P ++ p :: R ∧ P.length = j ∧ M[j]? = some p := by
  refine ⟨M.take j, M[j], M.drop (j + 1), ?_, ?_, ?_⟩
  · rw [← List.drop_eq_getElem_cons hj, List.take_append_drop]
  · rw [List.length_take]; omega
  · exact List.getElem?_eq_getElem hj

theorem qs_partition_spec {α : Type} {comp : α → α → Bool} (hc : StrictWeakOrder comp)
    (A M B : List α) (fuel j : Nat) (hj : j < M.length) (hf : M.length ≤ fuel)
    (a : List α) (begin_ end_ : Nat) (ha : a = A ++ (M ++ B)) (hb : begin_ = A.length)
    (he : end_ = begin_ + M.length) :
    ∃ p L E G prevs, M[j]? = some p
      ∧ partition comp fuel a begin_ end_ (begin_ + j)
          = some (A ++ (L ++ (E ++ (G ++ B))), A.length + L.length,
              A.length + L.length + E.length, prevs)
      ∧ E ≠ [] ∧ (L ++ (E ++ G)).Perm M
      ∧ (∀ x ∈ L, comp x p = true) ∧ (∀ x ∈ E, equiv comp x p)
      ∧ (∀ x ∈ G, comp p x = true) ∧ (∀ z ∈ prevs, equiv comp z p) := by
  obtain ⟨P, p, R, hM, hP, hp⟩ := qs_split_at M j hj
  have hne : begin_ ≠ end_ := by omega
  have hpp : equiv comp p p := ⟨hc.irrefl p, hc.irrefl p⟩
  have hlen : M.length = P.length + 1 + R.length := by
    rw [hM]; simp; omega
  -- the vector after `std::swap(*begin, *pivot)`
  obtain ⟨U, hs, hU, hUlen⟩ : ∃ U, swap a begin_ (begin_ + j) = some (A ++ (p :: U ++ B))
      ∧ (p :: U).Perm M ∧ U.length + 1 = M.length := by
    cases P with
    | nil =>
      refine ⟨R, ?_, by rw [hM]; simp, by rw [hM]; simp⟩
      have hj0 : j = 0 := by simpa using hP.symm
      rw [ha, hM, hj0]
      simp only [List.nil_append, Nat.add_zero, List.cons_append]
      exact qs_swap_self _ _ _ _ hb
    | cons m0 Q =>
      refine ⟨Q ++ m0 :: R, ?_, ?_, by rw [hM]; simp⟩
      · rw [ha, hM]
        have e1 : A ++ ((m0 :: Q ++ p :: R) ++ B) = A ++ m0 :: (Q ++ p :: (R ++ B)) := by
          simp
        have e2 : A ++ (p :: (Q ++ m0 :: R) ++ B) = A ++ p :: (Q ++ m0 :: (R ++ B)) := by
          simp
        rw [e1, e2]
        exact qs_swap_far _ _ _ _ _ _ _ hb (by simp at hP; omega)
      · rw [hM, ← Multiset.coe_eq_coe]
        simp only [← Multiset.coe_add, ← Multiset.cons_coe, ← Multiset.singleton_add,
          Multiset.coe_nil]
        abel
  obtain ⟨L1, E1, G1, prevs1, hres, hE1, hperm, hL1, hEq1, hG1, hp1⟩ :=
    qs_partition_loop_spec hc p A B U.length U [] [p] [] fuel begin_ (begin_ + 1) end_
      (A ++ (p :: U ++ B)) [] rfl (by omega) (by simp) (by simp) (by simp [hb])
      (by simp) (by omega) (by simp) (by
        intro x hx
        rw [List.mem_singleton.1 hx]
        exact hpp) (by simp)
  refine ⟨p, L1, E1, G1, prevs1, hp, ?_, hE1, ?_, hL1, hEq1, hG1, ?_⟩
  · simp only [partition, if_neg hne, hs, hres]
  · refine hperm.trans ?_
    simpa using hU
  · intro z hz
    rcases hp1 z hz with h | h
    · cases h
    · exact h

theorem qs_sorted_join {α : Type} {comp : α → α → Bool} (hc : StrictWeakOrder comp)
    (p : α) (L E G : List α) (hL : ∀ x ∈ L, comp x p = true)
    (hE : ∀ x ∈ E, equiv comp x p) (hG : ∀ x ∈ G, comp p x = true)
    (sL : L.Pairwise (fun x y => comp y x = false))
    (sG : G.Pairwise (fun x y => comp y x = false)) :
    (L ++ (E ++ G)).Pairwise (fun x y => comp y x = false) := by
  have hEG : ∀ x ∈ E, ∀ y ∈ G, comp y x = false := by
    intro x hx y hy
    cases h : comp y x with
    | false => rfl
    | true =>
      have := hc.trans p y x (hG y hy) h
      rw [(hE x hx).2] at this
      cases this
  have hLE : ∀ x ∈ L, ∀ y ∈ E, comp y x = false := by
    intro x hx y hy
    cases h : comp y x with
    | false => rfl
    | true =>
      have := hc.trans y x p h (hL x hx)
      rw [(hE y hy).1] at this
      cases this
  have hLG : ∀ x ∈ L, ∀ y ∈ G, comp y x = false := by
    intro x hx y hy
    cases h : comp y x with
    | false => rfl
    | true =>
      have := hc.trans p x p (hc.trans p y x (hG y hy) h) (hL x hx)
      rw [hc.irrefl p] at this
      cases this
  have sE : E.Pairwise (fun x y => comp y x = false) := by
    apply List.pairwise_of_forall_mem_list
    intro x hx y hy
    exact (qs_equiv_trans hc (hE y hy) ⟨(hE x hx).2, (hE x hx).1⟩).1
  rw [List.pairwise_append, List.pairwise_append]
  refine ⟨sL, ⟨sE, sG, hEG⟩, ?_⟩
  intro x hx y hy
  rcases List.mem_append.1 hy with hy | hy
  · exact hLE x hx y hy
  · exact hLG x hx y hy

theorem qs_quick_sort_spec {α : Type} {comp : α → α → Bool} (hc : StrictWeakOrder comp)
    (gen : Nat → Nat) :
    ∀ (n : Nat) (M A B : List α) (fuel k : Nat) (a : List α) (begin_ end_ : Nat),
      M.length = n → n < fuel → a = A ++ (M ++ B) → begin_ = A.length →
      end_ = begin_ + M.length →
      ∃ M1 k1, quick_sort comp gen fuel a k begin_ end_ = some (A ++ (M1 ++ B), k1)
        ∧ M1.Perm M ∧ M1.Pairwise (fun x y => comp y x = false) := by
  intro n
  induction n using Nat.strong_induction_on with
  | _ n ih =>
    intro M A B fuel k a begin_ end_ hn hf ha hb he
    obtain ⟨f, rfl⟩ : ∃ f, fuel = f + 1 := ⟨fuel - 1, by omega⟩
    by_cases h0 : begin_ = end_ ∨ begin_ + 1 = end_
    · refine ⟨M, k, ?_, List.Perm.refl _, ?_⟩
      · simp only [quick_sort, if_pos h0, ha]
      · have hle : M.length ≤ 1 := by omega
        match M, hle with
        | [], _ => exact List.Pairwise.nil
        | [x], _ => exact List.pairwise_singleton _ _
        | _ :: _ :: _, h => simp at h
    · have hlt : ¬ end_ < begin_ := by omega
      have hd : end_ - begin_ = M.length := by omega
      have hpos : 0 < M.length := by omega
      have hj : gen k % M.length < M.length := Nat.mod_lt _ hpos
      obtain ⟨p, L, E, G, prevs, _, hpart, hE, hperm, hL, hEq, hG, _⟩ :=
        qs_partition_spec hc A M B f (gen k % M.length) hj (by omega) a begin_ end_ ha hb he
      have hlen := hperm.length_eq
      simp only [List.length_append] at hlen
      have hEpos : 0 < E.length := List.length_pos.2 hE
      obtain ⟨L1, k2, hq1, hp1, hs1⟩ :=
        ih L.length (by omega) L A (E ++ (G ++ B)) f (k + 1)
          (A ++ (L ++ (E ++ (G ++ B)))) begin_ (A.length + L.length) rfl (by omega) rfl hb
          (by omega)
      have hl1 := hp1.length_eq
      obtain ⟨G1, k3, hq2, hp2, hs2⟩ :=
        ih G.length (by omega) G (A ++ (L1 ++ E)) B f k2
          (A ++ (L1 ++ (E ++ (G ++ B)))) (A.length + L.length + E.length) end_ rfl
          (by omega) (by simp) (by simp; omega) (by omega)
      refine ⟨L1 ++ (E ++ G1), k3, ?_, ?_, ?_⟩
      · simp only [quick_sort, if_neg h0, if_neg hlt, hd, hpart, hq1, hq2]
        simp
      · refine List.Perm.trans ?_ hperm
        exact hp1.append (hp2.append_left E)
      · exact qs_sorted_join hc p L1 E G1
          (fun x hx => hL x (hp1.subset hx)) hEq (fun x hx => hG x (hp2.subset hx)) hs1 hs2

theorem qs_is_sorted_of_pairwise {α : Type} (comp : α → α → Bool) :
    ∀ l : List α, l.Pairwise (fun x y => comp y x = false) → is_sorted comp l = true
  | [], _ => rfl
  | [_], _ => rfl
  | x :: y :: l, h => by
    have h1 := List.pairwise_cons.1 h
    simp only [is_sorted, Bool.and_eq_true, Bool.not_eq_true']
    exact ⟨h1.1 y (List.mem_cons_self _ _), qs_is_sorted_of_pairwise comp (y :: l) h1.2⟩

theorem qs_less_swo : StrictWeakOrder less := by
  constructor
  · intro x; simp [less]
  · intro x y z; simp only [less, decide_eq_true_eq]; omega
  · intro x y z; simp only [less, decide_eq_false_iff_not]; omega

/-- C20: for a vector `A ++ M ++ B`, the non-empty range `M` (`begin = |A|`,
`end = |A| + |M|`), a pivot position `begin + j` inside the range, a strict weak order
`comp` and fuel at least `|M|`, `partition` returns.  The result is `A ++ L ++ E ++ G ++ B`
with `left = begin + |L|` and `right = left + |E|`, so `begin ≤ left < right ≤ end`; every
element of `L` is less than the pivot value `p`, every element of `E` is equivalent to it
and every element of `G` is greater; `L ++ E ++ G` is a permutation of `M`; every value of
`*std::prev(iter)` that the loop compared with is equivalent to `p`; and both `[begin,
left)` and `[right, end)` are strictly shorter than the range. -/
theorem C20_partition_three_way_split {α : Type} {comp : α → α → Bool}
    (hc : StrictWeakOrder comp) (A M B : List α) (j fuel : Nat) (hj : j < M.length)
    (hf : M.length ≤ fuel) :
    ∃ p L E G prevs left right, M[j]? = some p
      ∧ partition comp fuel (A ++ (M ++ B)) A.length (A.length + M.length) (A.length + j)
          = some (A ++ (L ++ (E ++ (G ++ B))), left, right, prevs)
      ∧ left = A.length + L.length ∧ right = left + E.length
      ∧ A.length ≤ left ∧ left < right ∧ right ≤ A.length + M.length
      ∧ (∀ x ∈ L, comp x p = true) ∧ (∀ x ∈ E, equiv comp x p)
      ∧ (∀ x ∈ G, comp p x = true)
      ∧ (L ++ (E ++ G)).Perm M
      ∧ (∀ z ∈ prevs, equiv comp z p)
      ∧ left - A.length < M.length ∧ A.length + M.length - right < M.length := by
  obtain ⟨p, L, E, G, prevs, hp, hpart, hE, hperm, hL, hEq, hG, hprev⟩ :=
    qs_partition_spec hc A M B fuel j hj hf (A ++ (M ++ B)) A.length
      (A.length + M.length) rfl rfl rfl
  have hlen := hperm.length_eq
  simp only [List.length_append] at hlen
  have hEpos : 0 < E.length := List.length_pos.2 hE
  refine ⟨p, L, E, G, prevs, A.length + L.length, A.length + L.length + E.length, hp, hpart,
    rfl, rfl, ?_, ?_, ?_, hL, hEq, hG, hperm, hprev, ?_, ?_⟩ <;> omega

/-- C20 on the range `[3, 1, 4, 1, 5]` inside a longer vector, pivot position 1 of the
range, `std::less<int>`. -/
theorem C20_witness :
    StrictWeakOrder less ∧ 1 < [(3 : Int), 1, 4, 1, 5].length
      ∧ ∃ p L E G prevs left right, [(3 : Int), 1, 4, 1, 5][1]? = some p
        ∧ partition less 5 ([7] ++ ([3, 1, 4, 1, 5] ++ [9, 2, 6, 7])) 1 6 2
            = some ([7] ++ (L ++ (E ++ (G ++ [9, 2, 6, 7]))), left, right, prevs)
        ∧ 1 ≤ left ∧ left < right ∧ right ≤ 6
        ∧ (∀ x ∈ L, less x p = true) ∧ (∀ x ∈ E, equiv less x p)
        ∧ (∀ x ∈ G, less p x = true) ∧ (L ++ (E ++ G)).Perm [3, 1, 4, 1, 5] := by
  refine ⟨qs_less_swo, by decide, ?_⟩
  obtain ⟨p, L, E, G, prevs, left, right, h1, h2, _, _, h5, h6, h7, h8, h9, h10, h11, _⟩ :=
    C20_partition_three_way_split qs_less_swo [(7 : Int)] [3, 1, 4, 1, 5] [9, 2, 6, 7] 1 5
      (by decide) (by decide)
  exact ⟨p, L, E, G, prevs, left, right, h1, h2, h5, h6, h7, h8, h9, h10, h11⟩

/-- C11: for a vector `A ++ M ++ B`, a strict weak order `comp`, any generator `gen`
(whatever pivot index it yields at each recursive call) and fuel above `|M|`,
`quick_sort` on the range `M` returns; the range then holds a permutation `M1` of `M`
that is sorted in the sense of `std::is_sorted` (no element is less than an earlier one)
and the rest of the vector is as before. -/
theorem C11_quick_sort_sorts_and_permutes {α : Type} {comp : α → α → Bool}
    (hc : StrictWeakOrder comp) (gen : Nat → Nat) (A M B : List α) (fuel k : Nat)
    (hf : M.length < fuel) :
    ∃ M1 k1, quick_sort comp gen fuel (A ++ (M ++ B)) k A.length (A.length + M.length)
        = some (A ++ (M1 ++ B), k1)
      ∧ is_sorted comp M1 = true
      ∧ M1.Pairwise (fun x y => comp y x = false)
      ∧ M1.Perm M := by
  obtain ⟨M1, k1, h1, h2, h3⟩ :=
    qs_quick_sort_spec hc gen M.length M A B fuel k (A ++ (M ++ B)) A.length
      (A.length + M.length) rfl hf rfl rfl rfl
  exact ⟨M1, k1, h1, qs_is_sorted_of_pairwise comp M1 h3, h3, h2⟩

/-- C11 on the first vector of `main` with `std::less<int>`. -/
theorem C11_witness :
    StrictWeakOrder less ∧ [(3 : Int), 1, 4, 1, 5, 9, 2, 6].length < 9
      ∧ ∃ M1 k1, quick_sort less gen_example 9 [3, 1, 4, 1, 5, 9, 2, 6] 0 0 8 = some (M1, k1)
        ∧ is_sorted less M1 = true ∧ M1.Perm [3, 1, 4, 1, 5, 9, 2, 6] := by
  refine ⟨qs_less_swo, by decide, ?_⟩
  obtain ⟨M1, k1, h1, h2, _, h4⟩ :=
    C11_quick_sort_sorts_and_permutes qs_less_swo gen_example [] [(3 : Int), 1, 4, 1, 5, 9, 2, 6]
      [] 9 0 (by decide)
  refine ⟨M1, k1, ?_, h2, h4⟩
  simpa using h1

end QuickSort

namespace ShortestPath

theorem sp_find_cons {Node : Type} [DecidableEq Node] (k : Node) (x : Int) (d : Dist Node)
    (v : Node) :
    Dist.find ((k, x) :: d) v = if k = v then some x else Dist.find d v := by
  by_cases h : k = v <;> simp [Dist.find, List.find?_cons, h]

theorem sp_find_filter {Node : Type} [DecidableEq Node] (d : Dist Node) (k v : Node)
    (h : k ≠ v) : Dist.find (d.filter (fun e => decide (e.1 ≠ k))) v = Dist.find d v := by
  induction d with
  | nil => rfl
  | cons a d ih =>
    by_cases ha : a.1 = k
    · have hav : a.1 ≠ v := fun e => h (ha.symm.trans e)
      rw [List.filter_cons_of_neg (by simpa using ha), ih]
      obtain ⟨a1, a2⟩ := a
      rw [sp_find_cons, if_neg hav]
    · rw [List.filter_cons_of_pos (by simpa using ha)]
      obtain ⟨a1, a2⟩ := a
      rw [sp_find_cons, sp_find_cons, ih]

theorem sp_find_assign {Node : Type} [DecidableEq Node] (d : Dist Node) (k : Node) (x : Int)
    (v : Node) : (d.assign k x).find v = if k = v then some x else d.find v := by
  rw [Dist.assign, sp_find_cons]
  by_cases h : k = v
  · simp [h]
  · simp only [if_neg h]
    exact sp_find_filter d k v h

theorem sp_walk_append {Node : Type} (edges : List (edge Node)) (p q : List (edge Node))
    (u x v : Node) (h1 : IsWalk edges u p x) (h2 : IsWalk edges x q v) :
    IsWalk edges u (p ++ q) v := by
  induction p generalizing u with
  | nil =>
    have : u = x := h1
    subst this
    exact h2
  | cons e p ih => exact ⟨h1.1, h1.2.1, ih _ h1.2.2⟩

theorem sp_walk_split {Node : Type} (edges : List (edge Node)) (p q : List (edge Node))
    (u v : Node) (h : IsWalk edges u (p ++ q) v) :
    ∃ x, IsWalk edges u p x ∧ IsWalk edges x q v := by
  induction p generalizing u with
  | nil => exact ⟨u, rfl, h⟩
  | cons e p ih =>
    obtain ⟨x, h1, h2⟩ := ih _ h.2.2
    exact ⟨x, ⟨h.1, h.2.1, h1⟩, h2⟩

theorem sp_weight_append {Node : Type} (p q : List (edge Node)) :
    weight (p ++ q) = weight p + weight q := by
  simp [weight]

theorem sp_weight_cons {Node : Type} (e : edge Node) (p : List (edge Node)) :
    weight (e :: p) = e.2.2 + weight p := by
  simp [weight]

theorem sp_walk_snoc {Node : Type} (edges : List (edge Node)) (p : List (edge Node))
    (s : Node) (e : edge Node) (h : IsWalk edges s p e.1) (he : e ∈ edges) :
    IsWalk edges s (p ++ [e]) e.2.1 ∧ weight (p ++ [e]) = weight p + e.2.2 := by
  refine ⟨sp_walk_append edges p [e] s e.1 e.2.1 h ⟨he, rfl, rfl⟩, ?_⟩
  rw [sp_weight_append, sp_weight_cons]
  simp [weight]

theorem sp_relax_walk_valued {Node : Type} [DecidableEq Node] (edges : List (edge Node))
    (s : Node) (d : Dist Node) (b : Bool) (e : edge Node) (he : e ∈ edges)
    (h : WalkValued edges s d) : WalkValued edges s (ideal_relax d b e).1 := by
  have key : ∀ du, d.find e.1 = some du →
      WalkValued edges s (d.assign e.2.1 (du + e.2.2)) := by
    intro du hdu v x hv
    rw [sp_find_assign] at hv
    split at hv
    · rename_i hk
      subst hk
      obtain ⟨p, hp, hw⟩ := h _ _ hdu
      have := sp_walk_snoc edges p s e hp he
      refine ⟨p ++ [e], this.1, ?_⟩
      rw [this.2, hw]
      exact Option.some.inj hv
    · exact h v x hv
  unfold ideal_relax
  cases hu : d.find e.1 with
  | none => exact h
  | some du =>
    cases hv : d.find e.2.1 with
    | none => exact key du hu
    | some dv =>
      simp only
      split
      · exact key du hu
      · exact h

theorem sp_below_refl {Node : Type} [DecidableEq Node] (d : Dist Node) : Below d d :=
  fun _ x h => ⟨x, h, le_refl _⟩

theorem sp_below_trans {Node : Type} [DecidableEq Node] {d1 d2 d3 : Dist Node}
    (h1 : Below d1 d2) (h2 : Below d2 d3) : Below d1 d3 := by
  intro v x h
  obtain ⟨y, hy, hyx⟩ := h2 v x h
  obtain ⟨z, hz, hzy⟩ := h1 v y hy
  exact ⟨z, hz, le_trans hzy hyx⟩

theorem sp_relax_below {Node : Type} [DecidableEq Node] (d : Dist Node) (b : Bool)
    (e : edge Node) : Below (ideal_relax d b e).1 d := by
  unfold ideal_relax
  cases hu : d.find e.1 with
  | none => exact sp_below_refl d
  | some du =>
    cases hv : d.find e.2.1 with
    | none =>
      intro v x h
      simp only [sp_find_assign]
      split
      · rename_i hk
        subst hk
        rw [hv] at h
        cases h
      · exact ⟨x, h, le_refl _⟩
    | some dv =>
      simp only
      split
      · intro v x h
        simp only [sp_find_assign]
        split
        · rename_i hlt hk
          subst hk
          rw [hv] at h
          cases h
          exact ⟨_, rfl, le_of_lt hlt⟩
        · exact ⟨x, h, le_refl _⟩
      · exact sp_below_refl d

theorem sp_relax_target {Node : Type} [DecidableEq Node] (d : Dist Node) (b : Bool)
    (e : edge Node) (du : Int) (hu : d.find e.1 = some du) :
    ∃ y, (ideal_relax d b e).1.find e.2.1 = some y ∧ y ≤ du + e.2.2 := by
  unfold ideal_relax
  rw [hu]
  cases hv : d.find e.2.1 with
  | none =>
    refine ⟨du + e.2.2, ?_, le_refl _⟩
    simp [sp_find_assign]
  | some dv =>
    simp only
    split
    · refine ⟨du + e.2.2, ?_, le_refl _⟩
      simp [sp_find_assign]
    · rename_i hlt
      exact ⟨dv, hv, not_lt.1 hlt⟩

theorem sp_relax_true {Node : Type} [DecidableEq Node] (d : Dist Node) (e : edge Node) :
    (ideal_relax d true e).2 = true := by
  unfold ideal_relax
  cases d.find e.1 with
  | none => rfl
  | some du =>
    cases d.find e.2.1 with
    | none => rfl
    | some dv =>
      simp only
      split <;> rfl

theorem sp_relax_noupdate {Node : Type} [DecidableEq Node] (d : Dist Node) (e : edge Node)
    (h : (ideal_relax d false e).2 = false) :
    (ideal_relax d false e).1 = d
      ∧ ∀ du, d.find e.1 = some du → ∃ dv, d.find e.2.1 = some dv ∧ dv ≤ du + e.2.2 := by
  unfold ideal_relax at h ⊢
  cases hu : d.find e.1 with
  | none => exact ⟨rfl, fun du h => by cases h⟩
  | some du =>
    rw [hu] at h
    cases hv : d.find e.2.1 with
    | none =>
      rw [hv] at h
      cases h
    | some dv =>
      rw [hv] at h
      simp only at h ⊢
      split at h
      · cases h
      · rename_i hlt
        rw [if_neg hlt]
        refine ⟨rfl, ?_⟩
        intro du1 h1
        cases h1
        exact ⟨dv, rfl, not_lt.1 hlt⟩

theorem sp_relax_of_relaxed {Node : Type} [DecidableEq Node] (d : Dist Node) (b : Bool)
    (e : edge Node)
    (h : ∀ du, d.find e.1 = some du → ∃ dv, d.find e.2.1 = some dv ∧ dv ≤ du + e.2.2) :
    ideal_relax d b e = (d, b) := by
  unfold ideal_relax
  cases hu : d.find e.1 with
  | none => rfl
  | some du =>
    obtain ⟨dv, hv, hle⟩ := h du hu
    rw [hv]
    simp only
    rw [if_neg (not_lt.2 hle)]

theorem sp_relax_list_walk_valued {Node : Type} [DecidableEq Node]
    (edges : List (edge Node)) (s : Node) (es : List (edge Node)) :
    ∀ (d : Dist Node) (b : Bool), (∀ e ∈ es, e ∈ edges) → WalkValued edges s d →
      WalkValued edges s (ideal_relax_list es d b).1 := by
  induction es with
  | nil => intro d b _ h; exact h
  | cons e es ih =>
    intro d b hsub h
    exact ih _ _ (fun x hx => hsub x (List.mem_cons_of_mem _ hx))
      (sp_relax_walk_valued edges s d b e (hsub e (List.mem_cons_self _ _)) h)

theorem sp_relax_list_below {Node : Type} [DecidableEq Node] (es : List (edge Node)) :
    ∀ (d : Dist Node) (b : Bool), Below (ideal_relax_list es d b).1 d := by
  induction es with
  | nil => intro d b; exact sp_below_refl d
  | cons e es ih =>
    intro d b
    exact sp_below_trans (ih _ _) (sp_relax_below d b e)

theorem sp_relax_list_target {Node : Type} [DecidableEq Node] (es : List (edge Node)) :
    ∀ (d : Dist Node) (b : Bool) (e : edge Node), e ∈ es → ∀ du, d.find e.1 = some du →
      ∃ y, (ideal_relax_list es d b).1.find e.2.1 = some y ∧ y ≤ du + e.2.2 := by
  induction es with
  | nil => intro d b e he; cases he
  | cons a es ih =>
    intro d b e he du hu
    rcases List.mem_cons.1 he with rfl | he1
    · obtain ⟨y, hy, hle⟩ := sp_relax_target d b e du hu
      obtain ⟨z, hz, hzy⟩ := sp_relax_list_below es (ideal_relax d b e).1 (ideal_relax d b e).2 _ _ hy
      exact ⟨z, hz, le_trans hzy hle⟩
    · obtain ⟨du1, hu1, hle1⟩ := sp_relax_below d b a _ _ hu
      obtain ⟨y, hy, hle⟩ := ih (ideal_relax d b a).1 (ideal_relax d b a).2 e he1 du1 hu1
      exact ⟨y, hy, by omega⟩

theorem sp_relax_list_true {Node : Type} [DecidableEq Node] (es : List (edge Node)) :
    ∀ (d : Dist Node), (ideal_relax_list es d true).2 = true := by
  induction es with
  | nil => intro d; rfl
  | cons e es ih =>
    intro d
    simp only [ideal_relax_list, sp_relax_true]
    exact ih _

theorem sp_relax_list_noupdate {Node : Type} [DecidableEq Node] (es : List (edge Node)) :
    ∀ (d : Dist Node), (ideal_relax_list es d false).2 = false →
      (ideal_relax_list es d false).1 = d
        ∧ ∀ e ∈ es, ∀ du, d.find e.1 = some du →
            ∃ dv, d.find e.2.1 = some dv ∧ dv ≤ du + e.2.2 := by
  induction es with
  | nil => intro d _; exact ⟨rfl, fun e he => by cases he⟩
  | cons a es ih =>
    intro d h
    simp only [ideal_relax_list] at h ⊢
    cases hb : (ideal_relax d false a).2 with
    | true =>
      rw [hb, sp_relax_list_true] at h
      cases h
    | false =>
      obtain ⟨h1, h2⟩ := sp_relax_noupdate d a hb
      rw [hb, h1] at h
      obtain ⟨h3, h4⟩ := ih d h
      rw [h1]
      refine ⟨h3, ?_⟩
      intro e he
      rcases List.mem_cons.1 he with rfl | he1
      · exact h2
      · exact h4 e he1

theorem sp_relax_list_of_relaxed {Node : Type} [DecidableEq Node] (es : List (edge Node))
    (d : Dist Node) (b : Bool)
    (h : ∀ e ∈ es, ∀ du, d.find e.1 = some du →
      ∃ dv, d.find e.2.1 = some dv ∧ dv ≤ du + e.2.2) :
    ideal_relax_list es d b = (d, b) := by
  induction es with
  | nil => rfl
  | cons a es ih =>
    simp only [ideal_relax_list, sp_relax_of_relaxed d b a (h a (List.mem_cons_self _ _))]
    exact ih (fun e he => h e (List.mem_cons_of_mem _ he))

theorem sp_relaxed_walk {Node : Type} [DecidableEq Node] (edges : List (edge Node))
    (d : Dist Node) (h : Relaxed edges d) (p : List (edge Node)) :
    ∀ (u v : Node) (du : Int), d.find u = some du → IsWalk edges u p v →
      ∃ y, d.find v = some y ∧ y ≤ du + weight p := by
  induction p with
  | nil =>
    intro u v du hu hw
    have : u = v := hw
    subst this
    exact ⟨du, hu, by simp [weight]⟩
  | cons e p ih =>
    intro u v du hu hw
    obtain ⟨he, heu, hp⟩ := hw
    subst heu
    obtain ⟨dv, hv, hle⟩ := h e he du hu
    obtain ⟨y, hy, hle2⟩ := ih e.2.1 v dv hv hp
    refine ⟨y, hy, ?_⟩
    rw [sp_weight_cons]
    omega

theorem sp_relaxed_no_neg_cycle {Node : Type} [DecidableEq Node] (edges : List (edge Node))
    (s : Node) (d : Dist Node) (h : Relaxed edges d) (x0 : Int) (hs : d.find s = some x0) :
    ¬ NegCycle edges s := by
  rintro ⟨x, c, ⟨p, hp⟩, _, hc, hneg⟩
  obtain ⟨dx, hdx, _⟩ := sp_relaxed_walk edges d h p s x x0 hs hp
  obtain ⟨y, hy, hle⟩ := sp_relaxed_walk edges d h c x x dx hdx hc
  rw [hdx] at hy
  cases hy
  omega

theorem sp_walk_edges {Node : Type} (edges : List (edge Node)) (p : List (edge Node)) :
    ∀ (u v : Node), IsWalk edges u p v → ∀ e ∈ p, e ∈ edges := by
  induction p with
  | nil => intro u v _ e he; cases he
  | cons a p ih =>
    intro u v h e he
    rcases List.mem_cons.1 he with rfl | he1
    · exact h.1
    · exact ih _ _ h.2.2 e he1

theorem sp_walk_split_at {Node : Type} (edges : List (edge Node)) (q : List (edge Node)) :
    ∀ (a v x : Node), IsWalk edges a q v → x ∈ walk_nodes a q →
      ∃ q1 q2, q = q1 ++ q2 ∧ IsWalk edges a q1 x ∧ IsWalk edges x q2 v
        ∧ List.Sublist (walk_nodes x q2) (walk_nodes a q) := by
  induction q with
  | nil =>
    intro a v x h hx
    have hxa : x = a := by simpa [walk_nodes] using hx
    subst hxa
    exact ⟨[], [], rfl, rfl, h, List.Sublist.refl _⟩
  | cons e q ih =>
    intro a v x h hx
    by_cases hxa : x = a
    · subst hxa
      exact ⟨[], e :: q, rfl, rfl, h, List.Sublist.refl _⟩
    · have hx1 : x ∈ walk_nodes e.2.1 q := by
        simp only [walk_nodes, List.map_cons, List.mem_cons] at hx ⊢
        rcases hx with hx | hx
        · exact absurd hx hxa
        · exact hx
      obtain ⟨q1, q2, hq, h1, h2, hsub⟩ := ih e.2.1 v x h.2.2 hx1
      refine ⟨e :: q1, q2, by rw [hq]; rfl, ⟨h.1, h.2.1, h1⟩, h2, ?_⟩
      exact List.Sublist.cons _ hsub

theorem sp_walk_simple {Node : Type} [DecidableEq Node] (edges : List (edge Node))
    (s : Node) (hno : ¬ NegCycle edges s) (p : List (edge Node)) :
    ∀ (u v : Node), Reachable edges s u → IsWalk edges u p v →
      ∃ q, IsWalk edges u q v ∧ weight q ≤ weight p ∧ (walk_nodes u q).Nodup := by
  induction p with
  | nil =>
    intro u v _ h
    exact ⟨[], h, le_refl _, by simp [walk_nodes]⟩
  | cons e p ih =>
    intro u v hu h
    obtain ⟨he, heu, hp⟩ := h
    subst heu
    have hreach : Reachable edges s e.2.1 := by
      obtain ⟨r, hr⟩ := hu
      exact ⟨r ++ [e], (sp_walk_snoc edges r s e hr he).1⟩
    obtain ⟨q, hq, hw, hnd⟩ := ih e.2.1 v hreach hp
    by_cases hmem : e.1 ∈ walk_nodes e.2.1 q
    · obtain ⟨q1, q2, hsplit, h1, h2, hsub⟩ := sp_walk_split_at edges q e.2.1 v e.1 hq hmem
      refine ⟨q2, h2, ?_, hnd.sublist hsub⟩
      have hc : 0 ≤ weight (e :: q1) := by
        by_contra hlt
        exact hno ⟨e.1, e :: q1, hu, by simp, ⟨he, rfl, h1⟩, not_le.1 hlt⟩
      rw [sp_weight_cons] at hc ⊢
      rw [hsplit, sp_weight_append] at hw
      omega
    · refine ⟨e :: q, ⟨he, rfl, hq⟩, ?_, ?_⟩
      · rw [sp_weight_cons, sp_weight_cons]
        omega
      · have : walk_nodes e.1 (e :: q) = e.1 :: walk_nodes e.2.1 q := rfl
        rw [this]
        exact List.nodup_cons.2 ⟨hmem, hnd⟩

theorem sp_walk_nodes_subset {Node : Type} [DecidableEq Node] (edges : List (edge Node))
    (start : Node) (q : List (edge Node)) (v : Node) (h : IsWalk edges start q v) :
    walk_nodes start q ⊆ nodes start edges := by
  intro x hx
  simp only [walk_nodes, List.mem_cons, List.mem_map] at hx
  simp only [nodes, List.mem_dedup, List.mem_cons, List.mem_flatMap]
  rcases hx with hx | ⟨e, he, rfl⟩
  · exact Or.inl hx
  · exact Or.inr ⟨e, sp_walk_edges edges q start v h e he, by simp⟩

theorem sp_short_walk {Node : Type} [DecidableEq Node] (edges : List (edge Node))
    (start : Node) (hno : ¬ NegCycle edges start) (p : List (edge Node)) (v : Node)
    (h : IsWalk edges start p v) :
    ∃ q, IsWalk edges start q v ∧ weight q ≤ weight p ∧ (walk_nodes start q).Nodup
      ∧ q.length + 1 ≤ (nodes start edges).length := by
  obtain ⟨q, hq, hw, hnd⟩ := sp_walk_simple edges start hno p start v ⟨[], rfl⟩ h
  refine ⟨q, hq, hw, hnd, ?_⟩
  have := (List.subperm_of_subset hnd (sp_walk_nodes_subset edges start q v hq)).length_le
  simpa [walk_nodes] using this

theorem sp_walk_unsnoc {Node : Type} (edges : List (edge Node)) (p : List (edge Node))
    (s v : Node) (hne : p ≠ []) (h : IsWalk edges s p v) :
    ∃ p1 e, p = p1 ++ [e] ∧ IsWalk edges s p1 e.1 ∧ e ∈ edges ∧ e.2.1 = v := by
  have hp := (List.dropLast_append_getLast hne).symm
  rw [hp] at h
  obtain ⟨x, h1, h2⟩ := sp_walk_split edges _ _ s v h
  obtain ⟨he, hx, hv⟩ := h2
  refine ⟨p.dropLast, p.getLast hne, hp, ?_, he, hv⟩
  rw [hx]
  exact h1

theorem sp_round_covers {Node : Type} [DecidableEq Node] (edges : List (edge Node))
    (start : Node) (d : Dist Node) (k : Nat)
    (h : ∀ p v, IsWalk edges start p v → p.length ≤ k →
      ∃ y, d.find v = some y ∧ y ≤ weight p) :
    ∀ p v, IsWalk edges start p v → p.length ≤ k + 1 →
      ∃ y, (ideal_relax_all edges d).1.find v = some y ∧ y ≤ weight p := by
  intro p v hp hlen
  by_cases hk : p.length ≤ k
  · obtain ⟨y, hy, hle⟩ := h p v hp hk
    obtain ⟨z, hz, hzy⟩ := sp_relax_list_below edges d false v y hy
    exact ⟨z, hz, le_trans hzy hle⟩
  · have hne : p ≠ [] := by
      intro e
      rw [e] at hk
      simp at hk
    obtain ⟨p1, e, hp1, hw1, he, hv⟩ := sp_walk_unsnoc edges p start v hne hp
    have hl1 : p1.length ≤ k := by
      rw [hp1] at hlen
      simp at hlen
      omega
    obtain ⟨du, hdu, hle⟩ := h p1 e.1 hw1 hl1
    obtain ⟨y, hy, hle2⟩ := sp_relax_list_target edges d false e he du hdu
    rw [hv] at hy
    refine ⟨y, hy, ?_⟩
    rw [hp1, (sp_walk_snoc edges p1 start e hw1 he).2]
    omega

theorem sp_rounds_covers {Node : Type} [DecidableEq Node] (edges : List (edge Node))
    (start : Node) (k : Nat) :
    ∀ (d : Dist Node) (j : Nat),
      (∀ p v, IsWalk edges start p v → p.length ≤ j →
        ∃ y, d.find v = some y ∧ y ≤ weight p) →
      ∀ p v, IsWalk edges start p v → p.length ≤ j + k →
        ∃ y, (rounds edges k d).find v = some y ∧ y ≤ weight p := by
  induction k with
  | zero => intro d j h; exact h
  | succ k ih =>
    intro d j h p v hp hlen
    exact ih (ideal_relax_all edges d).1 (j + 1) (sp_round_covers edges start d j h) p v hp
      (by omega)

theorem sp_rounds_walk_valued {Node : Type} [DecidableEq Node] (edges : List (edge Node))
    (s : Node) (k : Nat) :
    ∀ (d : Dist Node), WalkValued edges s d → WalkValued edges s (rounds edges k d) := by
  induction k with
  | zero => intro d h; exact h
  | succ k ih =>
    intro d h
    exact ih _ (sp_relax_list_walk_valued edges s edges d false (fun _ he => he) h)

theorem sp_rounds_below {Node : Type} [DecidableEq Node] (edges : List (edge Node))
    (k : Nat) : ∀ (d : Dist Node), Below (rounds edges k d) d := by
  induction k with
  | zero => intro d; exact sp_below_refl d
  | succ k ih =>
    intro d
    exact sp_below_trans (ih _) (sp_relax_list_below edges d false)

theorem sp_rounds_succ {Node : Type} [DecidableEq Node] (edges : List (edge Node))
    (k : Nat) : ∀ (d : Dist Node),
      rounds edges (k + 1) d = (ideal_relax_all edges (rounds edges k d)).1 := by
  induction k with
  | zero => intro d; rfl
  | succ k ih =>
    intro d
    exact ih (ideal_relax_all edges d).1

theorem sp_start_find {Node : Type} [DecidableEq Node] (start : Node) :
    (Dist.assign ([] : Dist Node) start 0).find start = some 0 := by
  simp [sp_find_assign]

theorem sp_start_walk_valued {Node : Type} [DecidableEq Node] (edges : List (edge Node))
    (start : Node) : WalkValued edges start (Dist.assign [] start 0) := by
  intro v x h
  rw [sp_find_assign] at h
  split at h
  · rename_i hk
    cases h
    exact ⟨[], hk, rfl⟩
  · cases h

theorem sp_start_covers {Node : Type} [DecidableEq Node] (edges : List (edge Node))
    (start : Node) :
    ∀ p v, IsWalk edges start p v → p.length ≤ 0 →
      ∃ y, (Dist.assign ([] : Dist Node) start 0).find v = some y ∧ y ≤ weight p := by
  intro p v hp hlen
  have hnil : p = [] := List.length_eq_zero.1 (Nat.le_zero.1 hlen)
  subst hnil
  have hv : start = v := hp
  subst hv
  exact ⟨0, sp_start_find start, by simp [weight]⟩

theorem sp_relaxed_of_covers {Node : Type} [DecidableEq Node] (edges : List (edge Node))
    (start : Node) (hno : ¬ NegCycle edges start) (d : Dist Node) (k : Nat)
    (hk : (nodes start edges).length ≤ k + 1) (hv : WalkValued edges start d)
    (h : ∀ p v, IsWalk edges start p v → p.length ≤ k →
      ∃ y, d.find v = some y ∧ y ≤ weight p) :
    Relaxed edges d := by
  intro e he du hdu
  obtain ⟨p, hp, hw⟩ := hv e.1 du hdu
  have hsn := sp_walk_snoc edges p start e hp he
  obtain ⟨q, hq, hwq, _, hlen⟩ := sp_short_walk edges start hno (p ++ [e]) e.2.1 hsn.1
  obtain ⟨y, hy, hle⟩ := h q e.2.1 hq (by omega)
  refine ⟨y, hy, ?_⟩
  rw [hsn.2] at hwq
  omega

theorem sp_relax_all_of_relaxed {Node : Type} [DecidableEq Node] (edges : List (edge Node))
    (d : Dist Node) (h : Relaxed edges d) : ideal_relax_all edges d = (d, false) :=
  sp_relax_list_of_relaxed edges d false h

theorem sp_relaxed_of_noupdate {Node : Type} [DecidableEq Node] (edges : List (edge Node))
    (d : Dist Node) (h : (ideal_relax_all edges d).2 = false) :
    (ideal_relax_all edges d).1 = d ∧ Relaxed edges d :=
  sp_relax_list_noupdate edges d h

theorem sp_ideal_loop_spec {Node : Type} [DecidableEq Node] (edges : List (edge Node))
    (node_num : Nat) (hmax : node_num ≤ SIZE_MAX) :
    ∀ (fuel i : Nat) (d : Dist Node) (flag : Bool) (r : Dist Node × Bool),
      ideal_loop edges node_num fuel i d flag = some r → i ≤ SIZE_MAX → i ≤ node_num + 1 →
      ∃ j, r.1 = rounds edges j d
        ∧ (∀ t, t < j → (ideal_relax_all edges (rounds edges t d)).2 = true)
        ∧ (((ideal_relax_all edges (rounds edges j d)).2 = false
            ∧ (i + j ≤ node_num → r.2 = flag))
          ∨ (node_num < SIZE_MAX ∧ i + j = node_num + 1 ∧ (1 ≤ j → r.2 = true)
            ∧ (j = 0 → r.2 = flag))) := by
  intro fuel
  induction fuel with
  | zero =>
    intro i d flag r h
    simp only [ideal_loop] at h
    cases h
  | succ f ih =>
    intro i d flag r h hi1 hi2
    by_cases hle : i ≤ node_num
    · rcases hra : ideal_relax_all edges d with ⟨d1, u⟩
      have hfst : (ideal_relax_all edges d).1 = d1 := by rw [hra]
      have hsnd : (ideal_relax_all edges d).2 = u := by rw [hra]
      simp only [ideal_loop, if_pos hle, hra] at h
      cases u with
      | false =>
        simp only [Bool.not_false, if_true] at h
        cases h
        have h1 : d1 = d := hfst.symm.trans (sp_relaxed_of_noupdate edges d hsnd).1
        subst h1
        exact ⟨0, rfl, fun t ht => absurd ht (Nat.not_lt_zero t),
          Or.inl ⟨hsnd, fun _ => rfl⟩⟩
      | true =>
        simp only [Bool.not_true, Bool.false_eq_true, if_false, Bool.and_true,
          decide_eq_true_eq] at h
        have hs1 : size_t_succ i ≤ SIZE_MAX := by
          unfold size_t_succ
          by_cases he : i = SIZE_MAX
          · rw [if_pos he]; exact Nat.zero_le _
          · rw [if_neg he]; omega
        have hs2 : size_t_succ i ≤ node_num + 1 := by
          unfold size_t_succ
          by_cases he : i = SIZE_MAX
          · rw [if_pos he]; exact Nat.zero_le _
          · rw [if_neg he]; omega
        obtain ⟨j, hres, hall, hcase⟩ := ih (size_t_succ i) d1 _ r h hs1 hs2
        have hr : ∀ t, rounds edges (t + 1) d = rounds edges t d1 := by
          intro t
          simp only [rounds, hfst]
        refine ⟨j + 1, by rw [hr]; exact hres, ?_, ?_⟩
        · intro t ht
          cases t with
          | zero => exact hsnd
          | succ t =>
            rw [hr]
            exact hall t (by omega)
        · rw [hr]
          rcases hcase with ⟨h1, h2⟩ | ⟨h0, h1, h2, h3⟩
          · refine Or.inl ⟨h1, fun hij => ?_⟩
            have hne : i ≠ SIZE_MAX := by omega
            have hsu : size_t_succ i = i + 1 := by
              unfold size_t_succ
              rw [if_neg hne]
            rw [h2 (by rw [hsu]; omega), if_neg (by omega)]
          · have hne : i ≠ SIZE_MAX := by omega
            have hsu : size_t_succ i = i + 1 := by
              unfold size_t_succ
              rw [if_neg hne]
            rw [hsu] at h1
            refine Or.inr ⟨h0, by omega, fun _ => ?_, fun hj => by omega⟩
            by_cases hj : j = 0
            · rw [h3 hj, if_pos (by omega)]
            · exact h2 (by omega)
    · simp only [ideal_loop, if_neg hle] at h
      cases h
      exact ⟨0, rfl, fun t ht => absurd ht (Nat.not_lt_zero t),
        Or.inr ⟨by omega, by omega, fun h => absurd h (by omega), fun _ => rfl⟩⟩

theorem sp_find_isSome {Node : Type} [DecidableEq Node] (d : Dist Node) (v : Node) :
    (d.find v).isSome ↔ v ∈ d.map Prod.fst := by
  induction d with
  | nil => simp [Dist.find]
  | cons a d ih =>
    obtain ⟨k, x⟩ := a
    rw [sp_find_cons]
    by_cases h : k = v
    · simp [h]
    · rw [if_neg h, ih]
      simp only [List.map_cons, List.mem_cons]
      constructor
      · exact Or.inr
      · rintro (h1 | h1)
        · exact absurd h1.symm h
        · exact h1

theorem sp_source_split {Node : Type} (edges : List (edge Node)) (p : List (edge Node)) :
    ∀ (a v x : Node), IsWalk edges a p v → x ∈ p.map (fun e => e.1) →
      ∃ q1 q2, p = q1 ++ q2 ∧ q2 ≠ [] ∧ IsWalk edges a q1 x ∧ IsWalk edges x q2 v := by
  induction p with
  | nil => intro a v x _ hx; cases hx
  | cons e p ih =>
    intro a v x h hx
    by_cases hxa : x = a
    · subst hxa
      exact ⟨[], e :: p, rfl, by simp, rfl, h⟩
    · have hx1 : x ∈ p.map (fun e => e.1) := by
        simp only [List.map_cons, List.mem_cons] at hx
        rcases hx with hx | hx
        · exact absurd (hx.trans h.2.1) hxa
        · exact hx
      obtain ⟨q1, q2, hq, hne, h1, h2⟩ := ih e.2.1 v x h.2.2 hx1
      exact ⟨e :: q1, q2, by rw [hq]; rfl, hne, ⟨h.1, h.2.1, h1⟩, h2⟩

theorem sp_dup_split {Node : Type} (edges : List (edge Node)) (p : List (edge Node)) :
    ∀ (u v : Node), IsWalk edges u p v → ¬ (p.map (fun e => e.1)).Nodup →
      ∃ p1 c2 p3 y, p = p1 ++ (c2 ++ p3) ∧ c2 ≠ [] ∧ p3 ≠ [] ∧ IsWalk edges u p1 y
        ∧ IsWalk edges y c2 y ∧ IsWalk edges y p3 v := by
  induction p with
  | nil => intro u v _ h; exact absurd List.nodup_nil h
  | cons e p ih =>
    intro u v h hnd
    by_cases hmem : e.1 ∈ p.map (fun e => e.1)
    · obtain ⟨q1, q2, hq, hne, h1, h2⟩ := sp_source_split edges p e.2.1 v e.1 h.2.2 hmem
      refine ⟨[], e :: q1, q2, u, by rw [hq]; rfl, by simp, hne, rfl, ?_, ?_⟩
      · rw [← h.2.1]
        exact ⟨h.1, rfl, h1⟩
      · rw [← h.2.1]
        exact h2
    · have hnd1 : ¬ (p.map (fun e => e.1)).Nodup := by
        intro hn
        apply hnd
        rw [List.map_cons, List.nodup_cons]
        exact ⟨hmem, hn⟩
      obtain ⟨p1, c2, p3, y, hp, hc, hp3, h1, h2, h3⟩ := ih e.2.1 v h.2.2 hnd1
      exact ⟨e :: p1, c2, p3, y, by rw [hp]; rfl, hc, hp3, ⟨h.1, h.2.1, h1⟩, h2, h3⟩

theorem sp_simple_cycle {Node : Type} [DecidableEq Node] (edges : List (edge Node))
    (s : Node) (n : Nat) :
    ∀ (c : List (edge Node)) (x : Node), c.length ≤ n → Reachable edges s x → c ≠ [] →
      IsWalk edges x c x → weight c < 0 → NegSimpleCycle edges s := by
  induction n with
  | zero =>
    intro c x hlen _ hne
    exact absurd (List.length_eq_zero.1 (Nat.le_zero.1 hlen)) hne
  | succ n ih =>
    intro c x hlen hx hne hc hw
    by_cases hnd : (c.map (fun e => e.1)).Nodup
    · exact ⟨x, c, hx, hne, hc, hw, hnd⟩
    · obtain ⟨p1, c2, p3, y, hp, hc2, hp3, h1, h2, h3⟩ := sp_dup_split edges c x x hc hnd
      have hy : Reachable edges s y := by
        obtain ⟨r, hr⟩ := hx
        exact ⟨r ++ p1, sp_walk_append edges r p1 s x y hr h1⟩
      have hl : c.length = p1.length + (c2.length + p3.length) := by
        rw [hp]; simp
      have hw1 : weight c = weight p1 + (weight c2 + weight p3) := by
        rw [hp, sp_weight_append, sp_weight_append]
      have hc2pos : 0 < c2.length := List.length_pos.2 hc2
      have hp3pos : 0 < p3.length := List.length_pos.2 hp3
      by_cases hneg : weight c2 < 0
      · exact ih c2 y (by omega) hy hc2 h2 hneg
      · refine ih (p3 ++ p1) y ?_ hy (by simp [hp3]) (sp_walk_append edges p3 p1 y x y h3 h1) ?_
        · simp only [List.length_append]
          omega
        · rw [sp_weight_append]
          omega

theorem sp_neg_cycle_iff_simple {Node : Type} [DecidableEq Node] (edges : List (edge Node))
    (s : Node) : NegCycle edges s ↔ NegSimpleCycle edges s := by
  constructor
  · rintro ⟨x, c, hx, hne, hc, hw⟩
    exact sp_simple_cycle edges s c.length c x (le_refl _) hx hne hc hw
  · rintro ⟨x, c, hx, hne, hc, hw, _⟩
    exact ⟨x, c, hx, hne, hc, hw⟩

theorem sp_ideal_outcome {Node : Type} [DecidableEq Node] (edges : List (edge Node))
    (start : Node) (node_num fuel : Nat) (hn : (nodes start edges).length ≤ node_num)
    (hmax : node_num ≤ SIZE_MAX) (d : Dist Node) (flag : Bool)
    (h : ideal_bellman_ford fuel start edges node_num = some (d, flag)) :
    WalkValued edges start d ∧ (∃ x0, d.find start = some x0 ∧ x0 ≤ 0)
      ∧ (flag = false → Relaxed edges d)
      ∧ (flag = true ↔ NegCycle edges start) := by
  have hpos : 0 < (nodes start edges).length := by
    apply List.length_pos_of_mem (a := start)
    simp [nodes]
  have hS : 1 ≤ SIZE_MAX := by decide
  obtain ⟨j, hres, hall, hcase⟩ :=
    sp_ideal_loop_spec edges node_num hmax fuel 1 (Dist.assign [] start 0) false (d, flag) h
      hS (by omega)
  simp only at hres hcase
  subst hres
  have hwv := sp_rounds_walk_valued edges start j _ (sp_start_walk_valued edges start)
  have hst : ∃ x0, (rounds edges j (Dist.assign [] start 0)).find start = some x0
      ∧ x0 ≤ 0 :=
    sp_rounds_below edges j _ start 0 (sp_start_find start)
  have hlong : ¬ NegCycle edges start → j ≤ (nodes start edges).length - 1 := by
    intro hno
    by_contra hk
    have hrel := sp_relaxed_of_covers edges start hno
      (rounds edges ((nodes start edges).length - 1) (Dist.assign [] start 0))
      ((nodes start edges).length - 1) (by omega)
      (sp_rounds_walk_valued edges start _ _ (sp_start_walk_valued edges start))
      (by
        have := sp_rounds_covers edges start ((nodes start edges).length - 1)
          (Dist.assign [] start 0) 0 (sp_start_covers edges start)
        simpa using this)
    have := hall _ (by omega : (nodes start edges).length - 1 < j)
    rw [sp_relax_all_of_relaxed edges _ hrel] at this
    cases this
  refine ⟨hwv, hst, ?_, ?_⟩
  · intro hfl
    rcases hcase with ⟨h2, _⟩ | ⟨_, h1, h2, _⟩
    · exact (sp_relaxed_of_noupdate edges _ h2).2
    · have := h2 (by omega)
      rw [this] at hfl
      cases hfl
  · rcases hcase with ⟨h2, h3⟩ | ⟨_, h1, h2, _⟩
    · obtain ⟨x0, hx0, _⟩ := hst
      have hno := sp_relaxed_no_neg_cycle edges start _
        (sp_relaxed_of_noupdate edges _ h2).2 x0 hx0
      have hj := hlong hno
      rw [h3 (by omega)]
      constructor
      · intro h; cases h
      · intro h; exact absurd h hno
    · have hfl := h2 (by omega)
      refine ⟨fun _ => ?_, fun _ => hfl⟩
      by_contra hno
      have := hlong hno
      omega

theorem sp_shortest_of_relaxed {Node : Type} [DecidableEq Node] (edges : List (edge Node))
    (start : Node) (hno : ¬ NegCycle edges start) (d : Dist Node) (hrel : Relaxed edges d)
    (hwv : WalkValued edges start d) (x0 : Int) (hx0 : d.find start = some x0)
    (hx0le : x0 ≤ 0) :
    (∀ v, v ∈ d.map Prod.fst ↔ Reachable edges start v)
      ∧ d.find start = some 0
      ∧ ∀ v x, d.find v = some x → IsShortest edges start v x := by
  have h0 : x0 = 0 := by
    obtain ⟨c, hc, hw⟩ := hwv start x0 hx0
    have hle0 : 0 ≤ x0 := by
      by_contra hlt
      have hne : c ≠ [] := by
        intro e
        rw [e] at hw
        simp [weight] at hw
        omega
      exact hno ⟨start, c, ⟨[], rfl⟩, hne, hc, by omega⟩
    omega
  subst h0
  refine ⟨?_, hx0, ?_⟩
  · intro v
    rw [← sp_find_isSome]
    constructor
    · intro h
      obtain ⟨x, hx⟩ := Option.isSome_iff_exists.1 h
      obtain ⟨p, hp, _⟩ := hwv v x hx
      exact ⟨p, hp⟩
    · rintro ⟨p, hp⟩
      obtain ⟨y, hy, _⟩ := sp_relaxed_walk edges d hrel p start v 0 hx0 hp
      rw [hy]
      rfl
  · intro v x hx
    have hlow : ∀ p, IsWalk edges start p v → x ≤ weight p := by
      intro p hp
      obtain ⟨y, hy, hle⟩ := sp_relaxed_walk edges d hrel p start v 0 hx0 hp
      rw [hx] at hy
      cases hy
      omega
    obtain ⟨p, hp, hw⟩ := hwv v x hx
    obtain ⟨q, hq, hwq, hnd, _⟩ := sp_short_walk edges start hno p v hp
    have := hlow q hq
    exact ⟨⟨q, hq, by omega, hnd⟩, hlow⟩

theorem sp_main_edges_3_no_neg_cycle : ¬ NegSimpleCycle main_edges_3 0 := by
  intro h
  have hrel : Relaxed main_edges_3 [(2, 2), (1, 3), (0, 0)] := by
    intro e he du hdu
    simp only [main_edges_3, List.mem_cons, List.mem_singleton, List.not_mem_nil,
      or_false] at he
    rcases he with rfl | rfl | rfl
    · have h0 : Dist.find [((2 : Int), (2 : Int)), (1, 3), (0, 0)] 0 = some 0 := by decide
      rw [h0] at hdu
      cases hdu
      exact ⟨3, by decide, by decide⟩
    · have h0 : Dist.find [((2 : Int), (2 : Int)), (1, 3), (0, 0)] 1 = some 3 := by decide
      rw [h0] at hdu
      cases hdu
      exact ⟨2, by decide, by decide⟩
    · have h0 : Dist.find [((2 : Int), (2 : Int)), (1, 3), (0, 0)] 0 = some 0 := by decide
      rw [h0] at hdu
      cases hdu
      exact ⟨2, by decide, by decide⟩
  exact sp_relaxed_no_neg_cycle main_edges_3 0 _ hrel 0 (by decide)
    ((sp_neg_cycle_iff_simple main_edges_3 0).2 h)

/-! ### The run on `int` against the run on unbounded integers -/

theorem sp_int_wrap_range (x : Int) : INT_MIN ≤ int_wrap x ∧ int_wrap x ≤ INT_MAX := by
  unfold int_wrap INT_MIN INT_MAX
  omega

theorem sp_int_wrap_of_fits (x : Int) (h : fits_int x = true) : int_wrap x = x := by
  simp only [fits_int, INT_MIN, INT_MAX, decide_eq_true_eq] at h
  unfold int_wrap
  omega

theorem sp_relax_sim {Node : Type} [DecidableEq Node] (d : Dist Node) (u o : Bool)
    (e : edge Node) (h : (relax d u o e).2.2 = false) :
    o = false ∧ ((relax d u o e).1, (relax d u o e).2.1) = ideal_relax d u e := by
  unfold relax at h ⊢
  unfold ideal_relax
  cases h1 : d.find e.1 with
  | none =>
    rw [h1] at h
    exact ⟨h, rfl⟩
  | some du =>
    rw [h1] at h
    simp only at h ⊢
    cases h2 : d.find e.2.1 with
    | none =>
      rw [h2] at h
      simp only [Bool.or_eq_false_iff, Bool.not_eq_false'] at h
      rw [sp_int_wrap_of_fits _ h.2]
      exact ⟨h.1, rfl⟩
    | some dv =>
      rw [h2] at h
      simp only at h ⊢
      by_cases hc : int_wrap (du + e.2.2) < dv
      · rw [if_pos hc] at h
        simp only [Bool.or_eq_false_iff, Bool.not_eq_false'] at h
        have hw := sp_int_wrap_of_fits _ h.2
        rw [if_pos hc]
        rw [hw] at hc ⊢
        rw [if_pos hc]
        exact ⟨h.1, rfl⟩
      · rw [if_neg hc] at h
        simp only [Bool.or_eq_false_iff, Bool.not_eq_false'] at h
        have hw := sp_int_wrap_of_fits _ h.2
        rw [if_neg hc]
        rw [hw] at hc
        rw [if_neg hc]
        exact ⟨h.1, rfl⟩

theorem sp_relax_list_sim {Node : Type} [DecidableEq Node] (es : List (edge Node)) :
    ∀ (d : Dist Node) (u o : Bool), (relax_list es d u o).2.2 = false →
      o = false
        ∧ ((relax_list es d u o).1, (relax_list es d u o).2.1) = ideal_relax_list es d u := by
  induction es with
  | nil =>
    intro d u o h
    exact ⟨h, rfl⟩
  | cons e es ih =>
    intro d u o h
    simp only [relax_list] at h ⊢
    obtain ⟨h1, h2⟩ := ih _ _ _ h
    obtain ⟨h3, h4⟩ := sp_relax_sim d u o e h1
    refine ⟨h3, ?_⟩
    rw [h2]
    simp only [ideal_relax_list]
    rw [← h4]

theorem sp_loop_sim {Node : Type} [DecidableEq Node] (edges : List (edge Node))
    (node_num : Nat) :
    ∀ (fuel i : Nat) (d : Dist Node) (b o : Bool) (r : Dist Node × Bool × Bool),
      bellman_ford_loop edges node_num fuel i d b o = some r → r.2.2 = false →
      o = false ∧ ideal_loop edges node_num fuel i d b = some (r.1, r.2.1) := by
  intro fuel
  induction fuel with
  | zero =>
    intro i d b o r h
    simp only [bellman_ford_loop] at h
    cases h
  | succ f ih =>
    intro i d b o r h hr
    by_cases hi : i ≤ node_num
    · rcases hra : relax_all edges d o with ⟨d1, u1, o1⟩
      have hsim : o1 = false → o = false ∧ (d1, u1) = ideal_relax_all edges d := by
        intro ho
        have := sp_relax_list_sim edges d false o (by
          show (relax_all edges d o).2.2 = false
          rw [hra]; exact ho)
        have e1 : relax_list edges d false o = (d1, u1, o1) := hra
        rw [e1] at this
        exact this
      simp only [bellman_ford_loop, if_pos hi, hra] at h
      cases u1 with
      | false =>
        simp only [Bool.not_false, if_true] at h
        cases h
        obtain ⟨h1, h2⟩ := hsim hr
        refine ⟨h1, ?_⟩
        simp only [ideal_loop, if_pos hi, ← h2, Bool.not_false, if_true]
      | true =>
        simp only [Bool.not_true, Bool.false_eq_true, if_false, Bool.and_true,
          decide_eq_true_eq] at h
        obtain ⟨ho1, hid⟩ := ih _ _ _ _ _ h hr
        obtain ⟨h1, h2⟩ := hsim ho1
        refine ⟨h1, ?_⟩
        simp only [ideal_loop, if_pos hi, ← h2, Bool.not_true, Bool.false_eq_true, if_false,
          Bool.and_true, decide_eq_true_eq]
        exact hid
    · simp only [bellman_ford_loop, if_neg hi] at h
      cases h
      refine ⟨hr, ?_⟩
      simp only [ideal_loop, if_neg hi]

/-! ### The run on `int` returns -/

theorem sp_potential_assign {Node : Type} [DecidableEq Node] (ns : List Node)
    (d : Dist Node) (v : Node) (y : Int) (hv : v ∈ ns)
    (hlt : potential_term (some y) < potential_term (d.find v)) :
    potential ns (d.assign v y) < potential ns d := by
  unfold potential
  apply List.sum_lt_sum
  · intro w _
    rw [sp_find_assign]
    by_cases h : v = w
    · subst h
      rw [if_pos rfl]
      exact Nat.le_of_lt hlt
    · rw [if_neg h]
  · refine ⟨v, hv, ?_⟩
    rw [sp_find_assign, if_pos rfl]
    exact hlt

theorem sp_relax_step {Node : Type} [DecidableEq Node] (ns : List Node) (d : Dist Node)
    (u o : Bool) (e : edge Node) (hr : InRange d) (he : e.2.1 ∈ ns) :
    InRange (relax d u o e).1
      ∧ potential ns (relax d u o e).1 ≤ potential ns d
      ∧ ((relax d u o e).2.1 = true →
          u = true ∨ potential ns (relax d u o e).1 < potential ns d) := by
  unfold relax
  cases h1 : d.find e.1 with
  | none => exact ⟨hr, le_refl _, fun h => Or.inl h⟩
  | some du =>
    simp only
    have hw := sp_int_wrap_range (du + e.2.2)
    have hin : InRange (d.assign e.2.1 (int_wrap (du + e.2.2))) := by
      intro v x hx
      rw [sp_find_assign] at hx
      split at hx
      · cases hx
        exact hw
      · exact hr v x hx
    unfold INT_MIN INT_MAX at hw
    cases h2 : d.find e.2.1 with
    | none =>
      simp only
      have hlt := sp_potential_assign ns d e.2.1 (int_wrap (du + e.2.2)) he (by
        rw [h2]
        simp only [potential_term]
        omega)
      exact ⟨hin, Nat.le_of_lt hlt, fun _ => Or.inr hlt⟩
    | some dv =>
      simp only
      by_cases hc : int_wrap (du + e.2.2) < dv
      · rw [if_pos hc]
        have hdv := hr _ _ h2
        unfold INT_MIN INT_MAX at hdv
        have hlt := sp_potential_assign ns d e.2.1 (int_wrap (du + e.2.2)) he (by
          rw [h2]
          simp only [potential_term]
          omega)
        exact ⟨hin, Nat.le_of_lt hlt, fun _ => Or.inr hlt⟩
      · rw [if_neg hc]
        exact ⟨hr, le_refl _, fun h => Or.inl h⟩

theorem sp_relax_list_step {Node : Type} [DecidableEq Node] (ns : List Node)
    (es : List (edge Node)) (hes : ∀ e ∈ es, e.2.1 ∈ ns) :
    ∀ (d : Dist Node) (u o : Bool), InRange d →
      InRange (relax_list es d u o).1
        ∧ potential ns (relax_list es d u o).1 ≤ potential ns d
        ∧ ((relax_list es d u o).2.1 = true →
            u = true ∨ potential ns (relax_list es d u o).1 < potential ns d) := by
  induction es with
  | nil =>
    intro d u o hr
    exact ⟨hr, le_refl _, fun h => Or.inl h⟩
  | cons e es ih =>
    intro d u o hr
    obtain ⟨a1, a2, a3⟩ := sp_relax_step ns d u o e hr (hes e (List.mem_cons_self _ _))
    obtain ⟨b1, b2, b3⟩ := ih (fun x hx => hes x (List.mem_cons_of_mem _ hx))
      (relax d u o e).1 (relax d u o e).2.1 (relax d u o e).2.2 a1
    simp only [relax_list]
    refine ⟨b1, le_trans b2 a2, fun h => ?_⟩
    rcases b3 h with h1 | h1
    · rcases a3 h1 with h2 | h2
      · exact Or.inl h2
      · exact Or.inr (lt_of_le_of_lt b2 h2)
    · exact Or.inr (lt_of_lt_of_le h1 a2)

theorem sp_loop_returns_potential {Node : Type} [DecidableEq Node]
    (edges : List (edge Node)) (node_num : Nat) (ns : List Node)
    (hes : ∀ e ∈ edges, e.2.1 ∈ ns) :
    ∀ (fuel i : Nat) (d : Dist Node) (b o : Bool), InRange d → potential ns d < fuel →
      ∃ r, bellman_ford_loop edges node_num fuel i d b o = some r := by
  intro fuel
  induction fuel with
  | zero =>
    intro i d b o _ h
    exact absurd h (Nat.not_lt_zero _)
  | succ f ih =>
    intro i d b o hr hp
    by_cases hi : i ≤ node_num
    · obtain ⟨a1, a2, a3⟩ := sp_relax_list_step ns edges hes d false o hr
      rcases hra : relax_all edges d o with ⟨d1, u1, o1⟩
      have e1 : relax_list edges d false o = (d1, u1, o1) := hra
      rw [e1] at a1 a2 a3
      simp only at a1 a2 a3
      cases u1 with
      | false =>
        refine ⟨(d1, b, o1), ?_⟩
        simp only [bellman_ford_loop, if_pos hi, hra, Bool.not_false, if_true]
      | true =>
        have hlt : potential ns d1 < potential ns d := by
          rcases a3 rfl with h | h
          · cases h
          · exact h
        obtain ⟨r, hres⟩ := ih (size_t_succ i) d1
          (if i = node_num then true else b) o1 a1 (by omega)
        refine ⟨r, ?_⟩
        simp only [bellman_ford_loop, if_pos hi, hra, Bool.not_true, Bool.false_eq_true,
          if_false, Bool.and_true, decide_eq_true_eq]
        exact hres
    · refine ⟨(d, b, o), ?_⟩
      simp only [bellman_ford_loop, if_neg hi]

theorem sp_loop_returns_counter {Node : Type} [DecidableEq Node] (edges : List (edge Node))
    (node_num : Nat) (hmax : node_num < SIZE_MAX) (m : Nat) :
    ∀ (fuel i : Nat) (d : Dist Node) (b o : Bool), i + m = node_num + 1 → m < fuel →
      ∃ r, bellman_ford_loop edges node_num fuel i d b o = some r := by
  induction m with
  | zero =>
    intro fuel i d b o hi hf
    obtain ⟨f, rfl⟩ : ∃ f, fuel = f + 1 := ⟨fuel - 1, by omega⟩
    have : ¬ i ≤ node_num := by omega
    refine ⟨(d, b, o), ?_⟩
    simp only [bellman_ford_loop, if_neg this]
  | succ m ih =>
    intro fuel i d b o hi hf
    obtain ⟨f, rfl⟩ : ∃ f, fuel = f + 1 := ⟨fuel - 1, by omega⟩
    have hle : i ≤ node_num := by omega
    rcases hra : relax_all edges d o with ⟨d1, u1, o1⟩
    cases u1 with
    | false =>
      refine ⟨(d1, b, o1), ?_⟩
      simp only [bellman_ford_loop, if_pos hle, hra, Bool.not_false, if_true]
    | true =>
      have hsucc : size_t_succ i = i + 1 := by
        unfold size_t_succ
        rw [if_neg (by omega)]
      obtain ⟨r, hres⟩ := ih f (i + 1) d1 (if i = node_num then true else b) o1
        (by omega) (by omega)
      refine ⟨r, ?_⟩
      simp only [bellman_ford_loop, if_pos hle, hra, Bool.not_true, Bool.false_eq_true,
        if_false, Bool.and_true, decide_eq_true_eq, hsucc]
      exact hres

theorem sp_potential_le {Node : Type} [DecidableEq Node] (ns : List Node) (d : Dist Node)
    (hr : InRange d) : potential ns d ≤ ns.length * 4294967296 := by
  unfold potential
  induction ns with
  | nil => simp
  | cons v ns ih =>
    simp only [List.map_cons, List.sum_cons, List.length_cons]
    have hv : potential_term (d.find v) ≤ 4294967296 := by
      cases h : d.find v with
      | none => simp only [potential_term]; omega
      | some x =>
        have := hr v x h
        unfold INT_MIN INT_MAX at this
        simp only [potential_term]
        omega
    omega

theorem sp_start_in_range {Node : Type} [DecidableEq Node] (start : Node) :
    InRange (Dist.assign ([] : Dist Node) start 0) := by
  intro v x h
  rw [sp_find_assign] at h
  split at h
  · cases h
    unfold INT_MIN INT_MAX
    omega
  · cases h

theorem sp_target_in_nodes {Node : Type} [DecidableEq Node] (start : Node)
    (edges : List (edge Node)) : ∀ e ∈ edges, e.2.1 ∈ nodes start edges := by
  intro e he
  simp only [nodes, List.mem_dedup, List.mem_cons, List.mem_flatMap]
  exact Or.inr ⟨e, he, by simp⟩

theorem sp_bellman_ford_returns {Node : Type} [DecidableEq Node] (edges : List (edge Node))
    (start : Node) (node_num fuel : Nat) (hf : rounds_bound start edges node_num < fuel) :
    ∃ r, bellman_ford fuel start edges node_num = some r := by
  unfold rounds_bound at hf
  by_cases hmax : node_num < SIZE_MAX
  · rw [if_pos hmax] at hf
    exact sp_loop_returns_counter edges node_num hmax node_num fuel 1 _ _ _ (by omega) hf
  · rw [if_neg hmax] at hf
    exact sp_loop_returns_potential edges node_num (nodes start edges)
      (sp_target_in_nodes start edges) fuel 1 _ _ _ (sp_start_in_range start)
      (lt_of_le_of_lt (sp_potential_le _ _ (sp_start_in_range start)) hf)

theorem sp_bellman_ford_spec {Node : Type} [DecidableEq Node] (edges : List (edge Node))
    (start : Node) (node_num fuel : Nat) (hn : (nodes start edges).length ≤ node_num)
    (hmax : node_num ≤ SIZE_MAX) (hf : rounds_bound start edges node_num < fuel) :
    ∃ d flag overflow, bellman_ford fuel start edges node_num = some (d, flag, overflow)
      ∧ (overflow = false →
          WalkValued edges start d ∧ (∃ x0, d.find start = some x0 ∧ x0 ≤ 0)
            ∧ (flag = false → Relaxed edges d)
            ∧ (flag = true ↔ NegCycle edges start)) := by
  obtain ⟨⟨d, flag, overflow⟩, hr⟩ := sp_bellman_ford_returns edges start node_num fuel hf
  refine ⟨d, flag, overflow, hr, fun ho => ?_⟩
  obtain ⟨_, hid⟩ := sp_loop_sim edges node_num fuel 1 _ false false _ hr ho
  exact sp_ideal_outcome edges start node_num fuel hn hmax d flag hid


/-- C13 (as stated, refuted): the edge list holds the one edge 0 → 0 of weight `INT_MIN`,
a negative cycle through `start = 0`, and `node_num = 2`.  Round 1 stores
`dist[0] = INT_MIN`; in round 2 the sum `INT_MIN + INT_MIN` overflows, the stored sum 0 is
not below `dist[0]`, nothing is updated and `bellman_ford` returns `has_neg_cycle` false. -/
theorem C13_overflow_hides_negative_cycle :
    (nodes 0 overflow_edges_1).length ≤ 2
      ∧ bellman_ford 3 0 overflow_edges_1 2 = some ([(0, -2147483648)], false, true)
      ∧ NegCycle overflow_edges_1 0 := by
  refine ⟨by decide, by decide, 0, [(0, 0, -2147483648)], ⟨[], rfl⟩, by simp, ?_, by decide⟩
  exact ⟨by decide, rfl, rfl⟩

/-- C13 (amended): for every edge list, start node and `node_num` (a `size_t`) that is at
least the number of distinct nodes, with fuel above `rounds_bound`, `bellman_ford`
returns; and when no sum `dist[u] + w` of the run overflowed `int`, `has_neg_cycle` is
true exactly when a cycle of negative total weight is reachable from `start`, be it a
closed walk or a simple cycle. -/
theorem C13_has_neg_cycle_iff_negative_cycle_reachable_without_overflow {Node : Type}
    [DecidableEq Node] (edges : List (edge Node)) (start : Node) (node_num fuel : Nat)
    (hn : (nodes start edges).length ≤ node_num) (hmax : node_num ≤ SIZE_MAX)
    (hf : rounds_bound start edges node_num < fuel) :
    ∃ d has_neg_cycle overflow,
      bellman_ford fuel start edges node_num = some (d, has_neg_cycle, overflow)
      ∧ (overflow = false →
          (has_neg_cycle = true ↔ NegCycle edges start)
            ∧ (has_neg_cycle = true ↔ NegSimpleCycle edges start)) := by
  obtain ⟨d, flag, o, h1, h2⟩ := sp_bellman_ford_spec edges start node_num fuel hn hmax hf
  refine ⟨d, flag, o, h1, fun ho => ?_⟩
  obtain ⟨_, _, _, h5⟩ := h2 ho
  exact ⟨h5, h5.trans (sp_neg_cycle_iff_simple edges start)⟩

/-- C13 on the negative-cycle test of `main`: edges 0→1 (1), 1→2 (-2), 2→0 (-1); no sum
overflows and `has_neg_cycle` is true. -/
theorem C13_witness :
    (nodes 0 main_edges_2).length ≤ 3 ∧ 3 ≤ SIZE_MAX ∧ rounds_bound 0 main_edges_2 3 < 4
      ∧ ∃ d, bellman_ford 4 0 main_edges_2 3 = some (d, true, false)
        ∧ NegSimpleCycle main_edges_2 0 := by
  have h1 : (nodes 0 main_edges_2).length ≤ 3 := by decide
  have h2 : 3 ≤ SIZE_MAX := by decide
  have h3 : rounds_bound 0 main_edges_2 3 < 4 := by decide
  refine ⟨h1, h2, h3, ?_⟩
  obtain ⟨d, flag, o, hr, h4⟩ :=
    C13_has_neg_cycle_iff_negative_cycle_reachable_without_overflow main_edges_2 0 3 4 h1 h2 h3
  have hr0 : bellman_ford 4 0 main_edges_2 3
      = some ([(0, -6), (2, -5), (1, -3)], true, false) := by
    decide
  rw [hr0] at hr
  cases hr
  exact ⟨_, rfl, (h4 rfl).2.1 rfl⟩

theorem sp_overflow_edges_2_relaxed :
    Relaxed overflow_edges_2 [(2, 2147483648), (1, 2147483647), (0, 0)] := by
  intro e he du hdu
  simp only [overflow_edges_2, List.mem_cons, List.mem_singleton, List.not_mem_nil,
    or_false] at he
  rcases he with rfl | rfl
  · have h0 : Dist.find [((2 : Int), (2147483648 : Int)), (1, 2147483647), (0, 0)] 0
        = some 0 := by decide
    rw [h0] at hdu
    cases hdu
    exact ⟨2147483647, by decide, by decide⟩
  · have h0 : Dist.find [((2 : Int), (2147483648 : Int)), (1, 2147483647), (0, 0)] 1
        = some 2147483647 := by decide
    rw [h0] at hdu
    cases hdu
    exact ⟨2147483648, by decide, by decide⟩

/-- C14 (as stated, refuted): the edges are 0 → 1 of weight `INT_MAX` and 1 → 2 of weight
1, `start = 0` and `node_num = 3`; no cycle is reachable.  The sum `INT_MAX + 1` for node 2
overflows and `bellman_ford` returns a map with `dist[2] = INT_MIN`, while node 2 is
reachable and every walk from 0 to 2 has total weight at least 2147483648. -/
theorem C14_overflow_gives_wrong_distance :
    (nodes 0 overflow_edges_2).length ≤ 3
      ∧ ¬ NegCycle overflow_edges_2 0
      ∧ bellman_ford 4 0 overflow_edges_2 3
          = some ([(2, -2147483648), (1, 2147483647), (0, 0)], false, true)
      ∧ Reachable overflow_edges_2 0 2
      ∧ (∀ p, IsWalk overflow_edges_2 0 p 2 → 2147483648 ≤ weight p)
      ∧ ¬ IsShortest overflow_edges_2 0 2 (-2147483648) := by
  have hlow : ∀ p, IsWalk overflow_edges_2 0 p 2 → 2147483648 ≤ weight p := by
    intro p hp
    obtain ⟨y, hy, hle⟩ := sp_relaxed_walk overflow_edges_2 _ sp_overflow_edges_2_relaxed p
      0 2 0 (by decide) hp
    have h2 : Dist.find [((2 : Int), (2147483648 : Int)), (1, 2147483647), (0, 0)] 2
        = some 2147483648 := by decide
    rw [h2] at hy
    cases hy
    omega
  refine ⟨by decide,
    sp_relaxed_no_neg_cycle overflow_edges_2 0 _ sp_overflow_edges_2_relaxed 0 (by decide),
    by decide, ⟨[(0, 1, 2147483647), (1, 2, 1)], ?_⟩, hlow, ?_⟩
  · exact ⟨by decide, rfl, by decide, rfl, rfl⟩
  · rintro ⟨⟨p, hp, hw, _⟩, _⟩
    have := hlow p hp
    omega

/-- C14 (amended): for every edge list (weights may be negative), start node and
`node_num` (a `size_t`) that is at least the number of distinct nodes, with fuel above
`rounds_bound`: if no simple cycle of negative total weight is reachable from `start`,
`bellman_ford` returns, and when no sum `dist[u] + w` of the run overflowed `int`,
`has_neg_cycle` is false and the keys of the map are exactly the nodes reachable from
`start`, the map holds 0 for `start` and, for every key, the minimum total weight over all
walks from `start` to it, attained by a path without repeated node. -/
theorem C14_dist_is_shortest_without_negative_cycle_and_overflow {Node : Type}
    [DecidableEq Node] (edges : List (edge Node)) (start : Node) (node_num fuel : Nat)
    (hn : (nodes start edges).length ≤ node_num) (hmax : node_num ≤ SIZE_MAX)
    (hf : rounds_bound start edges node_num < fuel) (hno : ¬ NegSimpleCycle edges start) :
    ∃ d has_neg_cycle overflow,
      bellman_ford fuel start edges node_num = some (d, has_neg_cycle, overflow)
      ∧ (overflow = false →
          has_neg_cycle = false
            ∧ (∀ v, v ∈ d.map Prod.fst ↔ Reachable edges start v)
            ∧ d.find start = some 0
            ∧ ∀ v x, d.find v = some x → IsShortest edges start v x) := by
  have hno1 : ¬ NegCycle edges start := fun h => hno ((sp_neg_cycle_iff_simple edges start).1 h)
  obtain ⟨d, flag, o, h1, h2⟩ := sp_bellman_ford_spec edges start node_num fuel hn hmax hf
  refine ⟨d, flag, o, h1, fun ho => ?_⟩
  obtain ⟨hwv, ⟨x0, hx0, hx0le⟩, h4, h5⟩ := h2 ho
  have hfl : flag = false := by
    cases flag with
    | false => rfl
    | true => exact absurd (h5.1 rfl) hno1
  exact ⟨hfl, sp_shortest_of_relaxed edges start hno1 d (h4 hfl) hwv x0 hx0 hx0le⟩

/-- C14 on the negative-edge test of `main`: edges 0→1 (3), 1→2 (-1), 0→2 (5); no sum
overflows and node 2 gets 2. -/
theorem C14_witness :
    (nodes 0 main_edges_3).length ≤ 3 ∧ 3 ≤ SIZE_MAX ∧ rounds_bound 0 main_edges_3 3 < 4
      ∧ ¬ NegSimpleCycle main_edges_3 0
      ∧ ∃ d, bellman_ford 4 0 main_edges_3 3 = some (d, false, false)
        ∧ d.find 2 = some 2 ∧ IsShortest main_edges_3 0 2 2 := by
  have h1 : (nodes 0 main_edges_3).length ≤ 3 := by decide
  have h2 : 3 ≤ SIZE_MAX := by decide
  have h3 : rounds_bound 0 main_edges_3 3 < 4 := by decide
  refine ⟨h1, h2, h3, sp_main_edges_3_no_neg_cycle, ?_⟩
  obtain ⟨d, flag, o, hr, h5⟩ :=
    C14_dist_is_shortest_without_negative_cycle_and_overflow main_edges_3 0 3 4 h1 h2 h3
      sp_main_edges_3_no_neg_cycle
  have hr0 : bellman_ford 4 0 main_edges_3 3
      = some ([(2, 2), (1, 3), (0, 0)], false, false) := by
    decide
  rw [hr0] at hr
  cases hr
  exact ⟨_, rfl, by decide, (h5 rfl).2.2.2 2 2 (by decide)⟩


theorem sp_neighbors_add {Node : Type} [DecidableEq Node] (g : adjacency_list Node)
    (a b : Node) (c : Int) (u : Node) :
    (g.add_edge a b c).get_neighbors u
      = if a = u then g.get_neighbors a ++ [(b, c)] else g.get_neighbors u := by
  by_cases h : a = u
  · simp [adjacency_list.add_edge, adjacency_list.get_neighbors, h]
  · rw [if_neg h]
    have hf : ∀ l : List (Node × List (Node × Int)),
        (l.filter (fun e => decide (e.1 ≠ a))).find? (fun e => decide (e.1 = u))
          = l.find? (fun e => decide (e.1 = u)) := by
      intro l
      induction l with
      | nil => rfl
      | cons x l ih =>
        by_cases hx : x.1 = a
        · have hxu : ¬ x.1 = u := fun e => h (hx.symm.trans e)
          rw [List.filter_cons_of_neg (by simpa using hx), ih,
            List.find?_cons_of_neg _ (by simpa using hxu)]
        · rw [List.filter_cons_of_pos (by simpa using hx)]
          by_cases hxu : x.1 = u
          · rw [List.find?_cons_of_pos _ (by simpa using hxu),
              List.find?_cons_of_pos _ (by simpa using hxu)]
          · rw [List.find?_cons_of_neg _ (by simpa using hxu),
              List.find?_cons_of_neg _ (by simpa using hxu), ih]
    simp only [adjacency_list.add_edge, adjacency_list.get_neighbors]
    rw [List.find?_cons_of_neg _ (by simpa using h), hf]

theorem sp_neighbors_foldl {Node : Type} [DecidableEq Node] (es : List (edge Node)) :
    ∀ (g : adjacency_list Node) (u v : Node) (w : Int),
      (v, w) ∈ (es.foldl (fun g e => g.add_edge e.1 e.2.1 e.2.2) g).get_neighbors u
        ↔ (v, w) ∈ g.get_neighbors u ∨ (u, v, w) ∈ es := by
  induction es with
  | nil => intro g u v w; simp
  | cons e es ih =>
    intro g u v w
    rw [List.foldl_cons, ih, sp_neighbors_add]
    obtain ⟨a, b, c⟩ := e
    by_cases h : a = u
    · subst h
      simp only [if_true, List.mem_append, List.mem_singleton, List.mem_cons, Prod.mk.injEq,
        true_and]
      tauto
    · simp only [if_neg h, List.mem_cons, Prod.mk.injEq]
      constructor
      · rintro (h1 | h1)
        · exact Or.inl h1
        · exact Or.inr (Or.inr h1)
      · rintro (h1 | ⟨h1, _⟩ | h1)
        · exact Or.inl h1
        · exact absurd h1.symm h
        · exact Or.inr h1

theorem sp_neighbors_build {Node : Type} [DecidableEq Node] (es : List (edge Node))
    (u v : Node) (w : Int) :
    (v, w) ∈ (adjacency_list.build es).get_neighbors u ↔ (u, v, w) ∈ es := by
  rw [adjacency_list.build, sp_neighbors_foldl]
  simp [adjacency_list.empty, adjacency_list.get_neighbors]

theorem sp_pq_top_mem {Node : Type} [DecidableEq Node] [LT Node]
    [DecidableRel (fun a b : Node => a < b)] (pq : List (Int × Node)) (t : Int × Node)
    (h : pq_top pq = some t) : t ∈ pq := by
  cases pq with
  | nil => cases h
  | cons a l =>
    simp only [pq_top, Option.some.injEq] at h
    have key : ∀ (l : List (Int × Node)) (m : Int × Node),
        l.foldl (fun m x => if pq_greater m x then x else m) m = m
          ∨ l.foldl (fun m x => if pq_greater m x then x else m) m ∈ l := by
      intro l
      induction l with
      | nil => intro m; exact Or.inl rfl
      | cons x l ih =>
        intro m
        rw [List.foldl_cons]
        rcases ih (if pq_greater m x then x else m) with h1 | h1
        · rw [h1]
          by_cases hg : pq_greater m x = true
          · rw [if_pos hg]; exact Or.inr (List.mem_cons_self _ _)
          · rw [if_neg hg]; exact Or.inl rfl
        · exact Or.inr (List.mem_cons_of_mem _ h1)
    rcases key l a with h1 | h1
    · rw [← h, h1]; exact List.mem_cons_self _ _
    · rw [← h]; exact List.mem_cons_of_mem _ h1

theorem sp_pq_top_none {Node : Type} [DecidableEq Node] [LT Node]
    [DecidableRel (fun a b : Node => a < b)] (pq : List (Int × Node))
    (h : pq_top pq = none) : pq = [] := by
  cases pq with
  | nil => rfl
  | cons a l => simp [pq_top] at h

theorem sp_weight_nonneg {Node : Type} (es : List (edge Node))
    (hnn : ∀ e ∈ es, 0 ≤ e.2.2) (p : List (edge Node)) :
    ∀ (u v : Node), IsWalk es u p v → 0 ≤ weight p := by
  induction p with
  | nil => intro u v _; simp [weight]
  | cons e p ih =>
    intro u v h
    rw [sp_weight_cons]
    have := hnn e h.1
    have := ih _ _ h.2.2
    omega

theorem sp_nonneg_no_neg_cycle {Node : Type} (es : List (edge Node))
    (hnn : ∀ e ∈ es, 0 ≤ e.2.2) (s : Node) : ¬ NegCycle es s := by
  rintro ⟨x, c, _, _, hc, hw⟩
  have := sp_weight_nonneg es hnn c x x hc
  omega

theorem sp_total_cons {Node : Type} (a : Node × Int) (d : Dist Node) :
    total (a :: d) = a.2.toNat + total d := by
  simp [total]

theorem sp_total_filter_le {Node : Type} (q : Node × Int → Bool) (d : Dist Node) :
    total (d.filter q) ≤ total d := by
  induction d with
  | nil => simp
  | cons a d ih =>
    by_cases h : q a = true
    · rw [List.filter_cons_of_pos h, sp_total_cons, sp_total_cons]
      omega
    · rw [List.filter_cons_of_neg h, sp_total_cons]
      omega

theorem sp_total_filter_find {Node : Type} [DecidableEq Node] (d : Dist Node) (v : Node)
    (dv : Int) (h : d.find v = some dv) :
    total (d.filter (fun e => decide (e.1 ≠ v))) + dv.toNat ≤ total d := by
  induction d with
  | nil => cases h
  | cons a d ih =>
    obtain ⟨k, x⟩ := a
    rw [sp_find_cons] at h
    by_cases hk : k = v
    · rw [if_pos hk] at h
      cases h
      rw [List.filter_cons_of_neg (by simpa using hk), sp_total_cons]
      have := sp_total_filter_le (fun e => decide (e.1 ≠ v)) d
      simp only
      omega
    · rw [if_neg hk] at h
      rw [List.filter_cons_of_pos (by simpa using hk), sp_total_cons, sp_total_cons]
      have := ih h
      omega

theorem sp_total_assign_lt {Node : Type} [DecidableEq Node] (d : Dist Node) (v : Node)
    (dv x : Int) (h : d.find v = some dv) (hx : 0 ≤ x) (hlt : x < dv) :
    total (d.assign v x) < total d := by
  have := sp_total_filter_find d v dv h
  rw [Dist.assign, sp_total_cons]
  simp only
  omega

theorem sp_missing_le {Node : Type} [DecidableEq Node] (ns : List Node) (d1 d0 : Dist Node)
    (h : ∀ y, d1.find y = none → d0.find y = none) : missing ns d1 ≤ missing ns d0 := by
  induction ns with
  | nil => simp [missing]
  | cons a ns ih =>
    simp only [missing] at ih ⊢
    by_cases h1 : d1.find a = none
    · rw [List.filter_cons_of_pos (by simp [h1]), List.filter_cons_of_pos (by simp [h a h1])]
      simp only [List.length_cons]
      omega
    · rw [List.filter_cons_of_neg (by simpa using h1)]
      by_cases h0 : d0.find a = none
      · rw [List.filter_cons_of_pos (by simp [h0])]
        simp only [List.length_cons]
        omega
      · rw [List.filter_cons_of_neg (by simpa using h0)]
        exact ih

theorem sp_missing_lt {Node : Type} [DecidableEq Node] (ns : List Node) (d1 d0 : Dist Node)
    (h : ∀ y, d1.find y = none → d0.find y = none) (v : Node) (hv : v ∈ ns)
    (h0 : d0.find v = none) (h1 : d1.find v ≠ none) : missing ns d1 < missing ns d0 := by
  induction ns with
  | nil => cases hv
  | cons a ns ih =>
    have hle := sp_missing_le ns d1 d0 h
    simp only [missing] at ih hle ⊢
    by_cases hav : a = v
    · subst hav
      rw [List.filter_cons_of_neg (by simpa using h1), List.filter_cons_of_pos (by simp [h0])]
      simp only [List.length_cons]
      omega
    · have hv1 : v ∈ ns := by
        rcases List.mem_cons.1 hv with e | e
        · exact absurd e.symm hav
        · exact e
      have := ih hv1
      by_cases ha1 : d1.find a = none
      · rw [List.filter_cons_of_pos (by simp [ha1]),
          List.filter_cons_of_pos (by simp [h a ha1])]
        simp only [List.length_cons]
        omega
      · rw [List.filter_cons_of_neg (by simpa using ha1)]
        by_cases ha0 : d0.find a = none
        · rw [List.filter_cons_of_pos (by simp [ha0])]
          simp only [List.length_cons]
          omega
        · rw [List.filter_cons_of_neg (by simpa using ha0)]
          exact this

theorem sp_assign_none {Node : Type} [DecidableEq Node] (d : Dist Node) (v : Node) (x : Int)
    (y : Node) (h : (d.assign v x).find y = none) : d.find y = none := by
  rw [sp_find_assign] at h
  split at h
  · cases h
  · exact h

theorem sp_progress_trans {Node : Type} [DecidableEq Node] (ns : List Node)
    (d2 d1 d0 : Dist Node) (h1 : Progress ns d2 d1) (h0 : Progress ns d1 d0) :
    Progress ns d2 d0 := by
  unfold Progress at *
  omega

theorem sp_progress_assign {Node : Type} [DecidableEq Node] (ns : List Node) (d : Dist Node)
    (v : Node) (x : Int) (hv : v ∈ ns) (hx : 0 ≤ x)
    (h : d.find v = none ∨ ∃ dv, d.find v = some dv ∧ x < dv) :
    Progress ns (d.assign v x) d := by
  rcases h with h | ⟨dv, h, hlt⟩
  · left
    apply sp_missing_lt ns _ d (sp_assign_none d v x) v hv h
    rw [sp_find_assign, if_pos rfl]
    simp
  · right
    exact ⟨sp_missing_le ns _ d (sp_assign_none d v x), sp_total_assign_lt d v dv x h hx hlt⟩

theorem sp_target_mem_nodes {Node : Type} [DecidableEq Node] (es : List (edge Node))
    (start : Node) (e : edge Node) (he : e ∈ es) : e.2.1 ∈ nodes start es := by
  simp only [nodes, List.mem_dedup, List.mem_cons, List.mem_flatMap]
  exact Or.inr ⟨e, he, by simp⟩

theorem sp_scan_update {Node : Type} [DecidableEq Node] (es : List (edge Node))
    (hnn : ∀ e ∈ es, 0 ≤ e.2.2) (start u : Node) (d : Int) (dist : Dist Node)
    (pq : List (Int × Node)) (h : ScanInv es start u d dist pq) (e : edge Node)
    (he : e ∈ es) (heu : e.1 = u)
    (hcase : dist.find e.2.1 = none ∨ ∃ dv, dist.find e.2.1 = some dv ∧ d + e.2.2 < dv) :
    ScanInv es start u d (dist.assign e.2.1 (d + e.2.2)) ((d + e.2.2, e.2.1) :: pq)
      ∧ Below (dist.assign e.2.1 (d + e.2.2)) dist := by
  have hw := hnn e he
  have hvu : e.2.1 ≠ u := by
    intro hv
    rw [hv, h.source] at hcase
    rcases hcase with h1 | ⟨dv, h1, h2⟩
    · cases h1
    · cases h1
      omega
  have hbelow : Below (dist.assign e.2.1 (d + e.2.2)) dist := by
    intro y dy hy
    rw [sp_find_assign]
    by_cases hk : e.2.1 = y
    · rw [if_pos hk]
      rw [← hk] at hy
      rcases hcase with h1 | ⟨dv, h1, h2⟩
      · rw [h1] at hy; cases hy
      · rw [h1] at hy
        cases hy
        exact ⟨_, rfl, le_of_lt h2⟩
    · rw [if_neg hk]
      exact ⟨dy, hy, le_refl _⟩
  refine ⟨⟨?_, ?_, ?_, ?_, ?_⟩, hbelow⟩
  · intro v x hv
    rw [sp_find_assign] at hv
    split at hv
    · rename_i hk
      subst hk
      obtain ⟨p, hp, hwp⟩ := h.walk_valued u d h.source
      rw [← heu] at hp
      have := sp_walk_snoc es p start e hp he
      refine ⟨p ++ [e], this.1, ?_⟩
      rw [this.2, hwp]
      exact Option.some.inj hv
    · exact h.walk_valued v x hv
  · obtain ⟨x0, hx0, hle⟩ := h.start_mem
    obtain ⟨y, hy, hyl⟩ := hbelow start x0 hx0
    exact ⟨y, hy, le_trans hyl hle⟩
  · intro c x hcx
    rcases List.mem_cons.1 hcx with hcx | hcx
    · cases hcx
      exact ⟨_, by rw [sp_find_assign, if_pos rfl], le_refl _⟩
    · obtain ⟨dx, hdx, hle⟩ := h.queue_bound c x hcx
      obtain ⟨y, hy, hyl⟩ := hbelow x dx hdx
      exact ⟨y, hy, le_trans hyl hle⟩
  · intro x dx hx
    rw [sp_find_assign] at hx
    by_cases hk : e.2.1 = x
    · rw [if_pos hk] at hx
      cases hx
      rw [← hk]
      exact Or.inr (Or.inl (List.mem_cons_self _ _))
    · rw [if_neg hk] at hx
      rcases h.open_or_closed x dx hx with h1 | h1 | h1
      · exact Or.inl h1
      · exact Or.inr (Or.inl (List.mem_cons_of_mem _ h1))
      · refine Or.inr (Or.inr ?_)
        intro e1 he1 hex
        obtain ⟨dv, hdv, hle⟩ := h1 e1 he1 hex
        obtain ⟨y, hy, hyl⟩ := hbelow _ dv hdv
        exact ⟨y, hy, le_trans hyl hle⟩
  · rw [sp_find_assign, if_neg hvu]
    exact h.source

theorem sp_scan_spec {Node : Type} [DecidableEq Node] (es : List (edge Node))
    (hnn : ∀ e ∈ es, 0 ≤ e.2.2) (start u : Node) (d : Int) (nbrs : List (Node × Int)) :
    ∀ (dist : Dist Node) (pq : List (Int × Node)),
      (∀ vw ∈ nbrs, (u, vw.1, vw.2) ∈ es) → ScanInv es start u d dist pq →
      ScanInv es start u d (scan d nbrs dist pq).1 (scan d nbrs dist pq).2
        ∧ Below (scan d nbrs dist pq).1 dist
        ∧ (∀ vw ∈ nbrs, ∃ dv, (scan d nbrs dist pq).1.find vw.1 = some dv ∧ dv ≤ d + vw.2)
        ∧ (scan d nbrs dist pq = (dist, pq)
          ∨ Progress (nodes start es) (scan d nbrs dist pq).1 dist) := by
  induction nbrs with
  | nil =>
    intro dist pq _ h
    exact ⟨h, sp_below_refl dist, fun vw hvw => absurd hvw (List.not_mem_nil vw), Or.inl rfl⟩
  | cons a rest ih =>
    intro dist pq hsub h
    obtain ⟨v, w⟩ := a
    have he : (u, v, w) ∈ es := hsub (v, w) (List.mem_cons_self _ _)
    have hsub1 : ∀ vw ∈ rest, (u, vw.1, vw.2) ∈ es :=
      fun vw hvw => hsub vw (List.mem_cons_of_mem _ hvw)
    have hd0 : 0 ≤ d := by
      obtain ⟨p, hp, hwp⟩ := h.walk_valued u d h.source
      have := sp_weight_nonneg es hnn p start u hp
      omega
    have hw0 : 0 ≤ w := hnn (u, v, w) he
    have hupd : (dist.find v = none ∨ ∃ dv, dist.find v = some dv ∧ d + w < dv) →
        ScanInv es start u d (scan d rest (dist.assign v (d + w)) ((d + w, v) :: pq)).1
            (scan d rest (dist.assign v (d + w)) ((d + w, v) :: pq)).2
          ∧ Below (scan d rest (dist.assign v (d + w)) ((d + w, v) :: pq)).1 dist
          ∧ (∀ vw ∈ (v, w) :: rest,
              ∃ dv, (scan d rest (dist.assign v (d + w)) ((d + w, v) :: pq)).1.find vw.1
                = some dv ∧ dv ≤ d + vw.2)
          ∧ (scan d rest (dist.assign v (d + w)) ((d + w, v) :: pq) = (dist, pq)
            ∨ Progress (nodes start es)
                (scan d rest (dist.assign v (d + w)) ((d + w, v) :: pq)).1 dist) := by
      intro hcase
      obtain ⟨h1, hb1⟩ := sp_scan_update es hnn start u d dist pq h (u, v, w) he rfl hcase
      obtain ⟨h2, hb2, hp2, hm2⟩ := ih _ _ hsub1 h1
      have hprog : Progress (nodes start es) (dist.assign v (d + w)) dist :=
        sp_progress_assign _ dist v (d + w) (sp_target_mem_nodes es start (u, v, w) he)
          (by omega) hcase
      refine ⟨h2, sp_below_trans hb2 hb1, ?_, Or.inr ?_⟩
      · intro vw hvw
        rcases List.mem_cons.1 hvw with rfl | hvw
        · obtain ⟨y, hy, hyl⟩ := hb2 v (d + w) (by rw [sp_find_assign, if_pos rfl])
          exact ⟨y, hy, hyl⟩
        · exact hp2 vw hvw
      · rcases hm2 with hm2 | hm2
        · rw [hm2]
          exact hprog
        · exact sp_progress_trans _ _ _ _ hm2 hprog
    cases hv : dist.find v with
    | none =>
      have := hupd (Or.inl hv)
      simp only [scan, hv]
      exact this
    | some dv =>
      by_cases hlt : d + w < dv
      · have := hupd (Or.inr ⟨dv, hv, hlt⟩)
        simp only [scan, hv, if_pos hlt]
        exact this
      · simp only [scan, hv, if_neg hlt]
        obtain ⟨h2, hb2, hp2, hm2⟩ := ih dist pq hsub1 h
        refine ⟨h2, hb2, ?_, hm2⟩
        intro vw hvw
        rcases List.mem_cons.1 hvw with rfl | hvw
        · obtain ⟨y, hy, hyl⟩ := hb2 v dv hv
          exact ⟨y, hy, by simp only; omega⟩
        · exact hp2 vw hvw

theorem sp_dijkstra_iter {Node : Type} [DecidableEq Node] [LT Node]
    [DecidableRel (fun a b : Node => a < b)] (es : List (edge Node))
    (hnn : ∀ e ∈ es, 0 ≤ e.2.2) (start : Node) (dist : Dist Node) (pq : List (Int × Node))
    (hinv : DijkstraInv es start dist pq) (d : Int) (u : Node)
    (htop : pq_top pq = some (d, u)) :
    ∃ dist1 pq1,
      (∀ f, dijkstra_loop (adjacency_list.build es) (f + 1) dist pq
        = dijkstra_loop (adjacency_list.build es) f dist1 pq1)
      ∧ DijkstraInv es start dist1 pq1
      ∧ ((dist1 = dist ∧ pq1.length < pq.length)
        ∨ Progress (nodes start es) dist1 dist) := by
  have hmem := sp_pq_top_mem pq (d, u) htop
  obtain ⟨du, hdu, hle⟩ := hinv.queue_bound d u hmem
  have hidx : dist.index u = (du, dist) := by simp only [Dist.index, hdu]
  have hlen : (pq.erase (d, u)).length < pq.length := by
    rw [List.length_erase_of_mem hmem]
    have := List.length_pos_of_mem hmem
    omega
  by_cases hgt : d > du
  · refine ⟨dist, pq.erase (d, u), ?_, ⟨hinv.walk_valued, hinv.start_mem, ?_, ?_⟩,
      Or.inl ⟨rfl, hlen⟩⟩
    · intro f
      simp only [dijkstra_loop, htop, hidx, if_pos hgt]
    · intro c x hcx
      exact hinv.queue_bound c x (List.mem_of_mem_erase hcx)
    · intro x dx hx
      rcases hinv.open_or_closed x dx hx with h1 | h1
      · left
        have hne : (dx, x) ≠ (d, u) := by
          intro e
          cases e
          rw [hdu] at hx
          cases hx
          omega
        exact (List.mem_erase_of_ne hne).2 h1
      · exact Or.inr h1
  · have hd : d = du := by omega
    subst hd
    have hscan0 : ScanInv es start u d dist (pq.erase (d, u)) := by
      refine ⟨hinv.walk_valued, hinv.start_mem, ?_, ?_, hdu⟩
      · intro c x hcx
        exact hinv.queue_bound c x (List.mem_of_mem_erase hcx)
      · intro x dx hx
        by_cases hxu : x = u
        · exact Or.inl hxu
        · rcases hinv.open_or_closed x dx hx with h1 | h1
          · refine Or.inr (Or.inl ?_)
            have hne : (dx, x) ≠ (d, u) := by
              intro e
              cases e
              exact hxu rfl
            exact (List.mem_erase_of_ne hne).2 h1
          · exact Or.inr (Or.inr h1)
    have hsub : ∀ vw ∈ (adjacency_list.build es).get_neighbors u, (u, vw.1, vw.2) ∈ es := by
      intro vw hvw
      exact (sp_neighbors_build es u vw.1 vw.2).1 hvw
    obtain ⟨h1, _, h3, h4⟩ :=
      sp_scan_spec es hnn start u d ((adjacency_list.build es).get_neighbors u) dist
        (pq.erase (d, u)) hsub hscan0
    refine ⟨_, _, ?_, ⟨h1.walk_valued, h1.start_mem, h1.queue_bound, ?_⟩, ?_⟩
    · intro f
      simp only [dijkstra_loop, htop, hidx, if_neg hgt]
    · intro x dx hx
      rcases h1.open_or_closed x dx hx with hxu | hop | hcl
      · right
        subst hxu
        rw [h1.source] at hx
        cases hx
        intro e he hex
        obtain ⟨a, b, c⟩ := e
        simp only at hex
        subst hex
        exact h3 (b, c) ((sp_neighbors_build es a b c).2 he)
      · exact Or.inl hop
      · exact Or.inr hcl
    · rcases h4 with h4 | h4
      · left
        rw [h4]
        exact ⟨rfl, hlen⟩
      · exact Or.inr h4

theorem sp_dijkstra_terminates {Node : Type} [DecidableEq Node] [LT Node]
    [DecidableRel (fun a b : Node => a < b)] (es : List (edge Node))
    (hnn : ∀ e ∈ es, 0 ≤ e.2.2) (start : Node) :
    ∀ (m : Nat × Nat × Nat) (dist : Dist Node) (pq : List (Int × Node)),
      (missing (nodes start es) dist, total dist, pq.length) = m →
      DijkstraInv es start dist pq →
      ∃ fuel d, (∀ f, fuel ≤ f → dijkstra_loop (adjacency_list.build es) f dist pq = some d)
        ∧ Relaxed es d ∧ WalkValued es start d ∧ ∃ x0, d.find start = some x0 ∧ x0 ≤ 0 := by
  intro m
  refine WellFounded.induction
    (C := fun m => ∀ (dist : Dist Node) (pq : List (Int × Node)),
      (missing (nodes start es) dist, total dist, pq.length) = m →
      DijkstraInv es start dist pq →
      ∃ fuel d, (∀ f, fuel ≤ f → dijkstra_loop (adjacency_list.build es) f dist pq = some d)
        ∧ Relaxed es d ∧ WalkValued es start d ∧ ∃ x0, d.find start = some x0 ∧ x0 ≤ 0)
    (Prod.lex Nat.lt_wfRel (Prod.lex Nat.lt_wfRel Nat.lt_wfRel)).wf m ?_
  intro m ih dist pq hm hinv
  cases htop : pq_top pq with
  | none =>
    have hpq := sp_pq_top_none pq htop
    refine ⟨1, dist, ?_, ?_, hinv.walk_valued, hinv.start_mem⟩
    · intro f hf
      obtain ⟨f1, rfl⟩ : ∃ f1, f = f1 + 1 := ⟨f - 1, by omega⟩
      simp only [dijkstra_loop, htop]
    · intro e he du hdu
      rcases hinv.open_or_closed e.1 du hdu with h1 | h1
      · rw [hpq] at h1
        cases h1
      · exact h1 e he rfl
  | some t =>
    obtain ⟨d, u⟩ := t
    obtain ⟨dist1, pq1, hstep, hinv1, hprog⟩ :=
      sp_dijkstra_iter es hnn start dist pq hinv d u htop
    have hlt : (Prod.lex Nat.lt_wfRel (Prod.lex Nat.lt_wfRel Nat.lt_wfRel)).rel
        (missing (nodes start es) dist1, total dist1, pq1.length) m := by
      rw [← hm]
      rcases hprog with ⟨h1, h2⟩ | h1 | ⟨h1, h2⟩
      · rw [h1]
        exact Prod.Lex.right _ (Prod.Lex.right _ h2)
      · exact Prod.Lex.left _ _ h1
      · rcases Nat.lt_or_eq_of_le h1 with h3 | h3
        · exact Prod.Lex.left _ _ h3
        · rw [h3]
          exact Prod.Lex.right _ (Prod.Lex.left _ _ h2)
    obtain ⟨fuel, r, hres, hrest⟩ := ih _ hlt dist1 pq1 rfl hinv1
    refine ⟨fuel + 1, r, ?_, hrest⟩
    intro f hf
    obtain ⟨f1, rfl⟩ : ∃ f1, f = f1 + 1 := ⟨f - 1, by omega⟩
    rw [hstep]
    exact hres f1 (by omega)

theorem sp_dijkstra_start_inv {Node : Type} [DecidableEq Node] (es : List (edge Node))
    (start : Node) : DijkstraInv es start (Dist.assign [] start 0) [(0, start)] := by
  refine ⟨sp_start_walk_valued es start, ⟨0, sp_start_find start, le_refl _⟩, ?_, ?_⟩
  · intro d u h
    simp only [List.mem_singleton, Prod.mk.injEq] at h
    obtain ⟨rfl, rfl⟩ := h
    exact ⟨0, sp_start_find u, le_refl _⟩
  · intro u du h
    rw [sp_find_assign] at h
    split at h
    · rename_i hk
      cases h
      left
      rw [hk]
      exact List.mem_singleton.2 rfl
    · cases h

theorem sp_dijkstra_loop_mono {Node : Type} [DecidableEq Node] [LT Node]
    [DecidableRel (fun a b : Node => a < b)] (graph : adjacency_list Node) (f : Nat) :
    ∀ (dist : Dist Node) (pq : List (Int × Node)) (r : Dist Node),
      dijkstra_loop graph f dist pq = some r →
      ∀ k, dijkstra_loop graph (f + k) dist pq = some r := by
  induction f with
  | zero => intro dist pq r h; cases h
  | succ f ih =>
    intro dist pq r h k
    have hk : f + 1 + k = (f + k) + 1 := by omega
    rw [hk]
    simp only [dijkstra_loop] at h ⊢
    cases htop : pq_top pq with
    | none =>
      rw [htop] at h
      exact h
    | some t =>
      rw [htop] at h
      simp only at h ⊢
      split at h
      · rename_i hgt
        rw [if_pos hgt]
        exact ih _ _ _ h k
      · rename_i hgt
        rw [if_neg hgt]
        exact ih _ _ _ h k

/-- C12: for every graph built by `add_edge` from a list of edges with non-negative
weights and every start node, `dijkstra` returns (some amount of fuel suffices, and any
larger amount gives the same map); the keys of the map are exactly the nodes reachable
from `start`, `start` is mapped to 0, and every key is mapped to the minimum total weight
over all walks from `start` to it, attained by a path without repeated node. -/
theorem C12_dijkstra_returns_shortest_distances {Node : Type} [DecidableEq Node] [LT Node]
    [DecidableRel (fun a b : Node => a < b)] (es : List (edge Node))
    (hnn : ∀ e ∈ es, 0 ≤ e.2.2) (start : Node) :
    ∃ fuel d, (∀ f, fuel ≤ f → dijkstra f start (adjacency_list.build es) = some d)
      ∧ (∀ v, v ∈ d.map Prod.fst ↔ Reachable es start v)
      ∧ d.find start = some 0
      ∧ ∀ v x, d.find v = some x → IsShortest es start v x := by
  obtain ⟨fuel, d, hres, hrel, hwv, x0, hx0, hle⟩ :=
    sp_dijkstra_terminates es hnn start _ _ _ rfl (sp_dijkstra_start_inv es start)
  exact ⟨fuel, d, hres,
    sp_shortest_of_relaxed es start (sp_nonneg_no_neg_cycle es hnn start) d hrel hwv x0 hx0 hle⟩

/-- C12 on the first graph of `main`: edges 1→2 (1), 1→3 (4), 2→3 (2), start 1; the
result maps 1, 2, 3 to 0, 1, 3. -/
theorem C12_witness :
    (∀ e ∈ main_graph_1, 0 ≤ e.2.2)
      ∧ ∃ fuel, ∀ f, fuel ≤ f →
          dijkstra f 1 (adjacency_list.build main_graph_1) = some [(3, 3), (2, 1), (1, 0)]
      ∧ IsShortest main_graph_1 1 3 3 := by
  have hnn : ∀ e ∈ main_graph_1, 0 ≤ e.2.2 := by decide
  refine ⟨hnn, ?_⟩
  obtain ⟨fuel, d, hres, _, _, hs⟩ :=
    C12_dijkstra_returns_shortest_distances main_graph_1 hnn 1
  have h10 : dijkstra 10 1 (adjacency_list.build main_graph_1)
      = some [(3, 3), (2, 1), (1, 0)] := by decide
  have hd : d = [(3, 3), (2, 1), (1, 0)] := by
    have h1 := hres (10 + fuel) (by omega)
    have h2 := sp_dijkstra_loop_mono _ 10 _ _ _ h10 fuel
    rw [dijkstra, h2] at h1
    exact (Option.some.inj h1).symm
  subst hd
  exact ⟨fuel, fun f hf => ⟨hres f hf, hs 3 3 (by decide)⟩⟩

end ShortestPath

namespace Manachar

/-- On the string `"$"` the transformed string is `"^#$#$"` of size 5: the call returns,
and at `i = 3` the expansion loop reads `t[5]`, the null character that follows the last
character of `t`. -/
theorem mn_dollar_reads_the_terminator :
    (transform ['$']).length = 5
      ∧ (manachar_log 20 ['$']).2 = Except.ok [0, 0, 1, 1, 0]
      ∧ Access.str 5 ∈ (manachar_log 20 ['$']).1 := by
  refine ⟨rfl, rfl, ?_⟩
  decide

end Manachar
